import Mathlib

/-!
# Code-intelligence symbol resolver: a shallow embedding

Embedding of `internal/codeintel/symbols/transport/graphql/resolver.go`.

* Go `int` values are unbounded integers (`Int`); slice lengths are cast to `Int`.
* A Go slice whose nil-ness is tested by the code is an `Option (List _)` (`none` is the nil
  slice); every other slice is a `List`.
* A Go function returning `(T, error)` is a computation producing `Except Err T`.
* The collaborators (symbols service, git tree translator, commit cache, sub-repo permission
  checker, cursor codec) are fields of `Resolver`; their answers are functions of the arguments.
* The mutable part of the resolver (the uploads data loader) and the sequence of collaborator
  calls made so far form `RState`, which every operation threads through.
* Loops whose number of iterations is not bounded by an input list take a budget (`fuel`);
  exhausting it is the outcome `Run.diverge`, distinct from every Go return value.
-/

namespace Graphql

/-! ## Data model -/

/-- Go `error` values: a base error with its message, or an error wrapped with a message. -/
inductive Err where
  | msg (text : String)
  | wrap (inner : Err) (text : String)
deriving DecidableEq, Repr

deriving instance DecidableEq for Except

/-- `ErrConcurrentModification`: the visible uploads changed since the previous page. -/
def ErrConcurrentModification : Err := .msg "result set changed while paginating"

/-- `shared.Position`. -/
structure Position where
  Line : Int
  Character : Int
deriving DecidableEq, Repr

/-- `shared.Range`. -/
structure Range where
  Start : Position
  End : Position
deriving DecidableEq, Repr

/-- Modelled from the spec: `shared.Dump` (declared in another package),
with the attributes the resolver uses: id, repository id and name, commit, root. -/
structure Dump where
  ID : Int
  RepositoryID : Int
  RepositoryName : String
  Commit : String
  Root : String
deriving DecidableEq, Repr

/-- `shared.Location`: the path is relative to the root of the dump. -/
structure Location where
  DumpID : Int
  Path : String
  Range : Range
deriving DecidableEq, Repr

/-- `shared.UploadLocation`. -/
structure UploadLocation where
  Dump : Dump
  Path : String
  TargetCommit : String
  TargetRange : Range
deriving DecidableEq, Repr

/-- `precise.MonikerData`. -/
structure MonikerData where
  Kind : String
  Scheme : String
  Identifier : String
  PackageInformationID : String
deriving DecidableEq, Repr

/-- `precise.PackageInformationData`. -/
structure PackageInformationData where
  Manager : String
  Name : String
  Version : String
deriving DecidableEq, Repr

/-- `precise.QualifiedMonikerData`: a moniker together with its package information. -/
structure QualifiedMonikerData where
  MonikerData : MonikerData
  PackageInformationData : PackageInformationData
deriving DecidableEq, Repr

/-- `codeintelgitserver.RepositoryCommit`. -/
structure RepositoryCommit where
  RepositoryID : Int
  Commit : String
deriving DecidableEq, Repr

/-- `visibleUpload`: an upload with the target path and position translated to its commit. -/
structure VisibleUpload where
  Upload : Dump
  TargetPath : String
  TargetPosition : Position
  TargetPathWithoutRoot : String
deriving DecidableEq, Repr

/-- `cursorToVisibleUpload`: the cursor entry that freezes one visible upload. -/
structure CursorToVisibleUpload where
  DumpID : Int
  TargetPath : String
  TargetPosition : Position
  TargetPathWithoutRoot : String
deriving DecidableEq, Repr

/-- `localCursor`. -/
structure LocalCursor where
  UploadOffset : Int
  LocationOffset : Int
deriving DecidableEq, Repr

/-- `remoteCursor`. -/
structure RemoteCursor where
  UploadBatchIDs : List Int
  UploadOffset : Int
  LocationOffset : Int
deriving DecidableEq, Repr

/-- Modelled from the spec: `implementationsCursor` (declared in another file of the
package): the phase, the frozen visible uploads, the two nullable moniker arrays and
the local and remote offsets. -/
structure ImplementationsCursor where
  CursorsToVisibleUploads : Option (List CursorToVisibleUpload)
  OrderedImplementationMonikers : Option (List QualifiedMonikerData)
  OrderedExportMonikers : Option (List QualifiedMonikerData)
  Phase : String
  LocalCursor : LocalCursor
  RemoteCursor : RemoteCursor
deriving DecidableEq, Repr

/-- `shared.RequestArgs`. -/
structure RequestArgs where
  RepositoryID : Int
  Commit : String
  Path : String
  Line : Int
  Character : Int
  Limit : Int
  RawCursor : String
deriving DecidableEq, Repr

/-- `requestArgs` of the resolver: the repository id, commit and path of the request. -/
structure ResolverRequestArgs where
  repoID : Int
  commit : String
  path : String
deriving DecidableEq, Repr

/-! ## Collaborators, mutable state and the execution monad -/

/-- One call made to a collaborator, with its arguments. -/
inductive Call where
  | GetImplementations (bundleID : Int) (path : String) (line character limit offset : Int)
  | GetMonikersByPosition (bundleID : Int) (path : String) (line character : Int)
  | GetPackageInformation (bundleID : Int) (path : String) (packageInformationID : String)
  | GetUploadsWithDefinitionsForMonikers (monikers : List QualifiedMonikerData)
  | GetBulkMonikerLocations (tableName : String) (ids : List Int) (monikers : List MonikerData)
      (limit offset : Int)
  | GetUploadIDsWithReferences (monikers : List QualifiedMonikerData) (ignoreIDs : List Int)
      (repositoryID : Int) (commit : String) (limit offset : Int)
  | GetDumpsByIDs (ids : List Int)
  | GetTargetCommitPositionFromSourcePosition (commit : String) (pos : Position) (reverse : Bool)
  | GetTargetCommitRangeFromSourceRange (commit path : String) (rng : Range) (reverse : Bool)
  | AreCommitsResolvable (commits : List RepositoryCommit)
  | FilterActorPath (repo path : String)
deriving DecidableEq, Repr

/-- The index store calls that ask for monikers or locations. -/
def Call.isMonikerOrLocationQuery : Call → Bool
  | .GetImplementations .. => true
  | .GetMonikersByPosition .. => true
  | .GetPackageInformation .. => true
  | .GetBulkMonikerLocations .. => true
  | _ => false

/-- The immutable part of `resolver`: the collaborators it calls (each answering as a function
of the arguments), the request arguments, the batch size of the dependents phase and the cursor
codec (`decodeImplementationsCursor`, `encodeImplementationsCursor`, declared in another file of the package
and taken as parameters). -/
structure Resolver where
  GetImplementations : Int → String → Int → Int → Int → Int → Except Err (List Location × Int)
  GetMonikersByPosition : Int → String → Int → Int → Except Err (List (List MonikerData))
  GetPackageInformation : Int → String → String → Except Err (PackageInformationData × Bool)
  GetUploadsWithDefinitionsForMonikers : List QualifiedMonikerData → Except Err (List Dump)
  GetBulkMonikerLocations :
    String → List Int → List MonikerData → Int → Int → Except Err (List Location × Int)
  GetUploadIDsWithReferences :
    List QualifiedMonikerData → List Int → Int → String → Int → Int →
      Except Err (List Int × Int × Int)
  GetDumpsByIDs : List Int → Except Err (List Dump)
  GetTargetCommitPositionFromSourcePosition :
    String → Position → Bool → Except Err (String × Position × Bool)
  GetTargetCommitRangeFromSourceRange :
    String → String → Range → Bool → Except Err (String × Range × Bool)
  AreCommitsResolvable : List RepositoryCommit → Except Err (List Bool)
  SubRepoEnabled : Bool
  FilterActorPath : String → String → Except Err Bool
  requestArgs : ResolverRequestArgs
  maximumIndexesPerMonikerSearch : Int
  decodeImplementationsCursor : String → Except Err ImplementationsCursor
  encodeImplementationsCursor : ImplementationsCursor → String

/-- Modelled from the spec: `UploadsDataLoader` (declared in another file of the package): the
uploads added with `AddUpload`, in order, and a map from dump id to dump, kept as an association
list in which the binding nearest to the head is the current one. -/
structure UploadsDataLoader where
  uploads : List Dump
  uploadsByID : List (Int × Dump)
deriving DecidableEq, Repr

/-- Modelled from the spec: `NewUploadsDataLoader`, the empty loader. -/
def NewUploadsDataLoader : UploadsDataLoader := { uploads := [], uploadsByID := [] }

/-- Modelled from the spec: `getUploadFromCacheMap`, the `get` of the data loader. -/
def UploadsDataLoader.getUploadFromCacheMap (l : UploadsDataLoader) (id : Int) : Option Dump :=
  l.uploadsByID.lookup id

/-- Modelled from the spec: `setUploadInCacheMap`, the `setMany` of the data loader: every given
dump is stored under its id, a later dump replacing an earlier one with the same id. -/
def UploadsDataLoader.setUploadInCacheMap (l : UploadsDataLoader) (uploads : List Dump) :
    UploadsDataLoader :=
  uploads.foldl (fun acc u => { acc with uploadsByID := (u.ID, u) :: acc.uploadsByID }) l

/-- Modelled from the spec: `AddUpload`, which records a known dump in the list and the map. -/
def UploadsDataLoader.AddUpload (l : UploadsDataLoader) (dump : Dump) : UploadsDataLoader :=
  { uploads := l.uploads ++ [dump], uploadsByID := (dump.ID, dump) :: l.uploadsByID }

/-- The mutable state of one request: the data loader and the collaborator calls made so far. -/
structure RState where
  dataLoader : UploadsDataLoader
  log : List Call
deriving DecidableEq, Repr

/-- `SetUploadsDataLoader`: adds every given upload to the data loader. -/
def SetUploadsDataLoader (s : RState) (uploads : List Dump) : RState :=
  { s with dataLoader := uploads.foldl (fun dl u => dl.AddUpload u) s.dataLoader }

/-- The state of a resolver made by `New` on which `SetUploadsDataLoader` has been called. -/
def newRequestState (uploads : List Dump) : RState :=
  SetUploadsDataLoader { dataLoader := NewUploadsDataLoader, log := [] } uploads

/-- How running a piece of Go code ends: it returns, it panics, or it is still running when the
loop budget is exhausted. -/
inductive Run (β : Type) where
  | done (b : β)
  | panic
  | diverge
deriving DecidableEq, Repr

/-- A computation of the resolver: from a state to an outcome and the state it leaves behind. A
Go `(T, error)` result is `Except Err T`. -/
def RM (α : Type) : Type := RState → Run (Except Err α) × RState

/-- Return a value. -/
def RM.ret {α : Type} (a : α) : RM α := fun s => (.done (.ok a), s)

/-- Return a Go error. -/
def RM.fail {α : Type} (e : Err) : RM α := fun s => (.done (.error e), s)

/-- Sequencing: an error, a panic or an exhausted budget of the first part ends the whole. -/
def RM.bind {α β : Type} (x : RM α) (f : α → RM β) : RM β := fun s =>
  match x s with
  | (.done (.ok a), s1) => f a s1
  | (.done (.error e), s1) => (.done (.error e), s1)
  | (.panic, s1) => (.panic, s1)
  | (.diverge, s1) => (.diverge, s1)

instance : Monad RM where
  pure := RM.ret
  bind := RM.bind

/-- Read the data loader. -/
def RM.getLoader : RM UploadsDataLoader := fun s => (.done (.ok s.dataLoader), s)

/-- Replace the data loader. -/
def RM.setLoader (l : UploadsDataLoader) : RM Unit :=
  fun s => (.done (.ok ()), { s with dataLoader := l })

/-- Call a collaborator: the call is recorded and its answer returned. -/
def RM.call {α : Type} (c : Call) (answer : Except Err α) : RM α :=
  fun s => (.done answer, { s with log := s.log ++ [c] })

/-- Rewrap the error of a computation (`errors.Wrap(err, text)` on a non-nil `err`). -/
def RM.wrapErr {α : Type} (x : RM α) (text : String) : RM α := fun s =>
  match x s with
  | (.done (.error e), s1) => (.done (.error (.wrap e text)), s1)
  | r => r

/-! ## The resolver -/

/-- `DefinitionsLimit` is the maximum number of locations returned from Definitions. -/
def DefinitionsLimit : Int := 100

/-- `monikerLimit` is the maximum number of monikers returned from `getOrderedMonikers`. -/
def monikerLimit : Int := 10

/-- `strings.TrimPrefix`: `s` without the leading `p`, or `s` itself if it does not start
with `p`. -/
def stringsTrimPrefix (s p : String) : String :=
  if p.data.isPrefixOf s.data then ⟨s.data.drop p.data.length⟩ else s

/-- `sliceContains`. -/
def sliceContains : List String → String → Bool
  | [], _ => false
  | el :: rest, str => if el = str then true else sliceContains rest str

/-- `rangeContainsPosition` returns true if the given range encloses the given position. -/
def rangeContainsPosition (r : Range) (pos : Position) : Bool :=
  if pos.Line < r.Start.Line then false
  else if pos.Line > r.End.Line then false
  else if pos.Line = r.Start.Line ∧ pos.Character < r.Start.Character then false
  else if pos.Line = r.End.Line ∧ pos.Character > r.End.Character then false
  else true

/-- `isSourceLocation` returns true if the given location encloses the source position within
one of the visible uploads. -/
def isSourceLocation : List VisibleUpload → Location → Bool
  | [], _ => false
  | vu :: rest, location =>
    if location.DumpID = vu.Upload.ID ∧ location.Path = vu.TargetPath
        ∧ rangeContainsPosition location.Range vu.TargetPosition = true then true
    else isSourceLocation rest location

/-- The zero value of `visibleUpload`. -/
def VisibleUpload.zero : VisibleUpload :=
  { Upload := { ID := 0, RepositoryID := 0, RepositoryName := "", Commit := "", Root := "" },
    TargetPath := "", TargetPosition := { Line := 0, Character := 0 },
    TargetPathWithoutRoot := "" }

/-- The loop of `getVisibleUploadsFromCursor` over a populated cursor list: each entry is looked
up in the data loader; a missing dump ends the loop with `ErrConcurrentModification`. -/
def getVisibleUploadsFromCursor.restore (dl : UploadsDataLoader) :
    List CursorToVisibleUpload → List VisibleUpload → Except Err (List VisibleUpload)
  | [], visibleUploads => .ok visibleUploads
  | u :: rest, visibleUploads =>
    match dl.getUploadFromCacheMap u.DumpID with
    | none => .error ErrConcurrentModification
    | some upload =>
      getVisibleUploadsFromCursor.restore dl rest
        (visibleUploads ++ [{ Upload := upload, TargetPath := u.TargetPath,
                              TargetPosition := u.TargetPosition,
                              TargetPathWithoutRoot := u.TargetPathWithoutRoot }])

/-- `getVisibleUpload` returns the current target path and the given position for the given
upload. If the upload cannot be adjusted, a false-valued flag is returned. When the translator
reports `ok = false` without an error the returned error is `errors.Wrap(nil, _)`, which is
nil. -/
def getVisibleUpload (r : Resolver) (line character : Int) (upload : Dump) :
    RM (VisibleUpload × Bool) :=
  let position : Position := { Line := line, Character := character }
  RM.bind
    (RM.wrapErr
      (RM.call (.GetTargetCommitPositionFromSourcePosition upload.Commit position false)
        (r.GetTargetCommitPositionFromSourcePosition upload.Commit position false))
      "gitTreeTranslator.GetTargetCommitPositionFromSourcePosition")
    fun res =>
      if res.2.2 = false then RM.ret (VisibleUpload.zero, false)
      else RM.ret
        ({ Upload := upload, TargetPath := res.1, TargetPosition := res.2.1,
           TargetPathWithoutRoot := stringsTrimPrefix res.1 upload.Root }, true)

/-- The loop of `getVisibleUploads` over the uploads of the data loader. -/
def getVisibleUploads.loop (r : Resolver) (line character : Int) :
    List Dump → List VisibleUpload → RM (List VisibleUpload)
  | [], visibleUploads => RM.ret visibleUploads
  | upload :: rest, visibleUploads =>
    RM.bind (getVisibleUpload r line character upload) fun res =>
      if res.2 = true then getVisibleUploads.loop r line character rest (visibleUploads ++ [res.1])
      else getVisibleUploads.loop r line character rest visibleUploads

/-- `getVisibleUploads` adjusts the current target path and the given position for each upload
visible from the current target commit. If an upload cannot be adjusted, it is omitted from the
returned slice. -/
def getVisibleUploads (r : Resolver) (line character : Int) : RM (List VisibleUpload) :=
  RM.bind RM.getLoader fun dl => getVisibleUploads.loop r line character dl.uploads []

/-- The cursor entries made from freshly computed visible uploads. -/
def getVisibleUploadsFromCursor.freeze : List VisibleUpload → List CursorToVisibleUpload
  | [] => []
  | vu :: rest =>
    { DumpID := vu.Upload.ID, TargetPath := vu.TargetPath, TargetPosition := vu.TargetPosition,
      TargetPathWithoutRoot := vu.TargetPathWithoutRoot } :: getVisibleUploadsFromCursor.freeze rest

/-- `getVisibleUploadsFromCursor` returns the visible uploads and the cursor entries that freeze
them. If the cursor list is populated (non-nil) the visible uploads are rebuilt from it and the
data loader; otherwise they are computed with the translator. -/
def getVisibleUploadsFromCursor (r : Resolver) (line character : Int)
    (cursorsToVisibleUploads : Option (List CursorToVisibleUpload)) :
    RM (List VisibleUpload × Option (List CursorToVisibleUpload)) :=
  match cursorsToVisibleUploads with
  | some cs =>
    RM.bind RM.getLoader fun dl =>
      match getVisibleUploadsFromCursor.restore dl cs [] with
      | .error e => RM.fail e
      | .ok visibleUploads => RM.ret (visibleUploads, some cs)
  | none =>
    RM.bind (getVisibleUploads r line character) fun visibleUploads =>
      RM.ret (visibleUploads, some (getVisibleUploadsFromCursor.freeze visibleUploads))

/-- `len` of a Go slice that may be nil. -/
def sliceLen {α : Type} : Option (List α) → Int
  | none => 0
  | some l => l.length

/-- Modelled from the spec: `qualifiedMonikerSet` (declared in another file of the package): an
ordered array of qualified monikers, nil until the first insertion, and the identities seen. -/
structure QualifiedMonikerSet where
  monikers : Option (List QualifiedMonikerData)
  monikerHashes : List (String × String × String × String × String × String)
deriving DecidableEq, Repr

/-- Modelled from the spec: `newQualifiedMonikerSet`, the empty set. -/
def newQualifiedMonikerSet : QualifiedMonikerSet := { monikers := none, monikerHashes := [] }

/-- Modelled from the spec: the identity of a qualified moniker, made of all six fields (scheme,
identifier, kind, manager, name, version). -/
def QualifiedMonikerSet.identity (m : QualifiedMonikerData) :
    String × String × String × String × String × String :=
  (m.MonikerData.Scheme, m.MonikerData.Identifier, m.MonikerData.Kind,
   m.PackageInformationData.Manager, m.PackageInformationData.Name,
   m.PackageInformationData.Version)

/-- Modelled from the spec: `add` appends the qualified moniker iff its identity is new. -/
def QualifiedMonikerSet.add (s : QualifiedMonikerSet) (m : QualifiedMonikerData) :
    QualifiedMonikerSet :=
  if QualifiedMonikerSet.identity m ∈ s.monikerHashes then s
  else { monikers := some (s.monikers.getD [] ++ [m]),
         monikerHashes := QualifiedMonikerSet.identity m :: s.monikerHashes }

/-- The innermost loop of `getOrderedMonikers`, over the monikers of one range. The flag of the
result is true when the moniker limit was reached, which ends all three loops. -/
def getOrderedMonikers.monikersLoop (r : Resolver) (vu : VisibleUpload) (kinds : List String) :
    List MonikerData → QualifiedMonikerSet → RM (QualifiedMonikerSet × Bool)
  | [], monikerSet => RM.ret (monikerSet, false)
  | moniker :: rest, monikerSet =>
    if moniker.PackageInformationID = "" ∨ sliceContains kinds moniker.Kind = false then
      getOrderedMonikers.monikersLoop r vu kinds rest monikerSet
    else
      RM.bind
        (RM.wrapErr
          (RM.call
            (.GetPackageInformation vu.Upload.ID vu.TargetPathWithoutRoot
              moniker.PackageInformationID)
            (r.GetPackageInformation vu.Upload.ID vu.TargetPathWithoutRoot
              moniker.PackageInformationID))
          "lsifStore.PackageInformation")
        fun res =>
          let monikerSet1 := monikerSet.add
            { MonikerData := moniker, PackageInformationData := res.1 }
          if sliceLen monikerSet1.monikers ≥ monikerLimit then RM.ret (monikerSet1, true)
          else getOrderedMonikers.monikersLoop r vu kinds rest monikerSet1

/-- The middle loop of `getOrderedMonikers`, over the ranges enclosing the position. -/
def getOrderedMonikers.rangesLoop (r : Resolver) (vu : VisibleUpload) (kinds : List String) :
    List (List MonikerData) → QualifiedMonikerSet → RM (QualifiedMonikerSet × Bool)
  | [], monikerSet => RM.ret (monikerSet, false)
  | monikers :: rest, monikerSet =>
    RM.bind (getOrderedMonikers.monikersLoop r vu kinds monikers monikerSet) fun res =>
      if res.2 = true then RM.ret res
      else getOrderedMonikers.rangesLoop r vu kinds rest res.1

/-- The outer loop of `getOrderedMonikers`, over the visible uploads. -/
def getOrderedMonikers.uploadsLoop (r : Resolver) (kinds : List String) :
    List VisibleUpload → QualifiedMonikerSet → RM (QualifiedMonikerSet × Bool)
  | [], monikerSet => RM.ret (monikerSet, false)
  | vu :: rest, monikerSet =>
    RM.bind
      (RM.wrapErr
        (RM.call
          (.GetMonikersByPosition vu.Upload.ID vu.TargetPathWithoutRoot vu.TargetPosition.Line
            vu.TargetPosition.Character)
          (r.GetMonikersByPosition vu.Upload.ID vu.TargetPathWithoutRoot vu.TargetPosition.Line
            vu.TargetPosition.Character))
        "lsifStore.MonikersByPosition")
      fun rangeMonikers =>
        RM.bind (getOrderedMonikers.rangesLoop r vu kinds rangeMonikers monikerSet) fun res =>
          if res.2 = true then RM.ret res
          else getOrderedMonikers.uploadsLoop r kinds rest res.1

/-- `getOrderedMonikers` returns the set of monikers of the given kind(s) attached to the ranges
specified by the given upload list, ordered by visible upload, then by specificity, and
de-duplicated. The result is the array of the moniker set, nil if nothing was inserted. -/
def getOrderedMonikers (r : Resolver) (visibleUploads : List VisibleUpload)
    (kinds : List String) : RM (Option (List QualifiedMonikerData)) :=
  RM.bind (getOrderedMonikers.uploadsLoop r kinds visibleUploads newQualifiedMonikerSet)
    fun res => RM.ret res.1.monikers

/-- The loop of `getPageLocalLocations` over the visible uploads; `i` is the index of the head
of the remaining list. -/
def getPageLocalLocations.loop
    (getLocations : Int → String → Int → Int → Int → Int → RM (List Location × Int))
    (limit : Int) :
    List VisibleUpload → Int → LocalCursor → List Location → RM (List Location × LocalCursor)
  | [], _, cursor, allLocations => RM.ret (allLocations, cursor)
  | vu :: rest, i, cursor, allLocations =>
    if (allLocations.length : Int) ≥ limit then RM.ret (allLocations, cursor)
    else if i < cursor.UploadOffset then
      getPageLocalLocations.loop getLocations limit rest (i + 1) cursor allLocations
    else
      RM.bind
        (RM.wrapErr
          (getLocations vu.Upload.ID vu.TargetPathWithoutRoot vu.TargetPosition.Line
            vu.TargetPosition.Character (limit - allLocations.length) cursor.LocationOffset)
          "in an lsifstore locations call")
        fun res =>
          let cursor1 : LocalCursor :=
            { cursor with LocationOffset := cursor.LocationOffset + res.1.length }
          let cursor2 : LocalCursor :=
            if cursor1.LocationOffset ≥ res.2 then
              { LocationOffset := 0, UploadOffset := cursor1.UploadOffset + 1 }
            else cursor1
          getPageLocalLocations.loop getLocations limit rest (i + 1) cursor2
            (allLocations ++ res.1)

/-- `getPageLocalLocations` returns a slice of the (local) result set denoted by the given cursor
fulfilled by traversing the LSIF graph, a flag telling whether pages are left, and the adjusted
cursor. -/
def getPageLocalLocations
    (getLocations : Int → String → Int → Int → Int → Int → RM (List Location × Int))
    (visibleUploads : List VisibleUpload) (cursor : LocalCursor) (limit : Int) :
    RM (List Location × Bool × LocalCursor) :=
  RM.bind (getPageLocalLocations.loop getLocations limit visibleUploads 0 cursor []) fun res =>
    RM.ret (res.1, decide (res.2.UploadOffset < (visibleUploads.length : Int)), res.2)

/-- The loop of `removeUploadsWithUnknownCommits` that keeps `uploads[i]` when `exists[i]`;
indexing `exists` past its end is a run-time panic. -/
def removeUploadsWithUnknownCommits.filter : List Dump → List Bool → Run (List Dump)
  | [], _ => .done []
  | _ :: _, [] => .panic
  | upload :: rest, e :: es =>
    match removeUploadsWithUnknownCommits.filter rest es with
    | .done filtered => .done (if e = true then upload :: filtered else filtered)
    | .panic => .panic
    | .diverge => .diverge

/-- `removeUploadsWithUnknownCommits` removes uploads for commits which are unknown to gitserver
from the given slice. -/
def removeUploadsWithUnknownCommits (r : Resolver) (uploads : List Dump) : RM (List Dump) :=
  let rcs : List RepositoryCommit :=
    uploads.map fun upload => { RepositoryID := upload.RepositoryID, Commit := upload.Commit }
  RM.bind (RM.call (.AreCommitsResolvable rcs) (r.AreCommitsResolvable rcs)) fun resolvable s =>
    match removeUploadsWithUnknownCommits.filter uploads resolvable with
    | .done filtered => (.done (.ok filtered), s)
    | .panic => (.panic, s)
    | .diverge => (.diverge, s)

/-- `GetUploadsWithDefinitionsForMonikers` returns the set of uploads that provide any of the
given monikers. This method will not return uploads for commits which are unknown to
gitserver. -/
def GetUploadsWithDefinitionsForMonikers (r : Resolver)
    (orderedMonikers : List QualifiedMonikerData) : RM (List Dump) :=
  RM.bind
    (RM.wrapErr
      (RM.call (.GetUploadsWithDefinitionsForMonikers orderedMonikers)
        (r.GetUploadsWithDefinitionsForMonikers orderedMonikers))
      "dbstore.DefinitionDumps")
    fun uploads =>
      RM.bind RM.getLoader fun dl =>
        RM.bind (RM.setLoader (dl.setUploadInCacheMap uploads)) fun _ =>
          removeUploadsWithUnknownCommits r uploads

/-- `getBulkMonikerLocations` returns the set of locations (within the given uploads) with an
attached moniker whose scheme+identifier matches any of the given monikers. -/
def getBulkMonikerLocations (r : Resolver) (uploads : List Dump)
    (orderedMonikers : List QualifiedMonikerData) (tableName : String) (limit offset : Int) :
    RM (List Location × Int) :=
  let ids : List Int := uploads.map fun u => u.ID
  let args : List MonikerData := orderedMonikers.map fun m => m.MonikerData
  RM.wrapErr
    (RM.call (.GetBulkMonikerLocations tableName ids args limit offset)
      (r.GetBulkMonikerLocations tableName ids args limit offset))
    "lsifStore.GetBulkMonikerLocations"

/-- The first loop of `getUploadsByIDs`: the ids are split into those missing from the data
loader and the uploads already in it. -/
def getUploadsByIDs.split (dl : UploadsDataLoader) :
    List Int → List Int → List Dump → List Int × List Dump
  | [], missingIDs, existingUploads => (missingIDs, existingUploads)
  | id :: rest, missingIDs, existingUploads =>
    match dl.getUploadFromCacheMap id with
    | some upload => getUploadsByIDs.split dl rest missingIDs (existingUploads ++ [upload])
    | none => getUploadsByIDs.split dl rest (missingIDs ++ [id]) existingUploads

/-- Run a computation and hand its Go result, value or error, to the caller. -/
def RM.attempt {α : Type} (x : RM α) : RM (Except Err α) := fun s =>
  match x s with
  | (.done v, s1) => (.done (.ok v), s1)
  | (.panic, s1) => (.panic, s1)
  | (.diverge, s1) => (.diverge, s1)

/-- `getUploadsByIDs` returns a slice of uploads with the given identifiers. The data loader is
used as a cache: uploads present in it are not fetched again. When the check of the commits
reports an error the function returns `nil, nil`. -/
def getUploadsByIDs (r : Resolver) (ids : List Int) : RM (List Dump) :=
  RM.bind RM.getLoader fun dl =>
    let parts := getUploadsByIDs.split dl ids [] []
    RM.bind
      (RM.wrapErr (RM.call (.GetDumpsByIDs parts.1) (r.GetDumpsByIDs parts.1))
        "service.GetDumpsByIDs")
      fun uploads =>
        RM.bind (RM.attempt (removeUploadsWithUnknownCommits r uploads)) fun res =>
          match res with
          | .error _ => RM.ret []
          | .ok uploadsWithResolvableCommits =>
            RM.bind RM.getLoader fun dl1 =>
              RM.bind (RM.setLoader (dl1.setUploadInCacheMap uploadsWithResolvableCommits))
                fun _ => RM.ret (parts.2 ++ uploadsWithResolvableCommits)

/-- The first loop of `getPageRemoteLocations`: while the batch of upload ids is empty, the next
batch is requested from the store. The flag of the result is false when no batches are left
(the function then returns `nil, false, nil`), true when the cursor holds a batch. -/
def getPageRemoteLocations.nextBatch (r : Resolver) (visibleUploads : List VisibleUpload)
    (orderedMonikers : List QualifiedMonikerData) :
    Nat → RemoteCursor → RM (Bool × RemoteCursor)
  | 0, cursor =>
    if cursor.UploadBatchIDs.length = 0 then
      if cursor.UploadOffset < 0 then RM.ret (false, cursor) else fun s => (.diverge, s)
    else RM.ret (true, cursor)
  | fuel + 1, cursor =>
    if cursor.UploadBatchIDs.length = 0 then
      if cursor.UploadOffset < 0 then RM.ret (false, cursor)
      else
        let ignoreIDs : List Int := visibleUploads.map fun adjustedUpload => adjustedUpload.Upload.ID
        RM.bind
          (RM.call
            (.GetUploadIDsWithReferences orderedMonikers ignoreIDs r.requestArgs.repoID
              r.requestArgs.commit r.maximumIndexesPerMonikerSearch cursor.UploadOffset)
            (r.GetUploadIDsWithReferences orderedMonikers ignoreIDs r.requestArgs.repoID
              r.requestArgs.commit r.maximumIndexesPerMonikerSearch cursor.UploadOffset))
          fun res =>
            let cursor1 : RemoteCursor :=
              { cursor with UploadBatchIDs := res.1, UploadOffset := cursor.UploadOffset + res.2.1 }
            let cursor2 : RemoteCursor :=
              if cursor1.UploadOffset ≥ res.2.2 then { cursor1 with UploadOffset := -1 }
              else cursor1
            getPageRemoteLocations.nextBatch r visibleUploads orderedMonikers fuel cursor2
    else RM.ret (true, cursor)

/-- The in-place filter of `getPageRemoteLocations`: the locations that are not source
locations, in order. -/
def getPageRemoteLocations.filter (visibleUploads : List VisibleUpload) :
    List Location → List Location
  | [] => []
  | location :: rest =>
    if isSourceLocation visibleUploads location = false then
      location :: getPageRemoteLocations.filter visibleUploads rest
    else getPageRemoteLocations.filter visibleUploads rest

/-- `getPageRemoteLocations` returns a slice of the (remote) result set denoted by the given
cursor fulfilled by performing a moniker search over a group of indexes, a flag telling whether
pages are left, and the adjusted cursor. -/
def getPageRemoteLocations (r : Resolver) (lsifDataTable : String)
    (visibleUploads : List VisibleUpload) (orderedMonikers : List QualifiedMonikerData)
    (cursor : RemoteCursor) (limit : Int) (fuel : Nat) :
    RM (List Location × Bool × RemoteCursor) :=
  RM.bind (getPageRemoteLocations.nextBatch r visibleUploads orderedMonikers fuel cursor)
    fun batch =>
      let cursor1 := batch.2
      if batch.1 = false then RM.ret ([], false, cursor1)
      else
        RM.bind (getUploadsByIDs r cursor1.UploadBatchIDs) fun monikerSearchUploads =>
          RM.bind
            (getBulkMonikerLocations r monikerSearchUploads orderedMonikers lsifDataTable limit
              cursor1.LocationOffset)
            fun res =>
              let cursor2 : RemoteCursor :=
                { cursor1 with LocationOffset := cursor1.LocationOffset + res.1.length }
              let cursor3 : RemoteCursor :=
                if cursor2.LocationOffset ≥ res.2 then
                  { cursor2 with LocationOffset := 0, UploadBatchIDs := [] }
                else cursor2
              let filtered := getPageRemoteLocations.filter visibleUploads res.1
              let hasAnotherPage : Bool :=
                decide (cursor3.UploadBatchIDs.length > 0) || decide (cursor3.UploadOffset ≥ 0)
              RM.ret (filtered, hasAnotherPage, cursor3)

/-- `getSourceRange` translates a range (relative to the indexed commit) into an equivalent
range in the requested commit. If the translation fails, then the original commit and range are
returned along with a false-valued flag. -/
def getSourceRange (r : Resolver) (repositoryID : Int) (commit path : String) (rng : Range) :
    RM (String × Range × Bool) :=
  if repositoryID ≠ r.requestArgs.repoID then RM.ret (commit, rng, true)
  else
    RM.bind
      (RM.wrapErr
        (RM.call (.GetTargetCommitRangeFromSourceRange commit path rng true)
          (r.GetTargetCommitRangeFromSourceRange commit path rng true))
        "gitTreeTranslator.GetTargetCommitRangeFromSourceRange")
      fun res =>
        if res.2.2 = true then RM.ret (r.requestArgs.commit, res.2.1, true)
        else RM.ret (commit, rng, false)

/-- `getUploadLocation` translates a location (relative to the indexed commit) into an
equivalent location in the requested commit. If the translation fails, then the original commit
and range are used as the commit and range of the adjusted location. -/
def getUploadLocation (r : Resolver) (dump : Dump) (location : Location) : RM UploadLocation :=
  RM.bind
    (getSourceRange r dump.RepositoryID dump.Commit (dump.Root ++ location.Path) location.Range)
    fun res =>
      RM.ret
        { Dump := dump, Path := dump.Root ++ location.Path, TargetCommit := res.1,
          TargetRange := res.2.1 }

/-- The loop of `adjustLocations` over the locations. -/
def adjustLocations.loop (r : Resolver) :
    List Location → List UploadLocation → RM (List UploadLocation)
  | [], uploadLocations => RM.ret uploadLocations
  | location :: rest, uploadLocations =>
    RM.bind RM.getLoader fun dl =>
      match dl.getUploadFromCacheMap location.DumpID with
      | none => adjustLocations.loop r rest uploadLocations
      | some upload =>
        RM.bind (getUploadLocation r upload location) fun adjustedLocation =>
          if r.SubRepoEnabled = false then
            adjustLocations.loop r rest (uploadLocations ++ [adjustedLocation])
          else
            RM.bind
              (RM.call
                (.FilterActorPath adjustedLocation.Dump.RepositoryName adjustedLocation.Path)
                (r.FilterActorPath adjustedLocation.Dump.RepositoryName adjustedLocation.Path))
              fun included =>
                if included = true then
                  adjustLocations.loop r rest (uploadLocations ++ [adjustedLocation])
                else adjustLocations.loop r rest uploadLocations

/-- `adjustLocations` translates a set of locations into an equivalent set of locations in the
requested commit. -/
def adjustLocations (r : Resolver) (locations : List Location) : RM (List UploadLocation) :=
  adjustLocations.loop r locations []

/-- What `Implementations` returns: the upload locations (`none` is the nil slice), the next
cursor and the error (`none` is the nil error). -/
structure ImplementationsResult where
  locations : Option (List UploadLocation)
  nextCursor : String
  err : Option Err
deriving DecidableEq, Repr

/-- The statement `if err != nil { return nil, "", err }` that follows a call in
`Implementations`: on an error the request returns no locations, an empty cursor and the error;
otherwise it goes on with the value. -/
def Implementations.orReturn {α : Type} (x : RM α)
    (k : α → RState → Run ImplementationsResult × RState) :
    RState → Run ImplementationsResult × RState := fun s =>
  match x s with
  | (.done (.ok a), s1) => k a s1
  | (.done (.error err), s1) => (.done { locations := none, nextCursor := "", err := some err }, s1)
  | (.panic, s1) => (.panic, s1)
  | (.diverge, s1) => (.diverge, s1)

/-- The `getLocationsFn` that `Implementations` passes to `getPageLocalLocations`:
`r.svc.GetImplementations`. -/
def Implementations.getLocations (r : Resolver) (bundleID : Int) (path : String)
    (line character limit offset : Int) : RM (List Location × Int) :=
  RM.call (.GetImplementations bundleID path line character limit offset)
    (r.GetImplementations bundleID path line character limit offset)

/-- Phase 1 of `Implementations`: the loop that gathers local locations until the page is full
or there are no more local results, in which case the phase becomes `dependencies`. -/
def Implementations.localPhase (r : Resolver) (args : RequestArgs)
    (visibleUploads : List VisibleUpload) :
    Nat → ImplementationsCursor → List Location → RM (ImplementationsCursor × List Location)
  | 0, cursor, locations =>
    if (locations.length : Int) < args.Limit then fun s => (.diverge, s)
    else RM.ret (cursor, locations)
  | fuel + 1, cursor, locations =>
    if (locations.length : Int) < args.Limit then
      RM.bind
        (getPageLocalLocations (Implementations.getLocations r) visibleUploads
          cursor.LocalCursor (args.Limit - locations.length))
        fun res =>
          let cursor1 : ImplementationsCursor := { cursor with LocalCursor := res.2.2 }
          let locations1 := locations ++ res.1
          if res.2.1 = false then RM.ret ({ cursor1 with Phase := "dependencies" }, locations1)
          else Implementations.localPhase r args visibleUploads fuel cursor1 locations1
    else RM.ret (cursor, locations)

/-- Phase 2 of `Implementations`: the definitions of the implementation monikers in the uploads
that define them; the phase becomes `dependents`. -/
def Implementations.dependenciesPhase (r : Resolver) (cursor : ImplementationsCursor)
    (locations : List Location) : RM (ImplementationsCursor × List Location) :=
  RM.bind
    (GetUploadsWithDefinitionsForMonikers r (cursor.OrderedImplementationMonikers.getD []))
    fun uploads =>
      RM.bind
        (getBulkMonikerLocations r uploads (cursor.OrderedImplementationMonikers.getD [])
          "definitions" DefinitionsLimit 0)
        fun res => RM.ret ({ cursor with Phase := "dependents" }, locations ++ res.1)

/-- Phase 3 of `Implementations`: the loop that gathers remote locations in dependents until the
page is full or there are no more pages, in which case the phase becomes `done`. -/
def Implementations.dependentsPhase (r : Resolver) (args : RequestArgs)
    (visibleUploads : List VisibleUpload) (remoteFuel : Nat) :
    Nat → ImplementationsCursor → List Location → RM (ImplementationsCursor × List Location)
  | 0, cursor, locations =>
    if (locations.length : Int) < args.Limit then fun s => (.diverge, s)
    else RM.ret (cursor, locations)
  | fuel + 1, cursor, locations =>
    if (locations.length : Int) < args.Limit then
      RM.bind
        (getPageRemoteLocations r "implementations" visibleUploads
          (cursor.OrderedExportMonikers.getD []) cursor.RemoteCursor
          (args.Limit - locations.length) remoteFuel)
        fun res =>
          let cursor1 : ImplementationsCursor := { cursor with RemoteCursor := res.2.2 }
          let locations1 := locations ++ res.1
          if res.2.1 = false then RM.ret ({ cursor1 with Phase := "done" }, locations1)
          else Implementations.dependentsPhase r args visibleUploads remoteFuel fuel cursor1
            locations1
    else RM.ret (cursor, locations)

/-- The part of `Implementations` between the decoding of the cursor and the adjustment of the
locations: the visible uploads and the monikers are restored or computed and the three phases
run. The result is the updated cursor and the locations collected. -/
def Implementations.collect (r : Resolver) (args : RequestArgs) (fuel : Nat)
    (cursor : ImplementationsCursor) : RM (ImplementationsCursor × List Location) :=
  RM.bind
    (getVisibleUploadsFromCursor r args.Line args.Character cursor.CursorsToVisibleUploads)
    fun vis =>
      let visibleUploads := vis.1
      let cursor1 : ImplementationsCursor := { cursor with CursorsToVisibleUploads := vis.2 }
      RM.bind
        (match cursor1.OrderedImplementationMonikers with
          | none => getOrderedMonikers r visibleUploads ["implementation"]
          | some ms => RM.ret (some ms))
        fun implementationMonikers =>
          let cursor2 : ImplementationsCursor :=
            { cursor1 with OrderedImplementationMonikers := implementationMonikers }
          RM.bind
            (match cursor2.OrderedExportMonikers with
              | none => getOrderedMonikers r visibleUploads ["export"]
              | some ms => RM.ret (some ms))
            fun exportMonikers =>
              let cursor3 : ImplementationsCursor :=
                { cursor2 with OrderedExportMonikers := exportMonikers }
              RM.bind
                (if cursor3.Phase = "local" then
                  Implementations.localPhase r args visibleUploads fuel cursor3 []
                else RM.ret (cursor3, []))
                fun p1 =>
                  RM.bind
                    (if p1.1.Phase = "dependencies" then
                      Implementations.dependenciesPhase r p1.1 p1.2
                    else RM.ret p1)
                    fun p2 =>
                      if p2.1.Phase = "dependents" then
                        Implementations.dependentsPhase r args visibleUploads fuel fuel p2.1 p2.2
                      else RM.ret p2

/-- `Implementations` returns the list of source locations that define the symbol at the given
position, one page of them, with the cursor of the next page. Every loop of the request may run
`fuel` times. -/
def Implementations (r : Resolver) (args : RequestArgs) (fuel : Nat) :
    RState → Run ImplementationsResult × RState := fun s =>
  match r.decodeImplementationsCursor args.RawCursor with
  | .error err =>
    (.done { locations := none, nextCursor := "",
             err := some (.wrap err ("invalid cursor: \"" ++ args.RawCursor ++ "\"")) }, s)
  | .ok cursor =>
    Implementations.orReturn (Implementations.collect r args fuel cursor)
      (fun collected =>
        Implementations.orReturn (adjustLocations r collected.2) fun adjustedLocations s2 =>
          let nextCursor : String :=
            if collected.1.Phase ≠ "done" then r.encodeImplementationsCursor collected.1 else ""
          (.done { locations := some adjustedLocations, nextCursor := nextCursor, err := none },
            s2))
      s

/-- `References`: the body returns `nil, "", nil`. -/
def References (_r : Resolver) (_args : RequestArgs) :
    RState → Run ImplementationsResult × RState := fun s =>
  (.done { locations := none, nextCursor := "", err := none }, s)

/-! ## A concrete cursor codec

The cursor is flattened to a sequence of natural numbers (an integer is its sign and magnitude, a
string or an array is its length followed by its elements, a nullable array is a presence flag
followed by the array) and each number is written in unary. -/

namespace Codec

/-- An integer as two numbers: which constructor, and its argument. -/
def encInt : Int → List Nat
  | .ofNat n => [0, n]
  | .negSucc n => [1, n]

/-- Inverse of `encInt` on the front of a token sequence. -/
def decInt : List Nat → Option (Int × List Nat)
  | 0 :: n :: rest => some (.ofNat n, rest)
  | 1 :: n :: rest => some (.negSucc n, rest)
  | _ => none

/-- A string as its length and the code points of its characters. -/
def encString (s : String) : List Nat := s.data.length :: s.data.map Char.toNat

/-- Reads `n` characters from the front of a token sequence. -/
def decChars : Nat → List Nat → Option (List Char × List Nat)
  | 0, rest => some ([], rest)
  | _ + 1, [] => none
  | n + 1, c :: rest =>
    match decChars n rest with
    | some (cs, rest1) => some (Char.ofNat c :: cs, rest1)
    | none => none

/-- Inverse of `encString` on the front of a token sequence. -/
def decString : List Nat → Option (String × List Nat)
  | [] => none
  | n :: rest =>
    match decChars n rest with
    | some (cs, rest1) => some (⟨cs⟩, rest1)
    | none => none

/-- The elements of an array, one after the other. -/
def encItems {α : Type} (enc : α → List Nat) : List α → List Nat
  | [] => []
  | a :: rest => enc a ++ encItems enc rest

/-- An array as its length and its elements. -/
def encList {α : Type} (enc : α → List Nat) (l : List α) : List Nat :=
  l.length :: encItems enc l

/-- Reads `n` elements from the front of a token sequence. -/
def decItems {α : Type} (dec : List Nat → Option (α × List Nat)) :
    Nat → List Nat → Option (List α × List Nat)
  | 0, ts => some ([], ts)
  | n + 1, ts =>
    match dec ts with
    | none => none
    | some (a, ts1) =>
      match decItems dec n ts1 with
      | none => none
      | some (l, ts2) => some (a :: l, ts2)

/-- Inverse of `encList` on the front of a token sequence. -/
def decList {α : Type} (dec : List Nat → Option (α × List Nat)) :
    List Nat → Option (List α × List Nat)
  | [] => none
  | n :: rest => decItems dec n rest

/-- A nullable array: `0` for nil, `1` followed by the array otherwise. -/
def encNullable {α : Type} (enc : α → List Nat) : Option (List α) → List Nat
  | none => [0]
  | some l => 1 :: encList enc l

/-- Inverse of `encNullable` on the front of a token sequence. -/
def decNullable {α : Type} (dec : List Nat → Option (α × List Nat)) :
    List Nat → Option (Option (List α) × List Nat)
  | 0 :: rest => some (none, rest)
  | 1 :: rest =>
    match decList dec rest with
    | some (l, rest1) => some (some l, rest1)
    | none => none
  | _ => none

/-- A position as its line and character. -/
def encPosition (p : Position) : List Nat := encInt p.Line ++ encInt p.Character

/-- Inverse of `encPosition`. -/
def decPosition (ts : List Nat) : Option (Position × List Nat) :=
  match decInt ts with
  | none => none
  | some (line, ts1) =>
    match decInt ts1 with
    | none => none
    | some (character, ts2) => some ({ Line := line, Character := character }, ts2)

/-- A frozen visible upload as its four fields. -/
def encVisible (u : CursorToVisibleUpload) : List Nat :=
  encInt u.DumpID ++ encString u.TargetPath ++ encPosition u.TargetPosition
    ++ encString u.TargetPathWithoutRoot

/-- Inverse of `encVisible`. -/
def decVisible (ts : List Nat) : Option (CursorToVisibleUpload × List Nat) :=
  match decInt ts with
  | none => none
  | some (dumpID, ts1) =>
    match decString ts1 with
    | none => none
    | some (targetPath, ts2) =>
      match decPosition ts2 with
      | none => none
      | some (targetPosition, ts3) =>
        match decString ts3 with
        | none => none
        | some (withoutRoot, ts4) =>
          some ({ DumpID := dumpID, TargetPath := targetPath, TargetPosition := targetPosition,
                  TargetPathWithoutRoot := withoutRoot }, ts4)

/-- A qualified moniker as its seven strings. -/
def encMoniker (m : QualifiedMonikerData) : List Nat :=
  encList encString
    [m.MonikerData.Kind, m.MonikerData.Scheme, m.MonikerData.Identifier,
     m.MonikerData.PackageInformationID, m.PackageInformationData.Manager,
     m.PackageInformationData.Name, m.PackageInformationData.Version]

/-- Inverse of `encMoniker`. -/
def decMoniker (ts : List Nat) : Option (QualifiedMonikerData × List Nat) :=
  match decList decString ts with
  | some ([kind, scheme, identifier, pid, manager, name, version], ts1) =>
    some ({ MonikerData := { Kind := kind, Scheme := scheme, Identifier := identifier,
                             PackageInformationID := pid },
            PackageInformationData := { Manager := manager, Name := name, Version := version } },
          ts1)
  | _ => none

/-- The whole cursor as a token sequence. -/
def encCursor (c : ImplementationsCursor) : List Nat :=
  encNullable encVisible c.CursorsToVisibleUploads
    ++ encNullable encMoniker c.OrderedImplementationMonikers
    ++ encNullable encMoniker c.OrderedExportMonikers
    ++ encString c.Phase
    ++ encInt c.LocalCursor.UploadOffset ++ encInt c.LocalCursor.LocationOffset
    ++ encList encInt c.RemoteCursor.UploadBatchIDs
    ++ encInt c.RemoteCursor.UploadOffset ++ encInt c.RemoteCursor.LocationOffset

/-- Inverse of `encCursor`. -/
def decCursor (ts : List Nat) : Option (ImplementationsCursor × List Nat) :=
  match decNullable decVisible ts with
  | none => none
  | some (visible, ts1) =>
    match decNullable decMoniker ts1 with
    | none => none
    | some (implementationMonikers, ts2) =>
      match decNullable decMoniker ts2 with
      | none => none
      | some (exportMonikers, ts3) =>
        match decString ts3 with
        | none => none
        | some (phase, ts4) =>
          match decInt ts4 with
          | none => none
          | some (localUpload, ts5) =>
            match decInt ts5 with
            | none => none
            | some (localLocation, ts6) =>
              match decList decInt ts6 with
              | none => none
              | some (batch, ts7) =>
                match decInt ts7 with
                | none => none
                | some (remoteUpload, ts8) =>
                  match decInt ts8 with
                  | none => none
                  | some (remoteLocation, ts9) =>
                    some ({ CursorsToVisibleUploads := visible,
                            OrderedImplementationMonikers := implementationMonikers,
                            OrderedExportMonikers := exportMonikers,
                            Phase := phase,
                            LocalCursor := { UploadOffset := localUpload,
                                             LocationOffset := localLocation },
                            RemoteCursor := { UploadBatchIDs := batch,
                                              UploadOffset := remoteUpload,
                                              LocationOffset := remoteLocation } }, ts9)

/-- A token sequence in unary: `n` is `n` letters `a` closed by one `b`. -/
def toUnary : List Nat → List Char
  | [] => []
  | n :: rest => List.replicate n 'a' ++ 'b' :: toUnary rest

/-- Inverse of `toUnary`; `acc` counts the letters `a` read since the last `b`. -/
def ofUnary : List Char → Nat → Option (List Nat)
  | [], 0 => some []
  | [], _ + 1 => none
  | c :: cs, acc =>
    if c = 'a' then ofUnary cs (acc + 1)
    else if c = 'b' then
      match ofUnary cs 0 with
      | some ts => some (acc :: ts)
      | none => none
    else none

/-- Modelled from the spec: the cursor with which a result stream starts (phase `local`, nil
arrays, zero offsets). -/
def initialCursor : ImplementationsCursor :=
  { CursorsToVisibleUploads := none, OrderedImplementationMonikers := none,
    OrderedExportMonikers := none, Phase := "local",
    LocalCursor := { UploadOffset := 0, LocationOffset := 0 },
    RemoteCursor := { UploadBatchIDs := [], UploadOffset := 0, LocationOffset := 0 } }

/-- Modelled from the spec: `encodeImplementationsCursor` (declared in another file of the
package), an injective encoding of the cursor as an opaque printable token that is never
empty. -/
def encode (c : ImplementationsCursor) : String := ⟨'v' :: toUnary (encCursor c)⟩

/-- Modelled from the spec: `decodeImplementationsCursor` (declared in another file of the
package): the empty string decodes to the initial cursor, a token made by `encode` to the cursor
it was made from, and a malformed token is an error. -/
def decode (raw : String) : Except Err ImplementationsCursor :=
  match raw.data with
  | [] => .ok initialCursor
  | 'v' :: cs =>
    match ofUnary cs 0 with
    | none => .error (.msg "invalid cursor")
    | some ts =>
      match decCursor ts with
      | some (c, []) => .ok c
      | _ => .error (.msg "invalid cursor")
  | _ => .error (.msg "invalid cursor")

end Codec

/-! ## Pagination and concrete backends -/

/-- The answer of a store that holds the fixed list `all` for a query: the slice selected by
`limit` and `offset`, and the total count. -/
def slicePage {α : Type} (all : List α) (limit offset : Int) : List α × Int :=
  ((all.drop offset.toNat).take limit.toNat, all.length)

/-- A result stream read page by page: every page is a request of its own, served by a new
resolver whose data loader holds `uploads`, and resumed from the next cursor of the page before;
the stream ends with the first empty next cursor. The result is the locations of the pages in
order, or `none` if a page fails or the stream is longer than `pages`. -/
def paginate (r : Resolver) (uploads : List Dump) (args : RequestArgs) (fuel : Nat) :
    Nat → String → Option (List UploadLocation)
  | 0, _ => none
  | pages + 1, rawCursor =>
    match (Implementations r { args with RawCursor := rawCursor } fuel
            (newRequestState uploads)).1 with
    | .done res =>
      match res.err, res.locations with
      | none, some locations =>
        if res.nextCursor = "" then some locations
        else
          match paginate r uploads args fuel pages res.nextCursor with
          | some more => some (locations ++ more)
          | none => none
      | _, _ => none
    | _ => none

/-! ## Predicates used in the statements -/

/-- The sub-sequence of `uploads` made of the dumps whose flag in `flags` is true: the dumps that
the commit cache reports resolvable, in the order of the store. -/
def resolvableDumps (uploads : List Dump) (flags : List Bool) : List Dump :=
  ((uploads.zip flags).filter fun p => p.2).map fun p => p.1

/-- The local offsets `b` are at or after the local offsets `a` in the order of the local phase
(upload offset first, then location offset), and strictly after them if `grew` holds. -/
def LocalCursor.after (a b : LocalCursor) (grew : Prop) : Prop :=
  a.UploadOffset < b.UploadOffset ∨
    (a.UploadOffset = b.UploadOffset ∧ a.LocationOffset ≤ b.LocationOffset ∧
      (grew → a.LocationOffset < b.LocationOffset))

/-- The phases leave the frozen visible uploads and the moniker arrays of the cursor alone. -/
def ImplementationsCursor.sameArrays (c c' : ImplementationsCursor) : Prop :=
  c'.CursorsToVisibleUploads = c.CursorsToVisibleUploads ∧
    c'.OrderedImplementationMonikers = c.OrderedImplementationMonikers ∧
    c'.OrderedExportMonikers = c.OrderedExportMonikers

/-- The contract of `GetUploadIDsWithReferences` on the number of records scanned: it is never
negative, and it is positive when the batch of ids is not empty. -/
def Resolver.scansForward (r : Resolver) : Prop :=
  ∀ ms ignoreIDs repo commit limit offset ids scanned total,
    r.GetUploadIDsWithReferences ms ignoreIDs repo commit limit offset
      = .ok (ids, scanned, total) →
    0 ≤ scanned ∧ (ids ≠ [] → 0 < scanned)

/-- The remote cursor `c` is at or after the remote cursor `c0` of the start of the request: the
upload offset has moved (forward, or to the end marker -1), or the batch of `c0` has been used
up, or the location offset has moved forward within the batch, strictly if `grew` holds. -/
def RemoteCursor.after (c0 c : RemoteCursor) (grew : Prop) : Prop :=
  (0 ≤ c0.UploadOffset ∧ (c0.UploadOffset < c.UploadOffset ∨ c.UploadOffset = -1)) ∨
    (c.UploadOffset = c0.UploadOffset ∧ c0.UploadBatchIDs ≠ [] ∧ c.UploadBatchIDs = []) ∨
    (c.UploadOffset = c0.UploadOffset ∧ c.UploadBatchIDs = c0.UploadBatchIDs ∧
      c0.LocationOffset ≤ c.LocationOffset ∧ (grew → c0.LocationOffset < c.LocationOffset))

/-- The phases of the data model. -/
def ImplementationsCursor.validPhase (c : ImplementationsCursor) : Prop :=
  c.Phase = "local" ∨ c.Phase = "dependencies" ∨ c.Phase = "dependents" ∨ c.Phase = "done"

/-- The cursor `c1` differs from the cursor `c0` in the local upload offset, the local location
offset, the phase, the remote upload offset, the number of ids in the remote batch or the remote
location offset. -/
def cursorAdvanced (c0 c1 : ImplementationsCursor) : Prop :=
  c1.LocalCursor.UploadOffset ≠ c0.LocalCursor.UploadOffset ∨
    c1.LocalCursor.LocationOffset ≠ c0.LocalCursor.LocationOffset ∨
    c1.Phase ≠ c0.Phase ∨
    c1.RemoteCursor.UploadOffset ≠ c0.RemoteCursor.UploadOffset ∨
    c1.RemoteCursor.UploadBatchIDs.length ≠ c0.RemoteCursor.UploadBatchIDs.length ∨
    c1.RemoteCursor.LocationOffset ≠ c0.RemoteCursor.LocationOffset

instance (c0 c1 : ImplementationsCursor) : Decidable (cursorAdvanced c0 c1) := by
  unfold cursorAdvanced
  infer_instance

/-- The cursor entry that freezes a visible upload: the id of its dump and its target path,
position and path without root. -/
def VisibleUpload.frozen (vu : VisibleUpload) : CursorToVisibleUpload :=
  { DumpID := vu.Upload.ID, TargetPath := vu.TargetPath, TargetPosition := vu.TargetPosition,
    TargetPathWithoutRoot := vu.TargetPathWithoutRoot }

/-- The visible uploads of a first page as the specification describes them: the uploads, in
order, for which the translator maps the source position with `ok = true`, each with the target
path and position of the translator and the target path stripped of the root of the dump. -/
def visibleUploadsOf (r : Resolver) (line character : Int) (uploads : List Dump) :
    List VisibleUpload :=
  uploads.filterMap fun u =>
    match r.GetTargetCommitPositionFromSourcePosition u.Commit
        { Line := line, Character := character } false with
    | .ok (targetPath, targetPosition, true) =>
      some { Upload := u, TargetPath := targetPath, TargetPosition := targetPosition,
             TargetPathWithoutRoot := stringsTrimPrefix targetPath u.Root }
    | _ => none

/-! ## The Git Tree Translator, from the specification -/

/-- Modelled from the spec: a hunk of the diff of one path between two commits (the parsed
answer of the git-diff service): `OrigLines` lines of the first commit, from line
`OrigStartLine` on, are replaced by `NewLines` lines in the second commit. -/
structure Hunk where
  OrigStartLine : Int
  OrigLines : Int
  NewLines : Int
deriving DecidableEq, Repr

/-- Modelled from the spec: the Git Tree Translator (declared in another file of the package)
"offsets lines accordingly": walking the hunks in order, a line before the next hunk is shifted
by the lines added and removed so far, a line inside a hunk has no equivalent, and a line after
the hunk is shifted further by the difference of the lengths of the hunk. -/
def GitTreeTranslator.translateLine : List Hunk → Int → Int → Option Int
  | [], line, shift => some (line + shift)
  | h :: rest, line, shift =>
    if line < h.OrigStartLine then some (line + shift)
    else if line < h.OrigStartLine + h.OrigLines then none
    else GitTreeTranslator.translateLine rest line (shift + h.NewLines - h.OrigLines)

/-- Modelled from the spec: the translation of a position: the line is offset, the character is
not re-mapped. -/
def GitTreeTranslator.translatePosition (hunks : List Hunk) (pos : Position) : Option Position :=
  match GitTreeTranslator.translateLine hunks pos.Line 0 with
  | some line => some { Line := line, Character := pos.Character }
  | none => none

/-- Modelled from the spec: the translation of a range: both of its ends are translated. -/
def GitTreeTranslator.translateRange (hunks : List Hunk) (rng : Range) : Option Range :=
  match GitTreeTranslator.translatePosition hunks rng.Start,
      GitTreeTranslator.translatePosition hunks rng.End with
  | some start, some stop => some { Start := start, End := stop }
  | _, _ => none

/-- Modelled from the spec: the Git Tree Translator of a request: the git-diff service, which
answers with the hunks of a path between a first and a second commit or with a failure, and the
commit and path of the request. The hunk cache is left out: it only remembers answers of the
git-diff service. -/
structure GitTreeTranslator where
  gitDiff : String → String → String → Except Err (List Hunk)
  commit : String
  path : String

/-- Modelled from the spec: the hunks between the commit of the request and the given commit,
read in the other direction when `reverse` is set. -/
def GitTreeTranslator.hunks (g : GitTreeTranslator) (commit path : String) (reverse : Bool) :
    Except Err (List Hunk) :=
  if reverse = true then g.gitDiff commit g.commit path else g.gitDiff g.commit commit path

/-- Modelled from the spec: `GetTargetCommitPositionFromSourcePosition(targetCommit, position,
reverse) → (path, position, ok)`: a failure to fetch the diff is an error, a position with no
equivalent is `ok = false`. -/
def GitTreeTranslator.GetTargetCommitPositionFromSourcePosition (g : GitTreeTranslator)
    (commit : String) (pos : Position) (reverse : Bool) : Except Err (String × Position × Bool) :=
  match g.hunks commit g.path reverse with
  | .error e => .error e
  | .ok hunks =>
    match GitTreeTranslator.translatePosition hunks pos with
    | some translated => .ok (g.path, translated, true)
    | none => .ok (g.path, pos, false)

/-- Modelled from the spec: `GetTargetCommitRangeFromSourceRange(targetCommit, path, range,
reverse) → (path, range, ok)`: a failure to fetch the diff is an error, a range with no
equivalent is `ok = false`. -/
def GitTreeTranslator.GetTargetCommitRangeFromSourceRange (g : GitTreeTranslator)
    (commit path : String) (rng : Range) (reverse : Bool) : Except Err (String × Range × Bool) :=
  match g.hunks commit path reverse with
  | .error e => .error e
  | .ok hunks =>
    match GitTreeTranslator.translateRange hunks rng with
    | some translated => .ok (path, translated, true)
    | none => .ok (path, rng, false)

/-- `SetLocalGitTreeTranslator`: the resolver gets the arguments of the request and the
translator made of the git-diff client and these arguments. (The creation of the hunk cache,
which can fail in the source, is left out with the cache.) -/
def SetLocalGitTreeTranslator (r : Resolver)
    (gitDiff : String → String → String → Except Err (List Hunk)) (repoID : Int)
    (commit path : String) : Resolver :=
  let g : GitTreeTranslator := { gitDiff := gitDiff, commit := commit, path := path }
  { r with
    requestArgs := { repoID := repoID, commit := commit, path := path }
    GetTargetCommitPositionFromSourcePosition :=
      g.GetTargetCommitPositionFromSourcePosition
    GetTargetCommitRangeFromSourceRange := g.GetTargetCommitRangeFromSourceRange }

/-! ## Frame conditions on the call log -/

/-- The calls that compute monikers: `GetMonikersByPosition` and `GetPackageInformation`. -/
def Call.isMonikerComputation : Call → Bool
  | .GetMonikersByPosition .. => true
  | .GetPackageInformation .. => true
  | _ => false

/-- The computation makes no call of the kinds selected by `p`: however it ends, the calls of
these kinds in the log are the same before and after. -/
def RM.avoids {α : Type} (p : Call → Bool) (x : RM α) : Prop :=
  ∀ s, (x s).2.log.filter p = s.log.filter p

/-! ## The ordered monikers, from the specification -/

/-- The monikers of a list that `getOrderedMonikers` considers: those with a non-empty package
information id whose kind is among the requested kinds. -/
def keptMonikers (kinds : List String) (ms : List MonikerData) : List MonikerData :=
  ms.filter fun m => decide (m.PackageInformationID ≠ "") && sliceContains kinds m.Kind

/-- The monikers that the store attaches to the ranges enclosing the position of a visible
upload, innermost range first (no ranges if the store fails). -/
def rangeMonikersOf (r : Resolver) (vu : VisibleUpload) : List (List MonikerData) :=
  match r.GetMonikersByPosition vu.Upload.ID vu.TargetPathWithoutRoot vu.TargetPosition.Line
      vu.TargetPosition.Character with
  | .ok rangeMonikers => rangeMonikers
  | .error _ => []

/-- A moniker of a visible upload qualified with the package information that the store holds
for it (the empty package information if the store fails). -/
def qualifiedMonikerOf (r : Resolver) (vu : VisibleUpload) (m : MonikerData) :
    QualifiedMonikerData :=
  { MonikerData := m
    PackageInformationData :=
      match r.GetPackageInformation vu.Upload.ID vu.TargetPathWithoutRoot
          m.PackageInformationID with
      | .ok res => res.1
      | .error _ => { Manager := "", Name := "", Version := "" } }

/-- The sequence of qualified monikers obtained by walking the visible uploads in order and, for
each, its range monikers innermost range first, keeping the monikers of the requested kinds
that have a package information id. -/
def monikerCandidates (r : Resolver) (kinds : List String) (vus : List VisibleUpload) :
    List QualifiedMonikerData :=
  vus.flatMap fun vu =>
    (keptMonikers kinds (rangeMonikersOf r vu).flatten).map (qualifiedMonikerOf r vu)

/-- The first occurrences in a sequence of qualified monikers: a moniker whose identity has been
seen is dropped, the others are kept in order. -/
def firstOccurrences :
    List (String × String × String × String × String × String) → List QualifiedMonikerData →
      List QualifiedMonikerData
  | _, [] => []
  | seen, m :: rest =>
    if QualifiedMonikerSet.identity m ∈ seen then firstOccurrences seen rest
    else m :: firstOccurrences (QualifiedMonikerSet.identity m :: seen) rest

/-- The ordered monikers as the specification describes them: the first 10 distinct qualified
monikers of the sequence of candidates. -/
def orderedMonikersOf (r : Resolver) (kinds : List String) (vus : List VisibleUpload) :
    List QualifiedMonikerData :=
  (firstOccurrences [] (monikerCandidates r kinds vus)).take 10

/-! ### The order of the locations of a page -/

/-- A local page over the visible uploads: the answers of the store to `GetImplementations` for
the visible uploads of a sub-sequence of `visibleUploads`, one answer for each, in the order of
the visible uploads, each answer in the order of the store. -/
def IsLocalPage (r : Resolver) (visibleUploads : List VisibleUpload) (page : List Location) :
    Prop :=
  ∃ queried : List (VisibleUpload × List Location),
    (queried.map Prod.fst).Sublist visibleUploads ∧
    (∀ q ∈ queried, ∃ limit offset total,
      r.GetImplementations q.1.Upload.ID q.1.TargetPathWithoutRoot q.1.TargetPosition.Line
        q.1.TargetPosition.Character limit offset = .ok (q.2, total)) ∧
    page = (queried.map Prod.snd).flatten

/-- The contract of `GetImplementations` on the size of an answer: from a non-negative offset,
the store returns as many locations as asked for or all that are left. -/
def Resolver.answersInFull (r : Resolver) : Prop :=
  ∀ id path line character limit offset locations total, 0 ≤ offset →
    r.GetImplementations id path line character limit offset = .ok (locations, total) →
    limit ≤ (locations.length : Int) ∨ total ≤ offset + (locations.length : Int)

/-- A definitions page: the answer of the store to the one bulk query of the dependencies phase
over the table `definitions`, in the order of the store. -/
def IsDefinitionsPage (r : Resolver) (page : List Location) : Prop :=
  ∃ ids monikers total,
    r.GetBulkMonikerLocations "definitions" ids monikers DefinitionsLimit 0 = .ok (page, total)

/-- A remote page over the visible uploads: nothing when no batch is left, otherwise the answer
of the store to one bulk query over the uploads of the current batch, in the order of the store,
without the source locations. -/
def IsRemotePage (r : Resolver) (visibleUploads : List VisibleUpload) (page : List Location) :
    Prop :=
  page = [] ∨
    ∃ ids monikers limit offset answer total,
      r.GetBulkMonikerLocations "implementations" ids monikers limit offset
        = .ok (answer, total) ∧
      page = answer.filter fun location => !isSourceLocation visibleUploads location

/-- The upload location `adjusted` is what `adjustLocations` makes of `location`: the data loader
holds the dump of the location, and `getUploadLocation` returns `adjusted` for them. -/
def IsAdjustmentOf (r : Resolver) (dl : UploadsDataLoader) (location : Location)
    (adjusted : UploadLocation) : Prop :=
  dl.getUploadFromCacheMap location.DumpID = some adjusted.Dump ∧
    ∃ s, (getUploadLocation r adjusted.Dump location s).1 = .done (.ok adjusted)

/-! ### The size of a page -/

/-- The contract of the index store on the size of an answer: a query for local locations and a
bulk moniker search never return more locations than the (non-negative) limit they are asked
for. -/
def Resolver.respectsLimit (r : Resolver) : Prop :=
  (∀ id path line character limit offset locations total, 0 ≤ limit →
    r.GetImplementations id path line character limit offset = .ok (locations, total) →
    (locations.length : Int) ≤ limit) ∧
  (∀ table ids monikers limit offset locations total, 0 ≤ limit →
    r.GetBulkMonikerLocations table ids monikers limit offset = .ok (locations, total) →
    (locations.length : Int) ≤ limit)

/-! ### Scenario S2: local pagination -/

/-- The backend of scenario S2 for the request `args`: the codec round-trips, the data loader
holds one upload, which the translator makes the visible upload `vu`; the store holds the
local locations `locations` for it and answers every query with the exact slice and the total
count; no moniker is attached to the position, no upload defines or refers to a moniker, and
the ranges of the upload are translated to themselves. -/
structure LocalPagination (r : Resolver) (args : RequestArgs) (vu : VisibleUpload)
    (locations : List Location) : Prop where
  decodeEmpty : r.decodeImplementationsCursor "" = .ok Codec.initialCursor
  roundTrip : ∀ c, r.decodeImplementationsCursor (r.encodeImplementationsCursor c) = .ok c
  visible : r.GetTargetCommitPositionFromSourcePosition vu.Upload.Commit
    { Line := args.Line, Character := args.Character } false
    = .ok (vu.TargetPath, vu.TargetPosition, true)
  withoutRoot : vu.TargetPathWithoutRoot = stringsTrimPrefix vu.TargetPath vu.Upload.Root
  noMonikers : r.GetMonikersByPosition vu.Upload.ID vu.TargetPathWithoutRoot
    vu.TargetPosition.Line vu.TargetPosition.Character = .ok []
  exactSlices : ∀ limit offset, r.GetImplementations vu.Upload.ID vu.TargetPathWithoutRoot
    vu.TargetPosition.Line vu.TargetPosition.Character limit offset
    = .ok (slicePage locations limit offset)
  ownLocations : ∀ l ∈ locations, l.DumpID = vu.Upload.ID
  noDefinitionUploads : r.GetUploadsWithDefinitionsForMonikers [] = .ok []
  noCommits : r.AreCommitsResolvable [] = .ok []
  noDefinitions : r.GetBulkMonikerLocations "definitions" [] [] DefinitionsLimit 0 = .ok ([], 0)
  noDependents : r.GetUploadIDsWithReferences [] [vu.Upload.ID] r.requestArgs.repoID
    r.requestArgs.commit r.maximumIndexesPerMonikerSearch 0 = .ok ([], 0, 0)
  sameRepository : vu.Upload.RepositoryID = r.requestArgs.repoID
  sameRange : ∀ path rng,
    r.GetTargetCommitRangeFromSourceRange vu.Upload.Commit path rng true = .ok (path, rng, true)
  noSubRepo : r.SubRepoEnabled = false

/-- The cursor of scenario S2 after the pages that returned the first `offset` local locations:
the visible upload is frozen, the moniker arrays are nil, the phase is `local`. -/
def LocalPagination.cursor (vu : VisibleUpload) (offset : Int) : ImplementationsCursor :=
  { CursorsToVisibleUploads := some [vu.frozen], OrderedImplementationMonikers := none,
    OrderedExportMonikers := none, Phase := "local",
    LocalCursor := { UploadOffset := 0, LocationOffset := offset },
    RemoteCursor := { UploadBatchIDs := [], UploadOffset := 0, LocationOffset := 0 } }

/-- The raw cursor of the request for page `j` (counted from 0) of scenario S2 with limit `k`:
the empty string for the first page, then the next cursor of the page before. -/
def LocalPagination.token (r : Resolver) (vu : VisibleUpload) (k j : Nat) : String :=
  if j = 0 then ""
  else r.encodeImplementationsCursor (LocalPagination.cursor vu ((j * k : Nat) : Int))

/-- The cursor at the end of the last page of scenario S2: both offsets of the local cursor show
that the upload is used up, the remote cursor is marked exhausted, the phase is `done`. -/
def LocalPagination.finalCursor (vu : VisibleUpload) : ImplementationsCursor :=
  { CursorsToVisibleUploads := some [vu.frozen], OrderedImplementationMonikers := none,
    OrderedExportMonikers := none, Phase := "done",
    LocalCursor := { UploadOffset := 1, LocationOffset := 0 },
    RemoteCursor := { UploadBatchIDs := [], UploadOffset := -1, LocationOffset := 0 } }

/-- The upload location that the request makes of a local location of the upload in scenario
S2. -/
def LocalPagination.adjusted (r : Resolver) (vu : VisibleUpload) (l : Location) :
    UploadLocation :=
  { Dump := vu.Upload, Path := vu.Upload.Root ++ l.Path, TargetCommit := r.requestArgs.commit,
    TargetRange := l.Range }

/-! ### Ranges, the remote cursor and the hydration of uploads -/

/-- The lexicographic order on positions: by line, then by character. -/
def Position.le (a b : Position) : Prop :=
  a.Line < b.Line ∨ (a.Line = b.Line ∧ a.Character ≤ b.Character)

instance (a b : Position) : Decidable (Position.le a b) := by
  unfold Position.le
  infer_instance

/-- The remote cursor is exhausted: it holds no batch and its upload offset is negative. -/
def RemoteCursor.exhausted (c : RemoteCursor) : Prop :=
  c.UploadBatchIDs = [] ∧ c.UploadOffset < 0

instance (c : RemoteCursor) : Decidable c.exhausted := by
  unfold RemoteCursor.exhausted
  infer_instance

/-- The remote cursor after a batch has been fetched: the batch holds the ids returned, and the
upload offset has moved by the number of records scanned, or is -1 when it has reached the total
number of records. -/
def RemoteCursor.fetched (c : RemoteCursor) (ids : List Int) (recordsScanned totalRecords : Int) :
    RemoteCursor :=
  { UploadBatchIDs := ids
    UploadOffset :=
      if c.UploadOffset + recordsScanned ≥ totalRecords then -1
      else c.UploadOffset + recordsScanned
    LocationOffset := c.LocationOffset }

/-- The call that fetches the batch at the upload offset of the cursor: the ids of the visible
uploads are the ids to ignore. -/
def batchCall (r : Resolver) (visibleUploads : List VisibleUpload)
    (orderedMonikers : List QualifiedMonikerData) (c : RemoteCursor) : Call :=
  .GetUploadIDsWithReferences orderedMonikers (visibleUploads.map fun vu => vu.Upload.ID)
    r.requestArgs.repoID r.requestArgs.commit r.maximumIndexesPerMonikerSearch c.UploadOffset

/-- The batches fetched one after the other from a cursor: each fetch starts from a cursor with
an empty batch and a non-negative upload offset, is answered by the store, and leaves the cursor
`RemoteCursor.fetched`. The list holds the calls made, in order. -/
inductive FetchedBatches (r : Resolver) (visibleUploads : List VisibleUpload)
    (orderedMonikers : List QualifiedMonikerData) :
    RemoteCursor → List Call → RemoteCursor → Prop where
  | stay (c : RemoteCursor) : FetchedBatches r visibleUploads orderedMonikers c [] c
  | fetch (c c1 : RemoteCursor) (calls : List Call) (ids : List Int)
      (recordsScanned totalRecords : Int)
      (hbatch : c.UploadBatchIDs = []) (hoffset : 0 ≤ c.UploadOffset)
      (hanswer : r.GetUploadIDsWithReferences orderedMonikers
          (visibleUploads.map fun vu => vu.Upload.ID) r.requestArgs.repoID r.requestArgs.commit
          r.maximumIndexesPerMonikerSearch c.UploadOffset
        = .ok (ids, recordsScanned, totalRecords))
      (hrest : FetchedBatches r visibleUploads orderedMonikers
        (c.fetched ids recordsScanned totalRecords) calls c1) :
      FetchedBatches r visibleUploads orderedMonikers c
        (batchCall r visibleUploads orderedMonikers c :: calls) c1

/-- The remote cursor after a bulk moniker search has returned `numLocations` locations with the
total count `totalCount`: the location offset has moved by the number of locations, or is reset
to 0 with the batch cleared when it has reached the total count. -/
def RemoteCursor.searched (c : RemoteCursor) (numLocations totalCount : Int) : RemoteCursor :=
  if c.LocationOffset + numLocations ≥ totalCount then
    { UploadBatchIDs := [], UploadOffset := c.UploadOffset, LocationOffset := 0 }
  else
    { UploadBatchIDs := c.UploadBatchIDs, UploadOffset := c.UploadOffset
      LocationOffset := c.LocationOffset + numLocations }

/-- The calls of the index store that search locations by moniker in bulk. -/
def Call.isBulkSearch : Call → Bool
  | .GetBulkMonikerLocations .. => true
  | _ => false

/-- The calls that fetch a batch of uploads with references. -/
def Call.isBatchFetch : Call → Bool
  | .GetUploadIDsWithReferences .. => true
  | _ => false

/-- The ids for which the data loader holds no dump, in the order given. -/
def missingIDsOf (dl : UploadsDataLoader) (ids : List Int) : List Int :=
  ids.filter fun id => (dl.getUploadFromCacheMap id).isNone

/-- The dumps that the data loader holds for the ids, in the order of the ids. -/
def cachedDumpsOf (dl : UploadsDataLoader) (ids : List Int) : List Dump :=
  ids.filterMap fun id => dl.getUploadFromCacheMap id

/-- The repository and commit of each dump, as passed to the commit cache. -/
def commitsOf (uploads : List Dump) : List RepositoryCommit :=
  uploads.map fun upload => { RepositoryID := upload.RepositoryID, Commit := upload.Commit }

/-- The locations whose dump is in the data loader, in order. -/
def locationsInLoader (dl : UploadsDataLoader) (locations : List Location) : List Location :=
  locations.filter fun location => (dl.getUploadFromCacheMap location.DumpID).isSome

/-- The translator answers for the location: when the data loader holds the dump of the location
and the dump is of the repository of the request, the translation of the range of the location
does not fail. -/
def Resolver.translatesIn (r : Resolver) (dl : UploadsDataLoader) (location : Location) : Prop :=
  ∀ dump, dl.getUploadFromCacheMap location.DumpID = some dump →
    dump.RepositoryID = r.requestArgs.repoID →
    ∃ answer,
      r.GetTargetCommitRangeFromSourceRange dump.Commit (dump.Root ++ location.Path)
        location.Range true = .ok answer

/-! ### The dedup of the dependents phase -/

/-- The location encloses the source position within the visible upload: it has the dump id of
the upload, its path, which is relative to the root of the dump, names the target file of the
upload, and its range contains the target position. -/
def enclosesSource (vu : VisibleUpload) (location : Location) : Prop :=
  location.DumpID = vu.Upload.ID ∧ location.Path = vu.TargetPathWithoutRoot ∧
    rangeContainsPosition location.Range vu.TargetPosition = true

instance (vu : VisibleUpload) (location : Location) : Decidable (enclosesSource vu location) := by
  unfold enclosesSource
  infer_instance

/-- The data loader maps an id to a dump of that id. -/
def UploadsDataLoader.consistent (l : UploadsDataLoader) : Prop :=
  ∀ p ∈ l.uploadsByID, p.2.ID = p.1

instance (l : UploadsDataLoader) : Decidable l.consistent := by
  unfold UploadsDataLoader.consistent
  infer_instance

/-- The contract of the store on the uploads of a search in dependents: a batch of uploads with
references holds none of the ids to ignore, `GetDumpsByIDs` returns dumps of the ids asked for,
and a bulk moniker search returns locations within the given uploads. -/
def Resolver.searchesGivenUploads (r : Resolver) : Prop :=
  (∀ monikers ignoreIDs repositoryID commit limit offset ids recordsScanned totalRecords,
    r.GetUploadIDsWithReferences monikers ignoreIDs repositoryID commit limit offset
      = .ok (ids, recordsScanned, totalRecords) →
    ∀ id ∈ ids, id ∉ ignoreIDs) ∧
  (∀ ids dumps, r.GetDumpsByIDs ids = .ok dumps → ∀ dump ∈ dumps, dump.ID ∈ ids) ∧
  (∀ table ids monikers limit offset locations totalCount,
    r.GetBulkMonikerLocations table ids monikers limit offset = .ok (locations, totalCount) →
    ∀ location ∈ locations, location.DumpID ∈ ids)

namespace Example

/-- A backend with one file `a.go`, no locations, no monikers and no other uploads, in which
every commit is resolvable and translation between commits is the identity. -/
def quiet : Resolver :=
  { GetImplementations := fun _ _ _ _ _ _ => .ok ([], 0)
    GetMonikersByPosition := fun _ _ _ _ => .ok []
    GetPackageInformation := fun _ _ _ => .ok ({ Manager := "", Name := "", Version := "" }, false)
    GetUploadsWithDefinitionsForMonikers := fun _ => .ok []
    GetBulkMonikerLocations := fun _ _ _ _ _ => .ok ([], 0)
    GetUploadIDsWithReferences := fun _ _ _ _ _ _ => .ok ([], 0, 0)
    GetDumpsByIDs := fun _ => .ok []
    GetTargetCommitPositionFromSourcePosition := fun _ pos _ => .ok ("a.go", pos, true)
    GetTargetCommitRangeFromSourceRange := fun _ path rng _ => .ok (path, rng, true)
    AreCommitsResolvable := fun rcs => .ok (rcs.map fun _ => true)
    SubRepoEnabled := false
    FilterActorPath := fun _ _ => .ok true
    requestArgs := { repoID := 1, commit := "c1", path := "a.go" }
    maximumIndexesPerMonikerSearch := 50
    decodeImplementationsCursor := Codec.decode
    encodeImplementationsCursor := Codec.encode }

/-- The upload of the request's repository, indexed at the request's commit. -/
def upload1 : Dump :=
  { ID := 1, RepositoryID := 1, RepositoryName := "r1", Commit := "c1", Root := "" }

/-- An upload of another repository whose commit is unknown to gitserver. -/
def uploadY : Dump :=
  { ID := 2, RepositoryID := 2, RepositoryName := "r2", Commit := "dead", Root := "" }

/-- A range on the given line, from character 0 to character 5. -/
def lineRange (line : Int) : Range :=
  { Start := { Line := line, Character := 0 }, End := { Line := line, Character := 5 } }

/-- A local location in upload 1. -/
def local1 : Location := { DumpID := 1, Path := "a.go", Range := lineRange 7 }

/-- A location in upload Y. -/
def remoteY : Location := { DumpID := 2, Path := "b.go", Range := lineRange 3 }

/-- The request: position 0:0 of `a.go` at commit `c1` of repository 1. -/
def request (limit : Int) : RequestArgs :=
  { RepositoryID := 1, Commit := "c1", Path := "a.go", Line := 0, Character := 0,
    Limit := limit, RawCursor := "" }

/-- The upload location that `Implementations` makes of `local1`. -/
def adjusted1 : UploadLocation :=
  { Dump := upload1, Path := "a.go", TargetCommit := "c1", TargetRange := lineRange 7 }

/-- The upload location that `Implementations` makes of `remoteY`. -/
def adjustedY : UploadLocation :=
  { Dump := uploadY, Path := "b.go", TargetCommit := "dead", TargetRange := lineRange 3 }

/-- The backend `quiet` in which upload 1 has one local location. -/
def withLocal : Resolver :=
  { quiet with
    GetImplementations := fun id _ _ _ limit offset =>
      if id = 1 then .ok (slicePage [local1] limit offset) else .ok ([], 0) }

/-- The implementation moniker attached to the position of the request. -/
def implementationMoniker : MonikerData :=
  { Kind := "implementation", Scheme := "s", Identifier := "i", PackageInformationID := "p" }

/-- The export moniker attached to the position of the request. -/
def exportMoniker : MonikerData :=
  { Kind := "export", Scheme := "s", Identifier := "e", PackageInformationID := "p" }

/-- The package of both monikers. -/
def package : PackageInformationData := { Manager := "m", Name := "n", Version := "v" }

/-- A backend in which upload 1 has one local location and two monikers, upload Y both defines
the implementation moniker and refers to the export moniker, and the commit of Y is unknown to
gitserver. Every location query is answered with the slice of a fixed list and its total
count. -/
def unresolvable : Resolver :=
  { withLocal with
    GetMonikersByPosition := fun id _ _ _ =>
      if id = 1 then .ok [[implementationMoniker, exportMoniker]] else .ok []
    GetPackageInformation := fun _ _ _ => .ok (package, true)
    GetUploadsWithDefinitionsForMonikers := fun ms => if ms = [] then .ok [] else .ok [uploadY]
    AreCommitsResolvable := fun rcs => .ok (rcs.map fun rc => decide (rc.Commit ≠ "dead"))
    GetUploadIDsWithReferences := fun ms _ _ _ _ offset =>
      if ms ≠ [] ∧ offset = 0 then .ok ([2], 1, 1) else .ok ([], 0, 0)
    GetDumpsByIDs := fun ids => .ok (ids.filterMap fun id => if id = 2 then some uploadY else none)
    GetBulkMonikerLocations := fun table ids _ limit offset =>
      if table = "implementations" ∧ 2 ∈ ids then .ok (slicePage [remoteY] limit offset)
      else .ok ([], 0) }

/-- The cursor entry that freezes upload 1 for the request. -/
def frozen1 : CursorToVisibleUpload :=
  { DumpID := 1, TargetPath := "a.go", TargetPosition := { Line := 0, Character := 0 },
    TargetPathWithoutRoot := "a.go" }

/-- The cursor after a first page of one location served by `unresolvable`: the local phase and
the dependencies phase are over, the dependents phase has not started. -/
def afterFirstPage : ImplementationsCursor :=
  { CursorsToVisibleUploads := some [frozen1]
    OrderedImplementationMonikers :=
      some [{ MonikerData := implementationMoniker, PackageInformationData := package }]
    OrderedExportMonikers :=
      some [{ MonikerData := exportMoniker, PackageInformationData := package }]
    Phase := "dependents"
    LocalCursor := { UploadOffset := 1, LocationOffset := 0 }
    RemoteCursor := { UploadBatchIDs := [], UploadOffset := 0, LocationOffset := 0 } }

/-- A cursor of a result stream whose only visible upload is dump 42. -/
def cursor42 : ImplementationsCursor :=
  { Codec.initialCursor with
    CursorsToVisibleUploads := some [{ frozen1 with DumpID := 42 }] }

/-- The backend `withLocal` in which the translation of ranges fails. -/
def translationFails : Resolver :=
  { withLocal with
    GetTargetCommitRangeFromSourceRange := fun _ _ _ _ => .error (.msg "gitserver unavailable") }

/-- An upload of another repository whose commit is known to gitserver. -/
def upload2 : Dump :=
  { ID := 2, RepositoryID := 2, RepositoryName := "r2", Commit := "c2", Root := "" }

/-- An upload of a third repository whose commit is known to gitserver. -/
def uploadX : Dump :=
  { ID := 3, RepositoryID := 3, RepositoryName := "r3", Commit := "c3", Root := "" }

/-- An upload of the request's repository that indexes the directory `sub/`. -/
def rootedUpload : Dump :=
  { ID := 1, RepositoryID := 1, RepositoryName := "r1", Commit := "c1", Root := "sub/" }

/-- The visible upload made of `rootedUpload` for position 3:2 of `sub/a.go`. -/
def rootedVisible : VisibleUpload :=
  { Upload := rootedUpload, TargetPath := "sub/a.go",
    TargetPosition := { Line := 3, Character := 2 }, TargetPathWithoutRoot := "a.go" }

/-- A location of `rootedUpload` in the file `a.go` of its root, which is `sub/a.go` of the
repository, on a range that contains position 3:2. -/
def sourceLocation : Location := { DumpID := 1, Path := "a.go", Range := lineRange 3 }

/-- A backend for a request in `sub/a.go` whose moniker search over upload 1 finds
`sourceLocation`. -/
def rooted : Resolver :=
  { quiet with
    requestArgs := { repoID := 1, commit := "c1", path := "sub/a.go" }
    GetTargetCommitPositionFromSourcePosition := fun _ pos _ => .ok ("sub/a.go", pos, true)
    GetBulkMonikerLocations := fun table ids _ limit offset =>
      if table = "implementations" ∧ 1 ∈ ids then .ok (slicePage [sourceLocation] limit offset)
      else .ok ([], 0) }

/-- A backend with one batch of dependents, upload 2, whose commit cache answers with an error
whenever it is asked about a commit. -/
def commitCheckFails : Resolver :=
  { quiet with
    GetUploadIDsWithReferences := fun _ _ _ _ _ offset =>
      if offset = 0 then .ok ([2], 1, 1) else .ok ([], 0, 1)
    GetDumpsByIDs := fun ids => .ok (ids.filterMap fun id => if id = 2 then some upload2 else none)
    AreCommitsResolvable := fun rcs =>
      if rcs = [] then .ok [] else .error (.msg "gitserver unavailable") }

/-- A backend whose store says that the uploads X and Y define the monikers and whose commit
cache knows the commit of X and not the commit of Y. -/
def definitionsXY : Resolver :=
  { quiet with
    GetUploadsWithDefinitionsForMonikers := fun _ => .ok [uploadX, uploadY]
    AreCommitsResolvable := fun rcs => .ok (rcs.map fun rc => decide (rc.Commit ≠ "dead")) }

/-- A location in upload 2. -/
def remote2 : Location := { DumpID := 2, Path := "b.go", Range := lineRange 3 }

/-- The upload location that `Implementations` makes of `remote2`. -/
def adjusted2 : UploadLocation :=
  { Dump := upload2, Path := "b.go", TargetCommit := "c2", TargetRange := lineRange 3 }

/-- The backend `withLocal` with a store of dependents that always answers with the batch made
of upload 2, zero records scanned and one record in total; upload 2 holds one location. -/
def stalled : Resolver :=
  { withLocal with
    GetUploadIDsWithReferences := fun _ _ _ _ _ _ => .ok ([2], 0, 1)
    GetDumpsByIDs := fun ids => .ok (ids.filterMap fun id => if id = 2 then some upload2 else none)
    GetBulkMonikerLocations := fun table ids _ limit offset =>
      if table = "implementations" ∧ 2 ∈ ids then .ok (slicePage [remote2] limit offset)
      else .ok ([], 0) }

/-- The cursor after a first page of one location served by `stalled`. -/
def stalledCursor : ImplementationsCursor :=
  { CursorsToVisibleUploads := some [frozen1]
    OrderedImplementationMonikers := none
    OrderedExportMonikers := none
    Phase := "dependents"
    LocalCursor := { UploadOffset := 1, LocationOffset := 0 }
    RemoteCursor := { UploadBatchIDs := [], UploadOffset := 0, LocationOffset := 0 } }

/-- The visible upload made of upload 1 for the request. -/
def visible1 : VisibleUpload :=
  { Upload := upload1, TargetPath := "a.go", TargetPosition := { Line := 0, Character := 0 },
    TargetPathWithoutRoot := "a.go" }

/-- The implementation moniker number `i`: its identifier is made of `i` letters. -/
def numbered (i : Nat) : MonikerData :=
  { Kind := "implementation", Scheme := "s", Identifier := ⟨List.replicate i 'x'⟩,
    PackageInformationID := "p" }

/-- A backend in which twelve distinct implementation monikers of one package are attached to
the position of the request. -/
def manyMonikers : Resolver :=
  { quiet with
    GetMonikersByPosition := fun _ _ _ _ => .ok [(List.range 12).map numbered]
    GetPackageInformation := fun _ _ _ => .ok (package, true) }

/-- The backend `withLocal` whose translator finds no equivalent of any range. -/
def untranslatable : Resolver :=
  { withLocal with
    GetTargetCommitRangeFromSourceRange := fun _ _ _ _ =>
      .ok ("", lineRange 0, false) }

/-- The backend `quiet` whose translator maps the source position into commit `c1` only. -/
def partlyVisible : Resolver :=
  { quiet with
    GetTargetCommitPositionFromSourcePosition := fun commit pos _ =>
      .ok ("a.go", pos, decide (commit = "c1")) }

/-- A git-diff service: no hunk between a commit and itself, and between two different commits
one hunk that replaces line 2 by three lines. -/
def gitDiff (first second _path : String) : Except Err (List Hunk) :=
  if first = second then .ok [] else .ok [{ OrigStartLine := 2, OrigLines := 1, NewLines := 3 }]

/-- A second local location in upload 1. -/
def local1b : Location := { DumpID := 1, Path := "a.go", Range := lineRange 9 }

/-- The backend `unresolvable` in which upload 1 has two local locations. -/
def twoLocals : Resolver :=
  { unresolvable with
    GetImplementations := fun id _ _ _ limit offset =>
      if id = 1 then .ok (slicePage [local1, local1b] limit offset) else .ok ([], 0) }

/-- The cursor after a first page of one location served by `twoLocals`: the local phase goes
on at the second location of upload 1 and both moniker arrays have been computed. -/
def afterFirstLocal : ImplementationsCursor :=
  { afterFirstPage with
    Phase := "local"
    LocalCursor := { UploadOffset := 0, LocationOffset := 1 } }

/-- A backend in which two ranges enclose the position: the inner range carries an
implementation moniker `a`, an export moniker, `a` once more and an implementation moniker
without package information; the outer range carries an implementation moniker `b`. -/
def mixedMonikers : Resolver :=
  { quiet with
    GetMonikersByPosition := fun _ _ _ _ =>
      .ok [[numbered 1, exportMoniker, numbered 1, { numbered 3 with PackageInformationID := "" }],
           [numbered 2]]
    GetPackageInformation := fun _ _ _ => .ok (package, true) }

/-- The local location number `i` of upload 1: a range on line `i` of `a.go`. -/
def localAt (i : Nat) : Location := { DumpID := 1, Path := "a.go", Range := lineRange i }

/-- The backend `quiet` in which upload 1 holds the given local locations; every query is
answered with the exact slice and the total count. -/
def paged (locations : List Location) : Resolver :=
  { quiet with
    GetImplementations := fun id _ _ _ limit offset =>
      if id = 1 then .ok (slicePage locations limit offset) else .ok ([], 0) }

/-- The 25 local locations of scenario S2. -/
def twentyFive : List Location := (List.range 25).map localAt

/-- A location whose range encloses the position of the request, in upload 1. -/
def originLocation : Location := { DumpID := 1, Path := "a.go", Range := lineRange 0 }

/-- A second location in upload 2. -/
def remote2b : Location := { DumpID := 2, Path := "b.go", Range := lineRange 8 }

/-- A backend with three candidate uploads of dependents, scanned one at a time: the one at
offset 0 and the one at offset 2 hold no reference, the one at offset 1 is upload 2. The moniker
search over upload 2 finds three locations, the first of which is the source location of the
request. -/
def twoBatches : Resolver :=
  { quiet with
    GetUploadIDsWithReferences := fun _ _ _ _ _ offset =>
      if offset = 1 then .ok ([2], 1, 3) else .ok ([], 1, 3)
    GetDumpsByIDs := fun ids => .ok (ids.filterMap fun id => if id = 2 then some upload2 else none)
    GetBulkMonikerLocations := fun table ids _ limit offset =>
      if table = "implementations" ∧ 2 ∈ ids then
        .ok (slicePage [originLocation, remote2, remote2b] limit offset)
      else .ok ([], 0) }

/-- A cursor in the phase `dependents` whose remote cursor is exhausted. -/
def exhaustedCursor : ImplementationsCursor :=
  { CursorsToVisibleUploads := some [frozen1]
    OrderedImplementationMonikers := some []
    OrderedExportMonikers := some []
    Phase := "dependents"
    LocalCursor := { UploadOffset := 1, LocationOffset := 0 }
    RemoteCursor := { UploadBatchIDs := [], UploadOffset := -1, LocationOffset := 0 } }

/-- The remote cursor at the start of the dependents phase. -/
def freshRemote : RemoteCursor := { UploadBatchIDs := [], UploadOffset := 0, LocationOffset := 0 }

/-- The remote cursor that `twoBatches` leaves after a page of limit 2: the batch holds upload
2, two candidate uploads have been scanned and two locations of the batch have been read. -/
def midBatch : RemoteCursor := { UploadBatchIDs := [2], UploadOffset := 2, LocationOffset := 2 }

/-- The backend `rooted` with one batch of dependents, upload 2, which the store returns unless
it is told to ignore it; the moniker search over upload 2 finds one location of upload 2. -/
def rootedDependents : Resolver :=
  { rooted with
    GetUploadIDsWithReferences := fun _ ignoreIDs _ _ _ offset =>
      if offset = 0 ∧ 2 ∉ ignoreIDs then .ok ([2], 1, 1) else .ok ([], 1, 1)
    GetDumpsByIDs := fun ids => .ok (ids.filterMap fun id => if id = 2 then some upload2 else none)
    GetBulkMonikerLocations := fun table ids _ limit offset =>
      if table = "implementations" ∧ 2 ∈ ids then .ok (slicePage [remote2] limit offset)
      else .ok ([], 0) }

end Example

end Graphql

/-! # The GitHub scenario of `dev/codehost_testing`

`scenario.go` and `user.go`. The testing handle `t`, the GitHub client and the reporter of a
scenario are collaborators: what the methods do to them is recorded as a trace of events. The
actions act on a world of type `W`, which stands for GitHub and for the resources captured by
the closures of the actions. Clock readings and the durations written by the reporter are left
out. -/

namespace CodehostTesting

open Graphql (Err Run)

/-- A line written with `reporter.Writef`, without the duration it may end with. -/
inductive Report where
  | setupApplying (name : String)
  | setupSkipping (name : String)
  | failed
  | success
  | setupComplete
  | teardownApplying (name : String)
  | teardownComplete
deriving DecidableEq, Repr

/-- What the methods of a scenario do to the collaborators, in order: a cleanup function
registered with `t.Cleanup`, a line written with `reporter.Writef`, a call of the apply function
or of the teardown function of the action of the given name, a line logged with `t.Logf`, and a
call of `client.GetUser`. -/
inductive Event where
  | cleanup
  | writef (line : Report)
  | applied (name : String)
  | tornDown (name : String)
  | logf (text : String)
  | getUser (name : String)
deriving DecidableEq, Repr

/-- The Go `error` values that `Apply` and `Teardown` return: the error of an action or of
`errors.New`, or a non-nil `errors.MultiError` with the errors appended to it, in order. -/
inductive Failure where
  | plain (err : Err)
  | multi (errs : List Err)
deriving DecidableEq, Repr

/-- `errors.MultiError` (declared in `lib/errors`) returned as an `error`: the value to which no
error was appended is the nil error. -/
def MultiError.asError : List Err → Option Failure
  | [] => none
  | err :: errs => some (.multi (err :: errs))

/-- `action` represents an action to perform against a codehost: a name and functions to apply
and optionally teardown the action. A function returns its error (`none` is nil) and the world
it leaves. -/
structure Action (W : Type) where
  name : String
  apply : W → Option Err × W
  teardown : Option (W → Option Err × W)

/-- `GithubScenario`: the identifier, the actions added so far and the index of the next action
to apply. -/
structure GithubScenario (W : Type) where
  id : String
  actions : List (Action W)
  appliedActionIdx : Int

/-- A scenario together with the world its actions act on and the trace of what its methods
have done to the collaborators. -/
structure Machine (W : Type) where
  scenario : GithubScenario W
  world : W
  trace : List Event

/-- One more event in the trace. -/
def Machine.record {W : Type} (m : Machine W) (e : Event) : Machine W :=
  { m with trace := m.trace ++ [e] }

/-- `NewGithubScenario` creates a new scenario: it fails when the client cannot be created,
otherwise the scenario has the generated identifier, no actions and the index zero. -/
def NewGithubScenario {W : Type} (client : Except Err Unit) (id : String) :
    Except Err (GithubScenario W) :=
  match client with
  | .error err => .error err
  | .ok _ => .ok { id := id, actions := [], appliedActionIdx := 0 }

/-- `append` adds actions at the end of the list of actions. -/
def GithubScenario.append {W : Type} (s : GithubScenario W) (actions : List (Action W)) :
    GithubScenario W :=
  { s with actions := s.actions ++ actions }

/-- `IsApplied`: `s.appliedActionIdx >= len(s.actions)`. -/
def GithubScenario.IsApplied {W : Type} (s : GithubScenario W) : Bool :=
  decide (s.appliedActionIdx ≥ (s.actions.length : Int))

/-- The constant `failFast` of `Apply`. -/
def GithubScenario.Apply.failFast : Bool := true

/-- The loop of `Apply` over `setup`; `i` is the index of the head of the remaining actions and
`errs` the errors appended so far. -/
def GithubScenario.Apply.loop {W : Type} :
    List (Action W) → Int → List Err → Machine W → Option Failure × Machine W
  | [], _, errs, m => (MultiError.asError errs, m.record (.writef .setupComplete))
  | action :: rest, i, errs, m =>
    if m.scenario.appliedActionIdx ≤ i then
      let m1 := m.record (.writef (.setupApplying action.name))
      let res := action.apply m1.world
      let m2 : Machine W :=
        { scenario :=
            { m1.scenario with appliedActionIdx := m1.scenario.appliedActionIdx + 1 }
          world := res.2
          trace := m1.trace ++ [.applied action.name] }
      match res.1 with
      | some err =>
        let m3 := m2.record (.writef .failed)
        if GithubScenario.Apply.failFast = true then (some (.plain err), m3)
        else GithubScenario.Apply.loop rest (i + 1) (errs ++ [err]) m3
      | none => GithubScenario.Apply.loop rest (i + 1) errs (m2.record (.writef .success))
    else
      GithubScenario.Apply.loop rest (i + 1) errs
        (m.record (.writef (.setupSkipping action.name)))

/-- `Apply` performs all the actions that have been added to the scenario sequentially in the
order they were added, after registering `Teardown` as a cleanup function. Calling it with no
action left to apply returns an error. -/
def GithubScenario.Apply {W : Type} (m : Machine W) : Option Failure × Machine W :=
  let m1 := m.record .cleanup
  if m1.scenario.appliedActionIdx ≥ (m1.scenario.actions.length : Int) then
    (some (.plain (.msg "all actions already applied")), m1)
  else GithubScenario.Apply.loop m1.scenario.actions 0 [] m1

/-- The constant `failFast` of `Teardown`. -/
def GithubScenario.Teardown.failFast : Bool := false

/-- The loop of `Teardown` over the reversed actions, followed by the reset of a negative
index. -/
def GithubScenario.Teardown.loop {W : Type} :
    List (Action W) → List Err → Machine W → Option Failure × Machine W
  | [], errs, m =>
    let m1 : Machine W :=
      if m.scenario.appliedActionIdx < 0 then
        { (m.record (.logf
            "scenario applied action Idx went negative. This is almost certainly a bug")) with
          scenario := { m.scenario with appliedActionIdx := 0 } }
      else m
    (MultiError.asError errs, m1.record (.writef .teardownComplete))
  | action :: rest, errs, m =>
    let m0 : Machine W :=
      { m with
        scenario := { m.scenario with appliedActionIdx := m.scenario.appliedActionIdx - 1 } }
    match action.teardown with
    | none => GithubScenario.Teardown.loop rest errs m0
    | some teardown =>
      let m1 := m0.record (.writef (.teardownApplying action.name))
      let res := teardown m1.world
      let m2 : Machine W :=
        { m1 with world := res.2, trace := m1.trace ++ [.tornDown action.name] }
      match res.1 with
      | some err =>
        let m3 := m2.record (.writef .failed)
        if GithubScenario.Teardown.failFast = true then (some (.plain err), m3)
        else GithubScenario.Teardown.loop rest (errs ++ [err]) m3
      | none => GithubScenario.Teardown.loop rest errs (m2.record (.writef .success))

/-- `Teardown` iterates through the scenario actions in reverse order, calling teardown on each
action; an action with a nil teardown function is skipped, and an error is accumulated. -/
def GithubScenario.Teardown {W : Type} (m : Machine W) : Option Failure × Machine W :=
  GithubScenario.Teardown.loop m.scenario.actions.reverse [] m

/-- `User` represents a GitHub user in the scenario; the scenario it points to is the one of the
machine it is used with. -/
structure User where
  name : String

/-- `get` retrieves the GitHub user with `client.GetUser`. -/
def User.get {W U : Type} (GetUser : String → W → Except Err U × W) (u : User)
    (m : Machine W) : Except Err U × Machine W :=
  let res := GetUser u.name m.world
  (res.1, { m with world := res.2, trace := m.trace ++ [.getUser u.name] })

/-- `Get` returns the GitHub user if the scenario has been applied, otherwise it panics. -/
def User.Get {W U : Type} (GetUser : String → W → Except Err U × W) (u : User)
    (m : Machine W) : Run (Except Err U) × Machine W :=
  if m.scenario.IsApplied = true then
    let res := u.get GetUser m
    (.done res.1, res.2)
  else (.panic, m)

/-! ## What the statements are about -/

/-- The names of the actions whose apply function was called, in the order of the calls. -/
def appliedNames : List Event → List String
  | [] => []
  | .applied name :: rest => name :: appliedNames rest
  | _ :: rest => appliedNames rest

/-- The names of the actions whose teardown function was called, in the order of the calls. -/
def tornDownNames : List Event → List String
  | [] => []
  | .tornDown name :: rest => name :: tornDownNames rest
  | _ :: rest => tornDownNames rest

/-- The actions applied one after the other until the first failure: the names of the actions
whose apply function is called, the error of the failing one if there is one, and the world at
the end. -/
def applyInOrder {W : Type} : List (Action W) → W → List String × Option Err × W
  | [], w => ([], none, w)
  | action :: rest, w =>
    match (action.apply w).1 with
    | some err => ([action.name], some err, (action.apply w).2)
    | none =>
      let later := applyInOrder rest (action.apply w).2
      (action.name :: later.1, later.2.1, later.2.2)

/-- The teardown functions of the actions called one after the other, whatever they return: the
names of the actions that have one, the errors returned, in order, and the world at the end. -/
def teardownAll {W : Type} : List (Action W) → W → List String × List Err × W
  | [], w => ([], [], w)
  | action :: rest, w =>
    match action.teardown with
    | none => teardownAll rest w
    | some teardown =>
      let later := teardownAll rest (teardown w).2
      (action.name :: later.1,
        (match (teardown w).1 with
          | some err => [err]
          | none => []) ++ later.2.1,
        later.2.2)

/-- What a test does with a scenario, one step at a time: it adds actions, calls `Apply` or
calls `Teardown`. -/
inductive Step (W : Type) where
  | addActions (actions : List (Action W))
  | callApply
  | callTeardown

/-- The step is a call of `Teardown`. -/
def Step.isTeardown {W : Type} : Step W → Bool
  | .callTeardown => true
  | _ => false

/-- The machine after one step; the error that `Apply` or `Teardown` returns is dropped. -/
def Step.run {W : Type} : Step W → Machine W → Machine W
  | .addActions actions, m => { m with scenario := m.scenario.append actions }
  | .callApply, m => (GithubScenario.Apply m).2
  | .callTeardown, m => (GithubScenario.Teardown m).2

/-- The machine after the steps, in order. -/
def runSteps {W : Type} : List (Step W) → Machine W → Machine W
  | [], m => m
  | step :: rest, m => runSteps rest (step.run m)

/-- The actions at the positions from `first` up to `last`, the latter excluded. -/
def actionsBetween {W : Type} (actions : List (Action W)) (first last : Int) :
    List (Action W) :=
  (actions.drop first.toNat).take (last - first).toNat

namespace Example

/-- The scenario made by `NewGithubScenario` with the identifier `scn`. -/
def fresh : GithubScenario Unit := { id := "scn", actions := [], appliedActionIdx := 0 }

/-- An action whose apply function fails. -/
def createOrg : Action Unit :=
  { name := "org:create:acme", apply := fun w => (some (.msg "organization exists"), w),
    teardown := none }

/-- An action whose apply and teardown functions succeed. -/
def createUser : Action Unit :=
  { name := "user:create:bob", apply := fun w => (none, w),
    teardown := some fun w => (none, w) }

/-- An action without a teardown function whose apply function succeeds. -/
def createRepo : Action Unit :=
  { name := "repo:create:lib", apply := fun w => (none, w), teardown := none }

/-- An action whose apply function succeeds and whose teardown function fails. -/
def createTeam : Action Unit :=
  { name := "team:create:dev", apply := fun w => (none, w),
    teardown := some fun w => (some (.msg "team in use"), w) }

/-- The machine of a scenario to which a succeeding, a failing and a third action have been
added. -/
def threeActions : Machine Unit :=
  { scenario := ((fresh.append [createUser]).append [createOrg]).append [createRepo],
    world := (), trace := [] }

/-- The machine of a scenario with three actions: the teardown of the first succeeds, the
second has none, the teardown of the third fails. -/
def tornDown : Machine Unit :=
  { scenario := ((fresh.append [createUser]).append [createRepo]).append [createTeam],
    world := (), trace := [] }

/-- The machine of a scenario to which the two actions have been added. -/
def twoActions : Machine Unit :=
  { scenario := (fresh.append [createOrg]).append [createUser], world := (), trace := [] }

/-- A client in which every user exists under the name asked for. -/
def GetUser (name : String) (w : Unit) : Except Err String × Unit := (.ok name, w)

/-- The steps of a test that adds an action, applies the scenario and tears it down. -/
def firstRound : List (Step Unit) :=
  [.addActions [createUser], .callApply, .callTeardown]

/-- The steps of a test that adds a failing action, calls `Apply` twice, adds a third action
and calls `Apply` again. -/
def secondRound : List (Step Unit) :=
  [.addActions [createOrg], .callApply, .callApply, .addActions [createRepo], .callApply]

end Example

end CodehostTesting

namespace Graphql

/-! ## Lemmas about the execution monad -/

theorem RM.bind_done {α β : Type} {x : RM α} {f : α → RM β} {s s' : RState}
    {v : Except Err β} (h : RM.bind x f s = (.done v, s')) :
    (∃ e, x s = (.done (.error e), s') ∧ v = .error e) ∨
      ∃ a s1, x s = (.done (.ok a), s1) ∧ f a s1 = (.done v, s') := by
  unfold RM.bind at h
  split at h
  · next a s1 hx => exact Or.inr ⟨a, s1, hx, h⟩
  · next e s1 hx =>
    simp only [Prod.mk.injEq, Run.done.injEq] at h
    obtain ⟨h1, h2⟩ := h
    subst h1 h2
    exact Or.inl ⟨e, hx, rfl⟩
  · simp at h
  · simp at h

theorem RM.bind_ok {α β : Type} {x : RM α} {f : α → RM β} {s s' : RState} {b : β}
    (h : RM.bind x f s = (.done (.ok b), s')) :
    ∃ a s1, x s = (.done (.ok a), s1) ∧ f a s1 = (.done (.ok b), s') := by
  rcases RM.bind_done h with ⟨e, _, he⟩ | h
  · cases he
  · exact h

theorem RM.bind_of_ok {α β : Type} {x : RM α} {f : α → RM β} {s s1 : RState} {a : α}
    (h : x s = (.done (.ok a), s1)) : RM.bind x f s = f a s1 := by
  unfold RM.bind; rw [h]

theorem RM.bind_of_error {α β : Type} {x : RM α} {f : α → RM β} {s s1 : RState} {e : Err}
    (h : x s = (.done (.error e), s1)) : RM.bind x f s = (.done (.error e), s1) := by
  unfold RM.bind; rw [h]

theorem RM.wrapErr_ok {α : Type} {x : RM α} {t : String} {s s' : RState} {a : α}
    (h : RM.wrapErr x t s = (.done (.ok a), s')) : x s = (.done (.ok a), s') := by
  unfold RM.wrapErr at h
  split at h
  · simp at h
  · exact h

theorem RM.call_ok {α : Type} {c : Call} {ans : Except Err α} {s s' : RState} {a : α}
    (h : RM.call c ans s = (.done (.ok a), s')) :
    ans = .ok a ∧ s' = { s with log := s.log ++ [c] } := by
  unfold RM.call at h
  simp only [Prod.mk.injEq, Run.done.injEq] at h
  exact ⟨h.1, h.2.symm⟩

theorem RM.ret_ok {α : Type} {a b : α} {s s' : RState}
    (h : RM.ret a s = (.done (.ok b), s')) : b = a ∧ s' = s := by
  unfold RM.ret at h
  simp only [Prod.mk.injEq, Run.done.injEq, Except.ok.injEq] at h
  exact ⟨h.1.symm, h.2.symm⟩

theorem Implementations.orReturn_done {α : Type} {x : RM α}
    {k : α → RState → Run ImplementationsResult × RState} {s s' : RState}
    {res : ImplementationsResult} (h : Implementations.orReturn x k s = (.done res, s')) :
    (∃ e, x s = (.done (.error e), s') ∧
        res = { locations := none, nextCursor := "", err := some e }) ∨
      ∃ a s1, x s = (.done (.ok a), s1) ∧ k a s1 = (.done res, s') := by
  unfold Implementations.orReturn at h
  split at h
  · next a s1 hx => exact Or.inr ⟨a, s1, hx, h⟩
  · next e s1 hx =>
    simp only [Prod.mk.injEq, Run.done.injEq] at h
    obtain ⟨h1, h2⟩ := h
    subst h1 h2
    exact Or.inl ⟨e, hx, rfl⟩
  · simp at h
  · simp at h

/-! ## The shape of a returning request -/

/-- What a returning `Implementations` call went through. -/
theorem Implementations_inv {r : Resolver} {args : RequestArgs} {fuel : Nat} {s s' : RState}
    {res : ImplementationsResult} (h : Implementations r args fuel s = (.done res, s')) :
    (∃ e, r.decodeImplementationsCursor args.RawCursor = .error e ∧ s' = s ∧
        res.locations = none ∧ res.nextCursor = "" ∧ res.err ≠ none) ∨
    ∃ c0, r.decodeImplementationsCursor args.RawCursor = .ok c0 ∧
      ((∃ e, Implementations.collect r args fuel c0 s = (.done (.error e), s') ∧
          res = { locations := none, nextCursor := "", err := some e }) ∨
       ∃ cursor locations s1,
        Implementations.collect r args fuel c0 s = (.done (.ok (cursor, locations)), s1) ∧
        ((∃ e, adjustLocations r locations s1 = (.done (.error e), s') ∧
            res = { locations := none, nextCursor := "", err := some e }) ∨
         ∃ adjusted, adjustLocations r locations s1 = (.done (.ok adjusted), s') ∧
            res = { locations := some adjusted,
                    nextCursor :=
                      if cursor.Phase ≠ "done" then r.encodeImplementationsCursor cursor else "",
                    err := none })) := by
  unfold Implementations at h
  split at h
  · next err hdec =>
    left
    simp only [Prod.mk.injEq, Run.done.injEq] at h
    refine ⟨err, hdec, h.2.symm, ?_⟩
    rw [← h.1]
    simp
  · next c0 hdec =>
    right
    refine ⟨c0, hdec, ?_⟩
    rcases Implementations.orReturn_done h with ⟨e, hcol, hres⟩ | ⟨collected, s1, hcol, h1⟩
    · exact Or.inl ⟨e, hcol, hres⟩
    · right
      refine ⟨collected.1, collected.2, s1, hcol, ?_⟩
      rcases Implementations.orReturn_done h1 with ⟨e, hadj, hres⟩ | ⟨adjusted, s2, hadj, h2⟩
      · exact Or.inl ⟨e, hadj, hres⟩
      · right
        simp only [Prod.mk.injEq, Run.done.injEq] at h2
        refine ⟨adjusted, ?_, h2.1.symm⟩
        rw [hadj, h2.2]

/-- The restoring loop fails with `ErrConcurrentModification` as soon as an entry names a dump
that the data loader does not hold. -/
theorem getVisibleUploadsFromCursor.restore_missing (dl : UploadsDataLoader)
    (cs : List CursorToVisibleUpload) (acc : List VisibleUpload)
    (h : ∃ u ∈ cs, dl.getUploadFromCacheMap u.DumpID = none) :
    getVisibleUploadsFromCursor.restore dl cs acc = .error ErrConcurrentModification := by
  induction cs generalizing acc with
  | nil => simp at h
  | cons c rest ih =>
    unfold getVisibleUploadsFromCursor.restore
    cases hc : dl.getUploadFromCacheMap c.DumpID with
    | none => rfl
    | some upload =>
      simp only
      apply ih
      obtain ⟨u, hu, hnone⟩ := h
      rcases List.mem_cons.mp hu with rfl | hmem
      · rw [hc] at hnone; cases hnone
      · exact ⟨u, hmem, hnone⟩

/-- C3. Concurrent modification: when the decoded cursor has a populated list of visible uploads
and some entry names a dump that is absent from the data loader, `Implementations` returns
`ErrConcurrentModification` with no locations and an empty next cursor, and leaves the state as
it was: no collaborator has been called, in particular no moniker or location query was made. -/
theorem implementations_concurrent_modification (r : Resolver) (args : RequestArgs) (fuel : Nat)
    (s : RState) (c0 : ImplementationsCursor) (cs : List CursorToVisibleUpload)
    (hdec : r.decodeImplementationsCursor args.RawCursor = .ok c0)
    (hcs : c0.CursorsToVisibleUploads = some cs)
    (hmissing : ∃ u ∈ cs, s.dataLoader.getUploadFromCacheMap u.DumpID = none) :
    Implementations r args fuel s =
      (.done { locations := none, nextCursor := "", err := some ErrConcurrentModification }, s) := by
  have hvis : getVisibleUploadsFromCursor r args.Line args.Character
      c0.CursorsToVisibleUploads s = (.done (.error ErrConcurrentModification), s) := by
    rw [hcs]
    unfold getVisibleUploadsFromCursor
    simp only [RM.bind, RM.getLoader]
    rw [getVisibleUploadsFromCursor.restore_missing _ _ _ hmissing]
    rfl
  have hcol : Implementations.collect r args fuel c0 s
      = (.done (.error ErrConcurrentModification), s) := by
    unfold Implementations.collect
    exact RM.bind_of_error hvis
  unfold Implementations
  rw [hdec]
  simp only [Implementations.orReturn, hcol]

/-- C4. Emit rule: a successful `Implementations` call returns the empty string as next cursor
exactly when the phase of the cursor is `done` after the phase machine has run; otherwise it
returns the encoding of that cursor, whose phase is not `done`. (The encoder never produces the
empty string.) -/
theorem implementations_emit_rule (r : Resolver) (args : RequestArgs) (fuel : Nat) (s : RState)
    (res : ImplementationsResult)
    (hne : ∀ c, r.encodeImplementationsCursor c ≠ "")
    (h : (Implementations r args fuel s).1 = .done res) (hok : res.err = none) :
    ∃ c0 cursor locations s1,
      r.decodeImplementationsCursor args.RawCursor = .ok c0 ∧
      Implementations.collect r args fuel c0 s = (.done (.ok (cursor, locations)), s1) ∧
      (res.nextCursor = "" ↔ cursor.Phase = "done") ∧
      (cursor.Phase ≠ "done" → res.nextCursor = r.encodeImplementationsCursor cursor) := by
  have h' : Implementations r args fuel s = (.done res, (Implementations r args fuel s).2) :=
    Prod.ext h rfl
  rcases Implementations_inv h' with ⟨e, _, _, _, _, herr⟩ | ⟨c0, hdec, hrest⟩
  · exact absurd hok herr
  · rcases hrest with ⟨e, _, hres⟩ | ⟨cursor, locations, s1, hcol, hrest⟩
    · rw [hres] at hok; cases hok
    · rcases hrest with ⟨e, _, hres⟩ | ⟨adjusted, _, hres⟩
      · rw [hres] at hok; cases hok
      · refine ⟨c0, cursor, locations, s1, hdec, hcol, ?_, ?_⟩
        · rw [hres]
          by_cases hp : cursor.Phase = "done"
          · simp [hp]
          · simp [hp, hne]
        · intro hp
          rw [hres]
          simp [hp]

/-- C7. Partial results are discarded on error: whenever `Implementations` returns a non-nil
error, the returned location list is nil and the returned next cursor is the empty string. -/
theorem implementations_error_discards_results (r : Resolver) (args : RequestArgs) (fuel : Nat)
    (s : RState) (res : ImplementationsResult)
    (h : (Implementations r args fuel s).1 = .done res) (herr : res.err ≠ none) :
    res.locations = none ∧ res.nextCursor = "" := by
  have h' : Implementations r args fuel s = (.done res, (Implementations r args fuel s).2) :=
    Prod.ext h rfl
  rcases Implementations_inv h' with ⟨e, _, _, h1, h2, _⟩ | ⟨c0, _, hrest⟩
  · exact ⟨h1, h2⟩
  · rcases hrest with ⟨e, _, hres⟩ | ⟨cursor, locations, s1, _, hrest⟩
    · rw [hres]; exact ⟨rfl, rfl⟩
    · rcases hrest with ⟨e, _, hres⟩ | ⟨adjusted, _, hres⟩
      · rw [hres]; exact ⟨rfl, rfl⟩
      · rw [hres] at herr; exact absurd rfl herr

/-! ## Witnesses on concrete backends -/

theorem Codec.encode_ne_empty (c : ImplementationsCursor) : Codec.encode c ≠ "" := by
  intro h
  have h1 := congrArg String.data h
  simp [Codec.encode] at h1

/-- Witness of C3: the cursor names dump 42, which the data loader does not hold. -/
theorem implementations_concurrent_modification_witness :
    Implementations Example.quiet
        { Example.request 10 with RawCursor := Codec.encode Example.cursor42 } 5
        (newRequestState [Example.upload1]) =
      (.done { locations := none, nextCursor := "", err := some ErrConcurrentModification },
        newRequestState [Example.upload1]) :=
  implementations_concurrent_modification Example.quiet _ 5 _ Example.cursor42
    [{ Example.frozen1 with DumpID := 42 }] (by decide!) rfl (by decide!)

/-- Witness of C4: a first page of one location ends in the dependents phase and carries the
encoded cursor. -/
theorem implementations_emit_rule_witness :
    ∃ c0 cursor locations s1,
      Example.unresolvable.decodeImplementationsCursor (Example.request 1).RawCursor = .ok c0 ∧
      Implementations.collect Example.unresolvable (Example.request 1) 5 c0
        (newRequestState [Example.upload1]) = (.done (.ok (cursor, locations)), s1) ∧
      (Codec.encode Example.afterFirstPage = "" ↔ cursor.Phase = "done") ∧
      (cursor.Phase ≠ "done" →
        Codec.encode Example.afterFirstPage = Codec.encode cursor) :=
  implementations_emit_rule Example.unresolvable (Example.request 1) 5
    (newRequestState [Example.upload1])
    { locations := some [Example.adjusted1],
      nextCursor := Codec.encode Example.afterFirstPage, err := none }
    Codec.encode_ne_empty (by decide!) rfl

/-- Witness of C7: the local location has been collected when the translation of its range
fails; the request returns the error, no locations and an empty cursor. -/
theorem implementations_error_discards_results_witness :
    (Implementations Example.translationFails (Example.request 10) 5
        (newRequestState [Example.upload1])).1 =
      .done { locations := none, nextCursor := "",
              err := some (.wrap (.msg "gitserver unavailable")
                "gitTreeTranslator.GetTargetCommitRangeFromSourceRange") } ∧
    ((none : Option (List UploadLocation)) = none ∧ "" = "") :=
  ⟨by decide!,
   implementations_error_discards_results Example.translationFails (Example.request 10) 5
    (newRequestState [Example.upload1])
    { locations := none, nextCursor := "",
      err := some (.wrap (.msg "gitserver unavailable")
        "gitTreeTranslator.GetTargetCommitRangeFromSourceRange") }
    (by decide!) (by decide)⟩

/-! ## Where the code departs from the specification -/

/-- C1. Pagination differs from a single request on the backend `Example.unresolvable`, whose
store answers every location query with a slice of a fixed list and its total count. Read with
page size 1 the result stream is the local location alone: the second page hydrates upload Y,
finds its commit unknown and searches no upload. A single request with limit 10 also returns the
location in Y: the dependencies phase has put Y in the data loader before the check of its
commit, so the dependents phase takes Y from the loader and searches it. -/
theorem pagination_differs_from_single_request :
    paginate Example.unresolvable [Example.upload1] (Example.request 1) 5 5 ""
      = some [Example.adjusted1] ∧
    paginate Example.unresolvable [Example.upload1] (Example.request 10) 5 5 ""
      = some [Example.adjusted1, Example.adjustedY] ∧
    (Implementations Example.unresolvable (Example.request 10) 5
        (newRequestState [Example.upload1])).1
      = .done { locations := some [Example.adjusted1, Example.adjustedY], nextCursor := "",
                err := none } := by
  decide!

/-- The dedup filter misses a visible upload whose dump has a non-empty root: `isSourceLocation`
compares the path of the location, which is relative to the root of the dump, with `TargetPath`,
which includes the root, so it is false of a location of the upload that encloses the source
position. -/
theorem isSourceLocation_misses_rooted_upload :
    (getVisibleUploads Example.rooted 3 2 (newRequestState [Example.rootedUpload])).1
      = .done (.ok [Example.rootedVisible]) ∧
    isSourceLocation [Example.rootedVisible] Example.sourceLocation = false ∧
    enclosesSource Example.rootedVisible Example.sourceLocation := by
  decide!

/-- C6. A failure of the commit cache while a dependents batch is hydrated is not propagated:
the commit cache of `Example.commitCheckFails` answers the check of upload 2 with an error,
`getUploadsByIDs` returns `nil, nil`, and `Implementations` returns a result with a nil
error. -/
theorem commit_cache_failure_is_swallowed :
    Example.commitCheckFails.AreCommitsResolvable [{ RepositoryID := 2, Commit := "c2" }]
      = .error (.msg "gitserver unavailable") ∧
    Call.AreCommitsResolvable [{ RepositoryID := 2, Commit := "c2" }] ∈
      (Implementations Example.commitCheckFails (Example.request 10) 5
        (newRequestState [Example.upload1])).2.log ∧
    (Implementations Example.commitCheckFails (Example.request 10) 5
        (newRequestState [Example.upload1])).1
      = .done { locations := some [], nextCursor := "", err := none } := by
  decide!

/-- C8. Scenario S6: the store returns the dumps X and Y and the commit cache reports
`[true, false]`. `GetUploadsWithDefinitionsForMonikers` returns X alone, and the data loader
holds Y after the call: the dumps are stored in the loader before the unresolvable ones are
removed. -/
theorem unresolvable_dump_stays_in_loader :
    Example.definitionsXY.AreCommitsResolvable
        [{ RepositoryID := 3, Commit := "c3" }, { RepositoryID := 2, Commit := "dead" }]
      = .ok [true, false] ∧
    (GetUploadsWithDefinitionsForMonikers Example.definitionsXY []
        (newRequestState [Example.upload1])).1 = .done (.ok [Example.uploadX]) ∧
    (GetUploadsWithDefinitionsForMonikers Example.definitionsXY []
        (newRequestState [Example.upload1])).2.dataLoader.getUploadFromCacheMap 2
      = some Example.uploadY := by
  decide!

/-! ## Definition uploads -/

theorem removeUploadsWithUnknownCommits.filter_eq (uploads : List Dump) (flags : List Bool)
    (hlen : uploads.length ≤ flags.length) :
    removeUploadsWithUnknownCommits.filter uploads flags
      = .done (resolvableDumps uploads flags) := by
  induction uploads generalizing flags with
  | nil => simp [removeUploadsWithUnknownCommits.filter, resolvableDumps]
  | cons u rest ih =>
    cases flags with
    | nil => simp at hlen
    | cons e es =>
      have hlen1 : rest.length ≤ es.length := by simpa using hlen
      unfold removeUploadsWithUnknownCommits.filter
      rw [ih es hlen1]
      cases e <;> simp [resolvableDumps, List.filter_cons]

/-- C9. `GetUploadsWithDefinitionsForMonikers` returns exactly the sub-sequence of the dumps of
the store whose commit the commit cache reports resolvable, in the order of the store; and the
dependencies phase issues its definitions query for the ids of those dumps only. -/
theorem definition_uploads_are_the_resolvable_ones (r : Resolver)
    (ms : List QualifiedMonikerData) (s : RState) (uploads : List Dump) (flags : List Bool)
    (hstore : r.GetUploadsWithDefinitionsForMonikers ms = .ok uploads)
    (hcache : r.AreCommitsResolvable
        (uploads.map fun u => { RepositoryID := u.RepositoryID, Commit := u.Commit })
      = .ok flags)
    (hlen : flags.length = uploads.length) :
    (GetUploadsWithDefinitionsForMonikers r ms s).1
      = .done (.ok (resolvableDumps uploads flags)) ∧
    ∀ (cursor : ImplementationsCursor) (locations : List Location),
      cursor.OrderedImplementationMonikers.getD [] = ms →
      (Implementations.dependenciesPhase r cursor locations s).2.log
        = s.log ++
          [Call.GetUploadsWithDefinitionsForMonikers ms,
           Call.AreCommitsResolvable
             (uploads.map fun u => { RepositoryID := u.RepositoryID, Commit := u.Commit }),
           Call.GetBulkMonikerLocations "definitions"
             ((resolvableDumps uploads flags).map fun u => u.ID)
             (ms.map fun m => m.MonikerData) DefinitionsLimit 0] := by
  have hfil := removeUploadsWithUnknownCommits.filter_eq uploads flags (le_of_eq hlen.symm)
  have hget : GetUploadsWithDefinitionsForMonikers r ms s
      = (.done (.ok (resolvableDumps uploads flags)),
          { dataLoader := s.dataLoader.setUploadInCacheMap uploads,
            log := s.log ++ [Call.GetUploadsWithDefinitionsForMonikers ms,
              Call.AreCommitsResolvable
                (uploads.map fun u => { RepositoryID := u.RepositoryID, Commit := u.Commit })] }) := by
    simp [GetUploadsWithDefinitionsForMonikers, RM.bind, RM.wrapErr, RM.call, RM.getLoader,
      RM.setLoader, removeUploadsWithUnknownCommits, hstore, hcache, hfil]
  refine ⟨by rw [hget], ?_⟩
  intro cursor locations hms
  unfold Implementations.dependenciesPhase
  rw [hms, RM.bind_of_ok hget]
  unfold getBulkMonikerLocations
  cases hb : r.GetBulkMonikerLocations "definitions"
      ((resolvableDumps uploads flags).map fun u => u.ID) (ms.map fun m => m.MonikerData)
      DefinitionsLimit 0 <;>
    simp [RM.bind, RM.wrapErr, RM.call, RM.ret, hb]

/-! ## The moniker cap -/

theorem sliceLen_add_le (set : QualifiedMonikerSet) (m : QualifiedMonikerData) :
    sliceLen (set.add m).monikers ≤ sliceLen set.monikers + 1 := by
  unfold QualifiedMonikerSet.add
  split
  · omega
  · cases hm : set.monikers <;> simp [sliceLen, hm]

theorem getOrderedMonikers.monikersLoop_cap (r : Resolver) (vu : VisibleUpload)
    (kinds : List String) (ms : List MonikerData) (set : QualifiedMonikerSet) (s s' : RState)
    (res : QualifiedMonikerSet × Bool)
    (hset : sliceLen set.monikers < monikerLimit)
    (h : getOrderedMonikers.monikersLoop r vu kinds ms set s = (.done (.ok res), s')) :
    sliceLen res.1.monikers ≤ monikerLimit ∧
      (res.2 = false → sliceLen res.1.monikers < monikerLimit) := by
  induction ms generalizing set s with
  | nil =>
    unfold getOrderedMonikers.monikersLoop at h
    obtain ⟨rfl, -⟩ := RM.ret_ok h
    exact ⟨le_of_lt hset, fun _ => hset⟩
  | cons m rest ih =>
    unfold getOrderedMonikers.monikersLoop at h
    split at h
    · exact ih set s hset h
    · obtain ⟨a, s1, -, h1⟩ := RM.bind_ok h
      simp only at h1
      split at h1
      · next hge =>
        obtain ⟨rfl, -⟩ := RM.ret_ok h1
        have := sliceLen_add_le set { MonikerData := m, PackageInformationData := a.1 }
        simp only [monikerLimit] at hset hge ⊢
        refine ⟨by omega, fun hf => by simp at hf⟩
      · next hlt =>
        exact ih _ s1 (by simpa using hlt) h1

theorem getOrderedMonikers.rangesLoop_cap (r : Resolver) (vu : VisibleUpload)
    (kinds : List String) (rs : List (List MonikerData)) (set : QualifiedMonikerSet)
    (s s' : RState) (res : QualifiedMonikerSet × Bool)
    (hset : sliceLen set.monikers < monikerLimit)
    (h : getOrderedMonikers.rangesLoop r vu kinds rs set s = (.done (.ok res), s')) :
    sliceLen res.1.monikers ≤ monikerLimit ∧
      (res.2 = false → sliceLen res.1.monikers < monikerLimit) := by
  induction rs generalizing set s with
  | nil =>
    unfold getOrderedMonikers.rangesLoop at h
    obtain ⟨rfl, -⟩ := RM.ret_ok h
    exact ⟨le_of_lt hset, fun _ => hset⟩
  | cons ms rest ih =>
    unfold getOrderedMonikers.rangesLoop at h
    obtain ⟨a, s1, h0, h1⟩ := RM.bind_ok h
    have ha := getOrderedMonikers.monikersLoop_cap r vu kinds ms set s s1 a hset h0
    split at h1
    · next ht =>
      obtain ⟨rfl, -⟩ := RM.ret_ok h1
      exact ⟨ha.1, fun hf => by rw [ht] at hf; cases hf⟩
    · next hf =>
      exact ih a.1 s1 (ha.2 (by simpa using hf)) h1

theorem getOrderedMonikers.uploadsLoop_cap (r : Resolver) (kinds : List String)
    (vus : List VisibleUpload) (set : QualifiedMonikerSet) (s s' : RState)
    (res : QualifiedMonikerSet × Bool)
    (hset : sliceLen set.monikers < monikerLimit)
    (h : getOrderedMonikers.uploadsLoop r kinds vus set s = (.done (.ok res), s')) :
    sliceLen res.1.monikers ≤ monikerLimit ∧
      (res.2 = false → sliceLen res.1.monikers < monikerLimit) := by
  induction vus generalizing set s with
  | nil =>
    unfold getOrderedMonikers.uploadsLoop at h
    obtain ⟨rfl, -⟩ := RM.ret_ok h
    exact ⟨le_of_lt hset, fun _ => hset⟩
  | cons vu rest ih =>
    unfold getOrderedMonikers.uploadsLoop at h
    obtain ⟨rangeMonikers, s1, -, h1⟩ := RM.bind_ok h
    obtain ⟨a, s2, h2, h3⟩ := RM.bind_ok h1
    have ha := getOrderedMonikers.rangesLoop_cap r vu kinds rangeMonikers set s1 s2 a hset h2
    split at h3
    · next ht =>
      obtain ⟨rfl, -⟩ := RM.ret_ok h3
      exact ⟨ha.1, fun hf => by rw [ht] at hf; cases hf⟩
    · next hf =>
      exact ih a.1 s2 (ha.2 (by simpa using hf)) h3

theorem getOrderedMonikers_cap {r : Resolver} {vus : List VisibleUpload} {kinds : List String}
    {s s' : RState} {ms : Option (List QualifiedMonikerData)}
    (h : getOrderedMonikers r vus kinds s = (.done (.ok ms), s')) :
    sliceLen ms ≤ monikerLimit := by
  unfold getOrderedMonikers at h
  obtain ⟨a, s1, h0, h1⟩ := RM.bind_ok h
  obtain ⟨rfl, -⟩ := RM.ret_ok h1
  exact (getOrderedMonikers.uploadsLoop_cap r kinds vus newQualifiedMonikerSet s s1 a
    (by decide) h0).1

/-! ## Progress of the cursor -/

theorem getPageLocalLocations.loop_after
    (getLocations : Int → String → Int → Int → Int → Int → RM (List Location × Int))
    (limit : Int) (vus : List VisibleUpload) (i : Int) (cur : LocalCursor)
    (all : List Location) (s s' : RState) (res : List Location × LocalCursor)
    (h : getPageLocalLocations.loop getLocations limit vus i cur all s = (.done (.ok res), s')) :
    all.length ≤ res.1.length ∧ cur.after res.2 (all.length < res.1.length) := by
  induction vus generalizing i cur all s with
  | nil =>
    unfold getPageLocalLocations.loop at h
    obtain ⟨rfl, -⟩ := RM.ret_ok h
    exact ⟨le_refl _, Or.inr ⟨rfl, le_refl _, fun hlt => absurd hlt (lt_irrefl _)⟩⟩
  | cons vu rest ih =>
    unfold getPageLocalLocations.loop at h
    split at h
    · obtain ⟨rfl, -⟩ := RM.ret_ok h
      exact ⟨le_refl _, Or.inr ⟨rfl, le_refl _, fun hlt => absurd hlt (lt_irrefl _)⟩⟩
    · split at h
      · exact ih _ _ _ _ h
      · obtain ⟨a, s1, -, h1⟩ := RM.bind_ok h
        have := ih _ _ _ _ h1
        obtain ⟨hlen, hafter⟩ := this
        simp only [List.length_append] at hlen hafter
        refine ⟨by omega, ?_⟩
        unfold LocalCursor.after at hafter ⊢
        split at hafter
        · next hge =>
          simp only at hafter
          left
          rcases hafter with h2 | ⟨h2, -, -⟩ <;> omega
        · next hlt =>
          simp only at hafter
          rcases hafter with h2 | ⟨h2, h3, h4⟩
          · left; exact h2
          · right
            refine ⟨h2, by omega, fun hg => ?_⟩
            by_cases hn : a.1.length = 0
            · have := h4 (by omega)
              omega
            · omega

theorem getPageLocalLocations_after
    {getLocations : Int → String → Int → Int → Int → Int → RM (List Location × Int)}
    {vus : List VisibleUpload} {cur : LocalCursor} {limit : Int} {s s' : RState}
    {res : List Location × Bool × LocalCursor}
    (h : getPageLocalLocations getLocations vus cur limit s = (.done (.ok res), s')) :
    cur.after res.2.2 (0 < res.1.length) := by
  unfold getPageLocalLocations at h
  obtain ⟨a, s1, h0, h1⟩ := RM.bind_ok h
  obtain ⟨rfl, -⟩ := RM.ret_ok h1
  have := (getPageLocalLocations.loop_after _ _ _ _ _ _ _ _ _ h0).2
  simpa using this

theorem Implementations.localPhase_inv (r : Resolver) (args : RequestArgs)
    (vus : List VisibleUpload) (fuel : Nat) (c : ImplementationsCursor) (locs : List Location)
    (s s' : RState) (res : ImplementationsCursor × List Location)
    (h : Implementations.localPhase r args vus fuel c locs s = (.done (.ok res), s')) :
    c.sameArrays res.1 ∧ res.1.RemoteCursor = c.RemoteCursor ∧ locs.length ≤ res.2.length ∧
      (res.1.Phase = "dependencies" ∨
        (res.1.Phase = c.Phase ∧ args.Limit ≤ res.2.length ∧
          c.LocalCursor.after res.1.LocalCursor (locs.length < res.2.length))) := by
  induction fuel generalizing c locs s with
  | zero =>
    unfold Implementations.localPhase at h
    split at h
    · simp at h
    · next hc =>
      obtain ⟨rfl, -⟩ := RM.ret_ok h
      exact ⟨⟨rfl, rfl, rfl⟩, rfl, le_refl _, Or.inr ⟨rfl, by simpa using hc,
        Or.inr ⟨rfl, le_refl _, fun hlt => absurd hlt (lt_irrefl _)⟩⟩⟩
  | succ fuel ih =>
    unfold Implementations.localPhase at h
    split at h
    · obtain ⟨a, s1, h0, h1⟩ := RM.bind_ok h
      have haft := getPageLocalLocations_after h0
      simp only at h1
      split at h1
      · obtain ⟨rfl, -⟩ := RM.ret_ok h1
        exact ⟨⟨rfl, rfl, rfl⟩, rfl, by simp, Or.inl rfl⟩
      · obtain ⟨hsame, hrem, hlen, hph⟩ := ih _ _ _ h1
        simp only [List.length_append] at hlen hph
        refine ⟨hsame, hrem, by omega, ?_⟩
        rcases hph with hph | ⟨hph, hlim, haft2⟩
        · exact Or.inl hph
        · refine Or.inr ⟨hph, hlim, ?_⟩
          unfold LocalCursor.after at haft haft2 ⊢
          try simp only at haft2
          rcases haft with h2 | ⟨h2, h3, h4⟩
          · left
            rcases haft2 with h5 | ⟨h5, -, -⟩ <;> omega
          · rcases haft2 with h5 | ⟨h5, h6, h7⟩
            · left; omega
            · right
              refine ⟨by omega, by omega, fun hg => ?_⟩
              by_cases hn : a.1.length = 0
              · have := h7 (by omega)
                omega
              · have := h4 (by omega)
                omega
    · next hc =>
      obtain ⟨rfl, -⟩ := RM.ret_ok h
      exact ⟨⟨rfl, rfl, rfl⟩, rfl, le_refl _, Or.inr ⟨rfl, by simpa using hc,
        Or.inr ⟨rfl, le_refl _, fun hlt => absurd hlt (lt_irrefl _)⟩⟩⟩

theorem Implementations.dependenciesPhase_inv (r : Resolver) (c : ImplementationsCursor)
    (locs : List Location) (s s' : RState) (res : ImplementationsCursor × List Location)
    (h : Implementations.dependenciesPhase r c locs s = (.done (.ok res), s')) :
    c.sameArrays res.1 ∧ res.1.RemoteCursor = c.RemoteCursor ∧
      res.1.LocalCursor = c.LocalCursor ∧ res.1.Phase = "dependents" := by
  unfold Implementations.dependenciesPhase at h
  obtain ⟨uploads, s1, -, h1⟩ := RM.bind_ok h
  obtain ⟨a, s2, -, h2⟩ := RM.bind_ok h1
  obtain ⟨rfl, -⟩ := RM.ret_ok h2
  exact ⟨⟨rfl, rfl, rfl⟩, rfl, rfl, rfl⟩

theorem getPageRemoteLocations.nextBatch_inv (r : Resolver) (vus : List VisibleUpload)
    (ms : List QualifiedMonikerData) (hscan : r.scansForward) (fuel : Nat) (c : RemoteCursor)
    (s s' : RState) (res : Bool × RemoteCursor)
    (h : getPageRemoteLocations.nextBatch r vus ms fuel c s = (.done (.ok res), s')) :
    res.2.LocationOffset = c.LocationOffset ∧
      (res.1 = false → res.2.UploadBatchIDs = [] ∧ res.2.UploadOffset < 0) ∧
      (res.1 = true → res.2.UploadBatchIDs ≠ []) ∧
      (res.2 = c ∨
        (c.UploadBatchIDs = [] ∧ 0 ≤ c.UploadOffset ∧
          (res.2.UploadOffset = -1 ∨
            (c.UploadOffset ≤ res.2.UploadOffset ∧
              (res.2.UploadBatchIDs ≠ [] → c.UploadOffset < res.2.UploadOffset))))) := by
  induction fuel generalizing c s with
  | zero =>
    unfold getPageRemoteLocations.nextBatch at h
    split at h
    · next hb =>
      split at h
      · next hu =>
        obtain ⟨rfl, -⟩ := RM.ret_ok h
        refine ⟨rfl, fun _ => ⟨List.length_eq_zero.mp hb, hu⟩, fun hf => ?_, Or.inl rfl⟩
        simp at hf
      · simp at h
    · next hb =>
      obtain ⟨rfl, -⟩ := RM.ret_ok h
      refine ⟨rfl, fun hf => ?_, fun _ hnil => hb ?_, Or.inl rfl⟩
      · simp at hf
      · simp only at hnil
        simp [hnil]
  | succ fuel ih =>
    unfold getPageRemoteLocations.nextBatch at h
    split at h
    · next hb =>
      split at h
      · next hu =>
        obtain ⟨rfl, -⟩ := RM.ret_ok h
        refine ⟨rfl, fun _ => ⟨List.length_eq_zero.mp hb, hu⟩, fun hf => ?_, Or.inl rfl⟩
        simp at hf
      · next hu =>
        obtain ⟨a, s1, h0, h1⟩ := RM.bind_ok h
        obtain ⟨hans, -⟩ := RM.call_ok h0
        have hsc := hscan _ _ _ _ _ _ a.1 a.2.1 a.2.2 hans
        simp only at h1
        by_cases hge : c.UploadOffset + a.2.1 ≥ a.2.2
        · simp only [hge, ↓reduceIte] at h1
          obtain ⟨hL, hfalse, htrue, hrel⟩ := ih _ _ h1
          refine ⟨hL, hfalse, htrue, Or.inr ⟨List.length_eq_zero.mp hb, by omega, ?_⟩⟩
          rcases hrel with hrel | ⟨-, hU2, -⟩
          · left; rw [hrel]
          · simp at hU2
        · simp only [hge, ↓reduceIte] at h1
          obtain ⟨hL, hfalse, htrue, hrel⟩ := ih _ _ h1
          refine ⟨hL, hfalse, htrue, Or.inr ⟨List.length_eq_zero.mp hb, by omega, ?_⟩⟩
          rcases hrel with hrel | ⟨-, hU2, hrel⟩
          · right
            rw [hrel]
            exact ⟨by simp only; omega, fun hne => by have := hsc.2 hne; simp only; omega⟩
          · simp only at hU2 hrel
            rcases hrel with hrel | ⟨hle, hlt⟩
            · left; exact hrel
            · right
              exact ⟨by omega, fun hne => by have := hlt hne; omega⟩
    · next hb =>
      obtain ⟨rfl, -⟩ := RM.ret_ok h
      refine ⟨rfl, fun hf => ?_, fun _ hnil => hb ?_, Or.inl rfl⟩
      · simp at hf
      · simp only at hnil
        simp [hnil]

theorem getPageRemoteLocations.filter_nil_of_nil (vus : List VisibleUpload)
    (l : List Location) (h : getPageRemoteLocations.filter vus l ≠ []) : 0 < l.length := by
  cases l with
  | nil => simp [getPageRemoteLocations.filter] at h
  | cons a rest => simp

theorem getPageRemoteLocations_after (r : Resolver) (table : String)
    (vus : List VisibleUpload) (ms : List QualifiedMonikerData) (hscan : r.scansForward)
    (c0 c : RemoteCursor) (grew : Prop) (limit : Int) (fuel : Nat) (s s' : RState)
    (res : List Location × Bool × RemoteCursor)
    (hinv : c0.after c grew)
    (h : getPageRemoteLocations r table vus ms c limit fuel s = (.done (.ok res), s')) :
    res.2.1 = false ∨ c0.after res.2.2 (grew ∨ res.1 ≠ []) := by
  unfold getPageRemoteLocations at h
  obtain ⟨batch, s1, h0, h1⟩ := RM.bind_ok h
  obtain ⟨hL, hfalse, htrue, hrel⟩ := getPageRemoteLocations.nextBatch_inv r vus ms hscan _ _ _ _ _ h0
  simp only at h1
  split at h1
  · obtain ⟨rfl, -⟩ := RM.ret_ok h1
    exact Or.inl rfl
  · next hflag =>
    have hB := htrue (by simpa using hflag)
    obtain ⟨uploads, s2, -, h2⟩ := RM.bind_ok h1
    obtain ⟨a, s3, -, h3⟩ := RM.bind_ok h2
    obtain ⟨rfl, -⟩ := RM.ret_ok h3
    right
    simp only
    have hgrow : getPageRemoteLocations.filter vus a.1 ≠ [] → 0 < a.1.length :=
      getPageRemoteLocations.filter_nil_of_nil vus a.1
    unfold RemoteCursor.after at hinv ⊢
    rcases hrel with hrel | ⟨hcB, hcU, hrel⟩
    · -- no batch was requested
      rw [hrel] at hB hL ⊢
      rcases hinv with hinv | ⟨-, -, hcontra⟩ | ⟨hU, hBeq, hLle, hLlt⟩
      · left
        split <;> simpa using hinv
      · exact absurd hcontra hB
      · split
        · right; left
          exact ⟨hU, by rw [← hBeq]; exact hB, rfl⟩
        · right; right
          refine ⟨hU, hBeq, by simp only; omega, fun hg => ?_⟩
          simp only
          rcases hg with hg | hg
          · have := hLlt hg
            omega
          · have := hgrow hg
            omega
    · -- a batch was requested
      left
      have h0U : 0 ≤ c0.UploadOffset ∧ (c0.UploadOffset ≤ c.UploadOffset) := by
        rcases hinv with ⟨h1, h2⟩ | ⟨hU, -, -⟩ | ⟨hU, -, -, -⟩ <;> omega
      refine ⟨h0U.1, ?_⟩
      have : c0.UploadOffset < batch.2.UploadOffset ∨ batch.2.UploadOffset = -1 := by
        rcases hrel with hrel | ⟨-, hlt⟩
        · right; exact hrel
        · left
          have := hlt hB
          omega
      split <;> simpa using this

theorem RemoteCursor.after_mono {c0 c : RemoteCursor} {g1 g2 : Prop} (hg : g2 → g1)
    (h : c0.after c g1) : c0.after c g2 := by
  unfold RemoteCursor.after at h ⊢
  rcases h with h | h | ⟨h1, h2, h3, h4⟩
  · exact Or.inl h
  · exact Or.inr (Or.inl h)
  · exact Or.inr (Or.inr ⟨h1, h2, h3, fun hg2 => h4 (hg hg2)⟩)

theorem RemoteCursor.after_refl (c : RemoteCursor) : c.after c False :=
  Or.inr (Or.inr ⟨rfl, rfl, le_refl _, fun hf => hf.elim⟩)

theorem Implementations.dependentsPhase_inv (r : Resolver) (args : RequestArgs)
    (vus : List VisibleUpload) (remoteFuel : Nat) (hscan : r.scansForward) (c0 : RemoteCursor)
    (fuel : Nat) (c : ImplementationsCursor) (locs : List Location) (grew : Prop)
    (s s' : RState) (res : ImplementationsCursor × List Location)
    (hinv : c0.after c.RemoteCursor grew)
    (h : Implementations.dependentsPhase r args vus remoteFuel fuel c locs s
      = (.done (.ok res), s')) :
    c.sameArrays res.1 ∧ res.1.LocalCursor = c.LocalCursor ∧ locs.length ≤ res.2.length ∧
      (res.1.Phase = "done" ∨
        (res.1.Phase = c.Phase ∧ args.Limit ≤ res.2.length ∧
          c0.after res.1.RemoteCursor (grew ∨ locs.length < res.2.length))) := by
  induction fuel generalizing c locs s grew with
  | zero =>
    unfold Implementations.dependentsPhase at h
    split at h
    · simp at h
    · next hc =>
      obtain ⟨rfl, -⟩ := RM.ret_ok h
      exact ⟨⟨rfl, rfl, rfl⟩, rfl, le_refl _, Or.inr ⟨rfl, by simpa using hc,
        RemoteCursor.after_mono (fun hg => hg.elim id fun hlt => absurd hlt (lt_irrefl _)) hinv⟩⟩
  | succ fuel ih =>
    unfold Implementations.dependentsPhase at h
    split at h
    · obtain ⟨a, s1, h0, h1⟩ := RM.bind_ok h
      have haft := getPageRemoteLocations_after r _ vus _ hscan c0 _ grew _ _ _ _ _ hinv h0
      simp only at h1
      split at h1
      · obtain ⟨rfl, -⟩ := RM.ret_ok h1
        exact ⟨⟨rfl, rfl, rfl⟩, rfl, by simp, Or.inl rfl⟩
      · next hmore =>
        rcases haft with haft | haft
        · exact absurd haft hmore
        · obtain ⟨hsame, hloc, hlen, hph⟩ := ih _ _ _ _ haft h1
          simp only [List.length_append] at hlen hph
          refine ⟨hsame, hloc, by omega, ?_⟩
          rcases hph with hph | ⟨hph, hlim, haft2⟩
          · exact Or.inl hph
          · refine Or.inr ⟨hph, hlim, RemoteCursor.after_mono ?_ haft2⟩
            intro hg
            rcases hg with hg | hg
            · exact Or.inl (Or.inl hg)
            · by_cases hn : a.1 = []
              · right
                simp only [hn, List.length_nil, add_zero]
                rw [hn] at hlen
                simpa using hg
              · exact Or.inl (Or.inr hn)
    · next hc =>
      obtain ⟨rfl, -⟩ := RM.ret_ok h
      exact ⟨⟨rfl, rfl, rfl⟩, rfl, le_refl _, Or.inr ⟨rfl, by simpa using hc,
        RemoteCursor.after_mono (fun hg => hg.elim id fun hlt => absurd hlt (lt_irrefl _)) hinv⟩⟩

/-- The stages of a successful run of `Implementations.collect`. -/
theorem Implementations.collect_inv {r : Resolver} {args : RequestArgs} {fuel : Nat}
    {c0 : ImplementationsCursor} {s s' : RState} {res : ImplementationsCursor × List Location}
    (h : Implementations.collect r args fuel c0 s = (.done (.ok res), s')) :
    ∃ (vis : List VisibleUpload × Option (List CursorToVisibleUpload))
      (im em : Option (List QualifiedMonikerData))
      (p1 p2 : ImplementationsCursor × List Location) (s1 s2 s3 s4 s5 : RState),
      getVisibleUploadsFromCursor r args.Line args.Character c0.CursorsToVisibleUploads s
        = (.done (.ok vis), s1) ∧
      (match c0.OrderedImplementationMonikers with
        | none => getOrderedMonikers r vis.1 ["implementation"]
        | some ms => RM.ret (some ms)) s1 = (.done (.ok im), s2) ∧
      (match c0.OrderedExportMonikers with
        | none => getOrderedMonikers r vis.1 ["export"]
        | some ms => RM.ret (some ms)) s2 = (.done (.ok em), s3) ∧
      (if c0.Phase = "local" then
          Implementations.localPhase r args vis.1 fuel
            { c0 with CursorsToVisibleUploads := vis.2, OrderedImplementationMonikers := im,
                      OrderedExportMonikers := em } []
        else RM.ret ({ c0 with CursorsToVisibleUploads := vis.2,
                               OrderedImplementationMonikers := im,
                               OrderedExportMonikers := em }, [])) s3 = (.done (.ok p1), s4) ∧
      (if p1.1.Phase = "dependencies" then Implementations.dependenciesPhase r p1.1 p1.2
        else RM.ret p1) s4 = (.done (.ok p2), s5) ∧
      (if p2.1.Phase = "dependents" then
          Implementations.dependentsPhase r args vis.1 fuel fuel p2.1 p2.2
        else RM.ret p2) s5 = (.done (.ok res), s') := by
  unfold Implementations.collect at h
  obtain ⟨vis, s1, hv, h1⟩ := RM.bind_ok h
  obtain ⟨im, s2, him, h2⟩ := RM.bind_ok h1
  obtain ⟨em, s3, hem, h3⟩ := RM.bind_ok h2
  obtain ⟨p1, s4, hp1, h4⟩ := RM.bind_ok h3
  obtain ⟨p2, s5, hp2, hp3⟩ := RM.bind_ok h4
  exact ⟨vis, im, em, p1, p2, s1, s2, s3, s4, s5, hv, him, hem, hp1, hp2, hp3⟩

theorem Implementations.dependentsPhase_same (r : Resolver) (args : RequestArgs)
    (vus : List VisibleUpload) (remoteFuel fuel : Nat) (c : ImplementationsCursor)
    (locs : List Location) (s s' : RState) (res : ImplementationsCursor × List Location)
    (h : Implementations.dependentsPhase r args vus remoteFuel fuel c locs s
      = (.done (.ok res), s')) : c.sameArrays res.1 := by
  induction fuel generalizing c locs s with
  | zero =>
    unfold Implementations.dependentsPhase at h
    split at h
    · simp at h
    · obtain ⟨rfl, -⟩ := RM.ret_ok h
      exact ⟨rfl, rfl, rfl⟩
  | succ fuel ih =>
    unfold Implementations.dependentsPhase at h
    split at h
    · obtain ⟨a, s1, -, h1⟩ := RM.bind_ok h
      simp only at h1
      split at h1
      · obtain ⟨rfl, -⟩ := RM.ret_ok h1
        exact ⟨rfl, rfl, rfl⟩
      · have hh := ih { c with RemoteCursor := a.2.2 } _ _ h1
        exact hh
    · obtain ⟨rfl, -⟩ := RM.ret_ok h
      exact ⟨rfl, rfl, rfl⟩

theorem Implementations.collect_advances {r : Resolver} {args : RequestArgs} {fuel : Nat}
    {c0 : ImplementationsCursor} {s s' : RState} {res : ImplementationsCursor × List Location}
    (hscan : r.scansForward) (hlim : 0 < args.Limit) (hphase : c0.validPhase)
    (h : Implementations.collect r args fuel c0 s = (.done (.ok res), s'))
    (hnd : res.1.Phase ≠ "done") : cursorAdvanced c0 res.1 := by
  obtain ⟨vis, im, em, p1, p2, s1, s2, s3, s4, s5, -, -, -, hp1, hp2, hp3⟩ :=
    Implementations.collect_inv h
  -- once the phase is `dependents`, the request ends in `dependents` or `done`
  have hlate : ∀ (p : ImplementationsCursor × List Location) (t : RState),
      p.1.Phase = "dependents" →
      Implementations.dependentsPhase r args vis.1 fuel fuel p.1 p.2 t = (.done (.ok res), s') →
      res.1.Phase = "dependents" := by
    intro p t hp hrun
    obtain ⟨-, -, -, hph⟩ := Implementations.dependentsPhase_inv r args vis.1 fuel hscan
      p.1.RemoteCursor fuel p.1 p.2 False t s' res (RemoteCursor.after_refl _) hrun
    rcases hph with hph | ⟨hph, -, -⟩
    · exact absurd hph hnd
    · rw [hph, hp]
  rcases hphase with hph | hph | hph | hph
  · -- the request starts in the local phase
    rw [if_pos hph] at hp1
    obtain ⟨-, hrem, -, hdep | ⟨hsame, hfull, haft⟩⟩ :=
      Implementations.localPhase_inv r args vis.1 fuel _ [] s3 s4 p1 hp1
    · rw [if_pos hdep] at hp2
      obtain ⟨-, -, -, hdeps⟩ := Implementations.dependenciesPhase_inv r p1.1 p1.2 s4 s5 p2 hp2
      rw [if_pos hdeps] at hp3
      have := hlate p2 s5 hdeps hp3
      right; right; left
      rw [this, hph]
      decide
    · simp only at hsame
      have h1 : ¬ p1.1.Phase = "dependencies" := by rw [hsame, hph]; decide
      rw [if_neg h1] at hp2
      obtain ⟨rfl, -⟩ := RM.ret_ok hp2
      have h2 : ¬ p2.1.Phase = "dependents" := by rw [hsame, hph]; decide
      rw [if_neg h2] at hp3
      obtain ⟨rfl, -⟩ := RM.ret_ok hp3
      unfold LocalCursor.after at haft
      simp only [List.length_nil] at haft
      have hpos : 0 < res.2.length := by omega
      unfold cursorAdvanced
      rcases haft with haft | ⟨-, -, haft⟩
      · left; omega
      · right; left
        have := haft hpos
        omega
  · -- the request starts in the dependencies phase
    have h0 : ¬ c0.Phase = "local" := by rw [hph]; decide
    rw [if_neg h0] at hp1
    obtain ⟨rfl, -⟩ := RM.ret_ok hp1
    rw [if_pos hph] at hp2
    obtain ⟨-, -, -, hdeps⟩ := Implementations.dependenciesPhase_inv r _ _ s4 s5 p2 hp2
    rw [if_pos hdeps] at hp3
    have := hlate p2 s5 hdeps hp3
    right; right; left
    rw [this, hph]
    decide
  · -- the request starts in the dependents phase
    have h0 : ¬ c0.Phase = "local" := by rw [hph]; decide
    rw [if_neg h0] at hp1
    obtain ⟨rfl, -⟩ := RM.ret_ok hp1
    have h1 : ¬ c0.Phase = "dependencies" := by rw [hph]; decide
    rw [if_neg h1] at hp2
    obtain ⟨rfl, -⟩ := RM.ret_ok hp2
    rw [if_pos hph] at hp3
    obtain ⟨-, -, -, hdone | ⟨-, hfull, haft⟩⟩ := Implementations.dependentsPhase_inv r args
      vis.1 fuel hscan c0.RemoteCursor fuel
      { c0 with CursorsToVisibleUploads := vis.2, OrderedImplementationMonikers := im,
                OrderedExportMonikers := em } [] False s5 s' res
      (RemoteCursor.after_refl _) hp3
    · exact absurd hdone hnd
    · simp only [List.length_nil] at haft
      have hpos : 0 < res.2.length := by omega
      unfold RemoteCursor.after at haft
      unfold cursorAdvanced
      rcases haft with ⟨h2, h3⟩ | ⟨-, h2, h3⟩ | ⟨-, -, -, h2⟩
      · right; right; right; left
        omega
      · right; right; right; right; left
        rw [h3]
        intro hlen
        exact h2 (List.length_eq_zero.mp hlen.symm)
      · right; right; right; right; right
        have := h2 (Or.inr hpos)
        omega
  · -- the request starts in the phase `done`: no phase runs
    have h0 : ¬ c0.Phase = "local" := by rw [hph]; decide
    rw [if_neg h0] at hp1
    obtain ⟨rfl, -⟩ := RM.ret_ok hp1
    have h1 : ¬ c0.Phase = "dependencies" := by rw [hph]; decide
    rw [if_neg h1] at hp2
    obtain ⟨rfl, -⟩ := RM.ret_ok hp2
    have h2 : ¬ c0.Phase = "dependents" := by rw [hph]; decide
    rw [if_neg h2] at hp3
    obtain ⟨rfl, -⟩ := RM.ret_ok hp3
    exact absurd hph hnd

/-- C2 (amended). Phase progression: for a request with a positive limit whose decoded cursor
has a phase of the data model, served by a store whose `GetUploadIDsWithReferences` never
reports a negative number of scanned records and reports a positive one with every non-empty
batch, a non-empty next cursor is the encoding of a cursor that differs from the decoded input
cursor in the local upload offset, the local location offset, the phase, the remote upload
offset, the length of the remote batch or the remote location offset. -/
theorem implementations_phase_progression (r : Resolver) (args : RequestArgs) (fuel : Nat)
    (s : RState) (c0 : ImplementationsCursor) (res : ImplementationsResult)
    (hdec : r.decodeImplementationsCursor args.RawCursor = .ok c0)
    (hlim : 0 < args.Limit) (hphase : c0.validPhase) (hscan : r.scansForward)
    (h : (Implementations r args fuel s).1 = .done res) (hne : res.nextCursor ≠ "") :
    ∃ c1, res.nextCursor = r.encodeImplementationsCursor c1 ∧ cursorAdvanced c0 c1 := by
  have h' : Implementations r args fuel s = (.done res, (Implementations r args fuel s).2) :=
    Prod.ext h rfl
  rcases Implementations_inv h' with ⟨e, _, _, _, hnil, _⟩ | ⟨c, hdec', hrest⟩
  · exact absurd hnil hne
  · rw [hdec] at hdec'
    cases hdec'
    rcases hrest with ⟨e, _, hres⟩ | ⟨cursor, locations, s1, hcol, hrest⟩
    · rw [hres] at hne; exact absurd rfl hne
    · rcases hrest with ⟨e, _, hres⟩ | ⟨adjusted, _, hres⟩
      · rw [hres] at hne; exact absurd rfl hne
      · rw [hres] at hne ⊢
        simp only at hne ⊢
        by_cases hp : cursor.Phase = "done"
        · simp [hp] at hne
        · refine ⟨cursor, by simp [hp], ?_⟩
          exact Implementations.collect_advances hscan hlim hphase hcol hp

/-- C10. Moniker cap: `getOrderedMonikers` returns at most `monikerLimit` = 10 qualified
monikers, for every list of visible uploads and every store; so the implementation and export
moniker arrays that `Implementations` computes (those that are nil in the decoded cursor) have
at most 10 entries in the cursor after the phases have run. -/
theorem moniker_cap (r : Resolver) :
    (∀ (vus : List VisibleUpload) (kinds : List String) (s : RState)
        (ms : Option (List QualifiedMonikerData)),
        (getOrderedMonikers r vus kinds s).1 = .done (.ok ms) → sliceLen ms ≤ 10) ∧
    (∀ (args : RequestArgs) (fuel : Nat) (c0 cursor : ImplementationsCursor)
        (locations : List Location) (s : RState),
        (Implementations.collect r args fuel c0 s).1 = .done (.ok (cursor, locations)) →
        (c0.OrderedImplementationMonikers = none →
          sliceLen cursor.OrderedImplementationMonikers ≤ 10) ∧
        (c0.OrderedExportMonikers = none → sliceLen cursor.OrderedExportMonikers ≤ 10)) := by
  constructor
  · intro vus kinds s ms h
    exact getOrderedMonikers_cap (Prod.ext h rfl : getOrderedMonikers r vus kinds s = (_, _))
  · intro args fuel c0 cursor locations s h
    have h' : Implementations.collect r args fuel c0 s
        = (.done (.ok (cursor, locations)), (Implementations.collect r args fuel c0 s).2) :=
      Prod.ext h rfl
    obtain ⟨vis, im, em, p1, p2, s1, s2, s3, s4, s5, -, him, hem, hp1, hp2, hp3⟩ :=
      Implementations.collect_inv h'
    -- the phases keep the moniker arrays
    have h1 : p1.1.OrderedImplementationMonikers = im ∧ p1.1.OrderedExportMonikers = em := by
      split at hp1
      · obtain ⟨⟨-, ha, hb⟩, -⟩ := Implementations.localPhase_inv _ _ _ _ _ _ _ _ _ hp1
        exact ⟨ha, hb⟩
      · obtain ⟨rfl, -⟩ := RM.ret_ok hp1
        exact ⟨rfl, rfl⟩
    have h2 : p2.1.OrderedImplementationMonikers = im ∧ p2.1.OrderedExportMonikers = em := by
      split at hp2
      · obtain ⟨⟨-, ha, hb⟩, -⟩ := Implementations.dependenciesPhase_inv _ _ _ _ _ _ hp2
        exact ⟨ha.trans h1.1, hb.trans h1.2⟩
      · obtain ⟨rfl, -⟩ := RM.ret_ok hp2
        exact h1
    have h3 : cursor.OrderedImplementationMonikers = im ∧ cursor.OrderedExportMonikers = em := by
      split at hp3
      · obtain ⟨-, ha, hb⟩ := Implementations.dependentsPhase_same _ _ _ _ _ _ _ _ _ _ hp3
        exact ⟨ha.trans h2.1, hb.trans h2.2⟩
      · obtain ⟨rfl, -⟩ := RM.ret_ok hp3
        exact h2
    rw [h3.1, h3.2]
    constructor
    · intro hnone
      rw [hnone] at him
      exact getOrderedMonikers_cap him
    · intro hnone
      rw [hnone] at hem
      exact getOrderedMonikers_cap hem

/-! ## Progress of the cursor on concrete backends -/

theorem Example.unresolvable_scansForward : Example.unresolvable.scansForward := by
  intro ms ignoreIDs repo commit limit offset ids scanned total h
  simp only [Example.unresolvable] at h
  split at h <;> cases h <;> simp

/-- C2, as stated, fails on the backend `Example.stalled`, whose store of dependents reports zero
records scanned with a non-empty batch. The first page of limit 1 returns the encoding of
`Example.stalledCursor`; the request resumed from it has a positive limit and a cursor in the
phase `dependents`, returns one location and a non-empty next cursor, and that next cursor
decodes to the cursor the request started from: none of the six components differs. -/
theorem phase_progression_fails_when_nothing_is_scanned :
    (Implementations Example.stalled (Example.request 1) 5
        (newRequestState [Example.upload1])).1
      = .done { locations := some [Example.adjusted1],
                nextCursor := Codec.encode Example.stalledCursor, err := none } ∧
    Codec.decode (Codec.encode Example.stalledCursor) = .ok Example.stalledCursor ∧
    (Implementations Example.stalled
        { Example.request 1 with RawCursor := Codec.encode Example.stalledCursor } 5
        (newRequestState [Example.upload1])).1
      = .done { locations := some [Example.adjusted2],
                nextCursor := Codec.encode Example.stalledCursor, err := none } ∧
    Codec.encode Example.stalledCursor ≠ "" ∧
    ¬ cursorAdvanced Example.stalledCursor Example.stalledCursor := by
  decide!

/-- Witness of C2: the first page of one location served by `Example.unresolvable` leaves the
phase `local` for the phase `dependents`. -/
theorem implementations_phase_progression_witness :
    ∃ c1, Codec.encode Example.afterFirstPage
        = Example.unresolvable.encodeImplementationsCursor c1 ∧
      cursorAdvanced Codec.initialCursor c1 :=
  implementations_phase_progression Example.unresolvable (Example.request 1) 5
    (newRequestState [Example.upload1]) Codec.initialCursor
    { locations := some [Example.adjusted1],
      nextCursor := Codec.encode Example.afterFirstPage, err := none }
    (by decide!) (by decide) (Or.inl rfl) Example.unresolvable_scansForward (by decide!)
    (Codec.encode_ne_empty _)

/-- Witness of C9: scenario S6, in which the store returns X and Y and the commit cache reports
`[true, false]`. -/
theorem definition_uploads_are_the_resolvable_ones_witness :
    (GetUploadsWithDefinitionsForMonikers Example.definitionsXY []
        (newRequestState [Example.upload1])).1
      = .done (.ok (resolvableDumps [Example.uploadX, Example.uploadY] [true, false])) ∧
    ∀ (cursor : ImplementationsCursor) (locations : List Location),
      cursor.OrderedImplementationMonikers.getD [] = [] →
      (Implementations.dependenciesPhase Example.definitionsXY cursor locations
          (newRequestState [Example.upload1])).2.log
        = (newRequestState [Example.upload1]).log ++
          [Call.GetUploadsWithDefinitionsForMonikers [],
           Call.AreCommitsResolvable
             ([Example.uploadX, Example.uploadY].map fun u =>
               { RepositoryID := u.RepositoryID, Commit := u.Commit }),
           Call.GetBulkMonikerLocations "definitions"
             ((resolvableDumps [Example.uploadX, Example.uploadY] [true, false]).map
               fun u => u.ID)
             (([] : List QualifiedMonikerData).map fun m => m.MonikerData) DefinitionsLimit 0] :=
  definition_uploads_are_the_resolvable_ones Example.definitionsXY []
    (newRequestState [Example.upload1]) [Example.uploadX, Example.uploadY] [true, false]
    rfl (by decide!) rfl

/-- Witness of C10: twelve distinct monikers are attached to the position; the first ten are
returned. -/
theorem moniker_cap_witness :
    sliceLen (some ((List.range 10).map fun i =>
      ({ MonikerData := Example.numbered i, PackageInformationData := Example.package }
        : QualifiedMonikerData))) ≤ 10 :=
  (moniker_cap Example.manyMonikers).1 [Example.visible1] ["implementation"]
    (newRequestState [Example.upload1]) _ (by decide!)

/-- The hypothesis on the limit in `implementations_phase_progression` is needed: a first page
with limit 0 collects nothing and returns a cursor in the phase `local` with the offsets of the
initial cursor. -/
theorem phase_progression_needs_positive_limit :
    (Implementations Example.withLocal (Example.request 0) 5
        (newRequestState [Example.upload1])).1
      = .done { locations := some [],
                nextCursor := Codec.encode
                  { Codec.initialCursor with CursorsToVisibleUploads := some [Example.frozen1] },
                err := none } ∧
    ¬ cursorAdvanced Codec.initialCursor
        { Codec.initialCursor with CursorsToVisibleUploads := some [Example.frozen1] } := by
  decide!

/-- The hypothesis on the phase in `implementations_phase_progression` is needed: a cursor whose
phase is none of the four phases of the data model runs no phase and is returned as it is. -/
theorem phase_progression_needs_valid_phase :
    (Implementations Example.withLocal
        { Example.request 10 with
          RawCursor := Codec.encode { Example.stalledCursor with Phase := "paused" } } 5
        (newRequestState [Example.upload1])).1
      = .done { locations := some [],
                nextCursor := Codec.encode { Example.stalledCursor with Phase := "paused" },
                err := none } ∧
    ¬ cursorAdvanced { Example.stalledCursor with Phase := "paused" }
        { Example.stalledCursor with Phase := "paused" } := by
  decide!

/-! ## The concrete codec is a bijection onto its image -/

namespace Codec

theorem decInt_encInt (i : Int) (rest : List Nat) : decInt (encInt i ++ rest) = some (i, rest) := by
  cases i <;> rfl

theorem decChars_toNat (cs : List Char) (rest : List Nat) :
    decChars cs.length (cs.map Char.toNat ++ rest) = some (cs, rest) := by
  induction cs with
  | nil => rfl
  | cons c cs ih =>
    have ih1 : decChars cs.length ((cs.map Char.toNat).append rest) = some (cs, rest) := ih
    simp only [List.length_cons, List.map_cons, List.cons_append, decChars, Char.ofNat_toNat]
    rw [ih1]

theorem decString_encString (s : String) (rest : List Nat) :
    decString (encString s ++ rest) = some (s, rest) := by
  simp only [encString, List.cons_append, decString, decChars_toNat]

theorem decItems_encItems {α : Type} {enc : α → List Nat}
    {dec : List Nat → Option (α × List Nat)}
    (h : ∀ a rest, dec (enc a ++ rest) = some (a, rest)) (l : List α) (rest : List Nat) :
    decItems dec l.length (encItems enc l ++ rest) = some (l, rest) := by
  induction l with
  | nil => rfl
  | cons a l ih =>
    simp only [List.length_cons, encItems, List.append_assoc, decItems, h, ih]

theorem decList_encList {α : Type} {enc : α → List Nat}
    {dec : List Nat → Option (α × List Nat)}
    (h : ∀ a rest, dec (enc a ++ rest) = some (a, rest)) (l : List α) (rest : List Nat) :
    decList dec (encList enc l ++ rest) = some (l, rest) := by
  simp only [encList, List.cons_append, decList, decItems_encItems h]

theorem decNullable_encNullable {α : Type} {enc : α → List Nat}
    {dec : List Nat → Option (α × List Nat)}
    (h : ∀ a rest, dec (enc a ++ rest) = some (a, rest)) (l : Option (List α))
    (rest : List Nat) :
    decNullable dec (encNullable enc l ++ rest) = some (l, rest) := by
  cases l with
  | none => rfl
  | some l => simp only [encNullable, List.cons_append, decNullable, decList_encList h]

theorem decPosition_encPosition (p : Position) (rest : List Nat) :
    decPosition (encPosition p ++ rest) = some (p, rest) := by
  simp only [encPosition, List.append_assoc, decPosition, decInt_encInt]

theorem decVisible_encVisible (u : CursorToVisibleUpload) (rest : List Nat) :
    decVisible (encVisible u ++ rest) = some (u, rest) := by
  simp only [encVisible, List.append_assoc, decVisible, decInt_encInt, decString_encString,
    decPosition_encPosition]

theorem decMoniker_encMoniker (m : QualifiedMonikerData) (rest : List Nat) :
    decMoniker (encMoniker m ++ rest) = some (m, rest) := by
  simp only [encMoniker, decMoniker, decList_encList decString_encString]

theorem decCursor_encCursor (c : ImplementationsCursor) (rest : List Nat) :
    decCursor (encCursor c ++ rest) = some (c, rest) := by
  simp only [encCursor, List.append_assoc, decCursor,
    decNullable_encNullable decVisible_encVisible,
    decNullable_encNullable decMoniker_encMoniker, decString_encString, decInt_encInt,
    decList_encList decInt_encInt]

theorem ofUnary_letters (n acc : Nat) (rest : List Char) :
    ofUnary (List.replicate n 'a' ++ 'b' :: rest) acc
      = match ofUnary rest 0 with
        | some ts => some ((acc + n) :: ts)
        | none => none := by
  induction n generalizing acc with
  | zero => simp [ofUnary]
  | succ n ih =>
    have h1 : List.replicate (n + 1) 'a' ++ 'b' :: rest
        = 'a' :: (List.replicate n 'a' ++ 'b' :: rest) := rfl
    rw [h1]
    simp only [ofUnary, ↓reduceIte]
    rw [ih (acc + 1)]
    have : acc + 1 + n = acc + (n + 1) := by omega
    rw [this]

theorem ofUnary_toUnary (ts : List Nat) : ofUnary (toUnary ts) 0 = some ts := by
  induction ts with
  | nil => rfl
  | cons n ts ih => simp only [toUnary, ofUnary_letters, ih, Nat.zero_add]

/-- The codec is a bijection onto its image: decoding the token made from a cursor gives the
cursor back. -/
theorem decode_encode (c : ImplementationsCursor) : decode (encode c) = .ok c := by
  have h : decCursor (encCursor c) = some (c, []) := by
    simpa using decCursor_encCursor c []
  simp only [decode, encode, ofUnary_toUnary, h]

theorem decode_empty : decode "" = .ok initialCursor := rfl

end Codec

/-! ## Adjustment of locations -/

/-- C11. Cross-repository adjustment: when the repository of the dump differs from the
repository of the request, `getSourceRange` returns the commit and the range it was given with
`ok = true` and leaves the state as it was (the translator is not called), and the upload
location made by `getUploadLocation` carries the commit of the dump and the range of the
location untranslated. -/
theorem cross_repository_location_is_not_translated (r : Resolver) (dump : Dump)
    (location : Location) (s : RState)
    (hrepo : dump.RepositoryID ≠ r.requestArgs.repoID) :
    (∀ (commit path : String) (rng : Range),
      getSourceRange r dump.RepositoryID commit path rng s
        = (.done (.ok (commit, rng, true)), s)) ∧
    getUploadLocation r dump location s
      = (.done (.ok { Dump := dump, Path := dump.Root ++ location.Path,
                      TargetCommit := dump.Commit, TargetRange := location.Range }), s) := by
  have h1 : ∀ (commit path : String) (rng : Range),
      getSourceRange r dump.RepositoryID commit path rng s
        = (.done (.ok (commit, rng, true)), s) := by
    intro commit path rng
    unfold getSourceRange
    rw [if_pos hrepo]
    rfl
  refine ⟨h1, ?_⟩
  unfold getUploadLocation
  rw [RM.bind_of_ok (h1 _ _ _)]
  rfl

/-- Witness of C11: upload Y belongs to repository 2, the request to repository 1. -/
theorem cross_repository_location_is_not_translated_witness :
    (∀ (commit path : String) (rng : Range),
      getSourceRange Example.quiet Example.uploadY.RepositoryID commit path rng
          (newRequestState [Example.upload1])
        = (.done (.ok (commit, rng, true)), newRequestState [Example.upload1])) ∧
    getUploadLocation Example.quiet Example.uploadY Example.remoteY
        (newRequestState [Example.upload1])
      = (.done (.ok { Dump := Example.uploadY,
                      Path := Example.uploadY.Root ++ Example.remoteY.Path,
                      TargetCommit := Example.uploadY.Commit,
                      TargetRange := Example.remoteY.Range }),
          newRequestState [Example.upload1]) :=
  cross_repository_location_is_not_translated Example.quiet Example.uploadY Example.remoteY
    (newRequestState [Example.upload1]) (by decide)

/-- C12. Translation fallback: for a location of a dump of the request's repository, when the
translator answers without an error, `getSourceRange` returns the commit of the request and the
translated range with a true flag if the translator reports `ok = true`, and the commit of the
dump and the range of the location with a false flag if it reports `ok = false`; in both cases
no error is returned and `getUploadLocation` uses that commit and range as `TargetCommit` and
`TargetRange`. -/
theorem translation_fallback (r : Resolver) (dump : Dump) (location : Location) (s : RState)
    (translatedPath : String) (translated : Range) (ok : Bool)
    (hrepo : dump.RepositoryID = r.requestArgs.repoID)
    (htr : r.GetTargetCommitRangeFromSourceRange dump.Commit (dump.Root ++ location.Path)
      location.Range true = .ok (translatedPath, translated, ok)) :
    (getSourceRange r dump.RepositoryID dump.Commit (dump.Root ++ location.Path)
        location.Range s).1
      = .done (.ok (if ok = true then (r.requestArgs.commit, translated, true)
                    else (dump.Commit, location.Range, false))) ∧
    (getUploadLocation r dump location s).1
      = .done (.ok { Dump := dump, Path := dump.Root ++ location.Path,
                     TargetCommit := if ok = true then r.requestArgs.commit else dump.Commit,
                     TargetRange := if ok = true then translated else location.Range }) := by
  have h1 : getSourceRange r dump.RepositoryID dump.Commit (dump.Root ++ location.Path)
      location.Range s
      = (.done (.ok (if ok = true then (r.requestArgs.commit, translated, true)
                    else (dump.Commit, location.Range, false))),
          { s with log := s.log ++ [Call.GetTargetCommitRangeFromSourceRange dump.Commit
              (dump.Root ++ location.Path) location.Range true] }) := by
    unfold getSourceRange
    rw [if_neg (not_not.mpr hrepo)]
    cases ok <;> simp [RM.bind, RM.wrapErr, RM.call, RM.ret, htr]
  refine ⟨by rw [h1], ?_⟩
  unfold getUploadLocation
  rw [RM.bind_of_ok h1]
  cases ok <;> rfl

/-- Witness of C12: the translator of `Example.untranslatable` reports `ok = false` for the
range of the local location. -/
theorem translation_fallback_witness :
    (getSourceRange Example.untranslatable Example.upload1.RepositoryID Example.upload1.Commit
        (Example.upload1.Root ++ Example.local1.Path) Example.local1.Range
        (newRequestState [Example.upload1])).1
      = .done (.ok (if false = true
          then (Example.untranslatable.requestArgs.commit, Example.lineRange 0, true)
          else (Example.upload1.Commit, Example.local1.Range, false))) ∧
    (getUploadLocation Example.untranslatable Example.upload1 Example.local1
        (newRequestState [Example.upload1])).1
      = .done (.ok { Dump := Example.upload1,
                     Path := Example.upload1.Root ++ Example.local1.Path,
                     TargetCommit := if false = true
                       then Example.untranslatable.requestArgs.commit
                       else Example.upload1.Commit,
                     TargetRange := if false = true then Example.lineRange 0
                       else Example.local1.Range }) :=
  translation_fallback Example.untranslatable Example.upload1 Example.local1
    (newRequestState [Example.upload1]) "" (Example.lineRange 0) false rfl
    (by decide!)
/-! ## Visible uploads -/

theorem getVisibleUploadsFromCursor.freeze_eq_map (vus : List VisibleUpload) :
    getVisibleUploadsFromCursor.freeze vus = vus.map VisibleUpload.frozen := by
  induction vus with
  | nil => rfl
  | cons vu rest ih =>
    unfold getVisibleUploadsFromCursor.freeze
    rw [ih]
    rfl

theorem getVisibleUploadsFromCursor.restore_frozen (dl : UploadsDataLoader)
    (vus acc : List VisibleUpload)
    (h : ∀ vu ∈ vus, dl.getUploadFromCacheMap vu.Upload.ID = some vu.Upload) :
    getVisibleUploadsFromCursor.restore dl (vus.map VisibleUpload.frozen) acc
      = .ok (acc ++ vus) := by
  induction vus generalizing acc with
  | nil => simp [getVisibleUploadsFromCursor.restore]
  | cons vu rest ih =>
    have hvu := h vu (List.mem_cons_self _ _)
    have hrest : ∀ v ∈ rest, dl.getUploadFromCacheMap v.Upload.ID = some v.Upload :=
      fun v hv => h v (List.mem_cons_of_mem _ hv)
    simp only [List.map_cons, getVisibleUploadsFromCursor.restore, VisibleUpload.frozen, hvu]
    have := ih (acc ++ [vu]) hrest
    simp only [VisibleUpload.frozen, List.append_assoc, List.singleton_append] at this
    exact this

/-- C14. Frozen visible-upload set: when `getVisibleUploadsFromCursor` on a first page (nil
cursor list) returns the visible uploads `V` and the cursor entries `C`, `C` is the list of the
entries that freeze the elements of `V`, one by one and in order (dump id, target path, target
position and target path without root copied); and on every state whose data loader maps the id
of each dump of `V` to that dump, `getVisibleUploadsFromCursor` called with `C` returns `V` and
`C` and leaves the state as it was, so that the translator is not called. -/
theorem frozen_visible_uploads (r : Resolver) (line character : Int) (s s1 : RState)
    (V : List VisibleUpload) (C : Option (List CursorToVisibleUpload))
    (h : getVisibleUploadsFromCursor r line character none s = (.done (.ok (V, C)), s1)) :
    C = some (V.map VisibleUpload.frozen) ∧
    ∀ (line2 character2 : Int) (s2 : RState),
      (∀ vu ∈ V, s2.dataLoader.getUploadFromCacheMap vu.Upload.ID = some vu.Upload) →
      getVisibleUploadsFromCursor r line2 character2 C s2 = (.done (.ok (V, C)), s2) := by
  unfold getVisibleUploadsFromCursor at h
  obtain ⟨vus, s0, -, h1⟩ := RM.bind_ok h
  obtain ⟨heq, -⟩ := RM.ret_ok h1
  simp only [Prod.mk.injEq] at heq
  obtain ⟨rfl, rfl⟩ := heq
  rw [getVisibleUploadsFromCursor.freeze_eq_map]
  refine ⟨rfl, ?_⟩
  intro line2 character2 s2 hold
  unfold getVisibleUploadsFromCursor
  simp only [RM.bind, RM.getLoader]
  rw [getVisibleUploadsFromCursor.restore_frozen _ _ _ hold]
  rfl

/-- Witness of C14: the first page of a request served by `Example.quiet` with upload 1 in the
data loader. -/
theorem frozen_visible_uploads_witness :
    some [Example.frozen1] = some ([Example.visible1].map VisibleUpload.frozen) ∧
    ∀ (line2 character2 : Int) (s2 : RState),
      (∀ vu ∈ [Example.visible1],
        s2.dataLoader.getUploadFromCacheMap vu.Upload.ID = some vu.Upload) →
      getVisibleUploadsFromCursor Example.quiet line2 character2 (some [Example.frozen1]) s2
        = (.done (.ok ([Example.visible1], some [Example.frozen1])), s2) :=
  frozen_visible_uploads Example.quiet 0 0 (newRequestState [Example.upload1])
    { newRequestState [Example.upload1] with
      log := [Call.GetTargetCommitPositionFromSourcePosition "c1"
        { Line := 0, Character := 0 } false] }
    [Example.visible1] (some [Example.frozen1]) (by decide!)

theorem stringsTrimPrefix_append (root rest : String) :
    stringsTrimPrefix (root ++ rest) root = rest := by
  unfold stringsTrimPrefix
  have h1 : (root ++ rest).data = root.data ++ rest.data := rfl
  rw [h1]
  have h2 : root.data.isPrefixOf (root.data ++ rest.data) = true := by
    rw [List.isPrefixOf_iff_prefix]
    exact List.prefix_append _ _
  rw [if_pos h2, List.drop_left]

theorem getVisibleUploads.loop_eq (r : Resolver) (line character : Int) (uploads : List Dump)
    (acc : List VisibleUpload) (s : RState)
    (hok : ∀ u ∈ uploads, ∃ a, r.GetTargetCommitPositionFromSourcePosition u.Commit
      { Line := line, Character := character } false = .ok a) :
    (getVisibleUploads.loop r line character uploads acc s).1
      = .done (.ok (acc ++ visibleUploadsOf r line character uploads)) := by
  induction uploads generalizing acc s with
  | nil => simp [getVisibleUploads.loop, visibleUploadsOf, RM.ret]
  | cons u rest ih =>
    obtain ⟨a, ha⟩ := hok u (List.mem_cons_self _ _)
    have hrest : ∀ v ∈ rest, ∃ a, r.GetTargetCommitPositionFromSourcePosition v.Commit
        { Line := line, Character := character } false = .ok a :=
      fun v hv => hok v (List.mem_cons_of_mem _ hv)
    obtain ⟨targetPath, targetPosition, ok⟩ := a
    unfold getVisibleUploads.loop
    cases ok with
    | false =>
      have hone : getVisibleUpload r line character u s
          = (.done (.ok (VisibleUpload.zero, false)),
              { s with log := s.log ++ [Call.GetTargetCommitPositionFromSourcePosition u.Commit
                { Line := line, Character := character } false] }) := by
        simp [getVisibleUpload, RM.bind, RM.wrapErr, RM.call, RM.ret, ha]
      rw [RM.bind_of_ok hone]
      simp only [Bool.false_eq_true, ↓reduceIte]
      rw [ih _ _ hrest]
      simp [visibleUploadsOf, List.filterMap_cons, ha]
    | true =>
      have hone : getVisibleUpload r line character u s
          = (.done (.ok ({ Upload := u, TargetPath := targetPath,
                           TargetPosition := targetPosition,
                           TargetPathWithoutRoot := stringsTrimPrefix targetPath u.Root }, true)),
              { s with log := s.log ++ [Call.GetTargetCommitPositionFromSourcePosition u.Commit
                { Line := line, Character := character } false] }) := by
        simp [getVisibleUpload, RM.bind, RM.wrapErr, RM.call, RM.ret, ha]
      rw [RM.bind_of_ok hone]
      simp only [↓reduceIte]
      rw [ih _ _ hrest]
      simp [visibleUploadsOf, List.filterMap_cons, ha]

/-- C15. First-page visible uploads: when no call of the translator fails, `getVisibleUploads`
returns, in the order of the data loader, exactly the uploads for which the translator maps the
source position with `ok = true`; an upload for which it reports `ok = false` is omitted and
the request goes on; and for each upload kept, `TargetPathWithoutRoot` is the target path with
the root of the dump removed as a prefix. -/
theorem first_page_visible_uploads (r : Resolver) (line character : Int) (s : RState)
    (hok : ∀ u ∈ s.dataLoader.uploads, ∃ a, r.GetTargetCommitPositionFromSourcePosition
      u.Commit { Line := line, Character := character } false = .ok a) :
    (getVisibleUploads r line character s).1
      = .done (.ok (visibleUploadsOf r line character s.dataLoader.uploads)) ∧
    ∀ vu ∈ visibleUploadsOf r line character s.dataLoader.uploads,
      vu.Upload ∈ s.dataLoader.uploads ∧
      r.GetTargetCommitPositionFromSourcePosition vu.Upload.Commit
        { Line := line, Character := character } false
        = .ok (vu.TargetPath, vu.TargetPosition, true) ∧
      vu.TargetPathWithoutRoot = stringsTrimPrefix vu.TargetPath vu.Upload.Root ∧
      ∀ rest, vu.TargetPath = vu.Upload.Root ++ rest → vu.TargetPathWithoutRoot = rest := by
  constructor
  · unfold getVisibleUploads
    simp only [RM.bind, RM.getLoader]
    have := getVisibleUploads.loop_eq r line character s.dataLoader.uploads [] s hok
    simpa using this
  · intro vu hvu
    unfold visibleUploadsOf at hvu
    rw [List.mem_filterMap] at hvu
    obtain ⟨u, hu, hmatch⟩ := hvu
    split at hmatch
    · next targetPath targetPosition htr =>
      simp only [Option.some.injEq] at hmatch
      subst hmatch
      refine ⟨hu, htr, rfl, ?_⟩
      intro rest hrest
      simp only at hrest ⊢
      rw [hrest, stringsTrimPrefix_append]
    · cases hmatch

/-- Witness of C15: the translator of `Example.partlyVisible` maps the position into the commit
of upload 1 and not into the commit of upload 2. -/
theorem first_page_visible_uploads_witness :
    (getVisibleUploads Example.partlyVisible 0 0
        (newRequestState [Example.upload2, Example.upload1])).1
      = .done (.ok [Example.visible1]) :=
  (first_page_visible_uploads Example.partlyVisible 0 0
    (newRequestState [Example.upload2, Example.upload1])
    (fun u _ => ⟨_, rfl⟩)).1.trans (by decide!)

/-! ## Pages of a result stream -/

/-- C18. Empty final page: with one visible upload that holds one local location, no
dependencies and no dependents, a request of limit 1 returns the location and a non-empty next
cursor, and the request resumed from that cursor returns zero locations and an empty next
cursor. -/
theorem empty_final_page :
    ∃ (r : Resolver) (uploads : List Dump) (args : RequestArgs) (fuel : Nat)
      (first second : ImplementationsResult),
      (Implementations r args fuel (newRequestState uploads)).1 = .done first ∧
      first.err = none ∧ first.nextCursor ≠ "" ∧
      (Implementations r { args with RawCursor := first.nextCursor } fuel
        (newRequestState uploads)).1 = .done second ∧
      second.err = none ∧ second.locations = some [] ∧ second.nextCursor = "" :=
  ⟨Example.withLocal, [Example.upload1], Example.request 1, 5,
    { locations := some [Example.adjusted1],
      nextCursor := Codec.encode Example.stalledCursor, err := none },
    { locations := some [], nextCursor := "", err := none },
    by decide!, rfl, Codec.encode_ne_empty _, by decide!, rfl, rfl, rfl⟩

/-! ## References -/

/-- C20 (amended). `References` returns no locations, an empty next cursor and a nil error for
every backend, request and state, and leaves the state as it was: no collaborator is called. -/
theorem references_returns_nothing (r : Resolver) (args : RequestArgs) (s : RState) :
    References r args s = (.done { locations := none, nextCursor := "", err := none }, s) :=
  rfl

/-- C20, as stated, fails in scenario S1: with upload 1 (root "", commit `c1`) in the data
loader and limit 10, `References` returns a nil list of locations, not three upload locations,
whatever reference locations the index store holds: its body does not consult the store. -/
theorem references_scenario_returns_no_locations :
    (References Example.withLocal (Example.request 10) (newRequestState [Example.upload1])).1
      = .done { locations := none, nextCursor := "", err := none } ∧
    sliceLen (none : Option (List UploadLocation)) ≠ 3 := by
  decide!

/-! ## The translator between identical commits -/

theorem GitTreeTranslator.translateRange_nil (rng : Range) :
    GitTreeTranslator.translateRange [] rng = some rng := by
  simp [GitTreeTranslator.translateRange, GitTreeTranslator.translatePosition,
    GitTreeTranslator.translateLine]

/-- C13. Adjustment identity: with the translator of the specification, whose git-diff service
reports no hunk between a commit and itself, `getSourceRange` called with the commit of the
request returns that commit and its input range unchanged, whatever the repository, path and
range. -/
theorem adjustment_identity (r : Resolver)
    (gitDiff : String → String → String → Except Err (List Hunk)) (repoID : Int)
    (commit requestPath : String) (repositoryID : Int) (path : String) (rng : Range)
    (s : RState)
    (hdiff : ∀ c p, gitDiff c c p = .ok []) :
    (getSourceRange (SetLocalGitTreeTranslator r gitDiff repoID commit requestPath)
        repositoryID commit path rng s).1
      = .done (.ok (commit, rng, true)) := by
  unfold getSourceRange
  split
  · rfl
  · simp [SetLocalGitTreeTranslator, GitTreeTranslator.GetTargetCommitRangeFromSourceRange,
      GitTreeTranslator.hunks, hdiff, GitTreeTranslator.translateRange_nil, RM.bind,
      RM.wrapErr, RM.call, RM.ret]

/-- Witness of C13: the local location of upload 1, indexed at the commit of the request. -/
theorem adjustment_identity_witness :
    (getSourceRange (SetLocalGitTreeTranslator Example.quiet Example.gitDiff 1 "c1" "a.go")
        1 "c1" "a.go" (Example.lineRange 7) (newRequestState [Example.upload1])).1
      = .done (.ok ("c1", Example.lineRange 7, true)) :=
  adjustment_identity Example.quiet Example.gitDiff 1 "c1" "a.go" 1 "a.go"
    (Example.lineRange 7) (newRequestState [Example.upload1])
    (fun c p => by simp [Example.gitDiff])

/-! ## Computations that make no call of a given kind -/

theorem RM.avoids_ret {α : Type} (p : Call → Bool) (a : α) : (RM.ret a).avoids p :=
  fun _ => rfl

theorem RM.avoids_fail {α : Type} (p : Call → Bool) (e : Err) :
    (RM.fail e : RM α).avoids p :=
  fun _ => rfl

theorem RM.avoids_getLoader (p : Call → Bool) : RM.getLoader.avoids p :=
  fun _ => rfl

theorem RM.avoids_setLoader (p : Call → Bool) (l : UploadsDataLoader) :
    (RM.setLoader l).avoids p :=
  fun _ => rfl

theorem RM.avoids_diverge {α : Type} (p : Call → Bool) :
    RM.avoids p (fun s => (.diverge, s) : RM α) :=
  fun _ => rfl

theorem RM.avoids_call {α : Type} (p : Call → Bool) (c : Call) (answer : Except Err α)
    (hc : p c = false) : (RM.call c answer).avoids p := by
  intro s
  simp [RM.call, List.filter_append, List.filter_cons, hc]

theorem RM.avoids_bind {α β : Type} (p : Call → Bool) {x : RM α} {f : α → RM β}
    (hx : x.avoids p) (hf : ∀ a, (f a).avoids p) : (RM.bind x f).avoids p := by
  intro s
  have h1 := hx s
  unfold RM.bind
  split
  · next a s1 heq =>
    rw [heq] at h1
    rw [hf a s1]
    exact h1
  · next e s1 heq => rw [heq] at h1; exact h1
  · next s1 heq => rw [heq] at h1; exact h1
  · next s1 heq => rw [heq] at h1; exact h1

theorem RM.avoids_wrapErr {α : Type} (p : Call → Bool) {x : RM α} (t : String)
    (hx : x.avoids p) : (RM.wrapErr x t).avoids p := by
  intro s
  have h1 := hx s
  unfold RM.wrapErr
  split
  · next e s1 heq => rw [heq] at h1; exact h1
  · exact h1

theorem RM.avoids_attempt {α : Type} (p : Call → Bool) {x : RM α} (hx : x.avoids p) :
    (RM.attempt x).avoids p := by
  intro s
  have h1 := hx s
  unfold RM.attempt
  split
  · next v s1 heq => rw [heq] at h1; exact h1
  · next s1 heq => rw [heq] at h1; exact h1
  · next s1 heq => rw [heq] at h1; exact h1

theorem getVisibleUpload_noMonikers (r : Resolver) (line character : Int) (upload : Dump) :
    (getVisibleUpload r line character upload).avoids Call.isMonikerComputation := by
  unfold getVisibleUpload
  refine RM.avoids_bind _ (RM.avoids_wrapErr _ _ (RM.avoids_call _ _ _ rfl)) ?_
  intro res
  split
  · exact RM.avoids_ret _ _
  · exact RM.avoids_ret _ _

theorem getVisibleUploads.loop_noMonikers (r : Resolver) (line character : Int)
    (uploads : List Dump) (acc : List VisibleUpload) :
    (getVisibleUploads.loop r line character uploads acc).avoids Call.isMonikerComputation := by
  induction uploads generalizing acc with
  | nil => exact RM.avoids_ret _ _
  | cons u rest ih =>
    unfold getVisibleUploads.loop
    refine RM.avoids_bind _ (getVisibleUpload_noMonikers r line character u) ?_
    intro res
    split
    · exact ih _
    · exact ih _

theorem getVisibleUploadsFromCursor_noMonikers (r : Resolver) (line character : Int)
    (cs : Option (List CursorToVisibleUpload)) :
    (getVisibleUploadsFromCursor r line character cs).avoids Call.isMonikerComputation := by
  unfold getVisibleUploadsFromCursor
  split
  · refine RM.avoids_bind _ (RM.avoids_getLoader _) ?_
    intro dl
    split
    · exact RM.avoids_fail _ _
    · exact RM.avoids_ret _ _
  · refine RM.avoids_bind _ ?_ (fun _ => RM.avoids_ret _ _)
    unfold getVisibleUploads
    exact RM.avoids_bind _ (RM.avoids_getLoader _)
      (fun dl => getVisibleUploads.loop_noMonikers r line character _ _)

theorem getPageLocalLocations.loop_local_noMonikers (r : Resolver) (limit : Int)
    (vus : List VisibleUpload) (i : Int) (cur : LocalCursor) (all : List Location) :
    (getPageLocalLocations.loop (Implementations.getLocations r) limit vus i cur all).avoids
      Call.isMonikerComputation := by
  induction vus generalizing i cur all with
  | nil => exact RM.avoids_ret _ _
  | cons vu rest ih =>
    unfold getPageLocalLocations.loop
    split
    · exact RM.avoids_ret _ _
    · split
      · exact ih _ _ _
      · refine RM.avoids_bind _ (RM.avoids_wrapErr _ _ ?_) (fun res => ih _ _ _)
        unfold Implementations.getLocations
        exact RM.avoids_call _ _ _ rfl

theorem Implementations.localPhase_noMonikers (r : Resolver) (args : RequestArgs)
    (vus : List VisibleUpload) (fuel : Nat) (c : ImplementationsCursor)
    (locs : List Location) :
    (Implementations.localPhase r args vus fuel c locs).avoids Call.isMonikerComputation := by
  induction fuel generalizing c locs with
  | zero =>
    unfold Implementations.localPhase
    split
    · exact RM.avoids_diverge _
    · exact RM.avoids_ret _ _
  | succ fuel ih =>
    unfold Implementations.localPhase
    split
    · refine RM.avoids_bind _ ?_ ?_
      · unfold getPageLocalLocations
        exact RM.avoids_bind _ (getPageLocalLocations.loop_local_noMonikers r _ _ _ _ _)
          (fun _ => RM.avoids_ret _ _)
      · intro res
        simp only
        split
        · exact RM.avoids_ret _ _
        · exact ih _ _
    · exact RM.avoids_ret _ _

theorem removeUploadsWithUnknownCommits_noMonikers (r : Resolver) (uploads : List Dump) :
    (removeUploadsWithUnknownCommits r uploads).avoids Call.isMonikerComputation := by
  unfold removeUploadsWithUnknownCommits
  refine RM.avoids_bind _ (RM.avoids_call _ _ _ rfl) ?_
  intro resolvable s
  simp only
  split <;> rfl

theorem getBulkMonikerLocations_noMonikers (r : Resolver) (uploads : List Dump)
    (ms : List QualifiedMonikerData) (table : String) (limit offset : Int) :
    (getBulkMonikerLocations r uploads ms table limit offset).avoids
      Call.isMonikerComputation := by
  unfold getBulkMonikerLocations
  exact RM.avoids_wrapErr _ _ (RM.avoids_call _ _ _ rfl)

theorem Implementations.dependenciesPhase_noMonikers (r : Resolver)
    (c : ImplementationsCursor) (locs : List Location) :
    (Implementations.dependenciesPhase r c locs).avoids Call.isMonikerComputation := by
  unfold Implementations.dependenciesPhase
  refine RM.avoids_bind _ ?_ ?_
  · unfold GetUploadsWithDefinitionsForMonikers
    refine RM.avoids_bind _ (RM.avoids_wrapErr _ _ (RM.avoids_call _ _ _ rfl)) ?_
    intro uploads
    refine RM.avoids_bind _ (RM.avoids_getLoader _) ?_
    intro dl
    exact RM.avoids_bind _ (RM.avoids_setLoader _ _)
      (fun _ => removeUploadsWithUnknownCommits_noMonikers r uploads)
  · intro uploads
    exact RM.avoids_bind _ (getBulkMonikerLocations_noMonikers r _ _ _ _ _)
      (fun _ => RM.avoids_ret _ _)

theorem getUploadsByIDs_noMonikers (r : Resolver) (ids : List Int) :
    (getUploadsByIDs r ids).avoids Call.isMonikerComputation := by
  unfold getUploadsByIDs
  refine RM.avoids_bind _ (RM.avoids_getLoader _) ?_
  intro dl
  simp only
  refine RM.avoids_bind _ (RM.avoids_wrapErr _ _ (RM.avoids_call _ _ _ rfl)) ?_
  intro uploads
  refine RM.avoids_bind _
    (RM.avoids_attempt _ (removeUploadsWithUnknownCommits_noMonikers r uploads)) ?_
  intro res
  split
  · exact RM.avoids_ret _ _
  · refine RM.avoids_bind _ (RM.avoids_getLoader _) ?_
    intro dl1
    exact RM.avoids_bind _ (RM.avoids_setLoader _ _) (fun _ => RM.avoids_ret _ _)

theorem getPageRemoteLocations.nextBatch_noMonikers (r : Resolver) (vus : List VisibleUpload)
    (ms : List QualifiedMonikerData) (fuel : Nat) (c : RemoteCursor) :
    (getPageRemoteLocations.nextBatch r vus ms fuel c).avoids Call.isMonikerComputation := by
  induction fuel generalizing c with
  | zero =>
    unfold getPageRemoteLocations.nextBatch
    split
    · split
      · exact RM.avoids_ret _ _
      · exact RM.avoids_diverge _
    · exact RM.avoids_ret _ _
  | succ fuel ih =>
    unfold getPageRemoteLocations.nextBatch
    split
    · split
      · exact RM.avoids_ret _ _
      · exact RM.avoids_bind _ (RM.avoids_call _ _ _ rfl) (fun res => ih _)
    · exact RM.avoids_ret _ _

theorem getPageRemoteLocations_noMonikers (r : Resolver) (table : String)
    (vus : List VisibleUpload) (ms : List QualifiedMonikerData) (c : RemoteCursor)
    (limit : Int) (fuel : Nat) :
    (getPageRemoteLocations r table vus ms c limit fuel).avoids Call.isMonikerComputation := by
  unfold getPageRemoteLocations
  refine RM.avoids_bind _ (getPageRemoteLocations.nextBatch_noMonikers r vus ms fuel c) ?_
  intro batch
  simp only
  split
  · exact RM.avoids_ret _ _
  · refine RM.avoids_bind _ (getUploadsByIDs_noMonikers r _) ?_
    intro uploads
    exact RM.avoids_bind _ (getBulkMonikerLocations_noMonikers r _ _ _ _ _)
      (fun _ => RM.avoids_ret _ _)

theorem Implementations.dependentsPhase_noMonikers (r : Resolver) (args : RequestArgs)
    (vus : List VisibleUpload) (remoteFuel fuel : Nat) (c : ImplementationsCursor)
    (locs : List Location) :
    (Implementations.dependentsPhase r args vus remoteFuel fuel c locs).avoids
      Call.isMonikerComputation := by
  induction fuel generalizing c locs with
  | zero =>
    unfold Implementations.dependentsPhase
    split
    · exact RM.avoids_diverge _
    · exact RM.avoids_ret _ _
  | succ fuel ih =>
    unfold Implementations.dependentsPhase
    split
    · refine RM.avoids_bind _ (getPageRemoteLocations_noMonikers r _ _ _ _ _ _) ?_
      intro res
      simp only
      split
      · exact RM.avoids_ret _ _
      · exact ih _ _
    · exact RM.avoids_ret _ _

theorem getUploadLocation_noMonikers (r : Resolver) (dump : Dump) (location : Location) :
    (getUploadLocation r dump location).avoids Call.isMonikerComputation := by
  unfold getUploadLocation
  refine RM.avoids_bind _ ?_ (fun _ => RM.avoids_ret _ _)
  unfold getSourceRange
  split
  · exact RM.avoids_ret _ _
  · refine RM.avoids_bind _ (RM.avoids_wrapErr _ _ (RM.avoids_call _ _ _ rfl)) ?_
    intro res
    split
    · exact RM.avoids_ret _ _
    · exact RM.avoids_ret _ _

theorem adjustLocations.loop_adjust_noMonikers (r : Resolver) (locs : List Location)
    (acc : List UploadLocation) :
    (adjustLocations.loop r locs acc).avoids Call.isMonikerComputation := by
  induction locs generalizing acc with
  | nil => exact RM.avoids_ret _ _
  | cons l rest ih =>
    unfold adjustLocations.loop
    refine RM.avoids_bind _ (RM.avoids_getLoader _) ?_
    intro dl
    split
    · exact ih _
    · refine RM.avoids_bind _ (getUploadLocation_noMonikers r _ _) ?_
      intro adjusted
      split
      · exact ih _
      · refine RM.avoids_bind _ (RM.avoids_call _ _ _ rfl) ?_
        intro included
        split
        · exact ih _
        · exact ih _

theorem Implementations.collect_noMonikers (r : Resolver) (args : RequestArgs) (fuel : Nat)
    (c0 : ImplementationsCursor) (im em : List QualifiedMonikerData)
    (him : c0.OrderedImplementationMonikers = some im)
    (hem : c0.OrderedExportMonikers = some em) :
    (Implementations.collect r args fuel c0).avoids Call.isMonikerComputation := by
  unfold Implementations.collect
  refine RM.avoids_bind _ (getVisibleUploadsFromCursor_noMonikers r _ _ _) ?_
  intro vis
  simp only [him, hem]
  refine RM.avoids_bind _ (RM.avoids_ret _ _) ?_
  intro implementationMonikers
  refine RM.avoids_bind _ (RM.avoids_ret _ _) ?_
  intro exportMonikers
  refine RM.avoids_bind _ ?_ ?_
  · split
    · exact Implementations.localPhase_noMonikers r args _ fuel _ _
    · exact RM.avoids_ret _ _
  · intro p1
    refine RM.avoids_bind _ ?_ ?_
    · split
      · exact Implementations.dependenciesPhase_noMonikers r _ _
      · exact RM.avoids_ret _ _
    · intro p2
      split
      · exact Implementations.dependentsPhase_noMonikers r args _ fuel fuel _ _
      · exact RM.avoids_ret _ _

theorem Implementations.orReturn_log {α : Type} (p : Call → Bool) {x : RM α}
    {k : α → RState → Run ImplementationsResult × RState} (hx : x.avoids p)
    (hk : ∀ a s, (k a s).2.log.filter p = s.log.filter p) (s : RState) :
    (Implementations.orReturn x k s).2.log.filter p = s.log.filter p := by
  have h1 := hx s
  unfold Implementations.orReturn
  split
  · next a s1 heq =>
    rw [heq] at h1
    rw [hk a s1]
    exact h1
  · next e s1 heq => rw [heq] at h1; exact h1
  · next s1 heq => rw [heq] at h1; exact h1
  · next s1 heq => rw [heq] at h1; exact h1

/-- The moniker arrays of the cursor after the phases are the arrays restored from the decoded
cursor or computed before the phases. -/
theorem Implementations.collect_arrays {r : Resolver} {args : RequestArgs} {fuel : Nat}
    {c0 : ImplementationsCursor} {s s' : RState} {res : ImplementationsCursor × List Location}
    (h : Implementations.collect r args fuel c0 s = (.done (.ok res), s')) :
    (∀ im, c0.OrderedImplementationMonikers = some im →
      res.1.OrderedImplementationMonikers = some im) ∧
    (∀ em, c0.OrderedExportMonikers = some em → res.1.OrderedExportMonikers = some em) := by
  obtain ⟨vis, im, em, p1, p2, s1, s2, s3, s4, s5, -, him, hem, hp1, hp2, hp3⟩ :=
    Implementations.collect_inv h
  have h1 : p1.1.OrderedImplementationMonikers = im ∧ p1.1.OrderedExportMonikers = em := by
    split at hp1
    · obtain ⟨⟨-, ha, hb⟩, -⟩ := Implementations.localPhase_inv _ _ _ _ _ _ _ _ _ hp1
      exact ⟨ha, hb⟩
    · obtain ⟨rfl, -⟩ := RM.ret_ok hp1
      exact ⟨rfl, rfl⟩
  have h2 : p2.1.OrderedImplementationMonikers = im ∧ p2.1.OrderedExportMonikers = em := by
    split at hp2
    · obtain ⟨⟨-, ha, hb⟩, -⟩ := Implementations.dependenciesPhase_inv _ _ _ _ _ _ hp2
      exact ⟨ha.trans h1.1, hb.trans h1.2⟩
    · obtain ⟨rfl, -⟩ := RM.ret_ok hp2
      exact h1
  have h3 : res.1.OrderedImplementationMonikers = im ∧ res.1.OrderedExportMonikers = em := by
    split at hp3
    · obtain ⟨-, ha, hb⟩ := Implementations.dependentsPhase_same _ _ _ _ _ _ _ _ _ _ hp3
      exact ⟨ha.trans h2.1, hb.trans h2.2⟩
    · obtain ⟨rfl, -⟩ := RM.ret_ok hp3
      exact h2
  rw [h3.1, h3.2]
  constructor
  · intro im0 h0
    rw [h0] at him
    exact (RM.ret_ok him).1
  · intro em0 h0
    rw [h0] at hem
    exact (RM.ret_ok hem).1

/-- C16 (amended). A moniker array that is non-nil in the decoded cursor is not recomputed: when
both arrays of the decoded cursor are non-nil, `Implementations` calls neither
`GetMonikersByPosition` nor `GetPackageInformation`, however the request ends, and a non-empty
next cursor is the encoding of a cursor that carries the same two arrays. -/
theorem moniker_arrays_are_reused (r : Resolver) (args : RequestArgs) (fuel : Nat) (s : RState)
    (c0 : ImplementationsCursor) (im em : List QualifiedMonikerData)
    (hdec : r.decodeImplementationsCursor args.RawCursor = .ok c0)
    (him : c0.OrderedImplementationMonikers = some im)
    (hem : c0.OrderedExportMonikers = some em) :
    (Implementations r args fuel s).2.log.filter Call.isMonikerComputation
      = s.log.filter Call.isMonikerComputation ∧
    ∀ res, (Implementations r args fuel s).1 = .done res → res.nextCursor ≠ "" →
      ∃ cursor, res.nextCursor = r.encodeImplementationsCursor cursor ∧
        cursor.OrderedImplementationMonikers = some im ∧
        cursor.OrderedExportMonikers = some em := by
  constructor
  · unfold Implementations
    rw [hdec]
    simp only
    refine Implementations.orReturn_log _
      (Implementations.collect_noMonikers r args fuel c0 im em him hem) ?_ s
    intro collected s1
    refine Implementations.orReturn_log _ ?_ (fun _ _ => rfl) s1
    exact adjustLocations.loop_adjust_noMonikers r _ _
  · intro res h hne
    have h' : Implementations r args fuel s = (.done res, (Implementations r args fuel s).2) :=
      Prod.ext h rfl
    rcases Implementations_inv h' with ⟨e, _, _, _, hnil, _⟩ | ⟨c, hdec', hrest⟩
    · exact absurd hnil hne
    · rw [hdec] at hdec'
      cases hdec'
      rcases hrest with ⟨e, _, hres⟩ | ⟨cursor, locations, s1, hcol, hrest⟩
      · rw [hres] at hne; exact absurd rfl hne
      · rcases hrest with ⟨e, _, hres⟩ | ⟨adjusted, _, hres⟩
        · rw [hres] at hne; exact absurd rfl hne
        · obtain ⟨ha, hb⟩ := Implementations.collect_arrays hcol
          rw [hres] at hne ⊢
          simp only at hne ⊢
          by_cases hp : cursor.Phase = "done"
          · simp [hp] at hne
          · exact ⟨cursor, by simp [hp], ha im him, hb em hem⟩

/-- C16, as stated, fails on the backend `Example.withLocal`, in which no moniker is attached to
the position. The first page of limit 1 computes two nil moniker arrays and returns the encoding
of `Example.stalledCursor`; the second page, resumed from that cursor, finds the arrays nil and
computes them again: it calls `GetMonikersByPosition` for upload 1. -/
theorem empty_moniker_arrays_are_recomputed :
    (Implementations Example.withLocal (Example.request 1) 5
        (newRequestState [Example.upload1])).1
      = .done { locations := some [Example.adjusted1],
                nextCursor := Codec.encode Example.stalledCursor, err := none } ∧
    Codec.decode (Codec.encode Example.stalledCursor) = .ok Example.stalledCursor ∧
    Example.stalledCursor.OrderedImplementationMonikers = none ∧
    Example.stalledCursor.OrderedExportMonikers = none ∧
    (Implementations Example.withLocal
        { Example.request 1 with RawCursor := Codec.encode Example.stalledCursor } 5
        (newRequestState [Example.upload1])).1
      = .done { locations := some [], nextCursor := "", err := none } ∧
    Call.GetMonikersByPosition 1 "a.go" 0 0 ∈
      (Implementations Example.withLocal
        { Example.request 1 with RawCursor := Codec.encode Example.stalledCursor } 5
        (newRequestState [Example.upload1])).2.log := by
  decide!

/-- Witness of C16: the second page of the result stream served by `Example.twoLocals`, resumed
from the cursor `Example.afterFirstLocal`, whose two moniker arrays are non-nil. -/
theorem moniker_arrays_are_reused_witness :
    Example.twoLocals.decodeImplementationsCursor (Codec.encode Example.afterFirstLocal)
      = .ok Example.afterFirstLocal ∧
    ((Implementations Example.twoLocals
        { Example.request 1 with RawCursor := Codec.encode Example.afterFirstLocal } 5
        (newRequestState [Example.upload1])).2.log.filter Call.isMonikerComputation
      = (newRequestState [Example.upload1]).log.filter Call.isMonikerComputation ∧
    ∀ res, (Implementations Example.twoLocals
        { Example.request 1 with RawCursor := Codec.encode Example.afterFirstLocal } 5
        (newRequestState [Example.upload1])).1 = .done res → res.nextCursor ≠ "" →
      ∃ cursor, res.nextCursor = Example.twoLocals.encodeImplementationsCursor cursor ∧
        cursor.OrderedImplementationMonikers
          = some [{ MonikerData := Example.implementationMoniker,
                    PackageInformationData := Example.package }] ∧
        cursor.OrderedExportMonikers
          = some [{ MonikerData := Example.exportMoniker,
                    PackageInformationData := Example.package }]) :=
  ⟨by decide!,
   moniker_arrays_are_reused Example.twoLocals
    { Example.request 1 with RawCursor := Codec.encode Example.afterFirstLocal } 5
    (newRequestState [Example.upload1]) Example.afterFirstLocal
    [{ MonikerData := Example.implementationMoniker,
       PackageInformationData := Example.package }]
    [{ MonikerData := Example.exportMoniker, PackageInformationData := Example.package }]
    (by decide!) rfl rfl⟩

/-! ## The ordered monikers -/

theorem sliceLen_eq_length (ms : Option (List QualifiedMonikerData)) :
    sliceLen ms = ((ms.getD []).length : Int) := by
  cases ms <;> rfl

theorem firstOccurrences_add (set : QualifiedMonikerSet) (q : QualifiedMonikerData)
    (l : List QualifiedMonikerData) :
    (set.add q).monikers.getD [] ++ firstOccurrences (set.add q).monikerHashes l
      = set.monikers.getD [] ++ firstOccurrences set.monikerHashes (q :: l) := by
  unfold QualifiedMonikerSet.add
  by_cases h : QualifiedMonikerSet.identity q ∈ set.monikerHashes
  · simp [h, firstOccurrences]
  · simp [h, firstOccurrences]

theorem take_of_length_eq {α : Type} (l more : List α) (n : Nat) (h : l.length = n) :
    (l ++ more).take n = l := by
  subst h
  exact List.take_left _ _

theorem keptMonikers_append (kinds : List String) (a b : List MonikerData) :
    keptMonikers kinds (a ++ b) = keptMonikers kinds a ++ keptMonikers kinds b := by
  simp [keptMonikers]

theorem getOrderedMonikers.monikersLoop_spec (r : Resolver) (vu : VisibleUpload)
    (kinds : List String)
    (hpkg : ∀ pid, ∃ p, r.GetPackageInformation vu.Upload.ID vu.TargetPathWithoutRoot pid = .ok p)
    (ms : List MonikerData) (set : QualifiedMonikerSet) (s : RState)
    (hlen : (set.monikers.getD []).length < 10)
    (hwf : set.monikers ≠ some []) :
    ∃ res s', getOrderedMonikers.monikersLoop r vu kinds ms set s = (.done (.ok res), s') ∧
      res.1.monikers ≠ some [] ∧
      (res.2 = true → ∀ more, res.1.monikers.getD []
        = (set.monikers.getD [] ++ firstOccurrences set.monikerHashes
            ((keptMonikers kinds ms).map (qualifiedMonikerOf r vu) ++ more)).take 10) ∧
      (res.2 = false → (res.1.monikers.getD []).length < 10 ∧
        ∀ more, res.1.monikers.getD [] ++ firstOccurrences res.1.monikerHashes more
          = set.monikers.getD [] ++ firstOccurrences set.monikerHashes
              ((keptMonikers kinds ms).map (qualifiedMonikerOf r vu) ++ more)) := by
  induction ms generalizing set s with
  | nil =>
    refine ⟨(set, false), s, rfl, hwf, (fun h => by cases h), fun _ => ⟨hlen, fun more => ?_⟩⟩
    simp [keptMonikers]
  | cons m rest ih =>
    unfold getOrderedMonikers.monikersLoop
    by_cases hskip : m.PackageInformationID = "" ∨ sliceContains kinds m.Kind = false
    · rw [if_pos hskip]
      have hk : keptMonikers kinds (m :: rest) = keptMonikers kinds rest := by
        unfold keptMonikers
        rw [List.filter_cons_of_neg]
        rcases hskip with h | h <;> simp [h]
      rw [hk]
      exact ih set s hlen hwf
    · rw [if_neg hskip]
      have hk : keptMonikers kinds (m :: rest) = m :: keptMonikers kinds rest := by
        unfold keptMonikers
        rw [List.filter_cons_of_pos]
        simp only [not_or] at hskip
        simp [hskip.1]
        simpa using hskip.2
      obtain ⟨p, hp⟩ := hpkg m.PackageInformationID
      have hq : qualifiedMonikerOf r vu m
          = { MonikerData := m, PackageInformationData := p.1 } := by
        simp [qualifiedMonikerOf, hp]
      have hcall : RM.wrapErr
          (RM.call
            (.GetPackageInformation vu.Upload.ID vu.TargetPathWithoutRoot
              m.PackageInformationID)
            (r.GetPackageInformation vu.Upload.ID vu.TargetPathWithoutRoot
              m.PackageInformationID))
          "lsifStore.PackageInformation" s
          = (.done (.ok p), { s with log := s.log ++
              [Call.GetPackageInformation vu.Upload.ID vu.TargetPathWithoutRoot
                m.PackageInformationID] }) := by
        simp [RM.wrapErr, RM.call, hp]
      rw [RM.bind_of_ok hcall]
      rw [← hq]
      have hstep := firstOccurrences_add set (qualifiedMonikerOf r vu m)
      have hwf1 : (set.add (qualifiedMonikerOf r vu m)).monikers ≠ some [] := by
        unfold QualifiedMonikerSet.add
        split
        · exact hwf
        · simp
      have hlen1 : ((set.add (qualifiedMonikerOf r vu m)).monikers.getD []).length
          ≤ (set.monikers.getD []).length + 1 := by
        unfold QualifiedMonikerSet.add
        split
        · omega
        · simp
      by_cases hfull : sliceLen (set.add (qualifiedMonikerOf r vu m)).monikers ≥ monikerLimit
      · rw [if_pos hfull]
        refine ⟨_, _, rfl, hwf1, fun _ more => ?_, fun h => by cases h⟩
        simp only [hk, List.map_cons, List.cons_append]
        rw [← hstep]
        rw [sliceLen_eq_length] at hfull
        simp only [monikerLimit] at hfull
        have h10 : ((set.add (qualifiedMonikerOf r vu m)).monikers.getD []).length = 10 := by
          omega
        exact (take_of_length_eq _ _ 10 h10).symm
      · rw [if_neg hfull]
        rw [sliceLen_eq_length] at hfull
        simp only [monikerLimit] at hfull
        have hlt : ((set.add (qualifiedMonikerOf r vu m)).monikers.getD []).length < 10 := by
          omega
        obtain ⟨res, s', hrun, hwf2, htrue, hfalse⟩ := ih (set.add (qualifiedMonikerOf r vu m))
          { s with log := s.log ++
              [Call.GetPackageInformation vu.Upload.ID vu.TargetPathWithoutRoot
                m.PackageInformationID] } hlt hwf1
        refine ⟨res, s', hrun, hwf2, fun h more => ?_, fun h => ⟨(hfalse h).1, fun more => ?_⟩⟩
        · rw [htrue h more, hstep]
          simp only [hk, List.map_cons, List.cons_append]
        · rw [(hfalse h).2 more, hstep]
          simp only [hk, List.map_cons, List.cons_append]

theorem getOrderedMonikers.rangesLoop_spec (r : Resolver) (vu : VisibleUpload)
    (kinds : List String)
    (hpkg : ∀ pid, ∃ p, r.GetPackageInformation vu.Upload.ID vu.TargetPathWithoutRoot pid = .ok p)
    (rs : List (List MonikerData)) (set : QualifiedMonikerSet) (s : RState)
    (hlen : (set.monikers.getD []).length < 10)
    (hwf : set.monikers ≠ some []) :
    ∃ res s', getOrderedMonikers.rangesLoop r vu kinds rs set s = (.done (.ok res), s') ∧
      res.1.monikers ≠ some [] ∧
      (res.2 = true → ∀ more, res.1.monikers.getD []
        = (set.monikers.getD [] ++ firstOccurrences set.monikerHashes
            ((keptMonikers kinds rs.flatten).map (qualifiedMonikerOf r vu) ++ more)).take 10) ∧
      (res.2 = false → (res.1.monikers.getD []).length < 10 ∧
        ∀ more, res.1.monikers.getD [] ++ firstOccurrences res.1.monikerHashes more
          = set.monikers.getD [] ++ firstOccurrences set.monikerHashes
              ((keptMonikers kinds rs.flatten).map (qualifiedMonikerOf r vu) ++ more)) := by
  induction rs generalizing set s with
  | nil =>
    refine ⟨(set, false), s, rfl, hwf, (fun h => by cases h), fun _ => ⟨hlen, fun more => ?_⟩⟩
    simp [keptMonikers]
  | cons ms rest ih =>
    obtain ⟨res, s1, hrun, hwf1, htrue, hfalse⟩ :=
      getOrderedMonikers.monikersLoop_spec r vu kinds hpkg ms set s hlen hwf
    unfold getOrderedMonikers.rangesLoop
    rw [RM.bind_of_ok hrun]
    simp only [List.flatten_cons, keptMonikers_append, List.map_append, List.append_assoc]
    by_cases hflag : res.2 = true
    · rw [if_pos hflag]
      exact ⟨res, s1, rfl, hwf1, fun _ more => htrue hflag _, fun h => by rw [hflag] at h; cases h⟩
    · rw [if_neg hflag]
      have hflag' : res.2 = false := by simpa using hflag
      obtain ⟨res2, s2, hrun2, hwf2, htrue2, hfalse2⟩ := ih res.1 s1 (hfalse hflag').1 hwf1
      refine ⟨res2, s2, hrun2, hwf2, fun h more => ?_, fun h => ⟨(hfalse2 h).1, fun more => ?_⟩⟩
      · rw [htrue2 h more, (hfalse hflag').2]
      · rw [(hfalse2 h).2 more, (hfalse hflag').2]

theorem getOrderedMonikers.uploadsLoop_spec (r : Resolver) (kinds : List String)
    (vus : List VisibleUpload)
    (hmon : ∀ vu ∈ vus, ∃ rs, r.GetMonikersByPosition vu.Upload.ID vu.TargetPathWithoutRoot
      vu.TargetPosition.Line vu.TargetPosition.Character = .ok rs)
    (hpkg : ∀ vu ∈ vus, ∀ pid, ∃ p,
      r.GetPackageInformation vu.Upload.ID vu.TargetPathWithoutRoot pid = .ok p)
    (set : QualifiedMonikerSet) (s : RState)
    (hlen : (set.monikers.getD []).length < 10)
    (hwf : set.monikers ≠ some []) :
    ∃ res s', getOrderedMonikers.uploadsLoop r kinds vus set s = (.done (.ok res), s') ∧
      res.1.monikers ≠ some [] ∧
      (res.2 = true → ∀ more, res.1.monikers.getD []
        = (set.monikers.getD [] ++ firstOccurrences set.monikerHashes
            (monikerCandidates r kinds vus ++ more)).take 10) ∧
      (res.2 = false → (res.1.monikers.getD []).length < 10 ∧
        ∀ more, res.1.monikers.getD [] ++ firstOccurrences res.1.monikerHashes more
          = set.monikers.getD [] ++ firstOccurrences set.monikerHashes
              (monikerCandidates r kinds vus ++ more)) := by
  induction vus generalizing set s with
  | nil =>
    refine ⟨(set, false), s, rfl, hwf, (fun h => by cases h), fun _ => ⟨hlen, fun more => ?_⟩⟩
    simp [monikerCandidates]
  | cons vu rest ih =>
    obtain ⟨rs, hrs⟩ := hmon vu (List.mem_cons_self _ _)
    have hcall : RM.wrapErr
        (RM.call
          (.GetMonikersByPosition vu.Upload.ID vu.TargetPathWithoutRoot vu.TargetPosition.Line
            vu.TargetPosition.Character)
          (r.GetMonikersByPosition vu.Upload.ID vu.TargetPathWithoutRoot vu.TargetPosition.Line
            vu.TargetPosition.Character))
        "lsifStore.MonikersByPosition" s
        = (.done (.ok rs), { s with log := s.log ++
            [Call.GetMonikersByPosition vu.Upload.ID vu.TargetPathWithoutRoot
              vu.TargetPosition.Line vu.TargetPosition.Character] }) := by
      simp [RM.wrapErr, RM.call, hrs]
    obtain ⟨res, s1, hrun, hwf1, htrue, hfalse⟩ :=
      getOrderedMonikers.rangesLoop_spec r vu kinds (hpkg vu (List.mem_cons_self _ _)) rs set
        { s with log := s.log ++
            [Call.GetMonikersByPosition vu.Upload.ID vu.TargetPathWithoutRoot
              vu.TargetPosition.Line vu.TargetPosition.Character] } hlen hwf
    have hcand : monikerCandidates r kinds (vu :: rest)
        = (keptMonikers kinds rs.flatten).map (qualifiedMonikerOf r vu)
            ++ monikerCandidates r kinds rest := by
      simp [monikerCandidates, rangeMonikersOf, hrs]
    unfold getOrderedMonikers.uploadsLoop
    rw [RM.bind_of_ok hcall]
    rw [RM.bind_of_ok hrun, hcand]
    simp only [List.append_assoc]
    by_cases hflag : res.2 = true
    · rw [if_pos hflag]
      exact ⟨res, s1, rfl, hwf1, fun _ more => htrue hflag _, fun h => by rw [hflag] at h; cases h⟩
    · rw [if_neg hflag]
      have hflag' : res.2 = false := by simpa using hflag
      obtain ⟨res2, s2, hrun2, hwf2, htrue2, hfalse2⟩ := ih
        (fun v hv => hmon v (List.mem_cons_of_mem _ hv))
        (fun v hv => hpkg v (List.mem_cons_of_mem _ hv)) res.1 s1 (hfalse hflag').1 hwf1
      refine ⟨res2, s2, hrun2, hwf2, fun h more => ?_, fun h => ⟨(hfalse2 h).1, fun more => ?_⟩⟩
      · rw [htrue2 h more, (hfalse hflag').2]
      · rw [(hfalse2 h).2 more, (hfalse hflag').2]

/-- What `firstOccurrences` computes: a sub-sequence of its input in which no identity occurs
twice and none was seen before, and which keeps an occurrence of every identity of the input
that was not seen before. -/
theorem firstOccurrences_spec
    (seen : List (String × String × String × String × String × String))
    (l : List QualifiedMonikerData) :
    (firstOccurrences seen l).Sublist l ∧
    ((firstOccurrences seen l).map QualifiedMonikerSet.identity).Nodup ∧
    (∀ m ∈ firstOccurrences seen l, QualifiedMonikerSet.identity m ∉ seen) ∧
    ∀ m ∈ l, QualifiedMonikerSet.identity m ∈ seen ∨
      QualifiedMonikerSet.identity m
        ∈ (firstOccurrences seen l).map QualifiedMonikerSet.identity := by
  induction l generalizing seen with
  | nil => simp [firstOccurrences]
  | cons q rest ih =>
    unfold firstOccurrences
    by_cases h : QualifiedMonikerSet.identity q ∈ seen
    · rw [if_pos h]
      obtain ⟨h1, h2, h3, h4⟩ := ih seen
      refine ⟨h1.trans (List.sublist_cons_self _ _), h2, h3, fun m hm => ?_⟩
      rcases List.mem_cons.1 hm with rfl | hm
      · exact Or.inl h
      · exact h4 m hm
    · rw [if_neg h]
      obtain ⟨h1, h2, h3, h4⟩ := ih (QualifiedMonikerSet.identity q :: seen)
      refine ⟨h1.cons₂ _, ?_, fun m hm => ?_, fun m hm => ?_⟩
      · rw [List.map_cons, List.nodup_cons]
        refine ⟨fun hin => ?_, h2⟩
        obtain ⟨m, hm, hid⟩ := List.mem_map.1 hin
        exact h3 m hm (by rw [hid]; exact List.mem_cons_self _ _)
      · rcases List.mem_cons.1 hm with rfl | hm
        · exact h
        · exact fun hs => h3 m hm (List.mem_cons_of_mem _ hs)
      · rcases List.mem_cons.1 hm with rfl | hm
        · exact Or.inr (by simp)
        · rcases h4 m hm with hs | hs
          · rcases List.mem_cons.1 hs with heq | hs
            · exact Or.inr (by simp [heq])
            · exact Or.inl hs
          · exact Or.inr (by rw [List.map_cons]; exact List.mem_cons_of_mem _ hs)

/-- C17. Ordered monikers: when no store call fails, `getOrderedMonikers` returns, and the array
it returns (nil when it is empty) holds the first 10 distinct qualified monikers of the sequence
obtained by walking the visible uploads in order, the ranges of each upload innermost first,
keeping the monikers of a requested kind that have a package-information id; a later duplicate
of a collected moniker is dropped and the order of first occurrence is kept. -/
theorem ordered_monikers (r : Resolver) (vus : List VisibleUpload) (kinds : List String)
    (s : RState)
    (hmon : ∀ vu ∈ vus, ∃ rs, r.GetMonikersByPosition vu.Upload.ID vu.TargetPathWithoutRoot
      vu.TargetPosition.Line vu.TargetPosition.Character = .ok rs)
    (hpkg : ∀ vu ∈ vus, ∀ pid, ∃ p,
      r.GetPackageInformation vu.Upload.ID vu.TargetPathWithoutRoot pid = .ok p) :
    ∃ ms s', getOrderedMonikers r vus kinds s = (.done (.ok ms), s') ∧
      ms.getD [] = orderedMonikersOf r kinds vus ∧ ms ≠ some [] := by
  obtain ⟨res, s1, hrun, hwf, htrue, hfalse⟩ :=
    getOrderedMonikers.uploadsLoop_spec r kinds vus hmon hpkg newQualifiedMonikerSet s
      (by simp [newQualifiedMonikerSet]) (by simp [newQualifiedMonikerSet])
  refine ⟨res.1.monikers, s1, ?_, ?_, hwf⟩
  · unfold getOrderedMonikers
    rw [RM.bind_of_ok hrun]
    rfl
  · unfold orderedMonikersOf
    cases hflag : res.2
    · obtain ⟨hlen, hall⟩ := hfalse hflag
      have h := hall []
      simp only [firstOccurrences, List.append_nil, newQualifiedMonikerSet, Option.getD_none,
        List.nil_append] at h
      rw [← h]
      exact (List.take_of_length_le (le_of_lt hlen)).symm
    · have h := htrue hflag []
      simpa [newQualifiedMonikerSet] using h

/-- Witness of C17: on `Example.mixedMonikers` the implementation monikers of upload 1 are `a`
then `b`: the export moniker, the second occurrence of `a` and the moniker without package
information are left out. -/
theorem ordered_monikers_witness :
    orderedMonikersOf Example.mixedMonikers ["implementation"] [Example.visible1]
      = [{ MonikerData := Example.numbered 1, PackageInformationData := Example.package },
         { MonikerData := Example.numbered 2, PackageInformationData := Example.package }] ∧
    ∃ ms s', getOrderedMonikers Example.mixedMonikers [Example.visible1] ["implementation"]
        (newRequestState [Example.upload1]) = (.done (.ok ms), s') ∧
      ms.getD [] = orderedMonikersOf Example.mixedMonikers ["implementation"] [Example.visible1] ∧
      ms ≠ some [] :=
  ⟨by decide!,
   ordered_monikers Example.mixedMonikers [Example.visible1] ["implementation"]
    (newRequestState [Example.upload1]) (fun _ _ => ⟨_, rfl⟩) (fun _ _ _ => ⟨_, rfl⟩)⟩

/-! ## The order of the locations of a page -/

theorem getPageLocalLocations.loop_page (r : Resolver) (limit : Int)
    (vus : List VisibleUpload) (i : Int) (cur : LocalCursor) (all : List Location)
    (s s' : RState) (res : List Location × LocalCursor)
    (h : getPageLocalLocations.loop (Implementations.getLocations r) limit vus i cur all s
      = (.done (.ok res), s')) :
    ∃ queried : List (VisibleUpload × List Location),
      (queried.map Prod.fst).Sublist vus ∧
      (∀ q ∈ queried, ∃ limit offset total,
        r.GetImplementations q.1.Upload.ID q.1.TargetPathWithoutRoot q.1.TargetPosition.Line
          q.1.TargetPosition.Character limit offset = .ok (q.2, total)) ∧
      res.1 = all ++ (queried.map Prod.snd).flatten := by
  induction vus generalizing i cur all s with
  | nil =>
    unfold getPageLocalLocations.loop at h
    obtain ⟨rfl, -⟩ := RM.ret_ok h
    exact ⟨[], by simp, by simp, by simp⟩
  | cons vu rest ih =>
    unfold getPageLocalLocations.loop at h
    split at h
    · obtain ⟨rfl, -⟩ := RM.ret_ok h
      exact ⟨[], by simp, by simp, by simp⟩
    · split at h
      · obtain ⟨queried, hsub, hans, hres⟩ := ih _ _ _ _ h
        exact ⟨queried, hsub.trans (List.sublist_cons_self _ _), hans, hres⟩
      · obtain ⟨a, s1, h0, h1⟩ := RM.bind_ok h
        obtain ⟨queried, hsub, hans, hres⟩ := ih _ _ _ _ h1
        have hstore := RM.call_ok (RM.wrapErr_ok h0)
        refine ⟨(vu, a.1) :: queried, ?_, ?_, ?_⟩
        · simpa using hsub.cons₂ vu
        · intro q hq
          rcases List.mem_cons.1 hq with rfl | hq
          · exact ⟨_, _, a.2, hstore.1⟩
          · exact hans q hq
        · rw [hres]
          simp

theorem getPageLocalLocations.loop_full (r : Resolver) (hfull : r.answersInFull) (limit : Int)
    (vus : List VisibleUpload) (i : Int) (cur : LocalCursor) (all : List Location)
    (s s' : RState) (res : List Location × LocalCursor)
    (hoff : 0 ≤ cur.LocationOffset)
    (hinv : limit ≤ (all.length : Int) ∨ i ≤ cur.UploadOffset)
    (h : getPageLocalLocations.loop (Implementations.getLocations r) limit vus i cur all s
      = (.done (.ok res), s')) :
    0 ≤ res.2.LocationOffset ∧
      (limit ≤ (res.1.length : Int) ∨ i + (vus.length : Int) ≤ res.2.UploadOffset) := by
  induction vus generalizing i cur all s with
  | nil =>
    unfold getPageLocalLocations.loop at h
    obtain ⟨rfl, -⟩ := RM.ret_ok h
    simpa using ⟨hoff, hinv⟩
  | cons vu rest ih =>
    unfold getPageLocalLocations.loop at h
    split at h
    · next hge =>
      obtain ⟨rfl, -⟩ := RM.ret_ok h
      exact ⟨hoff, Or.inl hge⟩
    · next hlt =>
      split at h
      · next hskip =>
        obtain ⟨h1, h2⟩ := ih (i + 1) cur all s hoff (Or.inr (by omega)) h
        refine ⟨h1, ?_⟩
        simp only [List.length_cons, Nat.cast_add, Nat.cast_one]
        omega
      · next hskip =>
        obtain ⟨a, s1, h0, h1⟩ := RM.bind_ok h
        have hstore := (RM.call_ok (RM.wrapErr_ok h0)).1
        have hc := hfull _ _ _ _ _ _ a.1 a.2 hoff hstore
        simp only at h1
        have hoff1 : 0 ≤ (if cur.LocationOffset + (a.1.length : Int) ≥ a.2
            then ({ LocationOffset := 0, UploadOffset := cur.UploadOffset + 1 } : LocalCursor)
            else { cur with LocationOffset := cur.LocationOffset + (a.1.length : Int) }
              ).LocationOffset := by
          split
          · exact le_refl 0
          · show 0 ≤ cur.LocationOffset + (a.1.length : Int)
            omega
        have hinv1 : limit ≤ ((all ++ a.1).length : Int) ∨
            i + 1 ≤ (if cur.LocationOffset + (a.1.length : Int) ≥ a.2
              then ({ LocationOffset := 0, UploadOffset := cur.UploadOffset + 1 } : LocalCursor)
              else { cur with LocationOffset := cur.LocationOffset + (a.1.length : Int) }
                ).UploadOffset := by
          rcases hc with hc | hc
          · left
            simp only [List.length_append, Nat.cast_add]
            omega
          · right
            rw [if_pos (by omega)]
            simp only
            omega
        have hstep := ih (i + 1) _ (all ++ a.1) s1 hoff1 hinv1 h1
        refine ⟨hstep.1, ?_⟩
        simp only [List.length_cons, Nat.cast_add, Nat.cast_one]
        have := hstep.2
        omega

theorem getPageLocalLocations_page (r : Resolver) (vus : List VisibleUpload)
    (cur : LocalCursor) (limit : Int) (s s' : RState)
    (res : List Location × Bool × LocalCursor)
    (h : getPageLocalLocations (Implementations.getLocations r) vus cur limit s
      = (.done (.ok res), s')) :
    IsLocalPage r vus res.1 ∧
      (r.answersInFull → 0 ≤ cur.UploadOffset → 0 ≤ cur.LocationOffset →
        limit ≤ (res.1.length : Int) ∨ res.2.1 = false) := by
  unfold getPageLocalLocations at h
  obtain ⟨a, s1, h0, h1⟩ := RM.bind_ok h
  obtain ⟨rfl, -⟩ := RM.ret_ok h1
  constructor
  · obtain ⟨queried, hsub, hans, hres⟩ := getPageLocalLocations.loop_page r _ _ _ _ _ _ _ _ h0
    exact ⟨queried, hsub, hans, by simpa using hres⟩
  · intro hfull hup hoff
    rcases (getPageLocalLocations.loop_full r hfull _ _ _ _ _ _ _ _ hoff (Or.inr hup) h0).2
      with hl | hu
    · exact Or.inl hl
    · right
      simp only [decide_eq_false_iff_not, not_lt]
      omega

theorem Implementations.localPhase_pages (r : Resolver) (args : RequestArgs)
    (vus : List VisibleUpload) (fuel : Nat) (c : ImplementationsCursor) (locs : List Location)
    (s s' : RState) (res : ImplementationsCursor × List Location)
    (h : Implementations.localPhase r args vus fuel c locs s = (.done (.ok res), s')) :
    ∃ pages : List (List Location),
      (∀ p ∈ pages, IsLocalPage r vus p) ∧ res.2 = locs ++ pages.flatten ∧
      (args.Limit ≤ (locs.length : Int) → pages = []) ∧
      (r.answersInFull → 0 ≤ c.LocalCursor.UploadOffset → 0 ≤ c.LocalCursor.LocationOffset →
        pages.length ≤ 1) := by
  induction fuel generalizing c locs s with
  | zero =>
    unfold Implementations.localPhase at h
    split at h
    · simp at h
    · obtain ⟨rfl, -⟩ := RM.ret_ok h
      exact ⟨[], by simp, by simp, fun _ => rfl, fun _ _ _ => by simp⟩
  | succ fuel ih =>
    unfold Implementations.localPhase at h
    split at h
    · next hlt =>
      obtain ⟨a, s1, h0, h1⟩ := RM.bind_ok h
      obtain ⟨hpage, hsingle⟩ := getPageLocalLocations_page r _ _ _ _ _ _ h0
      simp only at h1
      split at h1
      · obtain ⟨rfl, -⟩ := RM.ret_ok h1
        refine ⟨[a.1], ?_, by simp, fun hge => absurd hlt (not_lt.2 hge), fun _ _ _ => by simp⟩
        intro p hp
        rw [List.mem_singleton] at hp
        rw [hp]
        exact hpage
      · next hmore =>
        obtain ⟨pages, hall, hres, hnone, -⟩ := ih _ _ _ h1
        refine ⟨a.1 :: pages, ?_, ?_, fun hge => absurd hlt (not_lt.2 hge), ?_⟩
        · intro p hp
          rcases List.mem_cons.1 hp with rfl | hp
          · exact hpage
          · exact hall p hp
        · rw [hres]
          simp
        · intro hfull hup hoff
          rcases hsingle hfull hup hoff with hl | hf
          · have := hnone (by simp only [List.length_append, Nat.cast_add]; omega)
            rw [this]
            simp
          · exact absurd hf hmore
    · obtain ⟨rfl, -⟩ := RM.ret_ok h
      exact ⟨[], by simp, by simp, fun _ => rfl, fun _ _ _ => by simp⟩

theorem Implementations.dependenciesPhase_page (r : Resolver) (c : ImplementationsCursor)
    (locs : List Location) (s s' : RState) (res : ImplementationsCursor × List Location)
    (h : Implementations.dependenciesPhase r c locs s = (.done (.ok res), s')) :
    ∃ page, IsDefinitionsPage r page ∧ res.2 = locs ++ page := by
  unfold Implementations.dependenciesPhase at h
  obtain ⟨uploads, s1, -, h1⟩ := RM.bind_ok h
  obtain ⟨a, s2, h2, h3⟩ := RM.bind_ok h1
  obtain ⟨rfl, -⟩ := RM.ret_ok h3
  unfold getBulkMonikerLocations at h2
  exact ⟨a.1, ⟨_, _, a.2, (RM.call_ok (RM.wrapErr_ok h2)).1⟩, rfl⟩

theorem getPageRemoteLocations.filter_eq_listFilter (vus : List VisibleUpload)
    (locs : List Location) :
    getPageRemoteLocations.filter vus locs
      = locs.filter fun location => !isSourceLocation vus location := by
  induction locs with
  | nil => rfl
  | cons l rest ih =>
    unfold getPageRemoteLocations.filter
    by_cases h : isSourceLocation vus l = false
    · rw [if_pos h, ih, List.filter_cons_of_pos (by simp [h])]
    · rw [if_neg h, ih, List.filter_cons_of_neg (by simpa using h)]

theorem getPageRemoteLocations_page (r : Resolver) (vus : List VisibleUpload)
    (ms : List QualifiedMonikerData) (cur : RemoteCursor) (limit : Int) (fuel : Nat)
    (s s' : RState) (res : List Location × Bool × RemoteCursor)
    (h : getPageRemoteLocations r "implementations" vus ms cur limit fuel s
      = (.done (.ok res), s')) :
    IsRemotePage r vus res.1 := by
  unfold getPageRemoteLocations at h
  obtain ⟨batch, s1, -, h1⟩ := RM.bind_ok h
  simp only at h1
  split at h1
  · obtain ⟨rfl, -⟩ := RM.ret_ok h1
    exact Or.inl rfl
  · obtain ⟨uploads, s2, -, h2⟩ := RM.bind_ok h1
    obtain ⟨a, s3, h3, h4⟩ := RM.bind_ok h2
    obtain ⟨rfl, -⟩ := RM.ret_ok h4
    unfold getBulkMonikerLocations at h3
    exact Or.inr ⟨_, _, _, _, a.1, a.2, (RM.call_ok (RM.wrapErr_ok h3)).1,
      getPageRemoteLocations.filter_eq_listFilter vus a.1⟩

theorem Implementations.dependentsPhase_pages (r : Resolver) (args : RequestArgs)
    (vus : List VisibleUpload) (remoteFuel fuel : Nat) (c : ImplementationsCursor)
    (locs : List Location) (s s' : RState) (res : ImplementationsCursor × List Location)
    (h : Implementations.dependentsPhase r args vus remoteFuel fuel c locs s
      = (.done (.ok res), s')) :
    ∃ pages : List (List Location),
      (∀ p ∈ pages, IsRemotePage r vus p) ∧ res.2 = locs ++ pages.flatten := by
  induction fuel generalizing c locs s with
  | zero =>
    unfold Implementations.dependentsPhase at h
    split at h
    · simp at h
    · obtain ⟨rfl, -⟩ := RM.ret_ok h
      exact ⟨[], by simp, by simp⟩
  | succ fuel ih =>
    unfold Implementations.dependentsPhase at h
    split at h
    · obtain ⟨a, s1, h0, h1⟩ := RM.bind_ok h
      have hpage := getPageRemoteLocations_page r _ _ _ _ _ _ _ _ h0
      simp only at h1
      split at h1
      · obtain ⟨rfl, -⟩ := RM.ret_ok h1
        refine ⟨[a.1], ?_, by simp⟩
        intro p hp
        rw [List.mem_singleton] at hp
        rw [hp]
        exact hpage
      · obtain ⟨pages, hall, hres⟩ := ih _ _ _ h1
        refine ⟨a.1 :: pages, ?_, ?_⟩
        · intro p hp
          rcases List.mem_cons.1 hp with rfl | hp
          · exact hpage
          · exact hall p hp
        · rw [hres]
          simp
    · obtain ⟨rfl, -⟩ := RM.ret_ok h
      exact ⟨[], by simp, by simp⟩

theorem getUploadLocation_inv (r : Resolver) (dump : Dump) (location : Location)
    (s s' : RState) (adjusted : UploadLocation)
    (h : getUploadLocation r dump location s = (.done (.ok adjusted), s')) :
    adjusted.Dump = dump ∧ s'.dataLoader = s.dataLoader := by
  unfold getUploadLocation at h
  obtain ⟨a, s1, h0, h1⟩ := RM.bind_ok h
  obtain ⟨rfl, rfl⟩ := RM.ret_ok h1
  refine ⟨rfl, ?_⟩
  unfold getSourceRange at h0
  split at h0
  · obtain ⟨-, rfl⟩ := RM.ret_ok h0
    rfl
  · obtain ⟨b, s2, h2, h3⟩ := RM.bind_ok h0
    obtain ⟨-, rfl⟩ := RM.call_ok (RM.wrapErr_ok h2)
    split at h3
    · obtain ⟨-, rfl⟩ := RM.ret_ok h3
      rfl
    · obtain ⟨-, rfl⟩ := RM.ret_ok h3
      rfl

theorem adjustLocations.loop_order (r : Resolver) (locs : List Location)
    (acc : List UploadLocation) (s s' : RState) (out : List UploadLocation)
    (h : adjustLocations.loop r locs acc s = (.done (.ok out), s')) :
    s'.dataLoader = s.dataLoader ∧
      ∃ kept added, kept.Sublist locs ∧ out = acc ++ added ∧
        List.Forall₂ (IsAdjustmentOf r s.dataLoader) kept added := by
  induction locs generalizing acc s with
  | nil =>
    unfold adjustLocations.loop at h
    obtain ⟨rfl, rfl⟩ := RM.ret_ok h
    exact ⟨rfl, [], [], List.Sublist.slnil, by simp, List.Forall₂.nil⟩
  | cons location rest ih =>
    unfold adjustLocations.loop at h
    obtain ⟨dl, s1, hget, h1⟩ := RM.bind_ok h
    have hdl : dl = s.dataLoader ∧ s1 = s := by
      unfold RM.getLoader at hget
      simp only [Prod.mk.injEq, Run.done.injEq, Except.ok.injEq] at hget
      exact ⟨hget.1.symm, hget.2.symm⟩
    obtain ⟨rfl, rfl⟩ := hdl
    cases hup : s1.dataLoader.getUploadFromCacheMap location.DumpID with
    | none =>
      rw [hup] at h1
      obtain ⟨hl, kept, added, hsub, hout, hadj⟩ := ih _ _ h1
      exact ⟨hl, kept, added, hsub.trans (List.sublist_cons_self _ _), hout, hadj⟩
    | some upload =>
      rw [hup] at h1
      simp only at h1
      obtain ⟨adjusted, s2, hloc, h2⟩ := RM.bind_ok h1
      obtain ⟨hdump, hl2⟩ := getUploadLocation_inv r _ _ _ _ _ hloc
      have hone : IsAdjustmentOf r s1.dataLoader location adjusted := by
        refine ⟨by rw [hup, hdump], s1, ?_⟩
        rw [hdump, hloc]
      split at h2
      · obtain ⟨hl, kept, added, hsub, hout, hadj⟩ := ih _ _ h2
        rw [hl2] at hl hadj
        exact ⟨hl, location :: kept, adjusted :: added, hsub.cons₂ _, by rw [hout]; simp,
          List.Forall₂.cons hone hadj⟩
      · obtain ⟨included, s3, hcall, h3⟩ := RM.bind_ok h2
        obtain ⟨-, rfl⟩ := RM.call_ok hcall
        split at h3
        · obtain ⟨hl, kept, added, hsub, hout, hadj⟩ := ih _ _ h3
          simp only [hl2] at hl hadj
          exact ⟨hl, location :: kept, adjusted :: added, hsub.cons₂ _, by rw [hout]; simp,
            List.Forall₂.cons hone hadj⟩
        · obtain ⟨hl, kept, added, hsub, hout, hadj⟩ := ih _ _ h3
          simp only [hl2] at hl hadj
          exact ⟨hl, kept, added, hsub.trans (List.sublist_cons_self _ _), hout, hadj⟩

theorem Implementations.collect_pages {r : Resolver} {args : RequestArgs} {fuel : Nat}
    {c0 : ImplementationsCursor} {s s' : RState} {res : ImplementationsCursor × List Location}
    (h : Implementations.collect r args fuel c0 s = (.done (.ok res), s')) :
    ∃ (vis : List VisibleUpload × Option (List CursorToVisibleUpload)) (s1 : RState)
      (localPages : List (List Location)) (definitions : List Location)
      (remotePages : List (List Location)),
      getVisibleUploadsFromCursor r args.Line args.Character c0.CursorsToVisibleUploads s
        = (.done (.ok vis), s1) ∧
      (∀ p ∈ localPages, IsLocalPage r vis.1 p) ∧
      (r.answersInFull → 0 ≤ c0.LocalCursor.UploadOffset → 0 ≤ c0.LocalCursor.LocationOffset →
        localPages.length ≤ 1) ∧
      (definitions = [] ∨ IsDefinitionsPage r definitions) ∧
      (∀ p ∈ remotePages, IsRemotePage r vis.1 p) ∧
      res.2 = localPages.flatten ++ definitions ++ remotePages.flatten := by
  obtain ⟨vis, im, em, p1, p2, s1, s2, s3, s4, s5, hv, -, -, hp1, hp2, hp3⟩ :=
    Implementations.collect_inv h
  have hlocal : ∃ localPages : List (List Location),
      (∀ p ∈ localPages, IsLocalPage r vis.1 p) ∧ p1.2 = localPages.flatten ∧
      (r.answersInFull → 0 ≤ c0.LocalCursor.UploadOffset →
        0 ≤ c0.LocalCursor.LocationOffset → localPages.length ≤ 1) := by
    split at hp1
    · obtain ⟨pages, hall, hres, -, hone⟩ :=
        Implementations.localPhase_pages r args vis.1 fuel _ _ _ _ _ hp1
      exact ⟨pages, hall, by simpa using hres, hone⟩
    · obtain ⟨rfl, -⟩ := RM.ret_ok hp1
      exact ⟨[], by simp, by simp, fun _ _ _ => by simp⟩
  have hdefs : ∃ definitions, (definitions = [] ∨ IsDefinitionsPage r definitions) ∧
      p2.2 = p1.2 ++ definitions := by
    split at hp2
    · obtain ⟨page, hpage, hres⟩ := Implementations.dependenciesPhase_page r _ _ _ _ _ hp2
      exact ⟨page, Or.inr hpage, hres⟩
    · obtain ⟨rfl, -⟩ := RM.ret_ok hp2
      exact ⟨[], Or.inl rfl, by simp⟩
  have hremote : ∃ remotePages : List (List Location),
      (∀ p ∈ remotePages, IsRemotePage r vis.1 p) ∧ res.2 = p2.2 ++ remotePages.flatten := by
    split at hp3
    · exact Implementations.dependentsPhase_pages r args vis.1 fuel fuel _ _ _ _ _ hp3
    · obtain ⟨rfl, -⟩ := RM.ret_ok hp3
      exact ⟨[], by simp, by simp⟩
  obtain ⟨localPages, hl1, hl2, hl3⟩ := hlocal
  obtain ⟨definitions, hd1, hd2⟩ := hdefs
  obtain ⟨remotePages, hr1, hr2⟩ := hremote
  exact ⟨vis, s1, localPages, definitions, remotePages, hv, hl1, hl3, hd1, hr1,
    by rw [hr2, hd2, hl2]⟩

/-- C19. Order within a page: the upload locations that a successful `Implementations` call
returns are the adjustments, in order, of a sub-sequence of the locations collected, and the
locations collected are the local pages (each the store answers by visible-upload index, then
store order; one page at most when the store answers in full), then the definition locations of
the dependencies phase in store order, then the remote pages of the dependents phase (one bulk
answer for each batch searched, in store order, without the source locations). -/
theorem implementations_page_order (r : Resolver) (args : RequestArgs) (fuel : Nat) (s : RState)
    (res : ImplementationsResult) (out : List UploadLocation)
    (h : (Implementations r args fuel s).1 = .done res) (hout : res.locations = some out) :
    ∃ (c0 : ImplementationsCursor)
      (vis : List VisibleUpload × Option (List CursorToVisibleUpload)) (s1 : RState)
      (localPages : List (List Location)) (definitions : List Location)
      (remotePages : List (List Location)) (kept : List Location),
      r.decodeImplementationsCursor args.RawCursor = .ok c0 ∧
      getVisibleUploadsFromCursor r args.Line args.Character c0.CursorsToVisibleUploads s
        = (.done (.ok vis), s1) ∧
      (∀ p ∈ localPages, IsLocalPage r vis.1 p) ∧
      (r.answersInFull → 0 ≤ c0.LocalCursor.UploadOffset → 0 ≤ c0.LocalCursor.LocationOffset →
        localPages.length ≤ 1) ∧
      (definitions = [] ∨ IsDefinitionsPage r definitions) ∧
      (∀ p ∈ remotePages, IsRemotePage r vis.1 p) ∧
      kept.Sublist (localPages.flatten ++ definitions ++ remotePages.flatten) ∧
      List.Forall₂ (IsAdjustmentOf r (Implementations r args fuel s).2.dataLoader) kept out := by
  have h' : Implementations r args fuel s = (.done res, (Implementations r args fuel s).2) :=
    Prod.ext h rfl
  rcases Implementations_inv h' with ⟨e, _, _, hnone, _, _⟩ | ⟨c0, hdec, hrest⟩
  · rw [hnone] at hout; cases hout
  · rcases hrest with ⟨e, _, hres⟩ | ⟨cursor, locations, s2, hcol, hrest⟩
    · rw [hres] at hout; cases hout
    · rcases hrest with ⟨e, _, hres⟩ | ⟨adjusted, hadj, hres⟩
      · rw [hres] at hout; cases hout
      · rw [hres] at hout
        simp only [Option.some.injEq] at hout
        subst hout
        obtain ⟨vis, s1, localPages, definitions, remotePages, hv, hl, hone, hd, hr, hlocs⟩ :=
          Implementations.collect_pages hcol
        obtain ⟨hloader, kept, added, hsub, hadded, hall⟩ :=
          adjustLocations.loop_order r locations [] s2 _ adjusted hadj
        simp only [List.nil_append] at hadded
        subst hadded
        simp only at hlocs
        rw [hlocs] at hsub
        rw [← hloader] at hall
        exact ⟨c0, vis, s1, localPages, definitions, remotePages, kept, hdec, hv, hl, hone, hd,
          hr, hsub, hall⟩

theorem slicePage_full {α : Type} (all : List α) (limit offset : Int) (hoff : 0 ≤ offset) :
    limit ≤ ((slicePage all limit offset).1.length : Int) ∨
      (slicePage all limit offset).2 ≤ offset + ((slicePage all limit offset).1.length : Int) := by
  simp only [slicePage, List.length_take, List.length_drop]
  omega

theorem Example.unresolvable_answersInFull : Example.unresolvable.answersInFull := by
  intro id path line character limit offset locations total hoff h
  simp only [Example.unresolvable, Example.withLocal] at h
  split at h
  · simp only [Except.ok.injEq] at h
    have := slicePage_full [Example.local1] limit offset hoff
    rw [h] at this
    exact this
  · simp only [Except.ok.injEq, Prod.mk.injEq] at h
    obtain ⟨rfl, rfl⟩ := h
    right
    simpa using hoff

/-- Witness of C19: on `Example.unresolvable` a request with limit 10 returns the local location
of upload 1, then the location of upload Y found in the dependents phase. -/
theorem implementations_page_order_witness :
    ∃ (c0 : ImplementationsCursor)
      (vis : List VisibleUpload × Option (List CursorToVisibleUpload)) (s1 : RState)
      (localPages : List (List Location)) (definitions : List Location)
      (remotePages : List (List Location)) (kept : List Location),
      Example.unresolvable.decodeImplementationsCursor (Example.request 10).RawCursor = .ok c0 ∧
      getVisibleUploadsFromCursor Example.unresolvable (Example.request 10).Line
          (Example.request 10).Character c0.CursorsToVisibleUploads
          (newRequestState [Example.upload1]) = (.done (.ok vis), s1) ∧
      (∀ p ∈ localPages, IsLocalPage Example.unresolvable vis.1 p) ∧
      (Example.unresolvable.answersInFull → 0 ≤ c0.LocalCursor.UploadOffset →
        0 ≤ c0.LocalCursor.LocationOffset → localPages.length ≤ 1) ∧
      (definitions = [] ∨ IsDefinitionsPage Example.unresolvable definitions) ∧
      (∀ p ∈ remotePages, IsRemotePage Example.unresolvable vis.1 p) ∧
      kept.Sublist (localPages.flatten ++ definitions ++ remotePages.flatten) ∧
      List.Forall₂
        (IsAdjustmentOf Example.unresolvable
          (Implementations Example.unresolvable (Example.request 10) 5
            (newRequestState [Example.upload1])).2.dataLoader)
        kept [Example.adjusted1, Example.adjustedY] :=
  implementations_page_order Example.unresolvable (Example.request 10) 5
    (newRequestState [Example.upload1])
    { locations := some [Example.adjusted1, Example.adjustedY], nextCursor := "", err := none }
    [Example.adjusted1, Example.adjustedY] (by decide!) rfl

/-! ## Pages are filled until the limit or exhaustion -/

theorem Implementations.dependentsPhase_filled (r : Resolver) (args : RequestArgs)
    (vus : List VisibleUpload) (remoteFuel fuel : Nat) (c : ImplementationsCursor)
    (locs : List Location) (s s' : RState) (res : ImplementationsCursor × List Location)
    (h : Implementations.dependentsPhase r args vus remoteFuel fuel c locs s
      = (.done (.ok res), s')) :
    res.1.Phase = "done" ∨ (res.1.Phase = c.Phase ∧ args.Limit ≤ (res.2.length : Int)) := by
  induction fuel generalizing c locs s with
  | zero =>
    unfold Implementations.dependentsPhase at h
    split at h
    · simp at h
    · next hc =>
      obtain ⟨rfl, -⟩ := RM.ret_ok h
      exact Or.inr ⟨rfl, by simpa using hc⟩
  | succ fuel ih =>
    unfold Implementations.dependentsPhase at h
    split at h
    · obtain ⟨a, s1, -, h1⟩ := RM.bind_ok h
      simp only at h1
      split at h1
      · obtain ⟨rfl, -⟩ := RM.ret_ok h1
        exact Or.inl rfl
      · have hh := ih { c with RemoteCursor := a.2.2 } _ _ h1
        exact hh
    · next hc =>
      obtain ⟨rfl, -⟩ := RM.ret_ok h
      exact Or.inr ⟨rfl, by simpa using hc⟩

theorem Implementations.collect_filled {r : Resolver} {args : RequestArgs} {fuel : Nat}
    {c0 : ImplementationsCursor} {s s' : RState} {res : ImplementationsCursor × List Location}
    (hphase : c0.Phase = "local" ∨ c0.Phase = "dependencies" ∨ c0.Phase = "dependents")
    (h : Implementations.collect r args fuel c0 s = (.done (.ok res), s')) :
    res.1.Phase = "done" ∨ args.Limit ≤ (res.2.length : Int) := by
  obtain ⟨vis, im, em, p1, p2, s1, s2, s3, s4, s5, -, -, -, hp1, hp2, hp3⟩ :=
    Implementations.collect_inv h
  have hlate : ∀ (p : ImplementationsCursor × List Location) (t : RState),
      p.1.Phase = "dependents" →
      (if p.1.Phase = "dependents" then
          Implementations.dependentsPhase r args vis.1 fuel fuel p.1 p.2
        else RM.ret p) t = (.done (.ok res), s') →
      res.1.Phase = "done" ∨ args.Limit ≤ (res.2.length : Int) := by
    intro p t hp hrun
    rw [if_pos hp] at hrun
    rcases Implementations.dependentsPhase_filled r args vis.1 fuel fuel p.1 p.2 t s' res hrun
      with hd | ⟨-, hl⟩
    · exact Or.inl hd
    · exact Or.inr hl
  have hmiddle : ∀ (p : ImplementationsCursor × List Location) (t : RState),
      p.1.Phase = "dependencies" →
      (if p.1.Phase = "dependencies" then Implementations.dependenciesPhase r p.1 p.2
        else RM.ret p) t = (.done (.ok p2), s5) →
      p2.1.Phase = "dependents" := by
    intro p t hp hrun
    rw [if_pos hp] at hrun
    exact (Implementations.dependenciesPhase_inv r p.1 p.2 t s5 p2 hrun).2.2.2
  rcases hphase with hph | hph | hph
  · rw [if_pos hph] at hp1
    obtain ⟨-, -, -, hdep | ⟨hsame, hfull, -⟩⟩ :=
      Implementations.localPhase_inv r args vis.1 fuel _ [] s3 s4 p1 hp1
    · exact hlate p2 s5 (hmiddle p1 s4 hdep hp2) hp3
    · simp only at hsame
      have h1 : p1.1.Phase ≠ "dependencies" := by rw [hsame, hph]; decide
      rw [if_neg h1] at hp2
      obtain ⟨rfl, -⟩ := RM.ret_ok hp2
      have h2 : p2.1.Phase ≠ "dependents" := by rw [hsame, hph]; decide
      rw [if_neg h2] at hp3
      obtain ⟨rfl, -⟩ := RM.ret_ok hp3
      exact Or.inr hfull
  · have h0 : c0.Phase ≠ "local" := by rw [hph]; decide
    rw [if_neg h0] at hp1
    obtain ⟨rfl, -⟩ := RM.ret_ok hp1
    exact hlate p2 s5 (hmiddle _ s4 hph hp2) hp3
  · have h0 : c0.Phase ≠ "local" := by rw [hph]; decide
    rw [if_neg h0] at hp1
    obtain ⟨rfl, -⟩ := RM.ret_ok hp1
    have h1 : c0.Phase ≠ "dependencies" := by rw [hph]; decide
    rw [if_neg h1] at hp2
    obtain ⟨rfl, -⟩ := RM.ret_ok hp2
    exact hlate _ s5 hph hp3

/-- C22. Pages are filled until the limit or exhaustion: for every successful `Implementations`
call whose decoded phase is `local`, `dependencies` or `dependents`, if the next cursor is not
empty then the number of locations collected before the adjustment is at least the limit;
equivalently, when fewer locations than the limit were collected the phase is `done` and the
next cursor is empty. -/
theorem pages_are_filled (r : Resolver) (args : RequestArgs) (fuel : Nat) (s : RState)
    (res : ImplementationsResult) (c0 : ImplementationsCursor)
    (hdec : r.decodeImplementationsCursor args.RawCursor = .ok c0)
    (hphase : c0.Phase = "local" ∨ c0.Phase = "dependencies" ∨ c0.Phase = "dependents")
    (h : (Implementations r args fuel s).1 = .done res) (hok : res.err = none) :
    ∃ cursor locations s1,
      Implementations.collect r args fuel c0 s = (.done (.ok (cursor, locations)), s1) ∧
      (res.nextCursor ≠ "" → args.Limit ≤ (locations.length : Int)) ∧
      ((locations.length : Int) < args.Limit → cursor.Phase = "done" ∧ res.nextCursor = "") := by
  have h' : Implementations r args fuel s = (.done res, (Implementations r args fuel s).2) :=
    Prod.ext h rfl
  rcases Implementations_inv h' with ⟨e, hbad, _⟩ | ⟨c1, hdec1, hrest⟩
  · rw [hdec] at hbad; cases hbad
  · rw [hdec] at hdec1
    simp only [Except.ok.injEq] at hdec1
    subst hdec1
    rcases hrest with ⟨e, _, hres⟩ | ⟨cursor, locations, s1, hcol, hrest⟩
    · rw [hres] at hok; cases hok
    · rcases hrest with ⟨e, _, hres⟩ | ⟨adjusted, _, hres⟩
      · rw [hres] at hok; cases hok
      · have hfill := Implementations.collect_filled hphase hcol
        simp only at hfill
        refine ⟨cursor, locations, s1, hcol, ?_, ?_⟩
        · intro hne
          rcases hfill with hd | hl
          · rw [hres] at hne
            simp [hd] at hne
          · exact hl
        · intro hlt
          rcases hfill with hd | hl
          · refine ⟨hd, ?_⟩
            rw [hres]
            simp [hd]
          · omega

/-- Witness of C22: the first page of limit 1 served by `Example.unresolvable` returns a
non-empty next cursor, and one location was collected. -/
theorem pages_are_filled_witness :
    ∃ cursor locations s1,
      Implementations.collect Example.unresolvable (Example.request 1) 5 Codec.initialCursor
        (newRequestState [Example.upload1]) = (.done (.ok (cursor, locations)), s1) ∧
      (Codec.encode Example.afterFirstPage ≠ "" →
        (Example.request 1).Limit ≤ (locations.length : Int)) ∧
      ((locations.length : Int) < (Example.request 1).Limit →
        cursor.Phase = "done" ∧ Codec.encode Example.afterFirstPage = "") :=
  pages_are_filled Example.unresolvable (Example.request 1) 5
    (newRequestState [Example.upload1])
    { locations := some [Example.adjusted1],
      nextCursor := Codec.encode Example.afterFirstPage, err := none }
    Codec.initialCursor rfl (Or.inl rfl) (by decide!) rfl

/-! ## The cursor codec -/

/-- C24. Cursor round-trip, for the codec modelled from the specification: decoding the token
made by encoding a cursor yields that cursor, and decoding the empty string yields the initial
cursor: phase `local`, nil visible-upload and moniker arrays, zero offsets. -/
theorem cursor_round_trip :
    (∀ c : ImplementationsCursor, Codec.decode (Codec.encode c) = .ok c) ∧
    Codec.decode "" = .ok Codec.initialCursor ∧
    Codec.initialCursor
      = { CursorsToVisibleUploads := none, OrderedImplementationMonikers := none,
          OrderedExportMonikers := none, Phase := "local",
          LocalCursor := { UploadOffset := 0, LocationOffset := 0 },
          RemoteCursor := { UploadBatchIDs := [], UploadOffset := 0, LocationOffset := 0 } } :=
  ⟨Codec.decode_encode, Codec.decode_empty, rfl⟩

/-! ## The local upload offset -/

theorem getPageLocalLocations.loop_upper
    (getLocations : Int → String → Int → Int → Int → Int → RM (List Location × Int))
    (limit : Int) (vus : List VisibleUpload) (i : Int) (cur : LocalCursor)
    (all : List Location) (s s' : RState) (res : List Location × LocalCursor) (bound : Int)
    (hcur : cur.UploadOffset ≤ bound) (hi : i + (vus.length : Int) ≤ bound)
    (h : getPageLocalLocations.loop getLocations limit vus i cur all s = (.done (.ok res), s')) :
    res.2.UploadOffset ≤ bound := by
  induction vus generalizing i cur all s with
  | nil =>
    unfold getPageLocalLocations.loop at h
    obtain ⟨rfl, -⟩ := RM.ret_ok h
    exact hcur
  | cons vu rest ih =>
    simp only [List.length_cons, Nat.cast_add, Nat.cast_one] at hi
    unfold getPageLocalLocations.loop at h
    split at h
    · obtain ⟨rfl, -⟩ := RM.ret_ok h
      exact hcur
    · split at h
      · exact ih (i + 1) cur all s hcur (by omega) h
      · next hskip =>
        obtain ⟨a, s1, -, h1⟩ := RM.bind_ok h
        refine ih (i + 1) _ _ s1 ?_ (by omega) h1
        simp only
        split
        · simp only
          omega
        · simp only
          omega

/-- C30. Local upload offset is monotone and bounded: for every returning call of
`getPageLocalLocations`, the upload offset of the local cursor after the call is at least its
value before the call; if it was at most the number of visible uploads before the call, it is
at most that number after it; the has-more flag is true exactly when the resulting upload offset
is below the number of visible uploads; and in the local phase of `Implementations` the request
goes on in its phase when the flag is true and moves to the phase `dependencies` when it is
false. -/
theorem local_upload_offset_monotone_bounded
    (getLocations : Int → String → Int → Int → Int → Int → RM (List Location × Int))
    (vus : List VisibleUpload) (cur : LocalCursor) (limit : Int) (s s1 : RState)
    (res : List Location × Bool × LocalCursor)
    (h : getPageLocalLocations getLocations vus cur limit s = (.done (.ok res), s1)) :
    cur.UploadOffset ≤ res.2.2.UploadOffset ∧
    (cur.UploadOffset ≤ (vus.length : Int) → res.2.2.UploadOffset ≤ (vus.length : Int)) ∧
    (res.2.1 = true ↔ res.2.2.UploadOffset < (vus.length : Int)) ∧
    ∀ (r : Resolver) (args : RequestArgs) (fuel : Nat) (c : ImplementationsCursor)
      (locs : List Location),
      getLocations = Implementations.getLocations r → cur = c.LocalCursor →
      limit = args.Limit - (locs.length : Int) → (locs.length : Int) < args.Limit →
      Implementations.localPhase r args vus (fuel + 1) c locs s
        = if res.2.1 = true then
            Implementations.localPhase r args vus fuel { c with LocalCursor := res.2.2 }
              (locs ++ res.1) s1
          else
            (.done (.ok ({ c with LocalCursor := res.2.2, Phase := "dependencies" },
              locs ++ res.1)), s1) := by
  have hmono := getPageLocalLocations_after h
  have hcopy := h
  unfold getPageLocalLocations at h
  obtain ⟨a, s0, h0, h1⟩ := RM.bind_ok h
  obtain ⟨rfl, -⟩ := RM.ret_ok h1
  refine ⟨?_, ?_, ?_, ?_⟩
  · unfold LocalCursor.after at hmono
    rcases hmono with hlt | ⟨heq, -, -⟩
    · exact le_of_lt hlt
    · exact le_of_eq heq
  · intro hle
    exact getPageLocalLocations.loop_upper getLocations limit vus 0 cur [] s s0 a _ hle
      (by omega) h0
  · simp
  · intro r args fuel c locs hget hcur hlimit hlt
    subst hget hcur hlimit
    rw [Implementations.localPhase, if_pos hlt, RM.bind_of_ok hcopy]
    by_cases hmore : a.2.UploadOffset < (vus.length : Int)
    · simp [hmore]
    · simp [hmore, RM.ret]

/-- Witness of C30: the one local location of upload 1 is returned by a call with limit 10; the
upload offset goes from 0 to 1, the number of visible uploads, and the flag is false. -/
theorem local_upload_offset_monotone_bounded_witness :
    (0 : Int) ≤ 1 ∧
    ((0 : Int) ≤ ([Example.visible1].length : Int) →
      (1 : Int) ≤ ([Example.visible1].length : Int)) ∧
    (false = true ↔ (1 : Int) < ([Example.visible1].length : Int)) ∧
    ∀ (r : Resolver) (args : RequestArgs) (fuel : Nat) (c : ImplementationsCursor)
      (locs : List Location),
      Implementations.getLocations Example.withLocal = Implementations.getLocations r →
      ({ UploadOffset := 0, LocationOffset := 0 } : LocalCursor) = c.LocalCursor →
      10 = args.Limit - (locs.length : Int) → (locs.length : Int) < args.Limit →
      Implementations.localPhase r args [Example.visible1] (fuel + 1) c locs
          (newRequestState [Example.upload1])
        = if false = true then
            Implementations.localPhase r args [Example.visible1] fuel
              { c with LocalCursor := { UploadOffset := 1, LocationOffset := 0 } }
              (locs ++ [Example.local1])
              { newRequestState [Example.upload1] with
                log := [Call.GetImplementations 1 "a.go" 0 0 10 0] }
          else
            (.done (.ok ({ c with LocalCursor := { UploadOffset := 1, LocationOffset := 0 },
                                  Phase := "dependencies" },
              locs ++ [Example.local1])),
              { newRequestState [Example.upload1] with
                log := [Call.GetImplementations 1 "a.go" 0 0 10 0] }) :=
  local_upload_offset_monotone_bounded (Implementations.getLocations Example.withLocal)
    [Example.visible1] { UploadOffset := 0, LocationOffset := 0 } 10
    (newRequestState [Example.upload1])
    { newRequestState [Example.upload1] with
      log := [Call.GetImplementations 1 "a.go" 0 0 10 0] }
    ([Example.local1], false, { UploadOffset := 1, LocationOffset := 0 }) (by decide!)

/-! ## The size of a page -/

theorem getPageLocalLocations.loop_within (r : Resolver) (hstore : r.respectsLimit)
    (limit : Int) (vus : List VisibleUpload) (i : Int) (cur : LocalCursor)
    (all : List Location) (s s' : RState) (res : List Location × LocalCursor)
    (hall : (all.length : Int) ≤ limit)
    (h : getPageLocalLocations.loop (Implementations.getLocations r) limit vus i cur all s
      = (.done (.ok res), s')) :
    (res.1.length : Int) ≤ limit := by
  induction vus generalizing i cur all s with
  | nil =>
    unfold getPageLocalLocations.loop at h
    obtain ⟨rfl, -⟩ := RM.ret_ok h
    exact hall
  | cons vu rest ih =>
    unfold getPageLocalLocations.loop at h
    split at h
    · obtain ⟨rfl, -⟩ := RM.ret_ok h
      exact hall
    · next hlt =>
      split at h
      · exact ih (i + 1) cur all s hall h
      · obtain ⟨a, s1, h0, h1⟩ := RM.bind_ok h
        have hstore1 := hstore.1 _ _ _ _ _ _ a.1 a.2 (by omega)
          (RM.call_ok (RM.wrapErr_ok h0)).1
        refine ih (i + 1) _ (all ++ a.1) s1 ?_ h1
        simp only [List.length_append, Nat.cast_add]
        omega

theorem Implementations.localPhase_within (r : Resolver) (hstore : r.respectsLimit)
    (args : RequestArgs) (vus : List VisibleUpload) (fuel : Nat) (c : ImplementationsCursor)
    (locs : List Location) (s s' : RState) (res : ImplementationsCursor × List Location)
    (h : Implementations.localPhase r args vus fuel c locs s = (.done (.ok res), s')) :
    ∃ added, res.2 = locs ++ added ∧
      ((locs.length : Int) ≤ args.Limit → ((locs ++ added).length : Int) ≤ args.Limit) := by
  induction fuel generalizing c locs s with
  | zero =>
    unfold Implementations.localPhase at h
    split at h
    · simp at h
    · obtain ⟨rfl, -⟩ := RM.ret_ok h
      exact ⟨[], by simp, by simp⟩
  | succ fuel ih =>
    unfold Implementations.localPhase at h
    split at h
    · next hlt =>
      obtain ⟨a, s1, h0, h1⟩ := RM.bind_ok h
      have hpage : (a.1.length : Int) ≤ args.Limit - (locs.length : Int) := by
        unfold getPageLocalLocations at h0
        obtain ⟨b, s0, hb, hb1⟩ := RM.bind_ok h0
        obtain ⟨rfl, -⟩ := RM.ret_ok hb1
        exact getPageLocalLocations.loop_within r hstore _ _ _ _ [] _ _ _
          (by simp only [List.length_nil, Nat.cast_zero]; omega) hb
      simp only at h1
      split at h1
      · obtain ⟨rfl, -⟩ := RM.ret_ok h1
        refine ⟨a.1, rfl, fun _ => ?_⟩
        simp only [List.length_append, Nat.cast_add]
        omega
      · obtain ⟨added, hres, hbound⟩ := ih _ _ _ h1
        refine ⟨a.1 ++ added, by rw [hres, List.append_assoc], fun _ => ?_⟩
        rw [← List.append_assoc]
        refine hbound ?_
        simp only [List.length_append, Nat.cast_add]
        omega
    · obtain ⟨rfl, -⟩ := RM.ret_ok h
      exact ⟨[], by simp, by simp⟩

theorem Implementations.dependenciesPhase_within (r : Resolver) (hstore : r.respectsLimit)
    (c : ImplementationsCursor) (locs : List Location) (s s' : RState)
    (res : ImplementationsCursor × List Location)
    (h : Implementations.dependenciesPhase r c locs s = (.done (.ok res), s')) :
    ∃ definitions, res.2 = locs ++ definitions ∧
      (definitions.length : Int) ≤ DefinitionsLimit := by
  unfold Implementations.dependenciesPhase at h
  obtain ⟨uploads, s1, -, h1⟩ := RM.bind_ok h
  obtain ⟨a, s2, h2, h3⟩ := RM.bind_ok h1
  obtain ⟨rfl, -⟩ := RM.ret_ok h3
  unfold getBulkMonikerLocations at h2
  exact ⟨a.1, rfl, hstore.2 _ _ _ _ _ a.1 a.2 (by decide) (RM.call_ok (RM.wrapErr_ok h2)).1⟩

theorem getPageRemoteLocations_within (r : Resolver) (hstore : r.respectsLimit)
    (table : String) (vus : List VisibleUpload) (ms : List QualifiedMonikerData)
    (cur : RemoteCursor) (limit : Int) (fuel : Nat) (s s' : RState)
    (res : List Location × Bool × RemoteCursor) (hlimit : 0 ≤ limit)
    (h : getPageRemoteLocations r table vus ms cur limit fuel s = (.done (.ok res), s')) :
    (res.1.length : Int) ≤ limit := by
  unfold getPageRemoteLocations at h
  obtain ⟨batch, s1, -, h1⟩ := RM.bind_ok h
  simp only at h1
  split at h1
  · obtain ⟨rfl, -⟩ := RM.ret_ok h1
    simpa using hlimit
  · obtain ⟨uploads, s2, -, h2⟩ := RM.bind_ok h1
    obtain ⟨a, s3, h3, h4⟩ := RM.bind_ok h2
    obtain ⟨rfl, -⟩ := RM.ret_ok h4
    unfold getBulkMonikerLocations at h3
    have hle := hstore.2 _ _ _ _ _ a.1 a.2 hlimit (RM.call_ok (RM.wrapErr_ok h3)).1
    have hfil : (getPageRemoteLocations.filter vus a.1).length ≤ a.1.length := by
      rw [getPageRemoteLocations.filter_eq_listFilter]
      exact List.length_filter_le _ _
    simp only
    omega

theorem Implementations.dependentsPhase_within (r : Resolver) (hstore : r.respectsLimit)
    (args : RequestArgs) (vus : List VisibleUpload) (remoteFuel fuel : Nat)
    (c : ImplementationsCursor) (locs : List Location) (s s' : RState)
    (res : ImplementationsCursor × List Location)
    (h : Implementations.dependentsPhase r args vus remoteFuel fuel c locs s
      = (.done (.ok res), s')) :
    ∃ added, res.2 = locs ++ added ∧
      (added ≠ [] → ((locs ++ added).length : Int) ≤ args.Limit) := by
  induction fuel generalizing c locs s with
  | zero =>
    unfold Implementations.dependentsPhase at h
    split at h
    · simp at h
    · obtain ⟨rfl, -⟩ := RM.ret_ok h
      exact ⟨[], by simp, by simp⟩
  | succ fuel ih =>
    unfold Implementations.dependentsPhase at h
    split at h
    · next hlt =>
      obtain ⟨a, s1, h0, h1⟩ := RM.bind_ok h
      have hpage := getPageRemoteLocations_within r hstore _ _ _ _ _ _ _ _ _ (by omega) h0
      simp only at h1
      split at h1
      · obtain ⟨rfl, -⟩ := RM.ret_ok h1
        refine ⟨a.1, rfl, fun _ => ?_⟩
        simp only [List.length_append, Nat.cast_add]
        omega
      · obtain ⟨added, hres, hbound⟩ := ih _ _ _ h1
        refine ⟨a.1 ++ added, by rw [hres, List.append_assoc], fun _ => ?_⟩
        by_cases hadded : added = []
        · subst hadded
          simp only [List.append_nil, List.length_append, Nat.cast_add]
          omega
        · rw [← List.append_assoc]
          exact hbound hadded
    · obtain ⟨rfl, -⟩ := RM.ret_ok h
      exact ⟨[], by simp, by simp⟩

theorem Implementations.collect_within {r : Resolver} {args : RequestArgs} {fuel : Nat}
    {c0 : ImplementationsCursor} {s s' : RState} {res : ImplementationsCursor × List Location}
    (hstore : r.respectsLimit) (hlim : 0 < args.Limit)
    (h : Implementations.collect r args fuel c0 s = (.done (.ok res), s')) :
    ∃ localLocations definitions remoteLocations : List Location,
      res.2 = localLocations ++ definitions ++ remoteLocations ∧
      (localLocations.length : Int) ≤ args.Limit ∧
      (definitions.length : Int) ≤ DefinitionsLimit ∧
      (remoteLocations ≠ [] → (res.2.length : Int) ≤ args.Limit) := by
  obtain ⟨vis, im, em, p1, p2, s1, s2, s3, s4, s5, -, -, -, hp1, hp2, hp3⟩ :=
    Implementations.collect_inv h
  have hlocal : ∃ localLocations : List Location, p1.2 = localLocations ∧
      (localLocations.length : Int) ≤ args.Limit := by
    split at hp1
    · obtain ⟨added, hres, hbound⟩ :=
        Implementations.localPhase_within r hstore args vis.1 fuel _ _ _ _ _ hp1
      refine ⟨added, by simpa using hres, ?_⟩
      simpa using hbound (by simp only [List.length_nil, Nat.cast_zero]; omega)
    · obtain ⟨rfl, -⟩ := RM.ret_ok hp1
      exact ⟨[], rfl, by simp only [List.length_nil, Nat.cast_zero]; omega⟩
  have hdefs : ∃ definitions, p2.2 = p1.2 ++ definitions ∧
      (definitions.length : Int) ≤ DefinitionsLimit := by
    split at hp2
    · exact Implementations.dependenciesPhase_within r hstore _ _ _ _ _ hp2
    · obtain ⟨rfl, -⟩ := RM.ret_ok hp2
      exact ⟨[], by simp, by decide⟩
  have hremote : ∃ remoteLocations, res.2 = p2.2 ++ remoteLocations ∧
      (remoteLocations ≠ [] → ((p2.2 ++ remoteLocations).length : Int) ≤ args.Limit) := by
    split at hp3
    · exact Implementations.dependentsPhase_within r hstore args vis.1 fuel fuel _ _ _ _ _ hp3
    · obtain ⟨rfl, -⟩ := RM.ret_ok hp3
      exact ⟨[], by simp, by simp⟩
  obtain ⟨localLocations, hl1, hl2⟩ := hlocal
  obtain ⟨definitions, hd1, hd2⟩ := hdefs
  obtain ⟨remoteLocations, hr1, hr2⟩ := hremote
  refine ⟨localLocations, definitions, remoteLocations, by rw [hr1, hd1, hl1], hl2, hd2, ?_⟩
  intro hne
  rw [hr1]
  exact hr2 hne

/-- C23. Page size bound: with an index store that never returns more locations than the limit
it is asked for, a successful `Implementations` call with limit `L > 0` returns at most
`L + DefinitionsLimit` = `L + 100` upload locations. The locations collected are those of the
local phase, at most `L`, then the definitions of the dependencies phase, at most 100, then
those of the dependents phase, and whenever the dependents phase adds a location the page holds
at most `L` locations. -/
theorem page_size_bound (r : Resolver) (args : RequestArgs) (fuel : Nat) (s : RState)
    (res : ImplementationsResult) (out : List UploadLocation)
    (hstore : r.respectsLimit) (hlim : 0 < args.Limit)
    (h : (Implementations r args fuel s).1 = .done res) (hout : res.locations = some out) :
    (out.length : Int) ≤ args.Limit + DefinitionsLimit ∧ DefinitionsLimit = 100 ∧
    ∃ (c0 cursor : ImplementationsCursor) (s1 : RState)
      (localLocations definitions remoteLocations : List Location),
      r.decodeImplementationsCursor args.RawCursor = .ok c0 ∧
      Implementations.collect r args fuel c0 s
        = (.done (.ok (cursor, localLocations ++ definitions ++ remoteLocations)), s1) ∧
      (localLocations.length : Int) ≤ args.Limit ∧
      (definitions.length : Int) ≤ DefinitionsLimit ∧
      (remoteLocations ≠ [] →
        ((localLocations ++ definitions ++ remoteLocations).length : Int) ≤ args.Limit) ∧
      out.length ≤ (localLocations ++ definitions ++ remoteLocations).length := by
  have h' : Implementations r args fuel s = (.done res, (Implementations r args fuel s).2) :=
    Prod.ext h rfl
  rcases Implementations_inv h' with ⟨e, _, _, hnone, _, _⟩ | ⟨c0, hdec, hrest⟩
  · rw [hnone] at hout; cases hout
  · rcases hrest with ⟨e, _, hres⟩ | ⟨cursor, locations, s2, hcol, hrest⟩
    · rw [hres] at hout; cases hout
    · rcases hrest with ⟨e, _, hres⟩ | ⟨adjusted, hadj, hres⟩
      · rw [hres] at hout; cases hout
      · rw [hres] at hout
        simp only [Option.some.injEq] at hout
        subst hout
        obtain ⟨localLocations, definitions, remoteLocations, hlocs, hl, hd, hr⟩ :=
          Implementations.collect_within hstore hlim hcol
        simp only at hlocs hr
        subst hlocs
        obtain ⟨-, kept, added, hsub, hadded, hall⟩ :=
          adjustLocations.loop_order r _ [] s2 _ adjusted hadj
        simp only [List.nil_append] at hadded
        subst hadded
        have hlen : adjusted.length
            ≤ (localLocations ++ definitions ++ remoteLocations).length := by
          rw [← hall.length_eq]
          exact hsub.length_le
        refine ⟨?_, rfl, c0, cursor, s2, localLocations, definitions, remoteLocations, hdec,
          hcol, hl, hd, hr, hlen⟩
        by_cases hne : remoteLocations = []
        · subst hne
          simp only [List.append_nil, List.length_append] at hlen
          omega
        · have := hr hne
          omega

theorem slicePage_length_le {α : Type} (all : List α) (limit offset : Int) (hlimit : 0 ≤ limit) :
    ((slicePage all limit offset).1.length : Int) ≤ limit := by
  simp only [slicePage, List.length_take, List.length_drop]
  omega

theorem Example.unresolvable_respectsLimit : Example.unresolvable.respectsLimit := by
  constructor
  · intro id path line character limit offset locations total hlimit h
    simp only [Example.unresolvable, Example.withLocal] at h
    split at h
    · simp only [Except.ok.injEq] at h
      have := slicePage_length_le [Example.local1] limit offset hlimit
      rw [h] at this
      exact this
    · simp only [Except.ok.injEq, Prod.mk.injEq] at h
      obtain ⟨rfl, rfl⟩ := h
      simpa using hlimit
  · intro table ids monikers limit offset locations total hlimit h
    simp only [Example.unresolvable] at h
    split at h
    · simp only [Except.ok.injEq] at h
      have := slicePage_length_le [Example.remoteY] limit offset hlimit
      rw [h] at this
      exact this
    · simp only [Except.ok.injEq, Prod.mk.injEq] at h
      obtain ⟨rfl, rfl⟩ := h
      simpa using hlimit

/-- Witness of C23: on `Example.unresolvable`, whose store answers with slices, a request of
limit 10 returns two upload locations. -/
theorem page_size_bound_witness :
    (([Example.adjusted1, Example.adjustedY].length : Nat) : Int)
      ≤ (Example.request 10).Limit + DefinitionsLimit ∧ DefinitionsLimit = 100 ∧
    ∃ (c0 cursor : ImplementationsCursor) (s1 : RState)
      (localLocations definitions remoteLocations : List Location),
      Example.unresolvable.decodeImplementationsCursor (Example.request 10).RawCursor = .ok c0 ∧
      Implementations.collect Example.unresolvable (Example.request 10) 5 c0
          (newRequestState [Example.upload1])
        = (.done (.ok (cursor, localLocations ++ definitions ++ remoteLocations)), s1) ∧
      (localLocations.length : Int) ≤ (Example.request 10).Limit ∧
      (definitions.length : Int) ≤ DefinitionsLimit ∧
      (remoteLocations ≠ [] →
        ((localLocations ++ definitions ++ remoteLocations).length : Int)
          ≤ (Example.request 10).Limit) ∧
      [Example.adjusted1, Example.adjustedY].length
        ≤ (localLocations ++ definitions ++ remoteLocations).length :=
  page_size_bound Example.unresolvable (Example.request 10) 5
    (newRequestState [Example.upload1])
    { locations := some [Example.adjusted1, Example.adjustedY], nextCursor := "", err := none }
    [Example.adjusted1, Example.adjustedY] Example.unresolvable_respectsLimit (by decide)
    (by decide!) rfl

/-! ## Scenario S2: local pagination -/

theorem LocalPagination.visibleFirst {r : Resolver} {args : RequestArgs} {vu : VisibleUpload}
    {locations : List Location} (hS : LocalPagination r args vu locations) (s : RState)
    (hloader : s.dataLoader.uploads = [vu.Upload]) :
    getVisibleUploadsFromCursor r args.Line args.Character none s
      = (.done (.ok ([vu], some [vu.frozen])),
          { s with log := s.log ++ [Call.GetTargetCommitPositionFromSourcePosition
            vu.Upload.Commit { Line := args.Line, Character := args.Character } false] }) := by
  have hvu : ({ Upload := vu.Upload, TargetPath := vu.TargetPath,
                TargetPosition := vu.TargetPosition,
                TargetPathWithoutRoot := stringsTrimPrefix vu.TargetPath vu.Upload.Root }
      : VisibleUpload) = vu := by
    rw [← hS.withoutRoot]
  simp only [getVisibleUploadsFromCursor, getVisibleUploads, RM.bind, RM.getLoader, hloader,
    getVisibleUploads.loop, getVisibleUpload, RM.wrapErr, RM.call, hS.visible, RM.ret,
    List.nil_append, getVisibleUploadsFromCursor.freeze, hvu]
  rfl

theorem LocalPagination.visibleLater {vu : VisibleUpload} (r : Resolver) (line character : Int)
    (s : RState) (hloader : s.dataLoader.getUploadFromCacheMap vu.Upload.ID = some vu.Upload) :
    getVisibleUploadsFromCursor r line character (some [vu.frozen]) s
      = (.done (.ok ([vu], some [vu.frozen])), s) := by
  have := getVisibleUploadsFromCursor.restore_frozen s.dataLoader [vu] []
    (by simpa using hloader)
  simp only [List.map_cons, List.map_nil, List.nil_append] at this
  simp only [getVisibleUploadsFromCursor, RM.bind, RM.getLoader, this, RM.ret]

theorem LocalPagination.noOrderedMonikers {r : Resolver} {args : RequestArgs}
    {vu : VisibleUpload} {locations : List Location} (hS : LocalPagination r args vu locations)
    (kinds : List String) (s : RState) :
    getOrderedMonikers r [vu] kinds s
      = (.done (.ok none),
          { s with log := s.log ++ [Call.GetMonikersByPosition vu.Upload.ID
            vu.TargetPathWithoutRoot vu.TargetPosition.Line vu.TargetPosition.Character] }) := by
  simp only [getOrderedMonikers, getOrderedMonikers.uploadsLoop, getOrderedMonikers.rangesLoop,
    RM.bind, RM.wrapErr, RM.call, hS.noMonikers, RM.ret]
  rfl

theorem LocalPagination.localPage {r : Resolver} {args : RequestArgs} {vu : VisibleUpload}
    {locations : List Location} (hS : LocalPagination r args vu locations)
    (limit offset : Int) (hlimit : 0 < limit) (s : RState) :
    getPageLocalLocations (Implementations.getLocations r) [vu]
        { UploadOffset := 0, LocationOffset := offset } limit s
      = (.done (.ok ((slicePage locations limit offset).1,
            decide (offset + ((slicePage locations limit offset).1.length : Int)
              < (locations.length : Int)),
            if offset + ((slicePage locations limit offset).1.length : Int)
                ≥ (locations.length : Int)
              then { UploadOffset := 1, LocationOffset := 0 }
              else { UploadOffset := 0,
                     LocationOffset := offset
                       + ((slicePage locations limit offset).1.length : Int) })),
          { s with log := s.log ++ [Call.GetImplementations vu.Upload.ID
            vu.TargetPathWithoutRoot vu.TargetPosition.Line vu.TargetPosition.Character
            limit offset] }) := by
  have hnot : ¬ limit ≤ 0 := not_le.mpr hlimit
  have htotal : (slicePage locations limit offset).2 = (locations.length : Int) := rfl
  by_cases hend : offset + ((slicePage locations limit offset).1.length : Int)
      ≥ (locations.length : Int)
  · have hlt : ¬ offset + ((slicePage locations limit offset).1.length : Int)
        < (locations.length : Int) := not_lt.mpr hend
    simp [getPageLocalLocations, getPageLocalLocations.loop, hnot, RM.bind, RM.wrapErr,
      Implementations.getLocations, RM.call, hS.exactSlices, RM.ret, htotal, hend, hlt]
  · have hlt : offset + ((slicePage locations limit offset).1.length : Int)
        < (locations.length : Int) := not_le.mp hend
    simp [getPageLocalLocations, getPageLocalLocations.loop, hnot, RM.bind, RM.wrapErr,
      Implementations.getLocations, RM.call, hS.exactSlices, RM.ret, htotal, hend, hlt]

theorem Implementations.localPhase_full (r : Resolver) (args : RequestArgs)
    (vus : List VisibleUpload) (fuel : Nat) (c : ImplementationsCursor) (locs : List Location)
    (s : RState) (hfull : args.Limit ≤ (locs.length : Int)) :
    Implementations.localPhase r args vus fuel c locs s = (.done (.ok (c, locs)), s) := by
  cases fuel with
  | zero =>
    rw [Implementations.localPhase, if_neg (not_lt.mpr hfull)]
    rfl
  | succ fuel =>
    rw [Implementations.localPhase, if_neg (not_lt.mpr hfull)]
    rfl

theorem LocalPagination.adjustPage {r : Resolver} {args : RequestArgs} {vu : VisibleUpload}
    {locations : List Location} (hS : LocalPagination r args vu locations)
    (page : List Location) (hpage : ∀ l ∈ page, l.DumpID = vu.Upload.ID)
    (acc : List UploadLocation) (s : RState)
    (hloader : s.dataLoader.getUploadFromCacheMap vu.Upload.ID = some vu.Upload) :
    adjustLocations.loop r page acc s
      = (.done (.ok (acc ++ page.map (LocalPagination.adjusted r vu))),
          { s with
            log := s.log ++ page.map fun l =>
                     Call.GetTargetCommitRangeFromSourceRange vu.Upload.Commit
                       (vu.Upload.Root ++ l.Path) l.Range true }) := by
  induction page generalizing acc s with
  | nil => simp [adjustLocations.loop, RM.ret]
  | cons l rest ih =>
    have hl := hpage l (List.mem_cons_self _ _)
    have hrest : ∀ l ∈ rest, l.DumpID = vu.Upload.ID :=
      fun l hl => hpage l (List.mem_cons_of_mem _ hl)
    have hstep := ih hrest (acc ++ [LocalPagination.adjusted r vu l])
      { s with log := s.log ++ [Call.GetTargetCommitRangeFromSourceRange vu.Upload.Commit
          (vu.Upload.Root ++ l.Path) l.Range true] } hloader
    have hrepo : ¬ vu.Upload.RepositoryID ≠ r.requestArgs.repoID :=
      not_not.mpr hS.sameRepository
    simp only [adjustLocations.loop, RM.bind, RM.getLoader, hl, hloader, getUploadLocation,
      getSourceRange, hrepo, if_false, RM.wrapErr, RM.call, hS.sameRange, RM.ret, if_true,
      hS.noSubRepo]
    simp only [LocalPagination.adjusted] at hstep
    rw [hstep]
    simp [LocalPagination.adjusted]

theorem LocalPagination.collectFull {r : Resolver} {args : RequestArgs} {vu : VisibleUpload}
    {locations : List Location} (hS : LocalPagination r args vu locations)
    (cs : Option (List CursorToVisibleUpload)) (offset : Int) (fuel : Nat) (s s1 : RState)
    (hv : getVisibleUploadsFromCursor r args.Line args.Character cs s
      = (.done (.ok ([vu], some [vu.frozen])), s1))
    (hlimit : 0 < args.Limit)
    (hfill : args.Limit ≤ ((slicePage locations args.Limit offset).1.length : Int))
    (hmore : offset + ((slicePage locations args.Limit offset).1.length : Int)
      < (locations.length : Int)) :
    (Implementations.collect r args (fuel + 1)
        { CursorsToVisibleUploads := cs, OrderedImplementationMonikers := none,
          OrderedExportMonikers := none, Phase := "local",
          LocalCursor := { UploadOffset := 0, LocationOffset := offset },
          RemoteCursor := { UploadBatchIDs := [], UploadOffset := 0, LocationOffset := 0 } }
        s)
      = (.done (.ok (LocalPagination.cursor vu
            (offset + ((slicePage locations args.Limit offset).1.length : Int)),
          (slicePage locations args.Limit offset).1)),
          { s1 with
            log := s1.log ++
              [Call.GetMonikersByPosition vu.Upload.ID vu.TargetPathWithoutRoot
                 vu.TargetPosition.Line vu.TargetPosition.Character,
               Call.GetMonikersByPosition vu.Upload.ID vu.TargetPathWithoutRoot
                 vu.TargetPosition.Line vu.TargetPosition.Character,
               Call.GetImplementations vu.Upload.ID vu.TargetPathWithoutRoot
                 vu.TargetPosition.Line vu.TargetPosition.Character args.Limit offset] }) := by
  have hzero : ((([] : List Location).length : Nat) : Int) < args.Limit := by
    simpa using hlimit
  unfold Implementations.collect
  rw [RM.bind_of_ok hv]
  dsimp only
  rw [RM.bind_of_ok (hS.noOrderedMonikers _ _), RM.bind_of_ok (hS.noOrderedMonikers _ _)]
  rw [if_pos rfl, Implementations.localPhase, if_pos hzero]
  have hpage := hS.localPage args.Limit offset hlimit
  have hnot : ¬ (locations.length : Int)
      ≤ offset + ((slicePage locations args.Limit offset).1.length : Int) := not_le.mpr hmore
  simp only [List.length_nil, Nat.cast_zero, sub_zero, RM.bind, hpage, hmore, hnot,
    decide_True, List.nil_append, Bool.true_eq_false, if_false, ge_iff_le,
    Implementations.localPhase_full r args [vu] fuel _ _ _ hfill]
  simp [LocalPagination.cursor, RM.ret]

theorem getPageRemoteLocations.nextBatch_exhausted (r : Resolver) (vus : List VisibleUpload)
    (ms : List QualifiedMonikerData) (fuel : Nat) (cursor : RemoteCursor) (s : RState)
    (hbatch : cursor.UploadBatchIDs = []) (hoffset : cursor.UploadOffset < 0) :
    getPageRemoteLocations.nextBatch r vus ms fuel cursor s
      = (.done (.ok (false, cursor)), s) := by
  cases fuel <;> simp [getPageRemoteLocations.nextBatch, hbatch, hoffset, RM.ret]

theorem LocalPagination.collectLast {r : Resolver} {args : RequestArgs} {vu : VisibleUpload}
    {locations : List Location} (hS : LocalPagination r args vu locations)
    (cs : Option (List CursorToVisibleUpload)) (offset : Int) (fuel : Nat) (s s1 : RState)
    (hv : getVisibleUploadsFromCursor r args.Line args.Character cs s
      = (.done (.ok ([vu], some [vu.frozen])), s1))
    (hlimit : 0 < args.Limit)
    (hshort : ((slicePage locations args.Limit offset).1.length : Int) < args.Limit)
    (hend : (locations.length : Int)
      ≤ offset + ((slicePage locations args.Limit offset).1.length : Int)) :
    (Implementations.collect r args (fuel + 1)
        { CursorsToVisibleUploads := cs, OrderedImplementationMonikers := none,
          OrderedExportMonikers := none, Phase := "local",
          LocalCursor := { UploadOffset := 0, LocationOffset := offset },
          RemoteCursor := { UploadBatchIDs := [], UploadOffset := 0, LocationOffset := 0 } }
        s)
      = (.done (.ok (LocalPagination.finalCursor vu, (slicePage locations args.Limit offset).1)),
          { s1 with
            log := s1.log ++
              [Call.GetMonikersByPosition vu.Upload.ID vu.TargetPathWithoutRoot
                 vu.TargetPosition.Line vu.TargetPosition.Character,
               Call.GetMonikersByPosition vu.Upload.ID vu.TargetPathWithoutRoot
                 vu.TargetPosition.Line vu.TargetPosition.Character,
               Call.GetImplementations vu.Upload.ID vu.TargetPathWithoutRoot
                 vu.TargetPosition.Line vu.TargetPosition.Character args.Limit offset,
               Call.GetUploadsWithDefinitionsForMonikers [],
               Call.AreCommitsResolvable [],
               Call.GetBulkMonikerLocations "definitions" [] [] DefinitionsLimit 0,
               Call.GetUploadIDsWithReferences [] [vu.Upload.ID] r.requestArgs.repoID
                 r.requestArgs.commit r.maximumIndexesPerMonikerSearch 0] }) := by
  have hzero : ((([] : List Location).length : Nat) : Int) < args.Limit := by
    simpa using hlimit
  unfold Implementations.collect
  rw [RM.bind_of_ok hv]
  dsimp only
  rw [RM.bind_of_ok (hS.noOrderedMonikers _ _), RM.bind_of_ok (hS.noOrderedMonikers _ _)]
  rw [if_pos rfl, Implementations.localPhase, if_pos hzero]
  have hpage := hS.localPage args.Limit offset hlimit
  have hnot : ¬ offset + ((slicePage locations args.Limit offset).1.length : Int)
      < (locations.length : Int) := not_lt.mpr hend
  simp only [List.length_nil, Nat.cast_zero, sub_zero, RM.bind, hpage, hend, hnot,
    decide_False, List.nil_append, if_true, ge_iff_le, RM.ret]
  simp only [Implementations.dependenciesPhase, GetUploadsWithDefinitionsForMonikers,
    removeUploadsWithUnknownCommits, removeUploadsWithUnknownCommits.filter,
    getBulkMonikerLocations, RM.bind, RM.wrapErr, RM.call, RM.getLoader, RM.setLoader, RM.ret,
    Option.getD_none, List.map_nil, hS.noDefinitionUploads, hS.noCommits, hS.noDefinitions,
    UploadsDataLoader.setUploadInCacheMap, List.foldl_nil, List.append_nil, if_true]
  rw [Implementations.dependentsPhase, if_pos hshort]
  simp only [getPageRemoteLocations, getPageRemoteLocations.nextBatch, RM.bind, RM.call,
    List.length_nil, if_true, lt_irrefl, if_false, Option.getD_none, List.map_cons,
    List.map_nil, hS.noDependents, zero_add, ge_iff_le, le_refl]
  rw [getPageRemoteLocations.nextBatch_exhausted r _ _ _ _ _ rfl (by decide)]
  simp [RM.ret, LocalPagination.finalCursor]

theorem Implementations.orReturn_of_ok {α : Type} {x : RM α}
    {k : α → RState → Run ImplementationsResult × RState} {s s1 : RState} {a : α}
    (h : x s = (.done (.ok a), s1)) : Implementations.orReturn x k s = k a s1 := by
  unfold Implementations.orReturn
  rw [h]

theorem LocalPagination.withCursor {r : Resolver} {args : RequestArgs} {vu : VisibleUpload}
    {locations : List Location} (hS : LocalPagination r args vu locations) (raw : String) :
    LocalPagination r { args with RawCursor := raw } vu locations :=
  { hS with }

theorem LocalPagination.pageFull {r : Resolver} {args : RequestArgs} {vu : VisibleUpload}
    {locations : List Location} (hS : LocalPagination r args vu locations)
    (cs : Option (List CursorToVisibleUpload)) (offset : Int) (fuel : Nat) (s s1 : RState)
    (hdec : r.decodeImplementationsCursor args.RawCursor
      = .ok { CursorsToVisibleUploads := cs, OrderedImplementationMonikers := none,
              OrderedExportMonikers := none, Phase := "local",
              LocalCursor := { UploadOffset := 0, LocationOffset := offset },
              RemoteCursor := { UploadBatchIDs := [], UploadOffset := 0, LocationOffset := 0 } })
    (hv : getVisibleUploadsFromCursor r args.Line args.Character cs s
      = (.done (.ok ([vu], some [vu.frozen])), s1))
    (hloader : s1.dataLoader.getUploadFromCacheMap vu.Upload.ID = some vu.Upload)
    (hlimit : 0 < args.Limit)
    (hfill : args.Limit ≤ ((slicePage locations args.Limit offset).1.length : Int))
    (hmore : offset + ((slicePage locations args.Limit offset).1.length : Int)
      < (locations.length : Int)) :
    (Implementations r args (fuel + 1) s).1
      = .done { locations := some ((slicePage locations args.Limit offset).1.map
                  (LocalPagination.adjusted r vu)),
                nextCursor := r.encodeImplementationsCursor (LocalPagination.cursor vu
                  (offset + ((slicePage locations args.Limit offset).1.length : Int))),
                err := none } := by
  have hown : ∀ l ∈ (slicePage locations args.Limit offset).1, l.DumpID = vu.Upload.ID :=
    fun l hl => hS.ownLocations l ((List.take_subset _ _).trans (List.drop_subset _ _) hl)
  obtain ⟨s2, hcol, hloader2⟩ : ∃ s2,
      Implementations.collect r args (fuel + 1)
          { CursorsToVisibleUploads := cs, OrderedImplementationMonikers := none,
            OrderedExportMonikers := none, Phase := "local",
            LocalCursor := { UploadOffset := 0, LocationOffset := offset },
            RemoteCursor := { UploadBatchIDs := [], UploadOffset := 0, LocationOffset := 0 } }
          s
        = (.done (.ok (LocalPagination.cursor vu
              (offset + ((slicePage locations args.Limit offset).1.length : Int)),
            (slicePage locations args.Limit offset).1)), s2) ∧
      s2.dataLoader.getUploadFromCacheMap vu.Upload.ID = some vu.Upload :=
    ⟨_, hS.collectFull cs offset fuel s s1 hv hlimit hfill hmore, hloader⟩
  unfold Implementations
  rw [hdec]
  dsimp only
  rw [Implementations.orReturn_of_ok hcol]
  dsimp only
  unfold adjustLocations
  rw [Implementations.orReturn_of_ok (hS.adjustPage _ hown [] _ hloader2)]
  simp [LocalPagination.cursor]

theorem LocalPagination.pageLast {r : Resolver} {args : RequestArgs} {vu : VisibleUpload}
    {locations : List Location} (hS : LocalPagination r args vu locations)
    (cs : Option (List CursorToVisibleUpload)) (offset : Int) (fuel : Nat) (s s1 : RState)
    (hdec : r.decodeImplementationsCursor args.RawCursor
      = .ok { CursorsToVisibleUploads := cs, OrderedImplementationMonikers := none,
              OrderedExportMonikers := none, Phase := "local",
              LocalCursor := { UploadOffset := 0, LocationOffset := offset },
              RemoteCursor := { UploadBatchIDs := [], UploadOffset := 0, LocationOffset := 0 } })
    (hv : getVisibleUploadsFromCursor r args.Line args.Character cs s
      = (.done (.ok ([vu], some [vu.frozen])), s1))
    (hloader : s1.dataLoader.getUploadFromCacheMap vu.Upload.ID = some vu.Upload)
    (hlimit : 0 < args.Limit)
    (hshort : ((slicePage locations args.Limit offset).1.length : Int) < args.Limit)
    (hend : (locations.length : Int)
      ≤ offset + ((slicePage locations args.Limit offset).1.length : Int)) :
    (Implementations r args (fuel + 1) s).1
      = .done { locations := some ((slicePage locations args.Limit offset).1.map
                  (LocalPagination.adjusted r vu)),
                nextCursor := "", err := none } ∧
    (∃ collected,
      Implementations.collect r args (fuel + 1)
          { CursorsToVisibleUploads := cs, OrderedImplementationMonikers := none,
            OrderedExportMonikers := none, Phase := "local",
            LocalCursor := { UploadOffset := 0, LocationOffset := offset },
            RemoteCursor := { UploadBatchIDs := [], UploadOffset := 0, LocationOffset := 0 } }
          s
        = (.done (.ok (LocalPagination.finalCursor vu,
            (slicePage locations args.Limit offset).1)), collected)) ∧
    Call.GetUploadsWithDefinitionsForMonikers [] ∈ (Implementations r args (fuel + 1) s).2.log ∧
    Call.GetBulkMonikerLocations "definitions" [] [] DefinitionsLimit 0
      ∈ (Implementations r args (fuel + 1) s).2.log ∧
    Call.GetUploadIDsWithReferences [] [vu.Upload.ID] r.requestArgs.repoID
      r.requestArgs.commit r.maximumIndexesPerMonikerSearch 0
      ∈ (Implementations r args (fuel + 1) s).2.log := by
  have hown : ∀ l ∈ (slicePage locations args.Limit offset).1, l.DumpID = vu.Upload.ID :=
    fun l hl => hS.ownLocations l ((List.take_subset _ _).trans (List.drop_subset _ _) hl)
  obtain ⟨s2, hcol, hloader2, hlog1, hlog2, hlog3⟩ : ∃ s2,
      Implementations.collect r args (fuel + 1)
          { CursorsToVisibleUploads := cs, OrderedImplementationMonikers := none,
            OrderedExportMonikers := none, Phase := "local",
            LocalCursor := { UploadOffset := 0, LocationOffset := offset },
            RemoteCursor := { UploadBatchIDs := [], UploadOffset := 0, LocationOffset := 0 } }
          s
        = (.done (.ok (LocalPagination.finalCursor vu,
            (slicePage locations args.Limit offset).1)), s2) ∧
      s2.dataLoader.getUploadFromCacheMap vu.Upload.ID = some vu.Upload ∧
      Call.GetUploadsWithDefinitionsForMonikers [] ∈ s2.log ∧
      Call.GetBulkMonikerLocations "definitions" [] [] DefinitionsLimit 0 ∈ s2.log ∧
      Call.GetUploadIDsWithReferences [] [vu.Upload.ID] r.requestArgs.repoID
        r.requestArgs.commit r.maximumIndexesPerMonikerSearch 0 ∈ s2.log :=
    ⟨_, hS.collectLast cs offset fuel s s1 hv hlimit hshort hend, hloader, by simp, by simp,
      by simp⟩
  have hrun : Implementations r args (fuel + 1) s
      = (.done { locations := some ((slicePage locations args.Limit offset).1.map
                   (LocalPagination.adjusted r vu)),
                 nextCursor := "", err := none },
          { s2 with
            log := s2.log ++ (slicePage locations args.Limit offset).1.map fun l =>
                     Call.GetTargetCommitRangeFromSourceRange vu.Upload.Commit
                       (vu.Upload.Root ++ l.Path) l.Range true }) := by
    unfold Implementations
    rw [hdec]
    dsimp only
    rw [Implementations.orReturn_of_ok hcol]
    dsimp only
    unfold adjustLocations
    rw [Implementations.orReturn_of_ok (hS.adjustPage _ hown [] _ hloader2)]
    simp [LocalPagination.finalCursor]
  refine ⟨by rw [hrun], ⟨_, hcol⟩, ?_, ?_, ?_⟩
  · rw [hrun]
    exact List.mem_append_left _ hlog1
  · rw [hrun]
    exact List.mem_append_left _ hlog2
  · rw [hrun]
    exact List.mem_append_left _ hlog3

theorem LocalPagination.request {r : Resolver} {args : RequestArgs} {vu : VisibleUpload}
    {locations : List Location} (hS : LocalPagination r args vu locations) (k j : Nat) :
    ∃ cs s1,
      r.decodeImplementationsCursor (LocalPagination.token r vu k j)
        = .ok { CursorsToVisibleUploads := cs, OrderedImplementationMonikers := none,
                OrderedExportMonikers := none, Phase := "local",
                LocalCursor := { UploadOffset := 0, LocationOffset := ((j * k : Nat) : Int) },
                RemoteCursor :=
                  { UploadBatchIDs := [], UploadOffset := 0, LocationOffset := 0 } } ∧
      getVisibleUploadsFromCursor r args.Line args.Character cs (newRequestState [vu.Upload])
        = (.done (.ok ([vu], some [vu.frozen])), s1) ∧
      s1.dataLoader.getUploadFromCacheMap vu.Upload.ID = some vu.Upload := by
  have hloader : (newRequestState [vu.Upload]).dataLoader.getUploadFromCacheMap vu.Upload.ID
      = some vu.Upload := by
    simp [newRequestState, SetUploadsDataLoader, UploadsDataLoader.AddUpload,
      NewUploadsDataLoader, UploadsDataLoader.getUploadFromCacheMap, List.lookup]
  by_cases hj : j = 0
  · subst hj
    refine ⟨none, _, ?_, hS.visibleFirst (newRequestState [vu.Upload]) rfl, hloader⟩
    simp only [LocalPagination.token, if_true, hS.decodeEmpty, Codec.initialCursor, zero_mul,
      Nat.cast_zero]
  · refine ⟨some [vu.frozen], _, ?_,
      LocalPagination.visibleLater r args.Line args.Character _ hloader, hloader⟩
    simp only [LocalPagination.token, if_neg hj, hS.roundTrip, LocalPagination.cursor]

/-- C21. Scenario S2, local pagination: with one visible upload that holds the local locations
`locations`, no monikers, no dependencies and no dependents, a store that returns exact slices
and a limit `k > 0` that does not divide their number `n`, every page `j < n / k` (counted from
0, each requested with the next cursor of the page before) returns the `k` locations from offset
`j * k` on and the encoding of a cursor in the phase `local` whose local location offset is
`(j + 1) * k`; the page `n / k` returns the remaining `n % k` locations and an empty next
cursor, after the phase machine has gone through the dependencies and the dependents phases to
the phase `done`. -/
theorem local_pagination (r : Resolver) (args : RequestArgs) (vu : VisibleUpload)
    (locations : List Location) (k fuel : Nat)
    (hS : LocalPagination r args vu locations)
    (hk : 0 < k) (hlimit : args.Limit = (k : Int)) (hdiv : ¬ k ∣ locations.length) :
    (∀ j, j < locations.length / k →
      (Implementations r { args with RawCursor := LocalPagination.token r vu k j } (fuel + 1)
          (newRequestState [vu.Upload])).1
        = .done { locations := some (((locations.drop (j * k)).take k).map
                    (LocalPagination.adjusted r vu)),
                  nextCursor := LocalPagination.token r vu k (j + 1),
                  err := none } ∧
      ((locations.drop (j * k)).take k).length = k ∧
      LocalPagination.token r vu k (j + 1)
        = r.encodeImplementationsCursor
            (LocalPagination.cursor vu (((j + 1) * k : Nat) : Int))) ∧
    (Implementations r
          { args with RawCursor := LocalPagination.token r vu k (locations.length / k) }
          (fuel + 1) (newRequestState [vu.Upload])).1
      = .done { locations := some ((locations.drop (locations.length / k * k)).map
                  (LocalPagination.adjusted r vu)),
                nextCursor := "", err := none } ∧
    (locations.drop (locations.length / k * k)).length = locations.length % k ∧
    (∃ c0 collected,
      r.decodeImplementationsCursor (LocalPagination.token r vu k (locations.length / k))
        = .ok c0 ∧
      Implementations.collect r
          { args with RawCursor := LocalPagination.token r vu k (locations.length / k) }
          (fuel + 1) c0 (newRequestState [vu.Upload])
        = (.done (.ok (LocalPagination.finalCursor vu,
            locations.drop (locations.length / k * k))), collected)) ∧
    Call.GetUploadsWithDefinitionsForMonikers []
      ∈ (Implementations r
          { args with RawCursor := LocalPagination.token r vu k (locations.length / k) }
          (fuel + 1) (newRequestState [vu.Upload])).2.log ∧
    Call.GetBulkMonikerLocations "definitions" [] [] DefinitionsLimit 0
      ∈ (Implementations r
          { args with RawCursor := LocalPagination.token r vu k (locations.length / k) }
          (fuel + 1) (newRequestState [vu.Upload])).2.log ∧
    Call.GetUploadIDsWithReferences [] [vu.Upload.ID] r.requestArgs.repoID
      r.requestArgs.commit r.maximumIndexesPerMonikerSearch 0
      ∈ (Implementations r
          { args with RawCursor := LocalPagination.token r vu k (locations.length / k) }
          (fuel + 1) (newRequestState [vu.Upload])).2.log := by
  have hmod : locations.length / k * k + locations.length % k = locations.length :=
    Nat.div_add_mod' _ _
  have hrem : locations.length % k ≠ 0 := fun h => hdiv (Nat.dvd_of_mod_eq_zero h)
  have hlt : locations.length % k < k := Nat.mod_lt _ hk
  have hslice : ∀ j : Nat, (slicePage locations (k : Int) ((j * k : Nat) : Int)).1
      = (locations.drop (j * k)).take k := by
    intro j
    simp only [slicePage, Int.toNat_ofNat]
  constructor
  · intro j hj
    have h1 : (j + 1) * k ≤ locations.length / k * k :=
      Nat.mul_le_mul_right k (Nat.succ_le_of_lt hj)
    have h2 : (j + 1) * k = j * k + k := Nat.succ_mul j k
    have hlen : ((locations.drop (j * k)).take k).length = k := by
      rw [List.length_take, List.length_drop]
      omega
    obtain ⟨cs, s1, hdec, hv, hloader⟩ := hS.request k j
    have hpage := (hS.withCursor (LocalPagination.token r vu k j)).pageFull cs
      ((j * k : Nat) : Int) fuel (newRequestState [vu.Upload]) s1 hdec hv hloader
      (by simp only [hlimit]; exact_mod_cast hk)
      (by simp only [hlimit, hslice, hlen]; exact le_refl _)
      (by
        simp only [hlimit, hslice, hlen]
        exact_mod_cast (by omega : j * k + k < locations.length))
    simp only [hlimit, hslice, hlen] at hpage
    refine ⟨?_, hlen, ?_⟩
    · rw [hlimit, hpage]
      simp [LocalPagination.token, h2]
    · simp [LocalPagination.token]
  · have hlen : (locations.drop (locations.length / k * k)).length = locations.length % k := by
      rw [List.length_drop]
      omega
    have htake : (locations.drop (locations.length / k * k)).take k
        = locations.drop (locations.length / k * k) :=
      List.take_of_length_le (by omega)
    obtain ⟨cs, s1, hdec, hv, hloader⟩ := hS.request k (locations.length / k)
    have hpage := (hS.withCursor (LocalPagination.token r vu k (locations.length / k))).pageLast
      cs ((locations.length / k * k : Nat) : Int) fuel (newRequestState [vu.Upload]) s1 hdec hv
      hloader
      (by simp only [hlimit]; exact_mod_cast hk)
      (by simp only [hlimit, hslice, htake, hlen]; exact_mod_cast hlt)
      (by simp only [hlimit, hslice, htake, hlen]; exact_mod_cast (le_of_eq hmod.symm))
    simp only [hlimit, hslice, htake] at hpage
    obtain ⟨hres, ⟨collected, hcol⟩, hl1, hl2, hl3⟩ := hpage
    rw [hlimit]
    exact ⟨hres, hlen, ⟨_, collected, hdec, hcol⟩, hl1, hl2, hl3⟩

theorem Example.paged_localPagination :
    LocalPagination (Example.paged Example.twentyFive) (Example.request 10) Example.visible1
      Example.twentyFive where
  decodeEmpty := rfl
  roundTrip := Codec.decode_encode
  visible := rfl
  withoutRoot := by decide
  noMonikers := rfl
  exactSlices := fun limit offset => by
    simp [Example.paged, Example.visible1, Example.upload1]
  ownLocations := by
    intro l hl
    simp only [Example.twentyFive, List.mem_map] at hl
    obtain ⟨i, -, rfl⟩ := hl
    rfl
  noDefinitionUploads := rfl
  noCommits := rfl
  noDefinitions := rfl
  noDependents := rfl
  sameRepository := rfl
  sameRange := fun _ _ => rfl
  noSubRepo := rfl

/-- Witness of C21: 25 local locations read with limit 10 come in pages of 10, 10 and 5; the
third page returns an empty next cursor. -/
theorem local_pagination_witness :
    ((Implementations (Example.paged Example.twentyFive)
        { Example.request 10 with
          RawCursor :=
            LocalPagination.token (Example.paged Example.twentyFive) Example.visible1 10 0 } 5
        (newRequestState [Example.visible1.Upload])).1
      = .done { locations := some (((Example.twentyFive.drop (0 * 10)).take 10).map
                  (LocalPagination.adjusted (Example.paged Example.twentyFive)
                    Example.visible1)),
                nextCursor :=
                  LocalPagination.token (Example.paged Example.twentyFive) Example.visible1
                    10 (0 + 1),
                err := none }) ∧
    ((Implementations (Example.paged Example.twentyFive)
        { Example.request 10 with
          RawCursor :=
            LocalPagination.token (Example.paged Example.twentyFive) Example.visible1 10 1 } 5
        (newRequestState [Example.visible1.Upload])).1
      = .done { locations := some (((Example.twentyFive.drop (1 * 10)).take 10).map
                  (LocalPagination.adjusted (Example.paged Example.twentyFive)
                    Example.visible1)),
                nextCursor :=
                  LocalPagination.token (Example.paged Example.twentyFive) Example.visible1
                    10 (1 + 1),
                err := none }) ∧
    ((Implementations (Example.paged Example.twentyFive)
        { Example.request 10 with
          RawCursor :=
            LocalPagination.token (Example.paged Example.twentyFive) Example.visible1 10
              (Example.twentyFive.length / 10) } 5
        (newRequestState [Example.visible1.Upload])).1
      = .done { locations := some ((Example.twentyFive.drop
                  (Example.twentyFive.length / 10 * 10)).map
                  (LocalPagination.adjusted (Example.paged Example.twentyFive)
                    Example.visible1)),
                nextCursor := "", err := none }) ∧
    (Example.twentyFive.drop (Example.twentyFive.length / 10 * 10)).length
      = Example.twentyFive.length % 10 ∧
    Example.twentyFive.length / 10 = 2 ∧ Example.twentyFive.length % 10 = 5 :=
  have h := local_pagination (Example.paged Example.twentyFive) (Example.request 10)
    Example.visible1 Example.twentyFive 10 4 Example.paged_localPagination (by decide) rfl
    (by decide)
  ⟨(h.1 0 (by decide)).1, (h.1 1 (by decide)).1, h.2.1, h.2.2.1, by decide, by decide⟩

/-! ## Ranges and the dedup filter -/

/-- C36. `rangeContainsPosition r pos` is true exactly when `r.Start ≤ pos ≤ r.End` in the
lexicographic order on (line, character); both end points are inclusive. -/
theorem range_contains_position_iff (r : Range) (pos : Position) :
    rangeContainsPosition r pos = true ↔ Position.le r.Start pos ∧ Position.le pos r.End := by
  unfold rangeContainsPosition Position.le
  split_ifs with h1 h2 h3 h4 <;> simp only [Bool.false_eq_true, false_iff, true_iff] <;> omega

theorem isSourceLocation_iff (vus : List VisibleUpload) (location : Location) :
    isSourceLocation vus location = true ↔
      ∃ vu ∈ vus, vu.Upload.ID = location.DumpID ∧ vu.TargetPath = location.Path ∧
        rangeContainsPosition location.Range vu.TargetPosition = true := by
  induction vus with
  | nil => simp [isSourceLocation]
  | cons vu rest ih =>
    unfold isSourceLocation
    by_cases h : location.DumpID = vu.Upload.ID ∧ location.Path = vu.TargetPath
        ∧ rangeContainsPosition location.Range vu.TargetPosition = true
    · rw [if_pos h]
      simp only [List.mem_cons, true_iff]
      exact ⟨vu, Or.inl rfl, h.1.symm, h.2.1.symm, h.2.2⟩
    · rw [if_neg h, ih]
      constructor
      · rintro ⟨v, hv, hrest⟩
        exact ⟨v, List.mem_cons_of_mem _ hv, hrest⟩
      · rintro ⟨v, hv, h1, h2, h3⟩
        rcases List.mem_cons.mp hv with rfl | hv
        · exact absurd ⟨h1.symm, h2.symm, h3⟩ h
        · exact ⟨v, hv, h1, h2, h3⟩

/-! ## The hydration of uploads -/

theorem getUploadsByIDs.split_eq (dl : UploadsDataLoader) (ids missing : List Int)
    (existing : List Dump) :
    getUploadsByIDs.split dl ids missing existing
      = (missing ++ missingIDsOf dl ids, existing ++ cachedDumpsOf dl ids) := by
  induction ids generalizing missing existing with
  | nil => simp [getUploadsByIDs.split, missingIDsOf, cachedDumpsOf]
  | cons id rest ih =>
    unfold getUploadsByIDs.split
    cases hup : dl.getUploadFromCacheMap id with
    | none =>
      simp only [ih, missingIDsOf, cachedDumpsOf, List.filter_cons, hup, Option.isNone_none,
        ↓reduceIte, List.filterMap_cons, List.append_assoc, List.singleton_append]
    | some upload =>
      simp only [ih, missingIDsOf, cachedDumpsOf, List.filter_cons, hup, Option.isNone_some,
        Bool.false_eq_true, ↓reduceIte, List.filterMap_cons, List.append_assoc,
        List.singleton_append]

/-- What `getUploadsByIDs` does, by the answers of the store and of the commit cache. -/
theorem getUploadsByIDs_eq (r : Resolver) (ids : List Int) (s : RState) :
    getUploadsByIDs r ids s
      = match r.GetDumpsByIDs (missingIDsOf s.dataLoader ids) with
        | .error e =>
          (.done (.error (.wrap e "service.GetDumpsByIDs")),
            { s with log := s.log ++ [.GetDumpsByIDs (missingIDsOf s.dataLoader ids)] })
        | .ok fetched =>
          match r.AreCommitsResolvable (commitsOf fetched) with
          | .error _ =>
            (.done (.ok []),
              { s with
                log := s.log ++ [.GetDumpsByIDs (missingIDsOf s.dataLoader ids),
                  .AreCommitsResolvable (commitsOf fetched)] })
          | .ok flags =>
            match removeUploadsWithUnknownCommits.filter fetched flags with
            | .done kept =>
              (.done (.ok (cachedDumpsOf s.dataLoader ids ++ kept)),
                { dataLoader := s.dataLoader.setUploadInCacheMap kept
                  log := s.log ++ [.GetDumpsByIDs (missingIDsOf s.dataLoader ids),
                    .AreCommitsResolvable (commitsOf fetched)] })
            | .panic =>
              (.panic,
                { s with
                  log := s.log ++ [.GetDumpsByIDs (missingIDsOf s.dataLoader ids),
                    .AreCommitsResolvable (commitsOf fetched)] })
            | .diverge =>
              (.diverge,
                { s with
                  log := s.log ++ [.GetDumpsByIDs (missingIDsOf s.dataLoader ids),
                    .AreCommitsResolvable (commitsOf fetched)] }) := by
  unfold getUploadsByIDs
  simp only [RM.bind, RM.getLoader, getUploadsByIDs.split_eq, List.nil_append, RM.wrapErr,
    RM.call, RM.attempt, removeUploadsWithUnknownCommits, RM.setLoader, RM.ret]
  cases h1 : r.GetDumpsByIDs (missingIDsOf s.dataLoader ids) with
  | error e => rfl
  | ok fetched =>
    simp only [commitsOf]
    cases h2 : r.AreCommitsResolvable
        (fetched.map fun upload =>
          ({ RepositoryID := upload.RepositoryID, Commit := upload.Commit } : RepositoryCommit)) with
    | error e => simp [RM.ret]
    | ok flags =>
      simp only
      cases h3 : removeUploadsWithUnknownCommits.filter fetched flags with
      | done kept => simp [RM.bind, RM.getLoader, RM.setLoader, RM.ret]
      | panic => simp
      | diverge => simp

/-- What `getUploadsByIDs` returns and caches when the store and the commit cache answer: the
dumps of the loader for the ids, then the fetched dumps with a resolvable commit, which are the
dumps added to the loader. -/
theorem getUploadsByIDs_hydrates (r : Resolver) (ids : List Int) (s : RState)
    (fetched : List Dump) (flags : List Bool)
    (hfetch : r.GetDumpsByIDs (missingIDsOf s.dataLoader ids) = .ok fetched)
    (hflags : r.AreCommitsResolvable (commitsOf fetched) = .ok flags)
    (hlen : fetched.length ≤ flags.length) :
    getUploadsByIDs r ids s
      = (.done (.ok (cachedDumpsOf s.dataLoader ids ++ resolvableDumps fetched flags)),
          { dataLoader := s.dataLoader.setUploadInCacheMap (resolvableDumps fetched flags)
            log := s.log ++ [.GetDumpsByIDs (missingIDsOf s.dataLoader ids),
              .AreCommitsResolvable (commitsOf fetched)] }) := by
  rw [getUploadsByIDs_eq, hfetch]
  simp only [hflags, removeUploadsWithUnknownCommits.filter_eq fetched flags hlen]

/-- C34. On a failure of the commit cache `getUploadsByIDs` returns no dump at all with a nil
error: the loader holds upload 1, the ids are 1 and 2, the store returns upload 2 for the missing
id 2, and the commit cache of `Example.commitCheckFails` answers with an error. The cached
upload 1 is not returned. -/
theorem hydration_drops_cached_dumps_when_commit_cache_fails :
    cachedDumpsOf (newRequestState [Example.upload1]).dataLoader [1, 2] = [Example.upload1] ∧
    missingIDsOf (newRequestState [Example.upload1]).dataLoader [1, 2] = [2] ∧
    Example.commitCheckFails.GetDumpsByIDs [2] = .ok [Example.upload2] ∧
    Example.commitCheckFails.AreCommitsResolvable (commitsOf [Example.upload2])
      = .error (.msg "gitserver unavailable") ∧
    (getUploadsByIDs Example.commitCheckFails [1, 2] (newRequestState [Example.upload1])).1
      = .done (.ok []) := by
  decide!

/-! ## The bookkeeping of the remote cursor -/

theorem RemoteCursor.fetched_eq (c : RemoteCursor) (ids : List Int) (scanned total : Int) :
    (if ({ c with UploadBatchIDs := ids, UploadOffset := c.UploadOffset + scanned }
          : RemoteCursor).UploadOffset ≥ total then
        { ({ c with UploadBatchIDs := ids, UploadOffset := c.UploadOffset + scanned }
            : RemoteCursor) with UploadOffset := -1 }
      else ({ c with UploadBatchIDs := ids, UploadOffset := c.UploadOffset + scanned }
        : RemoteCursor))
      = c.fetched ids scanned total := by
  unfold RemoteCursor.fetched
  split <;> rfl

theorem FetchedBatches.locationOffset {r : Resolver} {vus : List VisibleUpload}
    {ms : List QualifiedMonikerData} {c c1 : RemoteCursor} {calls : List Call}
    (h : FetchedBatches r vus ms c calls c1) :
    c1.LocationOffset = c.LocationOffset ∧ (∀ call ∈ calls, call.isBatchFetch = true) ∧
      (calls = [] → c1 = c) := by
  induction h with
  | stay c => exact ⟨rfl, fun _ h => (by cases h), fun _ => rfl⟩
  | fetch c c1 calls ids scanned total hbatch hoffset hanswer hrest ih =>
    refine ⟨ih.1, fun call hmem => ?_, fun hnil => by cases hnil⟩
    rcases List.mem_cons.mp hmem with rfl | hmem
    · rfl
    · exact ih.2.1 call hmem

theorem getPageRemoteLocations.nextBatch_fetches (r : Resolver) (vus : List VisibleUpload)
    (ms : List QualifiedMonikerData) (fuel : Nat) (c : RemoteCursor) (s s1 : RState)
    (res : Bool × RemoteCursor)
    (h : getPageRemoteLocations.nextBatch r vus ms fuel c s = (.done (.ok res), s1)) :
    ∃ calls, FetchedBatches r vus ms c calls res.2 ∧ s1 = { s with log := s.log ++ calls } ∧
      (res.1 = false → res.2.exhausted) ∧ (res.1 = true → res.2.UploadBatchIDs ≠ []) := by
  have hstay : ∀ (flag : Bool) (c : RemoteCursor) (s s1 : RState) (res : Bool × RemoteCursor),
      RM.ret (flag, c) s = (.done (.ok res), s1) →
      (flag = false → c.exhausted) → (flag = true → c.UploadBatchIDs ≠ []) →
      ∃ calls, FetchedBatches r vus ms c calls res.2 ∧ s1 = { s with log := s.log ++ calls } ∧
        (res.1 = false → res.2.exhausted) ∧ (res.1 = true → res.2.UploadBatchIDs ≠ []) := by
    intro flag c s s1 res h hf ht
    obtain ⟨rfl, rfl⟩ := RM.ret_ok h
    exact ⟨[], FetchedBatches.stay c, by simp, hf, ht⟩
  induction fuel generalizing c s with
  | zero =>
    unfold getPageRemoteLocations.nextBatch at h
    split at h
    · next hb =>
      split at h
      · next hu =>
        exact hstay _ _ _ _ _ h (fun _ => ⟨List.length_eq_zero.mp hb, hu⟩) (fun hf => by cases hf)
      · simp at h
    · next hb =>
      exact hstay _ _ _ _ _ h (fun hf => by cases hf)
        (fun _ hnil => hb (by rw [hnil]; rfl))
  | succ fuel ih =>
    unfold getPageRemoteLocations.nextBatch at h
    split at h
    · next hb =>
      split at h
      · next hu =>
        exact hstay _ _ _ _ _ h (fun _ => ⟨List.length_eq_zero.mp hb, hu⟩) (fun hf => by cases hf)
      · next hu =>
        obtain ⟨a, s2, h0, h1⟩ := RM.bind_ok h
        obtain ⟨hans, rfl⟩ := RM.call_ok h0
        simp only at h1
        rw [RemoteCursor.fetched_eq] at h1
        obtain ⟨calls, hchain, hs1, hf, ht⟩ := ih _ _ h1
        refine ⟨batchCall r vus ms c :: calls,
          FetchedBatches.fetch c res.2 calls a.1 a.2.1 a.2.2 (List.length_eq_zero.mp hb)
            (not_lt.mp hu) hans hchain, ?_, hf, ht⟩
        rw [hs1]
        simp [batchCall]
    · next hb =>
      exact hstay _ _ _ _ _ h (fun hf => by cases hf)
        (fun _ hnil => hb (by rw [hnil]; rfl))

theorem RemoteCursor.searched_eq (c : RemoteCursor) (n : Nat) (total : Int) :
    (if ({ c with LocationOffset := c.LocationOffset + (n : Int) } : RemoteCursor).LocationOffset
          ≥ total then
        { ({ c with LocationOffset := c.LocationOffset + (n : Int) } : RemoteCursor) with
          LocationOffset := 0, UploadBatchIDs := [] }
      else ({ c with LocationOffset := c.LocationOffset + (n : Int) } : RemoteCursor))
      = c.searched n total := by
  unfold RemoteCursor.searched
  split <;> rfl

/-- What a returning call of `getPageRemoteLocations` went through: the batches fetched, then
either nothing more, the cursor being exhausted, or the hydration of the batch and one bulk
moniker search, whose answer is filtered and moves the cursor. -/
theorem getPageRemoteLocations_run (r : Resolver) (table : String) (vus : List VisibleUpload)
    (ms : List QualifiedMonikerData) (c : RemoteCursor) (limit : Int) (fuel : Nat)
    (s s1 : RState) (res : List Location × Bool × RemoteCursor)
    (h : getPageRemoteLocations r table vus ms c limit fuel s = (.done (.ok res), s1)) :
    ∃ calls cursor1, FetchedBatches r vus ms c calls cursor1 ∧
      ((cursor1.exhausted ∧ res = ([], false, cursor1) ∧
          s1 = { s with log := s.log ++ calls }) ∨
        (cursor1.UploadBatchIDs ≠ [] ∧
          ∃ uploads s2 locations totalCount,
            getUploadsByIDs r cursor1.UploadBatchIDs { s with log := s.log ++ calls }
              = (.done (.ok uploads), s2) ∧
            r.GetBulkMonikerLocations table (uploads.map fun u => u.ID)
                (ms.map fun m => m.MonikerData) limit cursor1.LocationOffset
              = .ok (locations, totalCount) ∧
            s1 = { s2 with
                   log := s2.log ++ [.GetBulkMonikerLocations table (uploads.map fun u => u.ID)
                     (ms.map fun m => m.MonikerData) limit cursor1.LocationOffset] } ∧
            res = (getPageRemoteLocations.filter vus locations,
              decide ((cursor1.searched locations.length totalCount).UploadBatchIDs.length > 0)
                || decide ((cursor1.searched locations.length totalCount).UploadOffset ≥ 0),
              cursor1.searched locations.length totalCount))) := by
  unfold getPageRemoteLocations at h
  obtain ⟨batch, s0, h0, h1⟩ := RM.bind_ok h
  obtain ⟨calls, hchain, rfl, hf, ht⟩ :=
    getPageRemoteLocations.nextBatch_fetches r vus ms fuel c s s0 batch h0
  refine ⟨calls, batch.2, hchain, ?_⟩
  simp only at h1
  split at h1
  · next hflag =>
    obtain ⟨rfl, rfl⟩ := RM.ret_ok h1
    exact Or.inl ⟨hf hflag, rfl, rfl⟩
  · next hflag =>
    right
    refine ⟨ht (by simpa using hflag), ?_⟩
    obtain ⟨uploads, s2, h2, h3⟩ := RM.bind_ok h1
    obtain ⟨a, s3, h4, h5⟩ := RM.bind_ok h3
    unfold getBulkMonikerLocations at h4
    obtain ⟨hans, rfl⟩ := RM.call_ok (RM.wrapErr_ok h4)
    rw [RemoteCursor.searched_eq] at h5
    obtain ⟨rfl, rfl⟩ := RM.ret_ok h5
    exact ⟨uploads, s2, a.1, a.2, h2, hans, rfl, rfl⟩

theorem getUploadsByIDs_calls (r : Resolver) (ids : List Int) (s s2 : RState) (out : List Dump)
    (h : getUploadsByIDs r ids s = (.done (.ok out), s2)) :
    ∃ fetched, s2.log = s.log ++ [.GetDumpsByIDs (missingIDsOf s.dataLoader ids),
      .AreCommitsResolvable (commitsOf fetched)] := by
  rw [getUploadsByIDs_eq] at h
  cases h1 : r.GetDumpsByIDs (missingIDsOf s.dataLoader ids) with
  | error e => rw [h1] at h; simp at h
  | ok fetched =>
    rw [h1] at h
    simp only at h
    refine ⟨fetched, ?_⟩
    cases h2 : r.AreCommitsResolvable (commitsOf fetched) with
    | error e =>
      rw [h2] at h
      simp only [Prod.mk.injEq] at h
      rw [← h.2]
    | ok flags =>
      rw [h2] at h
      simp only at h
      cases h3 : removeUploadsWithUnknownCommits.filter fetched flags with
      | done kept =>
        rw [h3] at h
        simp only [Prod.mk.injEq] at h
        rw [← h.2]
      | panic => rw [h3] at h; simp at h
      | diverge => rw [h3] at h; simp at h

/-- C32. Remote batch bookkeeping: the batches that a returning `getPageRemoteLocations` call
fetches are fetched one after the other with `GetUploadIDsWithReferences`, each with the ids of
the visible uploads as ids to ignore and the upload offset of the cursor at that time; each
fetch stores the ids returned in the batch and sets the upload offset to -1 if the offset plus
the records scanned is at least the total, and to the offset plus the records scanned otherwise
(`FetchedBatches`). These are all the batch fetches of the call, they come first in the call
log, and the rest of the call leaves the upload offset as it is and keeps or clears the
batch. -/
theorem remote_batch_bookkeeping (r : Resolver) (table : String) (vus : List VisibleUpload)
    (ms : List QualifiedMonikerData) (c : RemoteCursor) (limit : Int) (fuel : Nat)
    (s s1 : RState) (res : List Location × Bool × RemoteCursor)
    (h : getPageRemoteLocations r table vus ms c limit fuel s = (.done (.ok res), s1)) :
    ∃ calls cursor1 rest,
      FetchedBatches r vus ms c calls cursor1 ∧
      s1.log = s.log ++ calls ++ rest ∧
      (∀ call ∈ calls, call.isBatchFetch = true) ∧
      (∀ call ∈ rest, call.isBatchFetch = false) ∧
      res.2.2.UploadOffset = cursor1.UploadOffset ∧
      (res.2.2.UploadBatchIDs = cursor1.UploadBatchIDs ∨ res.2.2.UploadBatchIDs = []) := by
  obtain ⟨calls, cursor1, hchain, hrun⟩ := getPageRemoteLocations_run r table vus ms c limit
    fuel s s1 res h
  rcases hrun with ⟨-, rfl, rfl⟩ | ⟨-, uploads, s2, locations, totalCount, hup, -, rfl, rfl⟩
  · exact ⟨calls, cursor1, [], hchain, by simp, hchain.locationOffset.2.1,
      fun _ hmem => (by cases hmem), rfl, Or.inl rfl⟩
  · obtain ⟨fetched, hlog⟩ := getUploadsByIDs_calls r _ _ _ _ hup
    refine ⟨calls, cursor1,
      [.GetDumpsByIDs (missingIDsOf s.dataLoader cursor1.UploadBatchIDs),
        .AreCommitsResolvable (commitsOf fetched),
        .GetBulkMonikerLocations table (uploads.map fun u => u.ID)
          (ms.map fun m => m.MonikerData) limit cursor1.LocationOffset],
      hchain, ?_, hchain.locationOffset.2.1, ?_, ?_, ?_⟩
    · simp only [hlog, List.append_assoc, List.cons_append, List.nil_append]
    · intro call hmem
      simp only [List.cons_append, List.nil_append, List.mem_cons, List.mem_singleton,
        List.not_mem_nil, or_false] at hmem
      rcases hmem with rfl | rfl | rfl <;> rfl
    · simp only [RemoteCursor.searched]
      split <;> rfl
    · simp only [RemoteCursor.searched]
      split
      · exact Or.inr rfl
      · exact Or.inl rfl

/-- C33. Remote location offset bookkeeping: the flag that `getPageRemoteLocations` returns is
true exactly when the batch of the returned cursor is non-empty or its upload offset is
non-negative. A returning call either found the cursor exhausted and made no bulk moniker
search, or ended with one bulk moniker search, at the location offset the call started with;
for the `m` locations and the total count `t` that the store returned, the returned cursor is
`RemoteCursor.searched`: the location offset is increased by `m`, and if it is then at least `t`
it is reset to 0 and the batch is cleared. `m` counts the locations of the store, of which the
call returns a part. -/
theorem remote_location_offset_bookkeeping (r : Resolver) (table : String)
    (vus : List VisibleUpload) (ms : List QualifiedMonikerData) (c : RemoteCursor) (limit : Int)
    (fuel : Nat) (s s1 : RState) (res : List Location × Bool × RemoteCursor)
    (h : getPageRemoteLocations r table vus ms c limit fuel s = (.done (.ok res), s1)) :
    (res.2.1 = true ↔ res.2.2.UploadBatchIDs ≠ [] ∨ 0 ≤ res.2.2.UploadOffset) ∧
    ((res.1 = [] ∧ res.2.1 = false ∧ res.2.2.exhausted ∧
        ∀ call ∈ s1.log.drop s.log.length, call.isBulkSearch = false) ∨
      ∃ (cursor1 : RemoteCursor) (ids : List Int) (locations : List Location) (totalCount : Int),
        cursor1.LocationOffset = c.LocationOffset ∧
        cursor1.UploadBatchIDs ≠ [] ∧
        r.GetBulkMonikerLocations table ids (ms.map fun m => m.MonikerData) limit
            c.LocationOffset
          = .ok (locations, totalCount) ∧
        s1.log.getLast? = some (.GetBulkMonikerLocations table ids
          (ms.map fun m => m.MonikerData) limit c.LocationOffset) ∧
        res.2.2 = cursor1.searched locations.length totalCount ∧
        (c.LocationOffset + (locations.length : Int) ≥ totalCount →
          res.2.2.LocationOffset = 0 ∧ res.2.2.UploadBatchIDs = []) ∧
        (c.LocationOffset + (locations.length : Int) < totalCount →
          res.2.2.LocationOffset = c.LocationOffset + (locations.length : Int) ∧
            res.2.2.UploadBatchIDs = cursor1.UploadBatchIDs) ∧
        res.2.2.UploadOffset = cursor1.UploadOffset ∧
        res.1.length ≤ locations.length) := by
  obtain ⟨calls, cursor1, hchain, hrun⟩ := getPageRemoteLocations_run r table vus ms c limit
    fuel s s1 res h
  have hL := hchain.locationOffset.1
  rcases hrun with ⟨hex, rfl, rfl⟩ | ⟨hne, uploads, s2, locations, totalCount, -, hans, rfl, rfl⟩
  · refine ⟨?_, Or.inl ⟨rfl, rfl, hex, ?_⟩⟩
    · have h1 := hex.1
      have h2 := hex.2
      simp only [Bool.false_eq_true, ne_eq, false_iff, not_or, not_not, not_le]
      exact ⟨h1, h2⟩
    · intro call hmem
      simp only [List.drop_left] at hmem
      have := hchain.locationOffset.2.1 call hmem
      cases call <;> simp_all [Call.isBatchFetch, Call.isBulkSearch]
  · refine ⟨?_, Or.inr ⟨cursor1, uploads.map fun u => u.ID, locations, totalCount, hL, hne,
      ?_, ?_, rfl, ?_, ?_, ?_, ?_⟩⟩
    · simp only [Bool.or_eq_true, decide_eq_true_eq, ne_eq, ge_iff_le]
      constructor
      · rintro (hlen | hoff)
        · left
          intro hnil
          rw [hnil] at hlen
          simp at hlen
        · exact Or.inr hoff
      · rintro (hnil | hoff)
        · left
          exact List.length_pos.mpr hnil
        · exact Or.inr hoff
    · rw [← hL]; exact hans
    · rw [← hL]; simp
    · intro hge
      rw [← hL] at hge
      simp [RemoteCursor.searched, hge]
    · intro hlt
      have hnot : ¬ totalCount ≤ c.LocationOffset + (locations.length : Int) := by omega
      simp [RemoteCursor.searched, hnot, hL]
    · simp only [RemoteCursor.searched]
      split <;> rfl
    · rw [getPageRemoteLocations.filter_eq_listFilter]
      exact List.length_filter_le _ _

/-- C35. Dedup filter as implemented: `isSourceLocation` holds of a location exactly when some
visible upload has the dump id of the location as upload id, the path of the location as target
path and a target position contained in the range of the location; and a returning
`getPageRemoteLocations` call either made no bulk moniker search and returns no location, or
returns, in the order of the store, exactly the locations of the answer to its bulk moniker
search for which `isSourceLocation` is false. -/
theorem dedup_filter_as_implemented (r : Resolver) (table : String)
    (vus : List VisibleUpload) (ms : List QualifiedMonikerData) (c : RemoteCursor) (limit : Int)
    (fuel : Nat) (s s1 : RState) (res : List Location × Bool × RemoteCursor)
    (h : getPageRemoteLocations r table vus ms c limit fuel s = (.done (.ok res), s1)) :
    (∀ location, isSourceLocation vus location = true ↔
      ∃ vu ∈ vus, vu.Upload.ID = location.DumpID ∧ vu.TargetPath = location.Path ∧
        rangeContainsPosition location.Range vu.TargetPosition = true) ∧
    ((res.1 = [] ∧ ∀ call ∈ s1.log.drop s.log.length, call.isBulkSearch = false) ∨
      ∃ (ids : List Int) (offset : Int) (locations : List Location) (totalCount : Int),
        r.GetBulkMonikerLocations table ids (ms.map fun m => m.MonikerData) limit offset
          = .ok (locations, totalCount) ∧
        s1.log.getLast? = some (.GetBulkMonikerLocations table ids
          (ms.map fun m => m.MonikerData) limit offset) ∧
        res.1 = locations.filter (fun location => !isSourceLocation vus location) ∧
        res.1.Sublist locations) := by
  refine ⟨isSourceLocation_iff vus, ?_⟩
  obtain ⟨calls, cursor1, hchain, hrun⟩ := getPageRemoteLocations_run r table vus ms c limit
    fuel s s1 res h
  rcases hrun with ⟨-, rfl, rfl⟩ | ⟨-, uploads, s2, locations, totalCount, -, hans, rfl, rfl⟩
  · refine Or.inl ⟨rfl, ?_⟩
    intro call hmem
    simp only [List.drop_left] at hmem
    have := hchain.locationOffset.2.1 call hmem
    cases call <;> simp_all [Call.isBatchFetch, Call.isBulkSearch]
  · refine Or.inr ⟨uploads.map fun u => u.ID, cursor1.LocationOffset, locations, totalCount,
      hans, by simp, ?_, ?_⟩
    · exact getPageRemoteLocations.filter_eq_listFilter vus locations
    · simp only [getPageRemoteLocations.filter_eq_listFilter]
      exact List.filter_sublist _

/-- Witness of C32: on `Example.twoBatches` a call from the fresh remote cursor fetches two
batches, at the upload offsets 0 and 1, and returns the cursor `Example.midBatch`. -/
theorem remote_batch_bookkeeping_witness :
    ∃ calls cursor1 rest,
      FetchedBatches Example.twoBatches [Example.visible1] [] Example.freshRemote calls
        cursor1 ∧
      (getPageRemoteLocations Example.twoBatches "implementations" [Example.visible1] []
          Example.freshRemote 2 5 (newRequestState [Example.upload1])).2.log
        = (newRequestState [Example.upload1]).log ++ calls ++ rest ∧
      (∀ call ∈ calls, call.isBatchFetch = true) ∧
      (∀ call ∈ rest, call.isBatchFetch = false) ∧
      Example.midBatch.UploadOffset = cursor1.UploadOffset ∧
      (Example.midBatch.UploadBatchIDs = cursor1.UploadBatchIDs ∨
        Example.midBatch.UploadBatchIDs = []) :=
  remote_batch_bookkeeping Example.twoBatches "implementations" [Example.visible1] []
    Example.freshRemote 2 5 (newRequestState [Example.upload1]) _
    ([Example.remote2], true, Example.midBatch) (Prod.ext (by decide!) rfl)

/-- Witness of C33: on `Example.twoBatches` the store returns two of the three locations of the
batch; the location offset moves from 0 to 2, the batch is kept and the flag is true. One of the
two locations is filtered out. -/
theorem remote_location_offset_bookkeeping_witness :
    ((true : Bool) = true ↔
      Example.midBatch.UploadBatchIDs ≠ [] ∨ 0 ≤ Example.midBatch.UploadOffset) ∧
    (([Example.remote2] = [] ∧ (true : Bool) = false ∧ Example.midBatch.exhausted ∧
        ∀ call ∈ (getPageRemoteLocations Example.twoBatches "implementations"
            [Example.visible1] [] Example.freshRemote 2 5
            (newRequestState [Example.upload1])).2.log.drop
              (newRequestState [Example.upload1]).log.length,
          call.isBulkSearch = false) ∨
      ∃ (cursor1 : RemoteCursor) (ids : List Int) (locations : List Location) (totalCount : Int),
        cursor1.LocationOffset = Example.freshRemote.LocationOffset ∧
        cursor1.UploadBatchIDs ≠ [] ∧
        Example.twoBatches.GetBulkMonikerLocations "implementations" ids
            (([] : List QualifiedMonikerData).map fun m => m.MonikerData) 2
            Example.freshRemote.LocationOffset
          = .ok (locations, totalCount) ∧
        (getPageRemoteLocations Example.twoBatches "implementations"
            [Example.visible1] [] Example.freshRemote 2 5
            (newRequestState [Example.upload1])).2.log.getLast?
          = some (.GetBulkMonikerLocations "implementations" ids
              (([] : List QualifiedMonikerData).map fun m => m.MonikerData) 2
              Example.freshRemote.LocationOffset) ∧
        Example.midBatch = cursor1.searched locations.length totalCount ∧
        (Example.freshRemote.LocationOffset + (locations.length : Int) ≥ totalCount →
          Example.midBatch.LocationOffset = 0 ∧ Example.midBatch.UploadBatchIDs = []) ∧
        (Example.freshRemote.LocationOffset + (locations.length : Int) < totalCount →
          Example.midBatch.LocationOffset
              = Example.freshRemote.LocationOffset + (locations.length : Int) ∧
            Example.midBatch.UploadBatchIDs = cursor1.UploadBatchIDs) ∧
        Example.midBatch.UploadOffset = cursor1.UploadOffset ∧
        [Example.remote2].length ≤ locations.length) :=
  remote_location_offset_bookkeeping Example.twoBatches "implementations" [Example.visible1] []
    Example.freshRemote 2 5 (newRequestState [Example.upload1]) _
    ([Example.remote2], true, Example.midBatch) (Prod.ext (by decide!) rfl)

/-- Witness of C35: on `Example.twoBatches` the store returns the source location of the request
and a location of upload 2; the call returns the second alone. -/
theorem dedup_filter_as_implemented_witness :
    isSourceLocation [Example.visible1] Example.originLocation = true ∧
    (∀ location, isSourceLocation [Example.visible1] location = true ↔
      ∃ vu ∈ [Example.visible1], vu.Upload.ID = location.DumpID ∧
        vu.TargetPath = location.Path ∧
        rangeContainsPosition location.Range vu.TargetPosition = true) ∧
    (([Example.remote2] = [] ∧
        ∀ call ∈ (getPageRemoteLocations Example.twoBatches "implementations"
            [Example.visible1] [] Example.freshRemote 2 5
            (newRequestState [Example.upload1])).2.log.drop
              (newRequestState [Example.upload1]).log.length,
          call.isBulkSearch = false) ∨
      ∃ (ids : List Int) (offset : Int) (locations : List Location) (totalCount : Int),
        Example.twoBatches.GetBulkMonikerLocations "implementations" ids
            (([] : List QualifiedMonikerData).map fun m => m.MonikerData) 2 offset
          = .ok (locations, totalCount) ∧
        (getPageRemoteLocations Example.twoBatches "implementations"
            [Example.visible1] [] Example.freshRemote 2 5
            (newRequestState [Example.upload1])).2.log.getLast?
          = some (.GetBulkMonikerLocations "implementations" ids
              (([] : List QualifiedMonikerData).map fun m => m.MonikerData) 2 offset) ∧
        [Example.remote2]
          = locations.filter (fun location => !isSourceLocation [Example.visible1] location) ∧
        [Example.remote2].Sublist locations) :=
  ⟨by decide!,
    dedup_filter_as_implemented Example.twoBatches "implementations" [Example.visible1] []
      Example.freshRemote 2 5 (newRequestState [Example.upload1]) _
      ([Example.remote2], true, Example.midBatch) (Prod.ext (by decide!) rfl)⟩

/-! ## Exhaustion of the remote cursor -/

theorem getPageRemoteLocations_exhausted (r : Resolver) (table : String)
    (vus : List VisibleUpload) (ms : List QualifiedMonikerData) (c : RemoteCursor) (limit : Int)
    (fuel : Nat) (s : RState) (hc : c.exhausted) :
    getPageRemoteLocations r table vus ms c limit fuel s = (.done (.ok ([], false, c)), s) := by
  unfold getPageRemoteLocations
  rw [RM.bind_of_ok (getPageRemoteLocations.nextBatch_exhausted r vus ms fuel c s hc.1 hc.2)]
  rfl

theorem Implementations.dependentsPhase_exhausted (r : Resolver) (args : RequestArgs)
    (vus : List VisibleUpload) (remoteFuel fuel : Nat) (cursor : ImplementationsCursor)
    (locations : List Location) (s : RState) (hc : cursor.RemoteCursor.exhausted)
    (hshort : (locations.length : Int) < args.Limit) :
    Implementations.dependentsPhase r args vus remoteFuel (fuel + 1) cursor locations s
      = (.done (.ok ({ cursor with Phase := "done" }, locations)), s) := by
  unfold Implementations.dependentsPhase
  rw [if_pos hshort,
    RM.bind_of_ok (getPageRemoteLocations_exhausted r "implementations" vus _ _ _ remoteFuel s hc)]
  simp [RM.ret]

/-- C31. Remote exhaustion is terminal: called with a cursor whose batch is empty and whose
upload offset is negative, `getPageRemoteLocations` returns no locations and the flag false,
with the cursor and the state as they were, so that no store call is made; the dependents loop
of `Implementations`, when it makes this call, returns with the phase `done` and the locations
it had; and a request whose decoded cursor is in the phase `dependents` with such a remote
cursor returns an empty next cursor, with no locations when it returns no error. -/
theorem remote_exhaustion_is_terminal (r : Resolver) (c : RemoteCursor) (hc : c.exhausted) :
    (∀ table vus ms limit fuel s,
      getPageRemoteLocations r table vus ms c limit fuel s = (.done (.ok ([], false, c)), s)) ∧
    (∀ (args : RequestArgs) vus remoteFuel fuel (cursor : ImplementationsCursor)
        (locations : List Location) s,
      cursor.RemoteCursor = c → (locations.length : Int) < args.Limit →
      Implementations.dependentsPhase r args vus remoteFuel (fuel + 1) cursor locations s
        = (.done (.ok ({ cursor with Phase := "done" }, locations)), s)) ∧
    (∀ (args : RequestArgs) fuel (cursor : ImplementationsCursor) s s1 res,
      r.decodeImplementationsCursor args.RawCursor = .ok cursor →
      cursor.Phase = "dependents" → cursor.RemoteCursor = c → 0 < args.Limit →
      Implementations r args (fuel + 1) s = (.done res, s1) →
      res.nextCursor = "" ∧ (res.err = none → res.locations = some [])) := by
  refine ⟨fun table vus ms limit fuel s =>
      getPageRemoteLocations_exhausted r table vus ms c limit fuel s hc,
    fun args vus remoteFuel fuel cursor locations s hcur hshort =>
      Implementations.dependentsPhase_exhausted r args vus remoteFuel fuel cursor locations s
        (hcur ▸ hc) hshort, ?_⟩
  intro args fuel cursor s s1 res hdec hphase hcur hlimit h
  rcases Implementations_inv h with ⟨e, hdec', -⟩ | ⟨c0, hdec', hrest⟩
  · rw [hdec] at hdec'; cases hdec'
  · rw [hdec] at hdec'
    cases hdec'
    rcases hrest with ⟨e, -, hres⟩ | ⟨cur, locs, s2, hcol, hrest⟩
    · rw [hres]
      exact ⟨rfl, fun hnone => by cases hnone⟩
    · obtain ⟨vis, im, em, p1, p2, t1, t2, t3, t4, t5, -, -, -, hp1, hp2, hp3⟩ :=
        Implementations.collect_inv hcol
      have hnl : ¬ cursor.Phase = "local" := by rw [hphase]; decide
      rw [if_neg hnl] at hp1
      obtain ⟨rfl, rfl⟩ := RM.ret_ok hp1
      have hnd : ¬ cursor.Phase = "dependencies" := by rw [hphase]; decide
      rw [if_neg hnd] at hp2
      obtain ⟨rfl, rfl⟩ := RM.ret_ok hp2
      rw [if_pos hphase,
        Implementations.dependentsPhase_exhausted r args vis.1 (fuel + 1) fuel _ [] _
          (by rw [← hcur] at hc; exact hc) (by simpa using hlimit)] at hp3
      simp only [Prod.mk.injEq, Run.done.injEq, Except.ok.injEq] at hp3
      obtain ⟨⟨rfl, rfl⟩, rfl⟩ := hp3
      rcases hrest with ⟨e, -, hres⟩ | ⟨adjusted, hadj, hres⟩
      · rw [hres]
        exact ⟨rfl, fun hnone => by cases hnone⟩
      · have hadj' : adjusted = [] := by
          unfold adjustLocations adjustLocations.loop at hadj
          exact (RM.ret_ok hadj).1
        rw [hres, hadj']
        exact ⟨by simp, fun _ => rfl⟩

/-- Witness of C31: the remote cursor of `Example.exhaustedCursor` is exhausted; a request on
`Example.quiet` with the encoding of that cursor returns no location and an empty next cursor,
and makes no call at all. -/
theorem remote_exhaustion_is_terminal_witness :
    Example.exhaustedCursor.RemoteCursor.exhausted ∧
    Implementations Example.quiet
        { Example.request 10 with RawCursor := Codec.encode Example.exhaustedCursor } 5
        (newRequestState [Example.upload1])
      = (.done { locations := some [], nextCursor := "", err := none },
          newRequestState [Example.upload1]) ∧
    ((∀ table vus ms limit fuel s,
      getPageRemoteLocations Example.quiet table vus ms Example.exhaustedCursor.RemoteCursor
        limit fuel s = (.done (.ok ([], false, Example.exhaustedCursor.RemoteCursor)), s)) ∧
    (∀ (args : RequestArgs) vus remoteFuel fuel (cursor : ImplementationsCursor)
        (locations : List Location) s,
      cursor.RemoteCursor = Example.exhaustedCursor.RemoteCursor →
      (locations.length : Int) < args.Limit →
      Implementations.dependentsPhase Example.quiet args vus remoteFuel (fuel + 1) cursor
          locations s
        = (.done (.ok ({ cursor with Phase := "done" }, locations)), s)) ∧
    (∀ (args : RequestArgs) fuel (cursor : ImplementationsCursor) s s1 res,
      Example.quiet.decodeImplementationsCursor args.RawCursor = .ok cursor →
      cursor.Phase = "dependents" →
      cursor.RemoteCursor = Example.exhaustedCursor.RemoteCursor → 0 < args.Limit →
      Implementations Example.quiet args (fuel + 1) s = (.done res, s1) →
      res.nextCursor = "" ∧ (res.err = none → res.locations = some []))) :=
  ⟨by decide, by decide!,
    remote_exhaustion_is_terminal Example.quiet Example.exhaustedCursor.RemoteCursor
      (by decide)⟩

/-! ## The adjustment of locations without the sub-repo permission checker -/

theorem RM.bind_congr_ok {α β : Type} {x : RM α} {f g : α → RM β} {s : RState}
    (h : ∀ a s1, x s = (.done (.ok a), s1) → f a s1 = g a s1) :
    RM.bind x f s = RM.bind x g s := by
  unfold RM.bind
  split
  · next a s1 hx => exact h a s1 hx
  · rfl
  · rfl
  · rfl

theorem getUploadLocation_path (r : Resolver) (dump : Dump) (location : Location)
    (s s1 : RState) (adjusted : UploadLocation)
    (h : getUploadLocation r dump location s = (.done (.ok adjusted), s1)) :
    adjusted.Dump = dump ∧ adjusted.Path = dump.Root ++ location.Path := by
  unfold getUploadLocation at h
  obtain ⟨a, s2, -, h1⟩ := RM.bind_ok h
  obtain ⟨rfl, -⟩ := RM.ret_ok h1
  exact ⟨rfl, rfl⟩

theorem getSourceRange_returns (r : Resolver) (repositoryID : Int) (commit path : String)
    (rng : Range) (s : RState)
    (h : repositoryID = r.requestArgs.repoID →
      ∃ answer, r.GetTargetCommitRangeFromSourceRange commit path rng true = .ok answer) :
    ∃ res s1, getSourceRange r repositoryID commit path rng s = (.done (.ok res), s1) := by
  unfold getSourceRange
  by_cases hrepo : repositoryID = r.requestArgs.repoID
  · obtain ⟨answer, hans⟩ := h hrepo
    rw [if_neg (not_not.mpr hrepo)]
    have hcall : RM.wrapErr
        (RM.call (.GetTargetCommitRangeFromSourceRange commit path rng true)
          (r.GetTargetCommitRangeFromSourceRange commit path rng true))
        "gitTreeTranslator.GetTargetCommitRangeFromSourceRange" s
        = (.done (.ok answer),
            { s with
              log := s.log ++ [.GetTargetCommitRangeFromSourceRange commit path rng true] }) := by
      simp [RM.wrapErr, RM.call, hans]
    rw [RM.bind_of_ok hcall]
    split <;> exact ⟨_, _, rfl⟩
  · rw [if_pos hrepo]
    exact ⟨_, _, rfl⟩

theorem getUploadLocation_returns (r : Resolver) (dump : Dump) (location : Location)
    (s : RState)
    (h : dump.RepositoryID = r.requestArgs.repoID →
      ∃ answer,
        r.GetTargetCommitRangeFromSourceRange dump.Commit (dump.Root ++ location.Path)
          location.Range true = .ok answer) :
    ∃ adjusted s1, getUploadLocation r dump location s = (.done (.ok adjusted), s1) := by
  obtain ⟨res, s1, hsr⟩ := getSourceRange_returns r dump.RepositoryID dump.Commit
    (dump.Root ++ location.Path) location.Range s h
  unfold getUploadLocation
  rw [RM.bind_of_ok hsr]
  exact ⟨_, _, rfl⟩

theorem adjustLocations.loop_skips (r : Resolver) (locations : List Location)
    (acc : List UploadLocation) (s : RState) :
    adjustLocations.loop r locations acc s
      = adjustLocations.loop r (locationsInLoader s.dataLoader locations) acc s := by
  induction locations generalizing acc s with
  | nil => rfl
  | cons location rest ih =>
    cases hup : s.dataLoader.getUploadFromCacheMap location.DumpID with
    | none =>
      have hfilter : locationsInLoader s.dataLoader (location :: rest)
          = locationsInLoader s.dataLoader rest := by
        simp [locationsInLoader, hup]
      rw [hfilter, ← ih]
      conv_lhs => unfold adjustLocations.loop
      simp only [RM.bind, RM.getLoader, hup]
    | some upload =>
      have hfilter : locationsInLoader s.dataLoader (location :: rest)
          = location :: locationsInLoader s.dataLoader rest := by
        simp [locationsInLoader, hup]
      rw [hfilter]
      conv_lhs => unfold adjustLocations.loop
      conv_rhs => unfold adjustLocations.loop
      simp only [RM.bind_of_ok (show RM.getLoader s = (.done (.ok s.dataLoader), s) from rfl),
        hup]
      apply RM.bind_congr_ok
      intro adjusted s1 hloc
      have hdl := (getUploadLocation_inv r _ _ _ _ _ hloc).2
      split
      · rw [ih, hdl]
      · apply RM.bind_congr_ok
        intro included s2 hcall
        obtain ⟨-, rfl⟩ := RM.call_ok hcall
        split
        · rw [ih]
          simp only [hdl]
        · rw [ih]
          simp only [hdl]

theorem adjustLocations.loop_disabled (r : Resolver) (hdisabled : r.SubRepoEnabled = false)
    (locations : List Location) (acc : List UploadLocation) (s s1 : RState)
    (out : List UploadLocation)
    (h : adjustLocations.loop r locations acc s = (.done (.ok out), s1)) :
    s1.dataLoader = s.dataLoader ∧
      ∃ added, out = acc ++ added ∧
        List.Forall₂
          (fun location adjusted =>
            s.dataLoader.getUploadFromCacheMap location.DumpID = some adjusted.Dump ∧
              adjusted.Path = adjusted.Dump.Root ++ location.Path)
          (locationsInLoader s.dataLoader locations) added := by
  induction locations generalizing acc s with
  | nil =>
    unfold adjustLocations.loop at h
    obtain ⟨rfl, rfl⟩ := RM.ret_ok h
    exact ⟨rfl, [], by simp, List.Forall₂.nil⟩
  | cons location rest ih =>
    unfold adjustLocations.loop at h
    rw [RM.bind_of_ok (show RM.getLoader s = (.done (.ok s.dataLoader), s) from rfl)] at h
    cases hup : s.dataLoader.getUploadFromCacheMap location.DumpID with
    | none =>
      rw [hup] at h
      have hfilter : locationsInLoader s.dataLoader (location :: rest)
          = locationsInLoader s.dataLoader rest := by
        simp [locationsInLoader, hup]
      rw [hfilter]
      exact ih _ _ h
    | some upload =>
      rw [hup] at h
      have hfilter : locationsInLoader s.dataLoader (location :: rest)
          = location :: locationsInLoader s.dataLoader rest := by
        simp [locationsInLoader, hup]
      rw [hfilter]
      simp only at h
      obtain ⟨adjusted, s2, hloc, h2⟩ := RM.bind_ok h
      have hdl := (getUploadLocation_inv r _ _ _ _ _ hloc).2
      obtain ⟨hdump, hpath⟩ := getUploadLocation_path r _ _ _ _ _ hloc
      rw [if_pos hdisabled] at h2
      obtain ⟨hl, added, hout, hall⟩ := ih _ _ h2
      rw [hdl] at hl hall
      refine ⟨hl, adjusted :: added, by rw [hout]; simp, List.Forall₂.cons ?_ hall⟩
      rw [hdump]
      exact ⟨hup, hpath⟩

theorem adjustLocations.loop_returns (r : Resolver) (hdisabled : r.SubRepoEnabled = false)
    (locations : List Location) (acc : List UploadLocation) (s : RState)
    (h : ∀ location ∈ locations, r.translatesIn s.dataLoader location) :
    ∃ out s1, adjustLocations.loop r locations acc s = (.done (.ok out), s1) := by
  induction locations generalizing acc s with
  | nil => exact ⟨acc, s, rfl⟩
  | cons location rest ih =>
    unfold adjustLocations.loop
    rw [RM.bind_of_ok (show RM.getLoader s = (.done (.ok s.dataLoader), s) from rfl)]
    cases hup : s.dataLoader.getUploadFromCacheMap location.DumpID with
    | none =>
      exact ih _ _ fun l hl => h l (List.mem_cons_of_mem _ hl)
    | some upload =>
      simp only
      obtain ⟨adjusted, s2, hloc⟩ := getUploadLocation_returns r upload location s
        (h location (List.mem_cons_self _ _) upload hup)
      have hdl := (getUploadLocation_inv r _ _ _ _ _ hloc).2
      rw [RM.bind_of_ok hloc, if_pos hdisabled]
      exact ih _ _ fun l hl => by rw [hdl]; exact h l (List.mem_cons_of_mem _ hl)

/-- C37. With the sub-repo permission checker disabled, `adjustLocations` does with the input
locations what it does with those whose dump is in the data loader: a location without a dump in
the loader is omitted, with no call and no error. A returning call returns exactly one upload
location for each input location whose dump is in the loader, in input order, with the dump of
the loader and the path `dump.Root + location.Path`, and leaves the loader as it is. The call
returns whenever the translator answers for the locations. -/
theorem adjust_locations_without_checker (r : Resolver) (locations : List Location)
    (s : RState) (hdisabled : r.SubRepoEnabled = false) :
    adjustLocations r locations s
      = adjustLocations r (locationsInLoader s.dataLoader locations) s ∧
    (∀ out s1, adjustLocations r locations s = (.done (.ok out), s1) →
      s1.dataLoader = s.dataLoader ∧
      List.Forall₂
        (fun location adjusted =>
          s.dataLoader.getUploadFromCacheMap location.DumpID = some adjusted.Dump ∧
            adjusted.Path = adjusted.Dump.Root ++ location.Path)
        (locationsInLoader s.dataLoader locations) out) ∧
    ((∀ location ∈ locations, r.translatesIn s.dataLoader location) →
      ∃ out s1, adjustLocations r locations s = (.done (.ok out), s1)) := by
  refine ⟨adjustLocations.loop_skips r locations [] s, fun out s1 h => ?_, fun h => ?_⟩
  · obtain ⟨hl, added, hout, hall⟩ :=
      adjustLocations.loop_disabled r hdisabled locations [] s s1 out h
    rw [hout]
    exact ⟨hl, hall⟩
  · exact adjustLocations.loop_returns r hdisabled locations [] s h

/-- Witness of C37: on `Example.quiet`, whose loader holds upload 1 alone, the location of
upload 2 is omitted and the two locations of upload 1 are adjusted, in order. -/
theorem adjust_locations_without_checker_witness :
    adjustLocations Example.quiet [Example.local1, Example.remote2, Example.local1b]
        (newRequestState [Example.upload1])
      = adjustLocations Example.quiet [Example.local1, Example.local1b]
        (newRequestState [Example.upload1]) ∧
    (adjustLocations Example.quiet [Example.local1, Example.remote2, Example.local1b]
        (newRequestState [Example.upload1])).1
      = .done (.ok [Example.adjusted1,
          { Dump := Example.upload1, Path := "a.go", TargetCommit := "c1",
            TargetRange := Example.lineRange 9 }]) :=
  ⟨(adjust_locations_without_checker Example.quiet
      [Example.local1, Example.remote2, Example.local1b] (newRequestState [Example.upload1])
      rfl).1.trans (by decide!),
    by decide!⟩

/-! ## The dedup of the dependents phase -/

theorem stringsTrimPrefix_empty (s : String) : stringsTrimPrefix s "" = s := by
  simp [stringsTrimPrefix]

theorem UploadsDataLoader.consistent_get {l : UploadsDataLoader} (h : l.consistent) {id : Int}
    {dump : Dump} (hget : l.getUploadFromCacheMap id = some dump) : dump.ID = id := by
  unfold UploadsDataLoader.getUploadFromCacheMap at hget
  unfold UploadsDataLoader.consistent at h
  generalize l.uploadsByID = entries at h hget
  induction entries with
  | nil => simp [List.lookup] at hget
  | cons p rest ih =>
    obtain ⟨k, v⟩ := p
    by_cases hk : id = k
    · subst hk
      simp only [List.lookup, beq_self_eq_true, Option.some.injEq] at hget
      subst hget
      exact h (id, v) (List.mem_cons_self _ _)
    · have hbeq : (id == k) = false := by simpa using hk
      simp only [List.lookup, hbeq] at hget
      exact ih (fun q hq => h q (List.mem_cons_of_mem _ hq)) hget

theorem UploadsDataLoader.consistent_set {l : UploadsDataLoader} (h : l.consistent)
    (uploads : List Dump) : (l.setUploadInCacheMap uploads).consistent := by
  unfold UploadsDataLoader.setUploadInCacheMap
  induction uploads generalizing l with
  | nil => exact h
  | cons u rest ih =>
    simp only [List.foldl_cons]
    apply ih
    intro p hp
    rcases List.mem_cons.mp hp with rfl | hp
    · rfl
    · exact h p hp

theorem removeUploadsWithUnknownCommits.filter_subset (uploads : List Dump) (flags : List Bool)
    (kept : List Dump) (h : removeUploadsWithUnknownCommits.filter uploads flags = .done kept) :
    ∀ dump ∈ kept, dump ∈ uploads := by
  induction uploads generalizing flags kept with
  | nil =>
    simp only [removeUploadsWithUnknownCommits.filter, Run.done.injEq] at h
    subst h
    intro dump hmem
    cases hmem
  | cons u rest ih =>
    cases flags with
    | nil => simp [removeUploadsWithUnknownCommits.filter] at h
    | cons e es =>
      unfold removeUploadsWithUnknownCommits.filter at h
      cases hrest : removeUploadsWithUnknownCommits.filter rest es with
      | done filtered =>
        rw [hrest] at h
        simp only [Run.done.injEq] at h
        subst h
        intro dump hmem
        split at hmem
        · rcases List.mem_cons.mp hmem with rfl | hmem
          · exact List.mem_cons_self _ _
          · exact List.mem_cons_of_mem _ (ih es filtered hrest dump hmem)
        · exact List.mem_cons_of_mem _ (ih es filtered hrest dump hmem)
      | panic => rw [hrest] at h; simp at h
      | diverge => rw [hrest] at h; simp at h

/-- The dumps that `getUploadsByIDs` returns for a store that returns dumps of the ids asked for
and a consistent loader are dumps of the ids given, and the loader stays consistent. -/
theorem getUploadsByIDs_within (r : Resolver) (ids : List Int) (s s2 : RState)
    (out : List Dump)
    (hstore : ∀ ids dumps, r.GetDumpsByIDs ids = .ok dumps → ∀ dump ∈ dumps, dump.ID ∈ ids)
    (hloader : s.dataLoader.consistent)
    (h : getUploadsByIDs r ids s = (.done (.ok out), s2)) :
    (∀ dump ∈ out, dump.ID ∈ ids) ∧ s2.dataLoader.consistent := by
  rw [getUploadsByIDs_eq] at h
  cases h1 : r.GetDumpsByIDs (missingIDsOf s.dataLoader ids) with
  | error e => rw [h1] at h; simp at h
  | ok fetched =>
    rw [h1] at h
    simp only at h
    cases h2 : r.AreCommitsResolvable (commitsOf fetched) with
    | error e =>
      rw [h2] at h
      simp only [Prod.mk.injEq, Run.done.injEq, Except.ok.injEq] at h
      obtain ⟨rfl, rfl⟩ := h
      exact ⟨fun dump hmem => (by cases hmem), hloader⟩
    | ok flags =>
      rw [h2] at h
      simp only at h
      cases h3 : removeUploadsWithUnknownCommits.filter fetched flags with
      | done kept =>
        rw [h3] at h
        simp only [Prod.mk.injEq, Run.done.injEq, Except.ok.injEq] at h
        obtain ⟨rfl, rfl⟩ := h
        refine ⟨fun dump hmem => ?_, UploadsDataLoader.consistent_set hloader kept⟩
        rcases List.mem_append.mp hmem with hc | hk
        · simp only [cachedDumpsOf, List.mem_filterMap] at hc
          obtain ⟨id, hid, hget⟩ := hc
          rw [UploadsDataLoader.consistent_get hloader hget]
          exact hid
        · have hf := removeUploadsWithUnknownCommits.filter_subset fetched flags kept h3 dump hk
          have hm := hstore _ _ h1 dump hf
          simp only [missingIDsOf, List.mem_filter] at hm
          exact hm.1
      | panic => rw [h3] at h; simp at h
      | diverge => rw [h3] at h; simp at h

theorem FetchedBatches.batch_avoids {r : Resolver} {vus : List VisibleUpload}
    {ms : List QualifiedMonikerData} {c c1 : RemoteCursor} {calls : List Call}
    (h : FetchedBatches r vus ms c calls c1)
    (hstore : ∀ monikers ignoreIDs repositoryID commit limit offset ids recordsScanned
        totalRecords,
      r.GetUploadIDsWithReferences monikers ignoreIDs repositoryID commit limit offset
        = .ok (ids, recordsScanned, totalRecords) →
      ∀ id ∈ ids, id ∉ ignoreIDs)
    (hc : ∀ vu ∈ vus, vu.Upload.ID ∉ c.UploadBatchIDs) :
    ∀ vu ∈ vus, vu.Upload.ID ∉ c1.UploadBatchIDs := by
  induction h with
  | stay c => exact hc
  | fetch c c1 calls ids scanned total hbatch hoffset hanswer hrest ih =>
    apply ih
    intro vu hvu hmem
    simp only [RemoteCursor.fetched] at hmem
    exact hstore _ _ _ _ _ _ _ _ _ hanswer _ hmem (List.mem_map.mpr ⟨vu, hvu, rfl⟩)

/-- C5. Dedup: a location that `getPageRemoteLocations` returns does not enclose the source
position within a visible upload whose target path is its path without the root, as it is for a
dump with an empty root: the filter removes it, whatever the store returns. For a visible upload
whose dump has a non-empty root the filter compares the root-relative path of the location with
a path that includes the root; there the property rests on the contract of the store: when a
batch holds none of the ids to ignore, the dumps hydrated are dumps of the ids asked for and the
search returns locations within the given uploads, a call from a cursor whose batch holds no
visible upload, on a consistent loader, returns no location of a visible upload at all, hence
none that encloses the source position, and it leaves a cursor whose batch holds no visible
upload and a consistent loader, so that the same holds of the next call. -/
theorem dependents_return_no_source_location (r : Resolver) (table : String)
    (vus : List VisibleUpload) (ms : List QualifiedMonikerData) (c : RemoteCursor) (limit : Int)
    (fuel : Nat) (s s1 : RState) (res : List Location × Bool × RemoteCursor)
    (h : getPageRemoteLocations r table vus ms c limit fuel s = (.done (.ok res), s1)) :
    (∀ vu ∈ vus, vu.TargetPathWithoutRoot = vu.TargetPath →
      ∀ location ∈ res.1, ¬ enclosesSource vu location) ∧
    (r.searchesGivenUploads → s.dataLoader.consistent →
      (∀ vu ∈ vus, vu.Upload.ID ∉ c.UploadBatchIDs) →
      (∀ vu ∈ vus, ∀ location ∈ res.1,
        location.DumpID ≠ vu.Upload.ID ∧ ¬ enclosesSource vu location) ∧
      s1.dataLoader.consistent ∧
      (∀ vu ∈ vus, vu.Upload.ID ∉ res.2.2.UploadBatchIDs)) := by
  obtain ⟨calls, cursor1, hchain, hrun⟩ := getPageRemoteLocations_run r table vus ms c limit
    fuel s s1 res h
  constructor
  · intro vu hvu hroot location hmem hsrc
    rcases hrun with ⟨-, rfl, -⟩ | ⟨-, uploads, s2, locations, totalCount, -, -, -, rfl⟩
    · cases hmem
    · simp only [getPageRemoteLocations.filter_eq_listFilter, List.mem_filter,
        Bool.not_eq_true'] at hmem
      have htrue : isSourceLocation vus location = true :=
        (isSourceLocation_iff vus location).mpr
          ⟨vu, hvu, hsrc.1.symm, by rw [← hroot]; exact hsrc.2.1.symm, hsrc.2.2⟩
      rw [hmem.2] at htrue
      cases htrue
  · intro hstore hloader hbatch
    have hb1 := hchain.batch_avoids hstore.1 hbatch
    rcases hrun with ⟨-, rfl, rfl⟩ | ⟨-, uploads, s2, locations, totalCount, hup, hans, rfl, rfl⟩
    · exact ⟨fun vu hvu location hmem => (by cases hmem), hloader, hb1⟩
    · obtain ⟨hids, hl2⟩ := getUploadsByIDs_within r cursor1.UploadBatchIDs
        { s with log := s.log ++ calls } s2 uploads hstore.2.1 hloader hup
      refine ⟨fun vu hvu location hmem => ?_, hl2, fun vu hvu hmem => ?_⟩
      · have hne : location.DumpID ≠ vu.Upload.ID := by
          intro heq
          simp only [getPageRemoteLocations.filter_eq_listFilter, List.mem_filter] at hmem
          have hin := hstore.2.2 _ _ _ _ _ _ _ hans location hmem.1
          obtain ⟨dump, hdump, hid⟩ := List.mem_map.mp hin
          have := hids dump hdump
          rw [hid, heq] at this
          exact hb1 vu hvu this
        exact ⟨hne, fun hsrc => hne hsrc.1⟩
      · simp only [RemoteCursor.searched] at hmem
        split at hmem
        · cases hmem
        · exact hb1 vu hvu hmem

theorem Example.rootedDependents_searchesGivenUploads :
    Example.rootedDependents.searchesGivenUploads := by
  refine ⟨?_, ?_, ?_⟩
  · intro monikers ignoreIDs repositoryID commit limit offset ids scanned total h id hid
    simp only [Example.rootedDependents] at h
    split at h
    · next hcond =>
      simp only [Except.ok.injEq, Prod.mk.injEq] at h
      rw [← h.1] at hid
      simp only [List.mem_singleton] at hid
      rw [hid]
      exact hcond.2
    · simp only [Except.ok.injEq, Prod.mk.injEq] at h
      rw [← h.1] at hid
      cases hid
  · intro ids dumps h dump hmem
    simp only [Example.rootedDependents, Except.ok.injEq] at h
    rw [← h] at hmem
    simp only [List.mem_filterMap] at hmem
    obtain ⟨id, hid, hsome⟩ := hmem
    split at hsome
    · next h2 =>
      simp only [Option.some.injEq] at hsome
      rw [← hsome]
      simp only [Example.upload2]
      rw [← h2]
      exact hid
    · cases hsome
  · intro table ids monikers limit offset locations totalCount h location hmem
    simp only [Example.rootedDependents] at h
    split at h
    · next hcond =>
      simp only [Except.ok.injEq, slicePage, Prod.mk.injEq] at h
      rw [← h.1] at hmem
      have hsub : location ∈ [Example.remote2] :=
        List.mem_of_mem_drop (List.mem_of_mem_take hmem)
      simp only [List.mem_singleton] at hsub
      rw [hsub]
      exact hcond.2
    · simp only [Except.ok.injEq, Prod.mk.injEq] at h
      rw [← h.1] at hmem
      cases hmem

/-- Witness of C5. On `Example.twoBatches` the store returns the source location of the request,
in upload 1 whose root is empty, and the call returns the other location alone. On
`Example.rootedDependents`, whose store honours the contract, the visible upload has the root
`sub/` and the call returns the location of upload 2. -/
theorem dependents_return_no_source_location_witness :
    Example.visible1.TargetPathWithoutRoot = Example.visible1.TargetPath ∧
    enclosesSource Example.visible1 Example.originLocation ∧
    Example.twoBatches.GetBulkMonikerLocations "implementations" [2] [] 2 0
      = .ok ([Example.originLocation, Example.remote2], 3) ∧
    (∀ location ∈ [Example.remote2], ¬ enclosesSource Example.visible1 location) ∧
    Example.rootedVisible.TargetPathWithoutRoot ≠ Example.rootedVisible.TargetPath ∧
    (∀ vu ∈ [Example.rootedVisible], ∀ location ∈ [Example.remote2],
      location.DumpID ≠ vu.Upload.ID ∧ ¬ enclosesSource vu location) ∧
    (∀ vu ∈ [Example.rootedVisible], vu.Upload.ID ∉ ([] : List Int)) :=
  ⟨by decide, by decide, by decide!,
    (dependents_return_no_source_location Example.twoBatches "implementations"
      [Example.visible1] [] Example.freshRemote 2 5 (newRequestState [Example.upload1]) _
      ([Example.remote2], true, Example.midBatch) (Prod.ext (by decide!) rfl)).1
      Example.visible1 (List.mem_singleton.mpr rfl) rfl,
    by decide,
    ((dependents_return_no_source_location Example.rootedDependents "implementations"
      [Example.rootedVisible] [] Example.freshRemote 10 5
      (newRequestState [Example.rootedUpload]) _
      ([Example.remote2], false, { UploadBatchIDs := [], UploadOffset := -1, LocationOffset := 0 })
      (Prod.ext (by decide!) rfl)).2 Example.rootedDependents_searchesGivenUploads (by decide)
      (by simp [Example.freshRemote])).1,
    ((dependents_return_no_source_location Example.rootedDependents "implementations"
      [Example.rootedVisible] [] Example.freshRemote 10 5
      (newRequestState [Example.rootedUpload]) _
      ([Example.remote2], false, { UploadBatchIDs := [], UploadOffset := -1, LocationOffset := 0 })
      (Prod.ext (by decide!) rfl)).2 Example.rootedDependents_searchesGivenUploads (by decide)
      (by simp [Example.freshRemote])).2.2⟩

end Graphql

namespace CodehostTesting

open Graphql (Err Run)

/-! ## Traces -/

theorem appliedNames_append (a b : List Event) :
    appliedNames (a ++ b) = appliedNames a ++ appliedNames b := by
  induction a with
  | nil => rfl
  | cons e rest ih => cases e <;> simp [appliedNames, ih]

theorem tornDownNames_append (a b : List Event) :
    tornDownNames (a ++ b) = tornDownNames a ++ tornDownNames b := by
  induction a with
  | nil => rfl
  | cons e rest ih => cases e <;> simp [tornDownNames, ih]

/-! ## Apply -/

theorem GithubScenario.Apply.loop_refines {W : Type} (l : List (Action W)) (i : Int)
    (m : Machine W) :
    (GithubScenario.Apply.loop l i [] m).1
      = (applyInOrder (l.drop (m.scenario.appliedActionIdx - i).toNat) m.world).2.1.map
          Failure.plain ∧
    appliedNames (GithubScenario.Apply.loop l i [] m).2.trace
      = appliedNames m.trace
          ++ (applyInOrder (l.drop (m.scenario.appliedActionIdx - i).toNat) m.world).1 ∧
    (GithubScenario.Apply.loop l i [] m).2.world
      = (applyInOrder (l.drop (m.scenario.appliedActionIdx - i).toNat) m.world).2.2 ∧
    (GithubScenario.Apply.loop l i [] m).2.scenario.appliedActionIdx
      = m.scenario.appliedActionIdx
          + ((applyInOrder (l.drop (m.scenario.appliedActionIdx - i).toNat) m.world).1.length
              : Int) ∧
    (GithubScenario.Apply.loop l i [] m).2.scenario.actions = m.scenario.actions := by
  induction l generalizing i m with
  | nil =>
    simp [GithubScenario.Apply.loop, applyInOrder, MultiError.asError, Machine.record,
      appliedNames_append, appliedNames]
  | cons a rest ih =>
    by_cases h : m.scenario.appliedActionIdx ≤ i
    · have hd : (m.scenario.appliedActionIdx - i).toNat = 0 := by omega
      rw [hd, List.drop_zero]
      cases hres : (a.apply m.world).1 with
      | some err =>
        simp [GithubScenario.Apply.loop, h, Machine.record, hres, applyInOrder,
          GithubScenario.Apply.failFast, appliedNames_append, appliedNames]
      | none =>
        have hstep := ih (i + 1)
          ({ scenario := { m.scenario with appliedActionIdx := m.scenario.appliedActionIdx + 1 }
             world := (a.apply m.world).2
             trace := m.trace ++ [.writef (.setupApplying a.name)] ++ [.applied a.name]
               ++ [.writef .success] } : Machine W)
        have hd1 : (m.scenario.appliedActionIdx + 1 - (i + 1)).toNat = 0 := by omega
        simp only [hd1, List.drop_zero] at hstep
        simp only [GithubScenario.Apply.loop, h, if_true, Machine.record, hres, applyInOrder]
        obtain ⟨h1, h2, h3, h4, h5⟩ := hstep
        refine ⟨h1, ?_, h3, ?_, h5⟩
        · rw [h2]
          simp [appliedNames_append, appliedNames]
        · rw [h4]
          simp only [List.length_cons, Nat.cast_add, Nat.cast_one]
          omega
    · have hd : (m.scenario.appliedActionIdx - i).toNat
          = (m.scenario.appliedActionIdx - (i + 1)).toNat + 1 := by omega
      rw [hd, List.drop_succ_cons]
      have hstep := ih (i + 1) (m.record (.writef (.setupSkipping a.name)))
      simp only [GithubScenario.Apply.loop, h, if_false]
      simp only [Machine.record] at hstep ⊢
      obtain ⟨h1, h2, h3, h4, h5⟩ := hstep
      refine ⟨h1, ?_, h3, h4, h5⟩
      rw [h2]
      simp [appliedNames_append, appliedNames]

theorem applyInOrder_prefix {W : Type} (l : List (Action W)) (w : W) :
    (applyInOrder l w).1 = (l.take (applyInOrder l w).1.length).map Action.name ∧
    ((applyInOrder l w).2.1 = none → (applyInOrder l w).1 = l.map Action.name) := by
  induction l generalizing w with
  | nil => simp [applyInOrder]
  | cons a rest ih =>
    cases hres : (a.apply w).1 with
    | some err => simp [applyInOrder, hres]
    | none =>
      obtain ⟨h1, h2⟩ := ih (a.apply w).2
      simp only [applyInOrder, hres, List.length_cons, List.take_succ_cons, List.map_cons]
      exact ⟨by rw [← h1], fun h => by rw [h2 h]⟩

/-- C26. `Apply` is ordered and fail-fast: on a scenario with actions left to apply, `Apply`
calls the apply functions of the actions from the index `appliedActionIdx` on, one after the
other in the order in which the actions were added, up to the first one that returns an error;
it returns that error, or nil when every one of them succeeded, and it calls the apply function
of no later action. The index grows by the number of calls. -/
theorem apply_is_ordered_and_fail_fast {W : Type} (m : Machine W)
    (hpending : m.scenario.IsApplied = false) :
    (GithubScenario.Apply m).1
      = (applyInOrder (m.scenario.actions.drop m.scenario.appliedActionIdx.toNat)
          m.world).2.1.map Failure.plain ∧
    appliedNames (GithubScenario.Apply m).2.trace
      = appliedNames m.trace
        ++ (applyInOrder (m.scenario.actions.drop m.scenario.appliedActionIdx.toNat)
            m.world).1 ∧
    (applyInOrder (m.scenario.actions.drop m.scenario.appliedActionIdx.toNat) m.world).1
      = ((m.scenario.actions.drop m.scenario.appliedActionIdx.toNat).take
          (applyInOrder (m.scenario.actions.drop m.scenario.appliedActionIdx.toNat)
            m.world).1.length).map Action.name ∧
    ((GithubScenario.Apply m).1 = none →
      (applyInOrder (m.scenario.actions.drop m.scenario.appliedActionIdx.toNat) m.world).1
        = (m.scenario.actions.drop m.scenario.appliedActionIdx.toNat).map Action.name) ∧
    (GithubScenario.Apply m).2.world
      = (applyInOrder (m.scenario.actions.drop m.scenario.appliedActionIdx.toNat)
          m.world).2.2 ∧
    (GithubScenario.Apply m).2.scenario.appliedActionIdx
      = m.scenario.appliedActionIdx
        + ((applyInOrder (m.scenario.actions.drop m.scenario.appliedActionIdx.toNat)
            m.world).1.length : Int) ∧
    (GithubScenario.Apply m).2.scenario.actions = m.scenario.actions := by
  have hnot : ¬ m.scenario.appliedActionIdx ≥ (m.scenario.actions.length : Int) := by
    simpa [GithubScenario.IsApplied] using hpending
  have hloop := GithubScenario.Apply.loop_refines m.scenario.actions 0 (m.record .cleanup)
  have hprefix := applyInOrder_prefix
    (m.scenario.actions.drop m.scenario.appliedActionIdx.toNat) m.world
  simp only [Machine.record, sub_zero, appliedNames_append, appliedNames,
    List.append_nil] at hloop
  obtain ⟨h1, h2, h3, h4, h5⟩ := hloop
  have hrun : GithubScenario.Apply m
      = GithubScenario.Apply.loop m.scenario.actions 0 []
          { scenario := m.scenario, world := m.world, trace := m.trace ++ [.cleanup] } := by
    simp only [GithubScenario.Apply, Machine.record, hnot, if_false]
  rw [hrun]
  refine ⟨h1, h2, hprefix.1, ?_, h3, h4, h5⟩
  intro hnone
  rw [h1] at hnone
  refine hprefix.2 ?_
  cases hres : (applyInOrder (m.scenario.actions.drop m.scenario.appliedActionIdx.toNat)
      m.world).2.1 with
  | none => rfl
  | some err => rw [hres] at hnone; cases hnone

/-- Witness of C26: the first action succeeds and the second fails; `Apply` returns the error of
the second and does not call the third. -/
theorem apply_is_ordered_and_fail_fast_witness :
    (GithubScenario.Apply Example.threeActions).1
      = some (.plain (.msg "organization exists")) ∧
    appliedNames (GithubScenario.Apply Example.threeActions).2.trace
      = ["user:create:bob", "org:create:acme"] ∧
    Example.threeActions.scenario.actions.map Action.name
      = ["user:create:bob", "org:create:acme", "repo:create:lib"] :=
  have h := apply_is_ordered_and_fail_fast Example.threeActions rfl
  ⟨h.1.trans (by decide!), h.2.1.trans (by decide!), by decide!⟩

/-- C25. A repeated `Apply` is not rejected after a failed one: on the scenario
`Example.twoActions` the first `Apply` returns the error of the first action; the second
`Apply`, with no action added in between, skips that action, calls the apply function of the
second action and returns nil. -/
theorem repeated_apply_resumes_after_failure :
    (GithubScenario.Apply Example.twoActions).1
      = some (.plain (.msg "organization exists")) ∧
    (GithubScenario.Apply Example.twoActions).2.scenario.actions.map Action.name
      = Example.twoActions.scenario.actions.map Action.name ∧
    (GithubScenario.Apply (GithubScenario.Apply Example.twoActions).2).1 = none ∧
    appliedNames ((GithubScenario.Apply (GithubScenario.Apply Example.twoActions).2).2.trace.drop
      (GithubScenario.Apply Example.twoActions).2.trace.length) = ["user:create:bob"] := by
  decide!

/-! ## Teardown -/

theorem GithubScenario.Teardown.loop_accumulates {W : Type} (l : List (Action W)) (errs : List Err)
    (m : Machine W) :
    (GithubScenario.Teardown.loop l errs m).1
      = MultiError.asError (errs ++ (teardownAll l m.world).2.1) ∧
    tornDownNames (GithubScenario.Teardown.loop l errs m).2.trace
      = tornDownNames m.trace ++ (teardownAll l m.world).1 ∧
    (GithubScenario.Teardown.loop l errs m).2.world = (teardownAll l m.world).2.2 ∧
    (GithubScenario.Teardown.loop l errs m).2.scenario.appliedActionIdx
      = max (m.scenario.appliedActionIdx - (l.length : Int)) 0 ∧
    (GithubScenario.Teardown.loop l errs m).2.scenario.actions = m.scenario.actions := by
  induction l generalizing errs m with
  | nil =>
    by_cases hneg : m.scenario.appliedActionIdx < 0
    · simp [GithubScenario.Teardown.loop, hneg, teardownAll, Machine.record,
        tornDownNames_append, tornDownNames]
      omega
    · simp [GithubScenario.Teardown.loop, hneg, teardownAll, Machine.record,
        tornDownNames_append, tornDownNames]
      omega
  | cons a rest ih =>
    have hidx : ∀ x : Int, max (x - 1 - (rest.length : Int)) 0
        = max (x - ((a :: rest).length : Int)) 0 := by
      intro x
      simp only [List.length_cons, Nat.cast_add, Nat.cast_one]
      congr 1
      omega
    cases htd : a.teardown with
    | none =>
      have hstep := ih errs
        { m with
          scenario := { m.scenario with appliedActionIdx := m.scenario.appliedActionIdx - 1 } }
      simp only [GithubScenario.Teardown.loop, htd, teardownAll]
      obtain ⟨h1, h2, h3, h4, h5⟩ := hstep
      exact ⟨h1, h2, h3, by rw [h4]; exact hidx _, h5⟩
    | some f =>
      cases hres : (f m.world).1 with
      | some err =>
        have hstep := ih (errs ++ [err])
          { scenario := { m.scenario with appliedActionIdx := m.scenario.appliedActionIdx - 1 }
            world := (f m.world).2
            trace := m.trace ++ [.writef (.teardownApplying a.name)] ++ [.tornDown a.name]
              ++ [.writef .failed] }
        simp only [GithubScenario.Teardown.loop, htd, teardownAll, Machine.record, hres,
          GithubScenario.Teardown.failFast, Bool.false_eq_true, if_false]
        obtain ⟨h1, h2, h3, h4, h5⟩ := hstep
        refine ⟨?_, ?_, h3, by rw [h4]; exact hidx _, h5⟩
        · rw [h1]
          simp
        · rw [h2]
          simp [tornDownNames_append, tornDownNames]
      | none =>
        have hstep := ih errs
          { scenario := { m.scenario with appliedActionIdx := m.scenario.appliedActionIdx - 1 }
            world := (f m.world).2
            trace := m.trace ++ [.writef (.teardownApplying a.name)] ++ [.tornDown a.name]
              ++ [.writef .success] }
        simp only [GithubScenario.Teardown.loop, htd, teardownAll, Machine.record, hres]
        obtain ⟨h1, h2, h3, h4, h5⟩ := hstep
        refine ⟨?_, ?_, h3, by rw [h4]; exact hidx _, h5⟩
        · rw [h1]
          simp
        · rw [h2]
          simp [tornDownNames_append, tornDownNames]

theorem teardownAll_names {W : Type} (l : List (Action W)) (w : W) :
    (teardownAll l w).1 = (l.filter fun a => a.teardown.isSome).map Action.name := by
  induction l generalizing w with
  | nil => rfl
  | cons a rest ih =>
    cases htd : a.teardown with
    | none => simp [teardownAll, htd, ih]
    | some f => simp [teardownAll, htd, ih]

/-- C27. `Teardown` walks the actions of the scenario in the reverse order of their addition:
it calls the teardown function of every action that has one, each once and in that order,
whatever the earlier ones returned, and skips the actions whose teardown function is nil; it
returns the errors of the failed teardowns, accumulated in order, and the nil error exactly when
no teardown failed. -/
theorem teardown_walks_actions_in_reverse {W : Type} (m : Machine W) :
    tornDownNames (GithubScenario.Teardown m).2.trace
      = tornDownNames m.trace
        ++ (m.scenario.actions.reverse.filter fun a => a.teardown.isSome).map Action.name ∧
    (GithubScenario.Teardown m).1
      = MultiError.asError (teardownAll m.scenario.actions.reverse m.world).2.1 ∧
    ((GithubScenario.Teardown m).1 = none
      ↔ (teardownAll m.scenario.actions.reverse m.world).2.1 = []) ∧
    (GithubScenario.Teardown m).2.world
      = (teardownAll m.scenario.actions.reverse m.world).2.2 ∧
    (GithubScenario.Teardown m).2.scenario.appliedActionIdx
      = max (m.scenario.appliedActionIdx - (m.scenario.actions.length : Int)) 0 ∧
    (GithubScenario.Teardown m).2.scenario.actions = m.scenario.actions := by
  obtain ⟨h1, h2, h3, h4, h5⟩ :=
    GithubScenario.Teardown.loop_accumulates m.scenario.actions.reverse [] m
  simp only [List.nil_append, List.length_reverse] at h1 h4
  unfold GithubScenario.Teardown
  refine ⟨by rw [h2, teardownAll_names], h1, ?_, h3, h4, h5⟩
  rw [h1]
  cases (teardownAll m.scenario.actions.reverse m.world).2.1 <;> simp [MultiError.asError]

/-! ## IsApplied and the users of a scenario -/

/-- C28. `IsApplied` is true on a new scenario: the scenario made by `NewGithubScenario`, on
which `Apply` was never called, has no actions and the index 0, so `IsApplied` returns true,
and `Get` on a user of that scenario looks the user up instead of panicking. -/
theorem new_scenario_counts_as_applied :
    (NewGithubScenario (.ok ()) "scn" : Except Err (GithubScenario Unit)) = .ok Example.fresh ∧
    Example.fresh.IsApplied = true ∧
    (User.Get Example.GetUser { name := "admin" }
        { scenario := Example.fresh, world := (), trace := [] }).1 = .done (.ok "admin") :=
  ⟨rfl, by decide!, by decide!⟩

/-- C29. `User.Get` returns the result of the client lookup for the name of the user when
`IsApplied` is true on the scenario, that is when `appliedActionIdx >= len(actions)`; otherwise
it panics and leaves the world and the trace as they were: no lookup is made. -/
theorem user_get_requires_applied_scenario {W U : Type}
    (GetUser : String → W → Except Err U × W) (u : User) (m : Machine W) :
    (m.scenario.IsApplied = true
      ↔ m.scenario.appliedActionIdx ≥ (m.scenario.actions.length : Int)) ∧
    User.Get GetUser u m
      = if m.scenario.IsApplied = true then
          (.done (GetUser u.name m.world).1,
            { m with world := (GetUser u.name m.world).2,
                     trace := m.trace ++ [.getUser u.name] })
        else (.panic, m) := by
  constructor
  · simp [GithubScenario.IsApplied]
  · rfl

theorem apply_rejected_when_applied {W : Type} (m : Machine W)
    (happlied : m.scenario.IsApplied = true) :
    GithubScenario.Apply m
      = (some (.plain (.msg "all actions already applied")), m.record .cleanup) := by
  have hall : m.scenario.appliedActionIdx ≥ (m.scenario.actions.length : Int) := by
    simpa [GithubScenario.IsApplied] using happlied
  simp only [GithubScenario.Apply, Machine.record, hall, if_true]

theorem Example.tornDown_teardown :
    (GithubScenario.Teardown Example.tornDown).1 = some (.multi [.msg "team in use"]) ∧
    tornDownNames (GithubScenario.Teardown Example.tornDown).2.trace
      = ["team:create:dev", "user:create:bob"] ∧
    Example.tornDown.scenario.actions.map Action.name
      = ["user:create:bob", "repo:create:lib", "team:create:dev"] := by
  decide!

/-! ## The index of applied actions -/

theorem actionsBetween_append {W : Type} (l : List (Action W)) (a b c : Int) (ha : 0 ≤ a)
    (hab : a ≤ b) (hbc : b ≤ c) :
    actionsBetween l a b ++ actionsBetween l b c = actionsBetween l a c := by
  unfold actionsBetween
  have hb : b.toNat = a.toNat + (b - a).toNat := by omega
  have hc : (c - a).toNat = (b - a).toNat + (c - b).toNat := by omega
  rw [hb, hc, List.take_add, List.drop_drop]

theorem actionsBetween_prefix {W : Type} (l extra : List (Action W)) (a b : Int) (ha : 0 ≤ a)
    (hab : a ≤ b) (hb : b ≤ (l.length : Int)) :
    actionsBetween (l ++ extra) a b = actionsBetween l a b := by
  unfold actionsBetween
  rw [List.drop_append_of_le_length (by omega), List.take_append_of_le_length]
  rw [List.length_drop]
  omega

theorem GithubScenario.Apply_index {W : Type} (m : Machine W)
    (h0 : 0 ≤ m.scenario.appliedActionIdx)
    (hlen : m.scenario.appliedActionIdx ≤ (m.scenario.actions.length : Int)) :
    (GithubScenario.Apply m).2.scenario.actions = m.scenario.actions ∧
    m.scenario.appliedActionIdx ≤ (GithubScenario.Apply m).2.scenario.appliedActionIdx ∧
    (GithubScenario.Apply m).2.scenario.appliedActionIdx ≤ (m.scenario.actions.length : Int) ∧
    appliedNames (GithubScenario.Apply m).2.trace
      = appliedNames m.trace
        ++ (actionsBetween m.scenario.actions m.scenario.appliedActionIdx
            (GithubScenario.Apply m).2.scenario.appliedActionIdx).map Action.name := by
  by_cases hdone : m.scenario.appliedActionIdx ≥ (m.scenario.actions.length : Int)
  · have hrun : GithubScenario.Apply m
        = (some (.plain (.msg "all actions already applied")), m.record .cleanup) := by
      simp only [GithubScenario.Apply, Machine.record, hdone, if_true]
    rw [hrun]
    simp [Machine.record, appliedNames_append, appliedNames, actionsBetween, hlen]
  · have hrun : GithubScenario.Apply m
        = GithubScenario.Apply.loop m.scenario.actions 0 []
            { scenario := m.scenario, world := m.world, trace := m.trace ++ [.cleanup] } := by
      simp only [GithubScenario.Apply, Machine.record, hdone, if_false]
    have hloop := GithubScenario.Apply.loop_refines m.scenario.actions 0 (m.record .cleanup)
    have hfirst := applyInOrder_prefix
      (m.scenario.actions.drop m.scenario.appliedActionIdx.toNat) m.world
    have hcalled := hfirst.1
    simp only [Machine.record, sub_zero, appliedNames_append, appliedNames,
      List.append_nil] at hloop
    obtain ⟨-, h2, -, h4, h5⟩ := hloop
    rw [hrun]
    have hcount : (applyInOrder (m.scenario.actions.drop m.scenario.appliedActionIdx.toNat)
        m.world).1.length ≤ m.scenario.actions.length - m.scenario.appliedActionIdx.toNat := by
      have := congrArg List.length hcalled
      rw [List.length_map, List.length_take, List.length_drop] at this
      omega
    refine ⟨h5, by rw [h4]; omega, by rw [h4]; omega, ?_⟩
    rw [h2, h4]
    congr 1
    unfold actionsBetween
    rw [hcalled]
    congr 2
    rw [← hcalled]
    omega

theorem GithubScenario.Teardown_index {W : Type} (m : Machine W) :
    (GithubScenario.Teardown m).2.scenario.actions = m.scenario.actions ∧
    (GithubScenario.Teardown m).2.scenario.appliedActionIdx
      = max (m.scenario.appliedActionIdx - (m.scenario.actions.length : Int)) 0 := by
  obtain ⟨-, -, -, h4, h5⟩ :=
    GithubScenario.Teardown.loop_accumulates m.scenario.actions.reverse [] m
  rw [List.length_reverse] at h4
  exact ⟨h5, h4⟩

theorem Step.run_index {W : Type} (step : Step W) (m : Machine W)
    (h0 : 0 ≤ m.scenario.appliedActionIdx)
    (hlen : m.scenario.appliedActionIdx ≤ (m.scenario.actions.length : Int)) :
    0 ≤ (step.run m).scenario.appliedActionIdx ∧
    (step.run m).scenario.appliedActionIdx ≤ ((step.run m).scenario.actions.length : Int) := by
  cases step with
  | addActions actions =>
    simp only [Step.run, GithubScenario.append, List.length_append, Nat.cast_add]
    omega
  | callApply =>
    obtain ⟨h1, h2, h3, -⟩ := GithubScenario.Apply_index m h0 hlen
    simp only [Step.run]
    rw [h1]
    omega
  | callTeardown =>
    obtain ⟨h1, h2⟩ := GithubScenario.Teardown_index m
    simp only [Step.run]
    rw [h1, h2]
    omega

theorem runSteps_index {W : Type} (steps : List (Step W)) (m : Machine W)
    (h0 : 0 ≤ m.scenario.appliedActionIdx)
    (hlen : m.scenario.appliedActionIdx ≤ (m.scenario.actions.length : Int)) :
    0 ≤ (runSteps steps m).scenario.appliedActionIdx ∧
    (runSteps steps m).scenario.appliedActionIdx
      ≤ ((runSteps steps m).scenario.actions.length : Int) := by
  induction steps generalizing m with
  | nil => exact ⟨h0, hlen⟩
  | cons step rest ih =>
    obtain ⟨h1, h2⟩ := step.run_index m h0 hlen
    exact ih _ h1 h2

theorem runSteps_append {W : Type} (a b : List (Step W)) (m : Machine W) :
    runSteps (a ++ b) m = runSteps b (runSteps a m) := by
  induction a generalizing m with
  | nil => rfl
  | cons step rest ih => exact ih _

theorem Step.run_applies {W : Type} (step : Step W) (m : Machine W)
    (hstep : step.isTeardown = false) (h0 : 0 ≤ m.scenario.appliedActionIdx)
    (hlen : m.scenario.appliedActionIdx ≤ (m.scenario.actions.length : Int)) :
    (∃ extra, (step.run m).scenario.actions = m.scenario.actions ++ extra) ∧
    m.scenario.appliedActionIdx ≤ (step.run m).scenario.appliedActionIdx ∧
    appliedNames (step.run m).trace
      = appliedNames m.trace
        ++ (actionsBetween m.scenario.actions m.scenario.appliedActionIdx
            (step.run m).scenario.appliedActionIdx).map Action.name := by
  cases step with
  | addActions actions =>
    refine ⟨⟨actions, rfl⟩, le_refl _, ?_⟩
    simp [Step.run, GithubScenario.append, actionsBetween]
  | callApply =>
    obtain ⟨h1, h2, -, h4⟩ := GithubScenario.Apply_index m h0 hlen
    exact ⟨⟨[], by simp [Step.run, h1]⟩, h2, h4⟩
  | callTeardown => cases hstep

theorem runSteps_applies {W : Type} (steps : List (Step W)) (m : Machine W)
    (hsteps : ∀ step ∈ steps, step.isTeardown = false)
    (h0 : 0 ≤ m.scenario.appliedActionIdx)
    (hlen : m.scenario.appliedActionIdx ≤ (m.scenario.actions.length : Int)) :
    (∃ extra, (runSteps steps m).scenario.actions = m.scenario.actions ++ extra) ∧
    m.scenario.appliedActionIdx ≤ (runSteps steps m).scenario.appliedActionIdx ∧
    appliedNames (runSteps steps m).trace
      = appliedNames m.trace
        ++ (actionsBetween (runSteps steps m).scenario.actions m.scenario.appliedActionIdx
            (runSteps steps m).scenario.appliedActionIdx).map Action.name := by
  induction steps generalizing m with
  | nil =>
    refine ⟨⟨[], by simp [runSteps]⟩, le_refl _, ?_⟩
    simp [runSteps, actionsBetween]
  | cons step rest ih =>
    obtain ⟨⟨extra1, hx1⟩, hle1, hnames1⟩ :=
      step.run_applies m (hsteps step (List.mem_cons_self _ _)) h0 hlen
    obtain ⟨hi0, hilen⟩ := step.run_index m h0 hlen
    obtain ⟨⟨extra2, hx2⟩, hle2, hnames2⟩ :=
      ih (step.run m) (fun st hst => hsteps st (List.mem_cons_of_mem _ hst)) hi0 hilen
    simp only [runSteps]
    refine ⟨⟨extra1 ++ extra2, by rw [hx2, hx1, List.append_assoc]⟩, le_trans hle1 hle2, ?_⟩
    rw [hnames2, hnames1, List.append_assoc, ← List.map_append]
    congr 2
    have hfirst : actionsBetween m.scenario.actions m.scenario.appliedActionIdx
          (step.run m).scenario.appliedActionIdx
        = actionsBetween (runSteps rest (step.run m)).scenario.actions
            m.scenario.appliedActionIdx (step.run m).scenario.appliedActionIdx := by
      rw [hx2, hx1, List.append_assoc,
        actionsBetween_prefix m.scenario.actions (extra1 ++ extra2) _ _ h0 hle1]
      have := hilen
      rw [hx1] at this
      cases step with
      | addActions actions => exact hlen
      | callApply => exact (GithubScenario.Apply_index m h0 hlen).2.2.1
      | callTeardown => cases hsteps _ (List.mem_cons_self _ _)
    rw [hfirst]
    exact actionsBetween_append _ _ _ _ h0 hle1 hle2

/-- C38. Scenario index invariant: starting from a new scenario, after any sequence of action
additions, `Apply` calls and `Teardown` calls the index `appliedActionIdx` is at least 0 and at
most the number of actions. Across steps with no `Teardown` among them the actions are only
added to, the index only grows, and the apply functions called are those of the actions at the
positions from the index before the steps up to the index after them, in order: each action is
applied at most once. -/
theorem scenario_index_invariant {W : Type} (client : Except Err Unit) (id : String)
    (sc : GithubScenario W) (w : W) (hnew : NewGithubScenario client id = .ok sc)
    (before later : List (Step W)) :
    (0 ≤ (runSteps (before ++ later)
        { scenario := sc, world := w, trace := [] }).scenario.appliedActionIdx ∧
      (runSteps (before ++ later)
          { scenario := sc, world := w, trace := [] }).scenario.appliedActionIdx
        ≤ ((runSteps (before ++ later)
            { scenario := sc, world := w, trace := [] }).scenario.actions.length : Int)) ∧
    ((∀ step ∈ later, step.isTeardown = false) →
      (∃ extra,
        (runSteps (before ++ later)
            { scenario := sc, world := w, trace := [] }).scenario.actions
          = (runSteps before { scenario := sc, world := w, trace := [] }).scenario.actions
            ++ extra) ∧
      (runSteps before { scenario := sc, world := w, trace := [] }).scenario.appliedActionIdx
        ≤ (runSteps (before ++ later)
            { scenario := sc, world := w, trace := [] }).scenario.appliedActionIdx ∧
      appliedNames (runSteps (before ++ later) { scenario := sc, world := w, trace := [] }).trace
        = appliedNames (runSteps before { scenario := sc, world := w, trace := [] }).trace
          ++ (actionsBetween
              (runSteps (before ++ later)
                { scenario := sc, world := w, trace := [] }).scenario.actions
              (runSteps before
                { scenario := sc, world := w, trace := [] }).scenario.appliedActionIdx
              (runSteps (before ++ later)
                { scenario := sc, world := w, trace := [] }).scenario.appliedActionIdx).map
            Action.name) := by
  have hsc : sc.appliedActionIdx = 0 ∧ sc.actions = [] := by
    unfold NewGithubScenario at hnew
    split at hnew
    · cases hnew
    · simp only [Except.ok.injEq] at hnew
      rw [← hnew]
      exact ⟨rfl, rfl⟩
  have hstart :
      0 ≤ ({ scenario := sc, world := w, trace := [] } : Machine W).scenario.appliedActionIdx ∧
      ({ scenario := sc, world := w, trace := [] } : Machine W).scenario.appliedActionIdx
        ≤ (({ scenario := sc, world := w, trace := [] } : Machine W).scenario.actions.length
            : Int) := by
    simp [hsc.1, hsc.2]
  refine ⟨runSteps_index _ _ hstart.1 hstart.2, fun hlater => ?_⟩
  obtain ⟨h0, hlen⟩ := runSteps_index before _ hstart.1 hstart.2
  rw [runSteps_append]
  exact runSteps_applies later _ hlater h0 hlen

/-- Witness of C38: after a first round (an action is added, applied and torn down) a second
round adds a failing action, calls `Apply` twice, adds a third action and calls `Apply` again.
The index ends at 3 of 3 actions and the three apply functions are each called once in the
second round. -/
theorem scenario_index_invariant_witness :
    (runSteps (Example.firstRound ++ Example.secondRound)
        { scenario := Example.fresh, world := (), trace := [] }).scenario.appliedActionIdx = 3 ∧
    (runSteps Example.firstRound
        { scenario := Example.fresh, world := (), trace := [] }).scenario.appliedActionIdx = 0 ∧
    (actionsBetween
        (runSteps (Example.firstRound ++ Example.secondRound)
          { scenario := Example.fresh, world := (), trace := [] }).scenario.actions 0 3).map
        Action.name
      = ["user:create:bob", "org:create:acme", "repo:create:lib"] ∧
    appliedNames (runSteps (Example.firstRound ++ Example.secondRound)
        { scenario := Example.fresh, world := (), trace := [] }).trace
      = appliedNames (runSteps Example.firstRound
          { scenario := Example.fresh, world := (), trace := [] }).trace
        ++ (actionsBetween
            (runSteps (Example.firstRound ++ Example.secondRound)
              { scenario := Example.fresh, world := (), trace := [] }).scenario.actions
            (runSteps Example.firstRound
              { scenario := Example.fresh, world := (), trace := [] }).scenario.appliedActionIdx
            (runSteps (Example.firstRound ++ Example.secondRound)
              { scenario := Example.fresh, world := (), trace := [] }).scenario.appliedActionIdx).map
          Action.name :=
  ⟨by decide!, by decide!, by decide!,
    ((scenario_index_invariant (.ok ()) "scn" Example.fresh () rfl Example.firstRound
      Example.secondRound).2 (by decide)).2.2⟩

end CodehostTesting
